import Mathlib

/-! # mem_pool / mem_pool_v3: a shallow embedding and its verified properties

Two allocators are embedded:

* `mem_pool` (src/mem_pool.hpp, "Variant B"): buddy pages managed through two
  bitmaps and per-level counters, pages kept in a binary heap `page_heap`;
* `mem_pool_v3` (src/mem_pool_v3.hpp, "Variant S"): per-layer free lists of
  equally sized segments.

Conventions of the embedding.

* Machine integers are `Nat`; where the source computes in `uint32_t` the
  result is reduced modulo `2^32`.
* `sizeof(void*)` is the parameter `ptr` (4 or 8 on the usual platforms).
* The template parameter is the explicit argument `max_level` (Variant B) or
  `layer_count` (Variant S).
* Heap objects are held by value and carry their address (`addr`) so that
  pointer identity can be spoken about.
* The platform allocator (`malloc`, `realloc`, `new`) is an oracle: every
  facade call receives the address `plat` that the platform would hand out
  for the one request the call may make; `plat = 0` is a refusal: `malloc`
  and `realloc` then return the null pointer, and a new-expression throws
  `std::bad_alloc`, which leaves the facade call without a result (`none`).
-/

set_option autoImplicit false

/-- The modulus of `uint32_t` arithmetic. -/
def U32 : Nat := 2 ^ 32

/-- Subtraction of `uint32_t` values. -/
def sub32 (a b : Nat) : Nat := (a % U32 + U32 - b % U32) % U32

/-- Addition of `uint32_t` values. -/
def add32 (a b : Nat) : Nat := (a + b) % U32

/-- Addresses handed to and taken from the caller.  `unit page index` is
`page->units[index].data` for the page object at address `page`;
`block a` is the `data` member of the segment that starts at address `a`
outside any page (so `block 0` is the address `K` bytes past null, which is
not the null pointer). -/
inductive Ptr where
  | null : Ptr
  | unit (page index : Nat) : Ptr
  | block (a : Nat) : Ptr
deriving DecidableEq, Repr

namespace mem_pool

/-! ## Variant B: constants -/

/-- `K = offsetof(mem_unit, data)`: the 32 bits of bit-fields. -/
def K : Nat := 4

/-- `M = sizeof(mem_unit)`: the bit-fields followed by `sizeof(void*)` bytes. -/
def M (ptr : Nat) : Nat := 4 + ptr

/-- `N = 1 << max_level`. -/
def N (max_level : Nat) : Nat := 1 <<< max_level

/-- The bit-fields `index : 26`, `level : 5`, `direct : 1` of a `mem_segment`. -/
structure mem_unit where
  index : Nat
  level : Nat
  direct : Nat
deriving DecidableEq, Repr

/-! ## Variant B: the page -/

/-- The class `mem_page`.  The two bitmaps are arrays of `uint8_t`
(`bitmap_type`), `level_count` an array of `uint32_t`; `units` keeps the
header bit-fields of each `mem_unit`.  `addr` is the address of the object. -/
structure mem_page where
  addr : Nat
  page_index : Nat
  bitmap_and : Nat → Nat
  bitmap__or : Nat → Nat
  level_count : Nat → Nat
  units : Nat → mem_unit

/-- `BITMAP_TYPE_BITS`. -/
def BITMAP_TYPE_BITS : Nat := 8

/-- `BITMAP_MOD_MASK`. -/
def BITMAP_MOD_MASK : Nat := BITMAP_TYPE_BITS - 1

/-- `get_bit`. -/
def get_bit (bitmap : Nat → Nat) (index : Nat) : Bool :=
  ((bitmap (index / BITMAP_TYPE_BITS) >>> (index &&& BITMAP_MOD_MASK)) &&& 1) != 0

/-- `set_bit_0`: the byte is and-ed with the complement of the mask and
stored back as a `uint8_t`. -/
def set_bit_0 (bitmap : Nat → Nat) (index : Nat) : Nat → Nat :=
  Function.update bitmap (index / BITMAP_TYPE_BITS)
    (bitmap (index / BITMAP_TYPE_BITS) &&& (255 ^^^ (1 <<< (index &&& BITMAP_MOD_MASK))))

/-- `set_bit_1`. -/
def set_bit_1 (bitmap : Nat → Nat) (index : Nat) : Nat → Nat :=
  Function.update bitmap (index / BITMAP_TYPE_BITS)
    ((bitmap (index / BITMAP_TYPE_BITS) ||| (1 <<< (index &&& BITMAP_MOD_MASK))) % 256)

/-- The constructor `mem_page()`, for the object placed at `addr`: bitmaps
zeroed, `level_count[i] = 1 << (max_level - i)`.  The constructor leaves
`units` uninitialised; the embedding starts them at zero. -/
def mem_page_new (max_level addr : Nat) : mem_page :=
  { addr := addr
    page_index := 0
    bitmap_and := fun _ => 0
    bitmap__or := fun _ => 0
    level_count := fun i => if i ≤ max_level then 1 <<< (max_level - i) else 0
    units := fun _ => ⟨0, 0, 0⟩ }

/-- `node_to_index`. -/
def node_to_index (max_level p level : Nat) : Nat :=
  sub32 (p <<< level) (1 <<< max_level)

/-- `index_to_node`. -/
def index_to_node (max_level i level : Nat) : Nat :=
  (add32 i (1 <<< max_level)) >>> level

/-- The loop `for i in 0..cur_level: level_count[i] -= 1 << (cur_level - i)`
of `lock`; every iteration touches its own entry. -/
def lock_counts (level_count : Nat → Nat) (cur_level : Nat) : Nat → Nat :=
  fun i => if i ≤ cur_level then sub32 (level_count i) (1 <<< (cur_level - i)) else level_count i

/-- The loop `for i in 0..cur_level: level_count[i] += 1 << (cur_level - i)`
of `unlock`. -/
def unlock_counts (level_count : Nat → Nat) (cur_level : Nat) : Nat → Nat :=
  fun i => if i ≤ cur_level then add32 (level_count i) (1 <<< (cur_level - i)) else level_count i

/-- The statements of `lock` at the requested level, once both bits of `p`
are found clear: the counters of the levels `0 .. cur_level` are lowered and
both bits of `p` set. -/
def lock_here (pg : mem_page) (p cur_level : Nat) : mem_page :=
  { pg with
    level_count := lock_counts pg.level_count cur_level
    bitmap__or := set_bit_1 pg.bitmap__or p
    bitmap_and := set_bit_1 pg.bitmap_and p }

/-- The statements of `lock` at `p` after the left child has produced a node:
`level_count[cur_level]--` when `bitmap__or[p]` was clear, `bitmap__or[p]`
set, `bitmap_and[p]` set when both children have theirs set. -/
def lock_left_done (pg1 : mem_page) (p cur_level : Nat) : mem_page :=
  let l := p * 2
  let r := l + 1
  let pg2 :=
    if !get_bit pg1.bitmap__or p then
      { pg1 with level_count :=
          Function.update pg1.level_count cur_level (sub32 (pg1.level_count cur_level) 1) }
    else pg1
  let pg3 := { pg2 with bitmap__or := set_bit_1 pg2.bitmap__or p }
  if get_bit pg3.bitmap_and l && get_bit pg3.bitmap_and r then
    { pg3 with bitmap_and := set_bit_1 pg3.bitmap_and p }
  else pg3

/-- The statements of `lock` at `p` after the right child has produced a
node: as after the left child, but `level_count` is not touched. -/
def lock_right_done (pg2 : mem_page) (p : Nat) : mem_page :=
  let l := p * 2
  let r := l + 1
  let pg3 := { pg2 with bitmap__or := set_bit_1 pg2.bitmap__or p }
  if get_bit pg3.bitmap_and l && get_bit pg3.bitmap_and r then
    { pg3 with bitmap_and := set_bit_1 pg3.bitmap_and p }
  else pg3

/-- `mem_page::lock`.  `BITMAP_NIL_NODE` is `none`; the page is threaded
through the recursion. -/
def lock (pg : mem_page) (p : Nat) : Nat → Nat → Option Nat × mem_page
  | cur_level, level =>
    if get_bit pg.bitmap_and p then (none, pg)
    else if cur_level = level then
      if get_bit pg.bitmap__or p then (none, pg)
      else (some p, lock_here pg p cur_level)
    else if cur_level > level then
      match cur_level with
      | 0 => (none, pg)
      | c + 1 =>
        let l := p * 2
        let r := l + 1
        match lock pg l c level with
        | (some node, pg1) => (some node, lock_left_done pg1 p (c + 1))
        | (none, pg1) =>
          match lock pg1 r c level with
          | (some node, pg2) => (some node, lock_right_done pg2 p)
          | (none, pg2) => (none, pg2)
    else (none, pg)

/-- The statements of `unlock` at the level of the segment: the counters of
the levels `0 .. cur_level` are raised and both bits of `p` cleared. -/
def unlock_here (pg : mem_page) (p cur_level : Nat) : mem_page :=
  { pg with
    level_count := unlock_counts pg.level_count cur_level
    bitmap__or := set_bit_0 pg.bitmap__or p
    bitmap_and := set_bit_0 pg.bitmap_and p }

/-- The statements of `unlock` at an ancestor `p`: when neither child has its
`bitmap__or` set, `level_count[cur_level]++` if `bitmap__or[p]` was set, and
`bitmap__or[p]` cleared; `bitmap_and[p]` cleared in any case. -/
def unlock_above (pg : mem_page) (p cur_level : Nat) : mem_page :=
  let l := p * 2
  let r := l + 1
  let pg1 :=
    if !(get_bit pg.bitmap__or l || get_bit pg.bitmap__or r) then
      let pg0 :=
        if get_bit pg.bitmap__or p then
          { pg with level_count :=
              Function.update pg.level_count cur_level (add32 (pg.level_count cur_level) 1) }
        else pg
      { pg0 with bitmap__or := set_bit_0 pg0.bitmap__or p }
    else pg
  { pg1 with bitmap_and := set_bit_0 pg1.bitmap_and p }

/-- The recursion of `mem_page::unlock`, walking towards the root.  The first
argument bounds the number of calls; `unlock` passes enough of it. -/
def unlock_go (max_level : Nat) : Nat → mem_page → Nat → Nat → Nat → mem_page
  | 0, pg, _, _, _ => pg
  | fuel + 1, pg, p, cur_level, level =>
    if cur_level = level then
      unlock_go max_level fuel (unlock_here pg p cur_level) (p / 2) (cur_level + 1) level
    else if cur_level ≤ max_level then
      unlock_go max_level fuel (unlock_above pg p cur_level) (p / 2) (cur_level + 1) level
    else pg

/-- `mem_page::unlock`: the levels `cur_level .. max_level + 1` are visited,
one call each. -/
def unlock (max_level : Nat) (pg : mem_page) (p cur_level level : Nat) : mem_page :=
  unlock_go max_level (max_level + 2 - cur_level + 1) pg p cur_level level

/-- `mem_page::empty`. -/
def empty (max_level : Nat) (pg : mem_page) : Bool :=
  pg.level_count max_level == 1

/-- The loop of `operator>`, from entry `i` down to entry `0`. -/
def gt_from (x y : Nat → Nat) : Nat → Bool
  | 0 => decide (x 0 > y 0)
  | i + 1 =>
    if x (i + 1) > y (i + 1) then true
    else if x (i + 1) < y (i + 1) then false
    else gt_from x y i

/-- `operator>` on pages: lexicographic on `level_count[max_level .. 0]`. -/
def page_gt (max_level : Nat) (x y : mem_page) : Bool :=
  gt_from x.level_count y.level_count max_level

/-! ## Variant B: the allocator -/

/-- The members of a `mem_pool` together with the memory it reads headers
from.  `page_heap` lists the slots `1 .. n` of the vector (slot `0` holds the
`nullptr` pushed by the constructor and is never dereferenced), so slot `i`
is list position `i - 1` and `page_heap.size()` is `length + 1`.
`blocks a` is the header and byte size of the live `malloc` block at address
`a`; `data q i` is byte `i` of the payload behind address `q`. -/
structure state where
  page_heap : List mem_page
  blocks : Nat → Option (mem_unit × Nat)
  data : Ptr → Nat → Nat

/-- The constructor `mem_pool()`. -/
def init : state :=
  { page_heap := [], blocks := fun _ => none, data := fun _ _ => 0 }

/-- `page_heap.size()`. -/
def heap_size (h : List mem_page) : Nat := h.length + 1

/-- `page_heap[i]`. -/
def heap_get (h : List mem_page) (i : Nat) : Option mem_page :=
  if i = 0 then none else h.get? (i - 1)

/-- `*page_heap[x] > *page_heap[y]`; both slots are in range wherever the
source evaluates it. -/
def slot_gt (max_level : Nat) (h : List mem_page) (x y : Nat) : Bool :=
  match heap_get h x, heap_get h y with
  | some a, some b => page_gt max_level a b
  | _, _ => false

/-- `calc_page_max_alloc`. -/
def calc_page_max_alloc (max_level ptr : Nat) : Nat :=
  sub32 (M ptr * N max_level) K

/-- `calc_level_max_alloc`. -/
def calc_level_max_alloc (ptr level : Nat) : Nat :=
  sub32 (M ptr * (1 <<< level)) K

/-- `calc_unit_alloc_count`. -/
def calc_unit_alloc_count (ptr size : Nat) : Nat :=
  (add32 size K + M ptr - 1) % U32 / M ptr

/-- The loop `while ((1 << level) < unit_count) level++` of `alloc_memory`
and `realloc_memory`, started at `level`; 32 rounds are granted, the shift
being defined for `level < 32` only. -/
def level_loop (unit_count : Nat) : Nat → Nat → Nat
  | 0, level => level
  | fuel + 1, level =>
    if (1 <<< level) % U32 < unit_count then level_loop unit_count fuel (level + 1) else level

/-- The level that `alloc_memory` and `realloc_memory` compute for a request
of `size` bytes. -/
def calc_level (ptr size : Nat) : Nat :=
  level_loop (calc_unit_alloc_count ptr size) 32 0

/-- `alloc_from_page`: on success the unit index, with the header stamped
(`index : 26`, `level : 5`, `direct : 1`). -/
def alloc_from_page (max_level : Nat) (ppage : mem_page) (level : Nat) : Option Nat × mem_page :=
  match lock ppage 1 max_level level with
  | (none, pg) => (none, pg)
  | (some node, pg) =>
    let index := node_to_index max_level node level
    (some index,
      { pg with units := Function.update pg.units index ⟨index % 2 ^ 26, level % 2 ^ 5, 0⟩ })

/-- `swap_page`. -/
def swap_page (h : List mem_page) (x y : Nat) : List mem_page :=
  match heap_get h x, heap_get h y with
  | some px, some py =>
    (h.set (x - 1) { py with page_index := x }).set (y - 1) { px with page_index := y }
  | _, _ => h

/-- `adjust_heap_from_top`; the slot doubles at every call, so
`page_heap.size()` calls are enough. -/
def adjust_heap_from_top (max_level : Nat) : Nat → List mem_page → Nat → List mem_page
  | 0, h, _ => h
  | fuel + 1, h, p =>
    let l := p * 2
    if heap_size h > l && slot_gt max_level h l p then
      adjust_heap_from_top max_level fuel (swap_page h l p) l
    else
      let r := l + 1
      if heap_size h > r && slot_gt max_level h r p then
        adjust_heap_from_top max_level fuel (swap_page h r p) r
      else h

/-- `adjust_heap_from_bottom`; the slot halves at every call. -/
def adjust_heap_from_bottom (max_level : Nat) : Nat → List mem_page → Nat → List mem_page
  | 0, h, _ => h
  | fuel + 1, h, c =>
    if c ≤ 1 then h
    else
      let p := c / 2
      if slot_gt max_level h c p then
        adjust_heap_from_bottom max_level fuel (swap_page h c p) p
      else h

/-- `adjust_heap_for_pop`; the slot at least doubles at every call. -/
def adjust_heap_for_pop (max_level : Nat) : Nat → List mem_page → Nat → List mem_page
  | 0, h, _ => h
  | fuel + 1, h, p =>
    let l := p * 2
    let r := l + 1
    if heap_size h > r && slot_gt max_level h r l then
      adjust_heap_for_pop max_level fuel (swap_page h r p) r
    else if heap_size h > l then
      adjust_heap_for_pop max_level fuel (swap_page h l p) r
    else h

/-- `alloc_direct`: `malloc(size + K)` answered by `plat`. -/
def alloc_direct (st : state) (size plat : Nat) : Nat × state :=
  if plat = 0 then (0, st)
  else (plat, { st with blocks := Function.update st.blocks plat (some (⟨0, 0, 1⟩, add32 size K)) })

/-- The last block of `alloc_memory`: a page is created by `new mem_page`,
answered by `plat`.  A refusal (`plat = 0`) makes the new-expression throw
`std::bad_alloc`: the call returns nothing (`none`) and has changed nothing;
the test `ppage == nullptr` that follows the new-expression never holds.
Otherwise the segment is allocated from the page, and the page pushed on the
heap and sifted up. -/
def alloc_new_page (max_level : Nat) (st : state) (level plat : Nat) : Option (Ptr × state) :=
  if plat = 0 then none
  else
    let r := alloc_from_page max_level (mem_page_new max_level plat) level
    let h1 := st.page_heap ++ [r.2]
    let h2 := adjust_heap_from_bottom max_level (heap_size h1) h1 (heap_size h1 - 1)
    match r.1 with
    | some index => some (Ptr.unit plat index, { st with page_heap := h2 })
    | none => some (Ptr.null, { st with page_heap := h2 })

/-- `alloc_memory`: the address returned and the state left; `none` when the
call is left by `std::bad_alloc` (see `alloc_new_page`). -/
def alloc_memory (max_level ptr : Nat) (st : state) (size plat : Nat) : Option (Ptr × state) :=
  if size = 0 then some (Ptr.null, st)
  else if size > calc_page_max_alloc max_level ptr then
    let r := alloc_direct st size plat
    if r.1 = 0 then some (Ptr.null, r.2) else some (Ptr.block r.1, r.2)
  else
    let level := calc_level ptr size
    match st.page_heap with
    | [] => alloc_new_page max_level st level plat
    | ppage :: rest =>
      let r := alloc_from_page max_level ppage level
      let h := r.2 :: rest
      match r.1 with
      | some index =>
        some (Ptr.unit ppage.addr index,
          { st with page_heap := adjust_heap_from_top max_level (heap_size h) h 1 })
      | none => alloc_new_page max_level { st with page_heap := h } level plat

/-- The page object at address `a`, with its list position. -/
def find_page (h : List mem_page) (a : Nat) : Option (Nat × mem_page) :=
  match h.findIdx? (fun pg => pg.addr == a) with
  | none => none
  | some j => (h.get? j).map (fun pg => (j, pg))

/-- The header read at `ptr - K`, when `ptr` points into memory known to the
state; `none` stands for a read of memory that holds no segment. -/
def read_header (st : state) : Ptr → Option mem_unit
  | Ptr.null => none
  | Ptr.unit page index => (find_page st.page_heap page).map (fun jp => jp.2.units index)
  | Ptr.block a => (st.blocks a).map (fun b => b.1)

/-- The part of `free_to_page` that acts on the page: the header of unit
`index` is read, the node computed from it and unlocked. -/
def free_in_page (max_level : Nat) (ppage : mem_page) (index : Nat) : mem_page :=
  let punit := ppage.units index
  let node := index_to_node max_level punit.index punit.level
  unlock max_level ppage node punit.level punit.level

/-- The states of one page under `alloc_from_page` and `free_to_page`, with
the segments handed out and not yet freed (unit index and level, as stamped
in the header).  A free is applied to a live segment only. -/
inductive page_reach (max_level : Nat) : mem_page → List (Nat × Nat) → Prop where
  | fresh (addr : Nat) : page_reach max_level (mem_page_new max_level addr) []
  | alloc {pg : mem_page} {live : List (Nat × Nat)} (level index : Nat) :
      page_reach max_level pg live →
      (alloc_from_page max_level pg level).1 = some index →
      page_reach max_level (alloc_from_page max_level pg level).2 ((index, level) :: live)
  | free {pg : mem_page} {live : List (Nat × Nat)} (index level : Nat) :
      page_reach max_level pg live →
      (index, level) ∈ live →
      page_reach max_level (free_in_page max_level pg index) (live.erase (index, level))

/-- `free_to_page`, for the unit `index` of the page at address `page`.
The page is recovered from the header as `punit - offsetof(units[punit->index])`,
which is the page itself exactly when the stamped index is the unit's own. -/
def free_to_page (max_level : Nat) (st : state) (page index : Nat) : Option state :=
  match find_page st.page_heap page with
  | none => none
  | some (j, ppage) =>
    let punit := ppage.units index
    if punit.index ≠ index then none
    else
      let pg := free_in_page max_level ppage index
      let h := st.page_heap.set j pg
      some { st with page_heap :=
        adjust_heap_from_bottom max_level (heap_size h) h pg.page_index }

/-- `free_memory`; `none` when the header read or the platform `free` leaves
defined behaviour. -/
def free_memory (max_level : Nat) (st : state) (ptr : Ptr) : Option state :=
  match ptr with
  | Ptr.null => some st
  | Ptr.block a =>
    match st.blocks a with
    | none => none
    | some (punit, _) =>
      if punit.direct = 1 then some { st with blocks := Function.update st.blocks a none }
      else none
  | Ptr.unit page index =>
    match read_header st (Ptr.unit page index) with
    | none => none
    | some punit =>
      if punit.direct = 1 then none
      else free_to_page max_level st page index

/-- `memcpy(ptr2, ptr, len)` on the payload bytes. -/
def memcpy (data : Ptr → Nat → Nat) (ptr2 ptr : Ptr) (len : Nat) : Ptr → Nat → Nat :=
  fun q i => if q = ptr2 ∧ i < len then data ptr i else data q i

/-- `realloc_direct`: `realloc(punit, size + K)` answered by `plat`; a
non-null answer moves the block (header and common payload) to `plat`. -/
def realloc_direct (st : state) (a size plat : Nat) : Nat × state :=
  if plat = 0 then (0, st)
  else
    match st.blocks a with
    | none => (plat, st)
    | some (punit, old) =>
      let blocks1 := Function.update st.blocks a none
      (plat,
        { st with
          blocks := Function.update blocks1 plat (some (punit, add32 size K))
          data := memcpy st.data (Ptr.block plat) (Ptr.block a) (min old (add32 size K) - K) })

/-- The `len` of `realloc_memory`: `(1 << punit->level)*M - K`. -/
def realloc_copy_len (ptr_size level : Nat) : Nat :=
  sub32 ((1 <<< level) * M ptr_size) K

/-- `realloc_memory`; `none` when a header read or the final `free_memory`
leaves defined behaviour, or the inner `alloc_memory` is left by
`std::bad_alloc`. -/
def realloc_memory (max_level ptr_size : Nat) (st : state) (ptr : Ptr) (size plat : Nat) :
    Option (Ptr × state) :=
  if ptr = Ptr.null then alloc_memory max_level ptr_size st size plat
  else
    match read_header st ptr with
    | none => none
    | some punit =>
      if punit.direct = 1 then
        match ptr with
        | Ptr.block a =>
          let r := realloc_direct st a size plat
          if r.1 = 0 then some (Ptr.null, r.2) else some (Ptr.block r.1, r.2)
        | _ => none
      else
        let level := calc_level ptr_size size
        if level ≤ punit.level then some (ptr, st)
        else
          match alloc_memory max_level ptr_size st size plat with
          | none => none
          | some r =>
            if r.1 = Ptr.null then some (Ptr.null, r.2)
            else
              let len := realloc_copy_len ptr_size punit.level
              let st2 := { r.2 with data := memcpy r.2.data r.1 ptr len }
              (free_memory max_level st2 ptr).map (fun st3 => (r.1, st3))

/-- The loop of `garbage_collection`: the heap left and the pages deleted,
most recent first.  Every round removes a slot, so `page_heap.size()` rounds
are enough. -/
def gc_loop (max_level : Nat) : Nat → List mem_page → List mem_page →
    List mem_page × List mem_page
  | 0, h, del => (h, del)
  | fuel + 1, h, del =>
    match heap_get h 1 with
    | none => (h, del)
    | some root =>
      if heap_size h > 1 && empty max_level root then
        let h1 := adjust_heap_for_pop max_level (heap_size h) h 1
        match h1.getLast? with
        | none => (h1, del)
        | some back => gc_loop max_level fuel h1.dropLast (back :: del)
      else (h, del)

/-- `garbage_collection`: the state left, and the pages whose storage was
released. -/
def garbage_collection (max_level : Nat) (st : state) : state × List mem_page :=
  let r := gc_loop max_level (heap_size st.page_heap) st.page_heap []
  ({ st with page_heap := r.1 }, r.2)

/-- `get_page_count`. -/
def get_page_count (st : state) : Nat := heap_size st.page_heap - 1

end mem_pool

namespace mem_pool_v3

/-! ## Variant S: constants and objects -/

/-- `MEM_DIRECT_LAYER`. -/
def MEM_DIRECT_LAYER : Nat := 31

/-- `offsetof(mem_segment, header.data)`: the bit-fields, padded to the
alignment of the pointers in the union that follows. -/
def HDR (ptr : Nat) : Nat := ptr

/-- `MEM_BASE_SIZE = sizeof(mem_segment)`: the padded bit-fields and the
two-pointer union. -/
def MEM_BASE_SIZE (ptr : Nat) : Nat := 3 * ptr

/-- `MEM_PAGE_SIZE`. -/
def MEM_PAGE_SIZE (layer_count ptr : Nat) : Nat := MEM_BASE_SIZE ptr <<< layer_count

/-- `MEM_MAX_LAYER`. -/
def MEM_MAX_LAYER (layer_count : Nat) : Nat := layer_count - 1

/-- The bit-fields `layer : 5`, `used : 1`, `index : 26` of a `mem_segment`. -/
structure mem_segment where
  layer : Nat
  used : Nat
  index : Nat
deriving DecidableEq, Repr

/-- The struct `mem_page`; `segs j` is the header found at `data + j`.
`addr` is the address of the object. -/
structure mem_page where
  addr : Nat
  alloc_count : Nat
  layer : Nat
  segs : Nat → mem_segment

/-- The members of a `mem_pool_v3` and the memory it reads headers from.
A `dlink` is the list of its nodes from `begin()` on, `count` being its
length; the node of a free segment is named by the address of its page and
the byte offset of the segment in `data`.  `layers l` is
`layers[l]->free_link`.  In `Ptr.unit page j` the second component is the
byte offset of the segment in `page->data`.  `blocks a` is the header and
byte size of the live `malloc` block at address `a`; `data q i` is byte `i`
of the payload behind address `q`, followed for blocks and for segments
that are handed out: the node that a free segment keeps in its first bytes
(the union `header`) is held in the lists, not in `data`. -/
structure state where
  layers : Nat → List (Nat × Nat)
  using_page_link : List mem_page
  free_page_link : List mem_page
  blocks : Nat → Option (mem_segment × Nat)
  data : Ptr → Nat → Nat

/-- The constructor `mem_pool_v3()`. -/
def init : state :=
  { layers := fun _ => []
    using_page_link := []
    free_page_link := []
    blocks := fun _ => none
    data := fun _ _ => 0 }

/-- `mem_layer::get_segment_size`. -/
def get_segment_size (ptr layer : Nat) : Nat := (MEM_BASE_SIZE ptr <<< layer) % U32

/-- `mem_layer::get_segment_data_size`. -/
def get_segment_data_size (ptr layer : Nat) : Nat := sub32 (get_segment_size ptr layer) (HDR ptr)

/-- `calc_segment_require_size`. -/
def calc_segment_require_size (ptr size : Nat) : Nat := add32 size (HDR ptr)

/-- `get_max_segment`. -/
def get_max_segment (layer_count ptr : Nat) : Nat :=
  get_segment_size ptr (MEM_MAX_LAYER layer_count)

/-- `std::lower_bound` on the positions `first .. first + len` with the
predicate `comp`, by halving; every round shrinks `len`, so `len` rounds
are enough. -/
def lower_bound (comp : Nat → Bool) : Nat → Nat → Nat → Nat
  | 0, first, _ => first
  | fuel + 1, first, len =>
    if len > 0 then
      let half := len / 2
      let middle := first + half
      if comp middle then lower_bound comp fuel (middle + 1) (len - half - 1)
      else lower_bound comp fuel first half
    else first

/-- The position `pp_layer - layers` that `alloc_memory` obtains from
`std::lower_bound(layers, layers + layer_count, size2, ...)`. -/
def select_layer (layer_count ptr size2 : Nat) : Nat :=
  lower_bound (fun l => decide (get_segment_size ptr l < size2)) layer_count 0 layer_count

/-- `mem_layer::insert_page` of layer `layer`: the page stamped, and the
nodes pushed to the back of the free list. -/
def insert_page (layer_count ptr layer : Nat) (p_page : mem_page) : mem_page × List (Nat × Nat) :=
  let segment_size := get_segment_size ptr layer
  let segment_count := MEM_PAGE_SIZE layer_count ptr / segment_size
  ({ p_page with
      alloc_count := 0
      layer := layer
      segs := fun j =>
        if j % segment_size = 0 ∧ j / segment_size < segment_count then
          ⟨layer % 2 ^ 5, 0, (j / segment_size) % 2 ^ 26⟩
        else p_page.segs j },
    (List.range segment_count).map (fun i => (p_page.addr, i * segment_size)))

/-- `mem_layer::remove_page` of layer `layer`: the free list with the nodes
of the page's segments popped. -/
def remove_page (layer_count ptr layer : Nat) (free_link : List (Nat × Nat)) (p_page : mem_page) :
    List (Nat × Nat) :=
  let segment_size := get_segment_size ptr layer
  let segment_count := MEM_PAGE_SIZE layer_count ptr / segment_size
  (List.range segment_count).foldl (fun fl i => fl.erase (p_page.addr, i * segment_size)) free_link

/-- The page object at address `a` on a page list, with its position. -/
def find_page (h : List mem_page) (a : Nat) : Option (Nat × mem_page) :=
  match h.findIdx? (fun pg => pg.addr == a) with
  | none => none
  | some j => (h.get? j).map (fun pg => (j, pg))

/-- `mem_layer::segment_to_page` for the segment at offset `j` of the page at
`page`, whose stamped index is `index`: the page when
`j = segment_size * index`, otherwise no page object. -/
def segment_to_page (ptr layer : Nat) (h : List mem_page) (page j index : Nat) :
    Option (Nat × mem_page) :=
  if j = get_segment_size ptr layer * index then find_page h page else none

/-- `mem_layer::alloc_segment` of layer `layer`; `none` when the list is
empty or the segment leads to no page. -/
def alloc_segment (ptr layer : Nat) (st : state) : Option (Ptr × state) :=
  match st.layers layer with
  | [] => none
  | (page, j) :: rest =>
    match find_page st.using_page_link page with
    | none => none
    | some (_, pg0) =>
      match segment_to_page ptr layer st.using_page_link page j (pg0.segs j).index with
      | none => none
      | some (pos, p_page) =>
        let seg := p_page.segs j
        let p_page1 :=
          { p_page with
            segs := Function.update p_page.segs j { seg with used := 1 }
            alloc_count := add32 p_page.alloc_count 1 }
        some (Ptr.unit page j,
          { st with
            layers := Function.update st.layers layer rest
            using_page_link := st.using_page_link.set pos p_page1 })

/-- `mem_layer::free_segment` of layer `layer` (assertions compiled out). -/
def free_segment (ptr layer : Nat) (st : state) (page j : Nat) : Option state :=
  match find_page st.using_page_link page with
  | none => none
  | some (_, pg0) =>
    match segment_to_page ptr layer st.using_page_link page j (pg0.segs j).index with
    | none => none
    | some (pos, p_page) =>
      let seg := p_page.segs j
      let p_page1 :=
        { p_page with
          segs := Function.update p_page.segs j { seg with used := 0 }
          alloc_count := sub32 p_page.alloc_count 1 }
      some
        { st with
          layers := Function.update st.layers layer (st.layers layer ++ [(page, j)])
          using_page_link := st.using_page_link.set pos p_page1 }

/-- `alloc_direct`: `malloc(size2)` answered by `plat`. -/
def alloc_direct (ptr : Nat) (st : state) (size plat : Nat) : Ptr × state :=
  let size2 := calc_segment_require_size ptr size
  if plat = 0 then (Ptr.null, st)
  else
    (Ptr.block plat,
      { st with blocks := Function.update st.blocks plat (some (⟨MEM_DIRECT_LAYER, 1, 0⟩, size2)) })

/-- `alloc_page`: a cached page if there is one, else `new mem_page` answered
by `plat` (fields uninitialised, started at zero here).  A refusal
(`plat = 0`) makes the new-expression throw `std::bad_alloc`: the call
returns nothing (`none`) and has changed nothing; `alloc_page` never returns
`nullptr`. -/
def alloc_page (st : state) (plat : Nat) : Option (mem_page × state) :=
  match st.free_page_link with
  | [] => if plat = 0 then none else some (⟨plat, 0, 0, fun _ => ⟨0, 0, 0⟩⟩, st)
  | p_page :: rest => some (p_page, { st with free_page_link := rest })

/-- The header read at `container_of(ptr, mem_segment, header.data)`;
`none` stands for a read of memory that holds no segment. -/
def read_header (st : state) : Ptr → Option mem_segment
  | Ptr.null => none
  | Ptr.unit page j => (find_page st.using_page_link page).map (fun jp => jp.2.segs j)
  | Ptr.block a => (st.blocks a).map (fun b => b.1)

/-- The part of `alloc_memory` that follows the choice of the layer
`pp_layer`: a page is installed if the layer has no free segment, then the
layer hands out a segment.  The test `p_page == nullptr` never holds, since
`alloc_page` returns a page or is left by `std::bad_alloc`. -/
def alloc_in_layer (layer_count ptr : Nat) (st : state) (pp_layer plat : Nat) :
    Option (Ptr × state) :=
  if (st.layers pp_layer).isEmpty then
    match alloc_page st plat with
    | none => none
    | some (p_page, st1) =>
      let ins := insert_page layer_count ptr pp_layer p_page
      alloc_segment ptr pp_layer
        { st1 with
          using_page_link := st1.using_page_link ++ [ins.1]
          layers := Function.update st1.layers pp_layer (st1.layers pp_layer ++ ins.2) }
  else alloc_segment ptr pp_layer st

/-- `alloc_memory`; `none` when `alloc_segment` leaves defined behaviour or
`alloc_page` is left by `std::bad_alloc`. -/
def alloc_memory (layer_count ptr : Nat) (st : state) (size plat : Nat) : Option (Ptr × state) :=
  let size2 := calc_segment_require_size ptr size
  if size2 > get_max_segment layer_count ptr then some (alloc_direct ptr st size plat)
  else
    let pp_layer := select_layer layer_count ptr size2
    if pp_layer = layer_count then some (Ptr.null, st)
    else alloc_in_layer layer_count ptr st pp_layer plat

/-- `free_memory`; `none` when the header read or the call made with it
leaves defined behaviour. -/
def free_memory (ptr_size : Nat) (st : state) (ptr : Ptr) : Option state :=
  match read_header st ptr with
  | none => none
  | some p_segment =>
    let layer := p_segment.layer
    if layer = MEM_DIRECT_LAYER then
      match ptr with
      | Ptr.block a => some { st with blocks := Function.update st.blocks a none }
      | _ => none
    else
      match ptr with
      | Ptr.unit page j => free_segment ptr_size layer st page j
      | _ => none

/-- `memcpy(ptr2, ptr, len)` on the payload bytes. -/
def memcpy (data : Ptr → Nat → Nat) (ptr2 ptr : Ptr) (len : Nat) : Ptr → Nat → Nat :=
  fun q i => if q = ptr2 ∧ i < len then data ptr i else data q i

/-- `realloc_direct`: `realloc(p_segment, size2)` answered by `plat`; the
result is `p_segment2->header.data` whatever the answer. -/
def realloc_direct (ptr_size : Nat) (st : state) (a size plat : Nat) : Ptr × state :=
  let size2 := calc_segment_require_size ptr_size size
  if plat = 0 then (Ptr.block 0, st)
  else
    match st.blocks a with
    | none => (Ptr.block plat, st)
    | some (seg, old) =>
      let blocks1 := Function.update st.blocks a none
      (Ptr.block plat,
        { st with
          blocks := Function.update blocks1 plat (some (seg, size2))
          data := memcpy st.data (Ptr.block plat) (Ptr.block a) (min old size2 - HDR ptr_size) })

/-- `realloc_memory`; `none` when a header read, the inner `alloc_memory` or
the final `free_memory` leaves defined behaviour. -/
def realloc_memory (layer_count ptr_size : Nat) (st : state) (ptr : Ptr) (size plat : Nat) :
    Option (Ptr × state) :=
  if ptr = Ptr.null then alloc_memory layer_count ptr_size st size plat
  else
    match read_header st ptr with
    | none => none
    | some p_segment =>
      let layer := p_segment.layer
      if layer = MEM_DIRECT_LAYER then
        match ptr with
        | Ptr.block a => some (realloc_direct ptr_size st a size plat)
        | _ => none
      else
        let size2 := calc_segment_require_size ptr_size size
        if get_segment_size ptr_size layer ≥ size2 then some (ptr, st)
        else
          match alloc_memory layer_count ptr_size st size plat with
          | none => none
          | some r =>
            if r.1 = Ptr.null then some (Ptr.null, r.2)
            else
              let len := get_segment_data_size ptr_size layer
              let st2 := { r.2 with data := memcpy r.2.data r.1 ptr len }
              (free_memory ptr_size st2 ptr).map (fun st3 => (r.1, st3))

/-- The loop of `garbage_collection` over the nodes of `using_page_link`
from `begin()` on: the pages still to visit, the pages visited and kept (the
list is `kept ++ rest` throughout), the free lists and `free_page_link`.  A
page with `alloc_count == 0` is popped, its segments are taken off the free
list of `layers[p_page->layer]`, and it is pushed to the back of
`free_page_link`. -/
def gc_loop (layer_count ptr : Nat) : List mem_page → List mem_page →
    (Nat → List (Nat × Nat)) → List mem_page →
    List mem_page × (Nat → List (Nat × Nat)) × List mem_page
  | [], kept, layers, free_pages => (kept, layers, free_pages)
  | p_page :: rest, kept, layers, free_pages =>
    if p_page.alloc_count = 0 then
      gc_loop layer_count ptr rest kept
        (Function.update layers p_page.layer
          (remove_page layer_count ptr p_page.layer (layers p_page.layer) p_page))
        (free_pages ++ [p_page])
    else gc_loop layer_count ptr rest (kept ++ [p_page]) layers free_pages

/-- `garbage_collection(completely)`: the state left, and the pages deleted
by `destroy_pages`. -/
def garbage_collection (layer_count ptr : Nat) (st : state) (completely : Bool) :
    state × List mem_page :=
  let r := gc_loop layer_count ptr st.using_page_link [] st.layers st.free_page_link
  ({ st with
      using_page_link := r.1
      layers := r.2.1
      free_page_link := (if completely then [] else r.2.2) },
    if completely then r.2.2 else [])

/-- `get_page_count`. -/
def get_page_count (st : state) : Nat := st.using_page_link.length

end mem_pool_v3

namespace mem_pool

/-! ## Variant B: notions used in the statements -/

/-- The tree node of the segment `s = (index, level)` of a page, as
`free_to_page` computes it from the header. -/
def seg_node (max_level : Nat) (s : Nat × Nat) : Nat :=
  index_to_node max_level s.1 s.2

/-- The unit ranges `[index, index + 2^level)` of two segments do not meet. -/
def disjoint_units (s t : Nat × Nat) : Prop :=
  s.1 + 2 ^ s.2 ≤ t.1 ∨ t.1 + 2 ^ t.2 ≤ s.1

/-- Node `a` is `p` or an ancestor of `p` in the tree of a page: it is
reached from `p` by halving. -/
def anc_or_self (a p : Nat) : Prop := ∃ k, p / 2 ^ k = a

/-- What holds of a page and its live segments in every state of
`page_reach`: the live segments are distinct, each sits on a node of its
level, keeps its header, has `bitmap_and` set on its node and `bitmap__or`
set on its node and all ancestors, and no live node is an ancestor of
another. -/
structure page_inv (max_level : Nat) (pg : mem_page) (live : List (Nat × Nat)) : Prop where
  nodup : live.Nodup
  valid : ∀ s ∈ live, s.2 ≤ max_level ∧ 2 ^ (max_level - s.2) ≤ seg_node max_level s ∧
    seg_node max_level s < 2 ^ (max_level - s.2 + 1) ∧
    s.1 + 2 ^ max_level = seg_node max_level s * 2 ^ s.2
  hdr : ∀ s ∈ live, pg.units s.1 = ⟨s.1, s.2, 0⟩
  and_set : ∀ s ∈ live, get_bit pg.bitmap_and (seg_node max_level s) = true
  or_set : ∀ s ∈ live, ∀ k, 1 ≤ seg_node max_level s / 2 ^ k →
    get_bit pg.bitmap__or (seg_node max_level s / 2 ^ k) = true
  anti : ∀ s ∈ live, ∀ t ∈ live, s ≠ t →
    ∀ k, seg_node max_level s / 2 ^ k ≠ seg_node max_level t

/-- Boolean form of `anc_or_self a p`: some halving of `p` gives `a`. -/
def is_anc (a p : Nat) : Bool :=
  (List.range (p + 1)).any (fun k => p / 2 ^ k == a)

/-- Node `q` is allocatable: no live node is `q`, a descendant of `q` or an
ancestor of `q`. -/
def allocatable (max_level : Nat) (live : List (Nat × Nat)) (q : Nat) : Bool :=
  live.all (fun s => !is_anc q (seg_node max_level s) && !is_anc (seg_node max_level s) q)

/-- The number of allocatable nodes of level `i`, the nodes of level `i`
being `2^(max_level - i) .. 2^(max_level - i + 1) - 1`. -/
def free_count (max_level : Nat) (live : List (Nat × Nat)) (i : Nat) : Nat :=
  ((Finset.Ico (2 ^ (max_level - i)) (2 ^ (max_level - i + 1))).filter
    (fun q => allocatable max_level live q = true)).card

/-- What holds of a page and its live segments in every state of
`page_reach`, beyond `page_inv`: `bitmap__or` is set only above live nodes,
`bitmap_and` implies `bitmap__or`, `bitmap_and` of a node is set exactly
when the node is live or both children have it set, and `level_count[i]` is
the number of allocatable nodes of level `i`. -/
structure page_full (max_level : Nat) (pg : mem_page) (live : List (Nat × Nat)) : Prop where
  base : page_inv max_level pg live
  or_exact : ∀ x, 1 ≤ x → get_bit pg.bitmap__or x = true →
    ∃ s ∈ live, anc_or_self x (seg_node max_level s)
  and_or : ∀ x, get_bit pg.bitmap_and x = true → get_bit pg.bitmap__or x = true
  and_exact : ∀ x, 1 ≤ x → (get_bit pg.bitmap_and x = true ↔
    (∃ s ∈ live, seg_node max_level s = x) ∨
      (get_bit pg.bitmap_and (x * 2) = true ∧ get_bit pg.bitmap_and (x * 2 + 1) = true))
  counts : ∀ i, i ≤ max_level → pg.level_count i = free_count max_level live i

/-- A page with its `page_index` forgotten: the sifts of the heap move pages
and rewrite `page_index`, and nothing else of a page. -/
def strip (pg : mem_page) : mem_page := { pg with page_index := 0 }

/-- What holds of the heap `h` of an allocator, the live segments
`lives a` of the page at address `a`, and the addresses `ptrs` handed out
and not yet freed: the pages have distinct addresses, each page satisfies
`page_full` with its live segments, and `ptrs` lists, once each, the
addresses of the live segments of the pages of the heap. -/
structure pool_inv (max_level : Nat) (h : List mem_page) (lives : Nat → List (Nat × Nat))
    (ptrs : List Ptr) : Prop where
  nodup : (h.map (fun pg => pg.addr)).Nodup
  full : ∀ pg ∈ h, page_full max_level pg (lives pg.addr)
  ptrs_nodup : ptrs.Nodup
  live_ptr : ∀ pg ∈ h, ∀ s ∈ lives pg.addr, Ptr.unit pg.addr s.1 ∈ ptrs
  ptr_live : ∀ p ∈ ptrs, ∃ pg ∈ h, ∃ s ∈ lives pg.addr, p = Ptr.unit pg.addr s.1

/-- A sequence of `alloc_memory` calls, each given as the size asked for and
the answer the platform has ready for `new mem_page`; the addresses returned,
in the order of the calls, and the state left.  `none` when a call is not
served from a page (it returns `nullptr` or a block of its own, or is left
by `std::bad_alloc`), or when the platform's answer is the address of a page
that is still on the heap, which no platform gives. -/
def alloc_seq (max_level ptr : Nat) : state → List (Nat × Nat) → Option (List Ptr × state)
  | st, [] => some ([], st)
  | st, (size, plat) :: reqs =>
    if st.page_heap.any (fun pg => pg.addr == plat) then none
    else
      match alloc_memory max_level ptr st size plat with
      | some (Ptr.unit page index, st1) =>
        (alloc_seq max_level ptr st1 reqs).map (fun r => (Ptr.unit page index :: r.1, r.2))
      | _ => none

/-- A sequence of `free_memory` calls; `none` when one of them leaves defined
behaviour. -/
def free_seq (max_level : Nat) : state → List Ptr → Option state
  | st, [] => some st
  | st, p :: ps =>
    match free_memory max_level st p with
    | none => none
    | some st1 => free_seq max_level st1 ps

end mem_pool

namespace mem_pool

/-! ## Variant B: concrete runs

All runs use `max_level = 9` and `sizeof(void*) = 8`, so `M = 12`, `K = 4`,
a page has 512 units and `calc_page_max_alloc() = 6140`. -/

/-- Three requests of 6140 bytes (each takes a whole page; the platform
places the pages at 100, 200 and 300), after which the first address is
freed.  The addresses returned are `units[0].data` of the three pages. -/
def gc_run : Option state :=
  (alloc_memory 9 8 init 6140 100).bind fun s1 =>
  (alloc_memory 9 8 s1.2 6140 200).bind fun s2 =>
  (alloc_memory 9 8 s2.2 6140 300).bind fun s3 =>
  free_memory 9 s3.2 (Ptr.unit 100 0)

/-- What is looked at in a page of a run: its address, its `page_index`,
and whether it is `empty()`. -/
def page_view (max_level : Nat) (pg : mem_page) : Nat × Nat × Bool :=
  (pg.addr, pg.page_index, empty max_level pg)

/-- The state after `alloc_memory(100)` on a fresh allocator, the platform
placing the page at 100; the address returned is `units[0].data`, of level 4. -/
def small_state : state :=
  match alloc_memory 9 8 init 100 100 with
  | some r => r.2
  | none => init

/-- The state after `alloc_memory(50)` on `small_state`; the address returned
is `units[16].data` of the page at 100, of level 3. -/
def second_state : state :=
  match alloc_memory 9 8 small_state 50 200 with
  | some r => r.2
  | none => init

/-- The state `small_state` after the caller has written `0x5A` to the 100
bytes at the address returned. -/
def filled_state : state :=
  { small_state with data := fun q i => if q = Ptr.unit 100 0 ∧ i < 100 then 90 else 0 }

/-- The state after `realloc_memory(a, 4096)` on `filled_state`, the platform
placing the second page at 200; the address returned is `units[0].data` of
that page, of level 9. -/
def grown_state : state :=
  match realloc_memory 9 8 filled_state (Ptr.unit 100 0) 4096 200 with
  | some r => r.2
  | none => init

/-- Two requests of 6140 bytes (pages at 100 and 200), after which the second
address is freed: page 200 is empty again and sits in slot 2. -/
def stale_run : Option state :=
  (alloc_memory 9 8 init 6140 100).bind fun s1 =>
  (alloc_memory 9 8 s1.2 6140 200).bind fun s2 =>
  free_memory 9 s2.2 (Ptr.unit 200 0)

/-- The state after a request of 20000 bytes on a fresh allocator, served by
the platform with a block at 100. -/
def direct_state : state :=
  match alloc_memory 9 8 init 20000 100 with
  | some r => r.2
  | none => init

/-- A page in which a 1-unit and then a 2-unit segment were allocated. -/
def two_segment_page : mem_page :=
  (alloc_from_page 9 (alloc_from_page 9 (mem_page_new 9 100) 0).2 1).2

/-- Requests of 100, 6140 and 50 bytes on a fresh allocator: the first
creates the page at 1000, the second does not fit it and creates the page
at 2000, the third is served from the page at 1000.  The addresses returned
and the state left. -/
def mixed_allocs : List Ptr × state :=
  ([Ptr.unit 1000 0, Ptr.unit 2000 0, Ptr.unit 1000 16],
    match alloc_seq 9 8 init [(100, 1000), (6140, 2000), (50, 3000)] with
    | some r => r.2
    | none => init)

end mem_pool

namespace mem_pool_v3

/-! ## Variant S: reachable states

The states of an allocator are followed together with the segments handed
out and not yet freed, each named by the address of its page and its byte
offset in `data`. -/

/-- Offset `j` is the start of a segment of a page of layer `l`. -/
def is_slot (layer_count ptr l j : Nat) : Prop :=
  ∃ i, i < MEM_PAGE_SIZE layer_count ptr / get_segment_size ptr l ∧
    j = i * get_segment_size ptr l

/-- The live segments after `p` was handed out. -/
def live_add (live : List (Nat × Nat)) : Ptr → List (Nat × Nat)
  | Ptr.unit page j => (page, j) :: live
  | _ => live

/-- The live segments after `p` was given back. -/
def live_del (live : List (Nat × Nat)) : Ptr → List (Nat × Nat)
  | Ptr.unit page j => live.erase (page, j)
  | _ => live

/-- An address that may be passed to `free_memory` and `realloc_memory`: a
segment must be live. -/
def owned (live : List (Nat × Nat)) : Ptr → Prop
  | Ptr.unit page j => (page, j) ∈ live
  | _ => True

/-- The platform's answer `plat` to `new mem_page` is not the address of a
page object that exists. -/
def fresh (st : state) (plat : Nat) : Prop :=
  ∀ pg ∈ st.using_page_link ++ st.free_page_link, pg.addr ≠ plat

/-- The states reached from a new allocator by `alloc_memory`,
`free_memory`, `realloc_memory` and `garbage_collection`, and by the
caller writing payload bytes, with the live segments.  Only calls with
defined behaviour take a step. -/
inductive reach (layer_count ptr : Nat) : state → List (Nat × Nat) → Prop where
  | init : reach layer_count ptr init []
  | alloc {st : state} {live : List (Nat × Nat)} (size plat : Nat) (p : Ptr) (st1 : state) :
      reach layer_count ptr st live → fresh st plat →
      alloc_memory layer_count ptr st size plat = some (p, st1) →
      reach layer_count ptr st1 (live_add live p)
  | free {st : state} {live : List (Nat × Nat)} (p : Ptr) (st1 : state) :
      reach layer_count ptr st live → owned live p →
      free_memory ptr st p = some st1 →
      reach layer_count ptr st1 (live_del live p)
  | realloc {st : state} {live : List (Nat × Nat)} (size plat : Nat) (p p1 : Ptr)
      (st1 : state) :
      reach layer_count ptr st live → owned live p → fresh st plat →
      realloc_memory layer_count ptr st p size plat = some (p1, st1) →
      reach layer_count ptr st1
        (if p1 = p ∨ p1 = Ptr.null then live else live_add (live_del live p) p1)
  | gc {st : state} {live : List (Nat × Nat)} (completely : Bool) :
      reach layer_count ptr st live →
      reach layer_count ptr (garbage_collection layer_count ptr st completely).1 live
  | write {st : state} {live : List (Nat × Nat)} (data : Ptr → Nat → Nat) :
      reach layer_count ptr st live →
      reach layer_count ptr { st with data := data } live

/-- What holds of a reachable state and its live segments: the page objects
have distinct addresses; no free list repeats a node; a node on the free
list of layer `l` is a segment of a page of layer `l` on `using_page_link`;
a live segment is a segment of a page on `using_page_link`, stamped with the
layer of its page, and on no free list of that layer; `alloc_count` of a
page is the number of its live segments; and every segment of a page on
`using_page_link` is live or on the free list of the page's layer. -/
structure state_inv (layer_count ptr : Nat) (layers : Nat → List (Nat × Nat))
    (using_pages free_pages : List mem_page) (live : List (Nat × Nat)) : Prop where
  pages_nodup : ((using_pages ++ free_pages).map (fun pg => pg.addr)).Nodup
  free_nodup : ∀ l, (layers l).Nodup
  free_node : ∀ l a j, (a, j) ∈ layers l → ∃ pg ∈ using_pages, pg.addr = a ∧ pg.layer = l ∧
    l < layer_count ∧ (pg.segs j).layer = l ∧ is_slot layer_count ptr l j
  live_nodup : live.Nodup
  live_node : ∀ a j, (a, j) ∈ live → ∃ pg ∈ using_pages, pg.addr = a ∧
    pg.layer < layer_count ∧ (pg.segs j).layer = pg.layer ∧
    is_slot layer_count ptr pg.layer j ∧ (a, j) ∉ layers pg.layer
  count : ∀ pg ∈ using_pages, pg.alloc_count = live.countP (fun s => s.1 == pg.addr)
  slots : ∀ pg ∈ using_pages, ∀ j, is_slot layer_count ptr pg.layer j →
    (pg.addr, j) ∈ live ∨ (pg.addr, j) ∈ layers pg.layer

/-- What holds of the pages on `using_page_link` in a reachable state,
besides `state_inv`: the header of every segment carries the segment's
index, so that `segment_to_page` leads from the segment to its page. -/
def index_inv (layer_count ptr : Nat) (using_pages : List mem_page) : Prop :=
  ∀ pg ∈ using_pages, ∀ j, is_slot layer_count ptr pg.layer j →
    j = get_segment_size ptr pg.layer * (pg.segs j).index

end mem_pool_v3

namespace mem_pool_v3

/-! ## Variant S: concrete runs

All runs use `layer_count = 8` and `sizeof(void*) = 8`, so
`MEM_BASE_SIZE = 24`, the header takes 8 bytes and a page has 6144 bytes. -/

/-- The state after `alloc_memory(100)` on a fresh allocator, the platform
placing the page at 100; the address returned is the segment at offset 0 of
the page, of layer 3 (192 bytes). -/
def small_state : state :=
  match alloc_memory 8 8 init 100 100 with
  | some r => r.2
  | none => init

/-- The state after `alloc_memory(50)` on `small_state`, the platform placing
the second page at 200; the address returned is the segment at offset 0 of
that page, of layer 2 (96 bytes). -/
def second_state : state :=
  match alloc_memory 8 8 small_state 50 200 with
  | some r => r.2
  | none => init

/-- The state after a request of 4096 bytes on a fresh allocator, served by
the platform with a block at 100 (the request exceeds `get_max_segment()`). -/
def direct_state : state :=
  match alloc_memory 8 8 init 4096 100 with
  | some r => r.2
  | none => init

/-- The state `small_state` after the caller has written `0x5A` to the 100
bytes at the address returned. -/
def filled_state : state :=
  { small_state with data := fun q i => if q = Ptr.unit 100 0 ∧ i < 100 then 90 else 0 }

/-- The state after `realloc_memory(a, 4096)` on `filled_state`, the platform
placing the block at 200 (the request exceeds `get_max_segment()`). -/
def grown_state : state :=
  match realloc_memory 8 8 filled_state (Ptr.unit 100 0) 4096 200 with
  | some r => r.2
  | none => init

/-- The state after `alloc_memory(1000)` on `small_state`, the platform
placing the second page at 200; the address returned is the segment at
offset 0 of that page. -/
def two_page_state : state :=
  match alloc_memory 8 8 small_state 1000 200 with
  | some r => r.2
  | none => init

/-- The state after `free_memory` of the first address on `two_page_state`:
the page at 100 has no live segment, the page at 200 has one. -/
def mixed_state : state :=
  match free_memory 8 two_page_state (Ptr.unit 100 0) with
  | some s => s
  | none => init

end mem_pool_v3

/-! # Properties -/

set_option maxRecDepth 100000

namespace mem_pool

theorem get_bit_eq_testBit (b : Nat → Nat) (j : Nat) :
    get_bit b j = (b (j / 8)).testBit (j % 8) := by
  have h7 : j &&& 7 = j % 8 := by
    have := Nat.and_pow_two_sub_one_eq_mod j 3
    simpa using this
  simp only [get_bit, BITMAP_TYPE_BITS, BITMAP_MOD_MASK, Nat.testBit, h7]
  rw [Nat.and_comm]

theorem get_bit_set_bit_1 (b : Nat → Nat) (i j : Nat) :
    get_bit (set_bit_1 b i) j = (decide (j = i) || get_bit b j) := by
  simp only [get_bit_eq_testBit, set_bit_1, BITMAP_TYPE_BITS, BITMAP_MOD_MASK]
  have h7 : i &&& 7 = i % 8 := by
    have := Nat.and_pow_two_sub_one_eq_mod i 3
    simpa using this
  rw [h7]
  by_cases hq : j / 8 = i / 8
  · rw [hq, Function.update_same]
    have h256 : (256 : Nat) = 2 ^ 8 := by norm_num
    rw [h256, Nat.testBit_mod_two_pow, Nat.testBit_or, Nat.one_shiftLeft, Nat.testBit_two_pow]
    have hj : j % 8 < 8 := Nat.mod_lt _ (by norm_num)
    have hiff : (i % 8 = j % 8) ↔ j = i := by omega
    simp [hj, hiff, Bool.or_comm]
  · rw [Function.update_noteq hq]
    have : j ≠ i := fun h => hq (by rw [h])
    simp [this]

theorem get_bit_set_bit_0 (b : Nat → Nat) (i j : Nat) :
    get_bit (set_bit_0 b i) j = (!decide (j = i) && get_bit b j) := by
  simp only [get_bit_eq_testBit, set_bit_0, BITMAP_TYPE_BITS, BITMAP_MOD_MASK]
  have h7 : i &&& 7 = i % 8 := by
    have := Nat.and_pow_two_sub_one_eq_mod i 3
    simpa using this
  rw [h7]
  by_cases hq : j / 8 = i / 8
  · rw [hq, Function.update_same]
    have h255 : (255 : Nat) = 2 ^ 8 - 1 := by norm_num
    rw [Nat.testBit_and, Nat.testBit_xor, h255, Nat.testBit_two_pow_sub_one, Nat.one_shiftLeft,
      Nat.testBit_two_pow]
    have hj : j % 8 < 8 := Nat.mod_lt _ (by norm_num)
    have hiff : (i % 8 = j % 8) ↔ j = i := by omega
    by_cases hji : j = i
    · subst hji
      simp [hj]
    · simp [hj, hiff, hji]
  · rw [Function.update_noteq hq]
    have : j ≠ i := fun h => hq (by rw [h])
    simp [this]

end mem_pool

namespace mem_pool

theorem lock_of_and (pg : mem_page) (p cur level : Nat) (h : get_bit pg.bitmap_and p = true) :
    lock pg p cur level = (none, pg) := by
  unfold lock
  simp [h]

theorem lock_of_lt (pg : mem_page) (p cur level : Nat) (h : cur < level) :
    lock pg p cur level = (none, pg) := by
  unfold lock
  have h1 : cur ≠ level := by omega
  have h2 : ¬ cur > level := by omega
  simp [h1, h2]

theorem lock_of_eq (pg : mem_page) (p level : Nat) (h : get_bit pg.bitmap_and p = false) :
    lock pg p level level =
      if get_bit pg.bitmap__or p then (none, pg) else (some p, lock_here pg p level) := by
  unfold lock
  simp [h]

theorem lock_of_gt (pg : mem_page) (p c level : Nat) (h : get_bit pg.bitmap_and p = false)
    (hl : level < c + 1) :
    lock pg p (c + 1) level =
      match lock pg (p * 2) c level with
      | (some node, pg1) => (some node, lock_left_done pg1 p (c + 1))
      | (none, pg1) =>
        match lock pg1 (p * 2 + 1) c level with
        | (some node, pg2) => (some node, lock_right_done pg2 p)
        | (none, pg2) => (none, pg2) := by
  rw [lock]
  have h1 : c + 1 ≠ level := by omega
  simp [h, h1, hl]

theorem lock_none (cur : Nat) : ∀ (pg : mem_page) (p level : Nat),
    (lock pg p cur level).1 = none → (lock pg p cur level).2 = pg := by
  induction cur with
  | zero =>
    intro pg p level h
    unfold lock at h ⊢
    split_ifs at h ⊢
    all_goals simp_all
  | succ c ih =>
    intro pg p level h
    by_cases ha : get_bit pg.bitmap_and p = true
    · rw [lock_of_and _ _ _ _ ha]
    · have ha : get_bit pg.bitmap_and p = false := by simpa using ha
      rcases Nat.lt_trichotomy (c + 1) level with hlt | heq | hgt
      · rw [lock_of_lt _ _ _ _ hlt]
      · subst heq
        rw [lock_of_eq _ _ _ ha] at h ⊢
        split_ifs at h ⊢
        all_goals simp_all
      · rw [lock_of_gt _ _ _ _ ha hgt] at h ⊢
        have ihl := ih pg (p * 2) level
        rcases hL : lock pg (p * 2) c level with ⟨nl, pl⟩
        rw [hL] at h ihl
        cases nl with
        | some node => simp at h
        | none =>
          have hpl : pl = pg := ihl rfl
          subst hpl
          simp only at h ⊢
          have ihr := ih pl (p * 2 + 1) level
          rcases hR : lock pl (p * 2 + 1) c level with ⟨nr, pr⟩
          rw [hR] at h ihr
          cases nr with
          | some node => simp at h
          | none => exact ihr rfl

end mem_pool

namespace mem_pool

theorem lock_here_or (pg : mem_page) (p c x : Nat) :
    get_bit (lock_here pg p c).bitmap__or x = (decide (x = p) || get_bit pg.bitmap__or x) := by
  simp [lock_here, get_bit_set_bit_1]

theorem lock_here_and (pg : mem_page) (p c x : Nat) :
    get_bit (lock_here pg p c).bitmap_and x = (decide (x = p) || get_bit pg.bitmap_and x) := by
  simp [lock_here, get_bit_set_bit_1]

theorem lock_left_done_or (pg : mem_page) (p c x : Nat) :
    get_bit (lock_left_done pg p c).bitmap__or x = (decide (x = p) || get_bit pg.bitmap__or x) := by
  unfold lock_left_done
  dsimp only
  split_ifs <;> simp [get_bit_set_bit_1]

theorem lock_left_done_and (pg : mem_page) (p c x : Nat) :
    get_bit (lock_left_done pg p c).bitmap_and x =
      ((decide (x = p) && (get_bit pg.bitmap_and (p * 2) && get_bit pg.bitmap_and (p * 2 + 1)))
        || get_bit pg.bitmap_and x) := by
  unfold lock_left_done
  dsimp only
  split_ifs <;> simp_all [get_bit_set_bit_1]

theorem lock_right_done_or (pg : mem_page) (p x : Nat) :
    get_bit (lock_right_done pg p).bitmap__or x = (decide (x = p) || get_bit pg.bitmap__or x) := by
  unfold lock_right_done
  dsimp only
  split_ifs <;> simp [get_bit_set_bit_1]

theorem lock_right_done_and (pg : mem_page) (p x : Nat) :
    get_bit (lock_right_done pg p).bitmap_and x =
      ((decide (x = p) && (get_bit pg.bitmap_and (p * 2) && get_bit pg.bitmap_and (p * 2 + 1)))
        || get_bit pg.bitmap_and x) := by
  unfold lock_right_done
  dsimp only
  split_ifs <;> simp_all [get_bit_set_bit_1]

theorem lock_left_done_fixed (pg : mem_page) (p c : Nat) :
    (lock_left_done pg p c).units = pg.units ∧ (lock_left_done pg p c).addr = pg.addr ∧
      (lock_left_done pg p c).page_index = pg.page_index := by
  unfold lock_left_done
  dsimp only
  split_ifs <;> simp

theorem lock_right_done_fixed (pg : mem_page) (p : Nat) :
    (lock_right_done pg p).units = pg.units ∧ (lock_right_done pg p).addr = pg.addr ∧
      (lock_right_done pg p).page_index = pg.page_index := by
  unfold lock_right_done
  dsimp only
  split_ifs <;> simp

end mem_pool

namespace mem_pool

theorem lock_some (cur : Nat) : ∀ (pg : mem_page) (p level node : Nat) (pg' : mem_page),
    lock pg p cur level = (some node, pg') →
    level ≤ cur ∧ node / 2 ^ (cur - level) = p ∧
    (∀ k, k ≤ cur - level → get_bit pg.bitmap_and (node / 2 ^ k) = false) ∧
    get_bit pg.bitmap__or node = false ∧
    (∀ x, get_bit pg'.bitmap__or x = true ↔
      (∃ k, k ≤ cur - level ∧ x = node / 2 ^ k) ∨ get_bit pg.bitmap__or x = true) ∧
    (∀ x, get_bit pg.bitmap_and x = true → get_bit pg'.bitmap_and x = true) ∧
    (∀ x, (∀ k, k ≤ cur - level → x ≠ node / 2 ^ k) →
      get_bit pg'.bitmap_and x = get_bit pg.bitmap_and x) ∧
    get_bit pg'.bitmap_and node = true ∧
    pg'.units = pg.units ∧ pg'.addr = pg.addr ∧ pg'.page_index = pg.page_index := by
  induction cur with
  | zero =>
    intro pg p level node pg' h
    by_cases ha : get_bit pg.bitmap_and p = true
    · rw [lock_of_and _ _ _ _ ha] at h; simp at h
    · have ha : get_bit pg.bitmap_and p = false := by simpa using ha
      rcases Nat.eq_zero_or_pos level with h0 | hpos
      · subst h0
        rw [lock_of_eq _ _ _ ha] at h
        by_cases ho : get_bit pg.bitmap__or p = true
        · simp [ho] at h
        · have ho : get_bit pg.bitmap__or p = false := by simpa using ho
          simp only [ho, Bool.false_eq_true, if_false, Prod.mk.injEq, Option.some.injEq] at h
          obtain ⟨rfl, rfl⟩ := h
          refine ⟨le_refl _, by simp, ?_, ho, ?_, ?_, ?_, ?_, rfl, rfl, rfl⟩
          · intro k hk
            have : k = 0 := by omega
            subst this; simpa using ha
          · intro x
            rw [lock_here_or]
            simp
          · intro x hx
            rw [lock_here_and]; simp [hx]
          · intro x hx
            have hne : x ≠ p := by simpa using hx 0 (by omega)
            rw [lock_here_and]; simp [hne]
          · rw [lock_here_and]; simp
      · rw [lock_of_lt _ _ _ _ hpos] at h; simp at h
  | succ c ih =>
    intro pg p level node pg' h
    by_cases ha : get_bit pg.bitmap_and p = true
    · rw [lock_of_and _ _ _ _ ha] at h; simp at h
    · have ha : get_bit pg.bitmap_and p = false := by simpa using ha
      rcases Nat.lt_trichotomy (c + 1) level with hlt | heq | hgt
      · rw [lock_of_lt _ _ _ _ hlt] at h; simp at h
      · subst heq
        rw [lock_of_eq _ _ _ ha] at h
        by_cases ho : get_bit pg.bitmap__or p = true
        · simp [ho] at h
        · have ho : get_bit pg.bitmap__or p = false := by simpa using ho
          simp only [ho, Bool.false_eq_true, if_false, Prod.mk.injEq, Option.some.injEq] at h
          obtain ⟨rfl, rfl⟩ := h
          refine ⟨le_refl _, by simp, ?_, ho, ?_, ?_, ?_, ?_, rfl, rfl, rfl⟩
          · intro k hk
            have : k = 0 := by omega
            subst this; simpa using ha
          · intro x
            rw [lock_here_or]
            simp
          · intro x hx
            rw [lock_here_and]; simp [hx]
          · intro x hx
            have hne : x ≠ p := by simpa using hx 0 (by omega)
            rw [lock_here_and]; simp [hne]
          · rw [lock_here_and]; simp
      · rw [lock_of_gt _ _ _ _ ha hgt] at h
        have hd : c + 1 - level = (c - level) + 1 := by omega
        have hdiv : ∀ n : Nat, n / 2 ^ (c + 1 - level) = n / 2 ^ (c - level) / 2 := by
          intro n
          rw [hd, pow_succ, Nat.div_div_eq_div_mul]
        rcases hL : lock pg (p * 2) c level with ⟨nl, pl⟩
        rw [hL] at h
        cases nl with
        | some nd =>
          simp only [Prod.mk.injEq, Option.some.injEq] at h
          obtain ⟨rfl, rfl⟩ := h
          obtain ⟨h1, h2, h3, h4, h5, h6, h7, h8, h9, h10, h11⟩ := ih pg (p * 2) level nd pl hL
          have hp : nd / 2 ^ (c + 1 - level) = p := by rw [hdiv, h2]; omega
          refine ⟨by omega, hp, ?_, h4, ?_, ?_, ?_, ?_, ?_, ?_, ?_⟩
          · intro k hk
            rcases Nat.lt_or_ge k (c + 1 - level) with hk1 | hk1
            · exact h3 k (by omega)
            · have : k = c + 1 - level := by omega
              rw [this, hp]; exact ha
          · intro x
            rw [lock_left_done_or]
            simp only [Bool.or_eq_true, decide_eq_true_eq, h5]
            constructor
            · rintro (hx | ⟨k, hk, hx⟩ | hx)
              · exact Or.inl ⟨c + 1 - level, le_refl _, by rw [hp, hx]⟩
              · exact Or.inl ⟨k, by omega, hx⟩
              · exact Or.inr hx
            · rintro (⟨k, hk, hx⟩ | hx)
              · rcases Nat.lt_or_ge k (c + 1 - level) with hk1 | hk1
                · exact Or.inr (Or.inl ⟨k, by omega, hx⟩)
                · have : k = c + 1 - level := by omega
                  rw [this, hp] at hx
                  exact Or.inl hx
              · exact Or.inr (Or.inr hx)
          · intro x hx
            rw [lock_left_done_and]
            simp [h6 x hx]
          · intro x hx
            rw [lock_left_done_and]
            have hxp : x ≠ p := by
              have := hx (c + 1 - level) (le_refl _)
              rwa [hp] at this
            have := h7 x (fun k hk => hx k (by omega))
            simp [hxp, this]
          · rw [lock_left_done_and]
            simp [h8]
          · rw [(lock_left_done_fixed pl p (c + 1)).1, h9]
          · rw [(lock_left_done_fixed pl p (c + 1)).2.1, h10]
          · rw [(lock_left_done_fixed pl p (c + 1)).2.2, h11]
        | none =>
          have hpl : pl = pg := by
            have := lock_none c pg (p * 2) level
            rw [hL] at this
            exact this rfl
          subst hpl
          simp only at h
          rcases hR : lock pl (p * 2 + 1) c level with ⟨nr, pr⟩
          rw [hR] at h
          cases nr with
          | none => simp at h
          | some nd =>
            simp only [Prod.mk.injEq, Option.some.injEq] at h
            obtain ⟨rfl, rfl⟩ := h
            obtain ⟨h1, h2, h3, h4, h5, h6, h7, h8, h9, h10, h11⟩ :=
              ih pl (p * 2 + 1) level nd pr hR
            have hp : nd / 2 ^ (c + 1 - level) = p := by rw [hdiv, h2]; omega
            refine ⟨by omega, hp, ?_, h4, ?_, ?_, ?_, ?_, ?_, ?_, ?_⟩
            · intro k hk
              rcases Nat.lt_or_ge k (c + 1 - level) with hk1 | hk1
              · exact h3 k (by omega)
              · have : k = c + 1 - level := by omega
                rw [this, hp]; exact ha
            · intro x
              rw [lock_right_done_or]
              simp only [Bool.or_eq_true, decide_eq_true_eq, h5]
              constructor
              · rintro (hx | ⟨k, hk, hx⟩ | hx)
                · exact Or.inl ⟨c + 1 - level, le_refl _, by rw [hp, hx]⟩
                · exact Or.inl ⟨k, by omega, hx⟩
                · exact Or.inr hx
              · rintro (⟨k, hk, hx⟩ | hx)
                · rcases Nat.lt_or_ge k (c + 1 - level) with hk1 | hk1
                  · exact Or.inr (Or.inl ⟨k, by omega, hx⟩)
                  · have : k = c + 1 - level := by omega
                    rw [this, hp] at hx
                    exact Or.inl hx
                · exact Or.inr (Or.inr hx)
            · intro x hx
              rw [lock_right_done_and]
              simp [h6 x hx]
            · intro x hx
              rw [lock_right_done_and]
              have hxp : x ≠ p := by
                have := hx (c + 1 - level) (le_refl _)
                rwa [hp] at this
              have := h7 x (fun k hk => hx k (by omega))
              simp [hxp, this]
            · rw [lock_right_done_and]
              simp [h8]
            · rw [(lock_right_done_fixed pr p).1, h9]
            · rw [(lock_right_done_fixed pr p).2.1, h10]
            · rw [(lock_right_done_fixed pr p).2.2, h11]

end mem_pool

namespace mem_pool

theorem unlock_here_or (pg : mem_page) (p c x : Nat) :
    get_bit (unlock_here pg p c).bitmap__or x = (!decide (x = p) && get_bit pg.bitmap__or x) := by
  simp [unlock_here, get_bit_set_bit_0]

theorem unlock_here_and (pg : mem_page) (p c x : Nat) :
    get_bit (unlock_here pg p c).bitmap_and x = (!decide (x = p) && get_bit pg.bitmap_and x) := by
  simp [unlock_here, get_bit_set_bit_0]

theorem unlock_above_or (pg : mem_page) (p c x : Nat) :
    get_bit (unlock_above pg p c).bitmap__or x =
      (!(decide (x = p) && !(get_bit pg.bitmap__or (p * 2) || get_bit pg.bitmap__or (p * 2 + 1)))
        && get_bit pg.bitmap__or x) := by
  unfold unlock_above
  dsimp only
  cases hl : get_bit pg.bitmap__or (p * 2) <;> cases hr : get_bit pg.bitmap__or (p * 2 + 1) <;>
    split_ifs <;> simp_all [get_bit_set_bit_0]

theorem unlock_above_and (pg : mem_page) (p c x : Nat) :
    get_bit (unlock_above pg p c).bitmap_and x = (!decide (x = p) && get_bit pg.bitmap_and x) := by
  unfold unlock_above
  dsimp only
  split_ifs <;> simp_all [get_bit_set_bit_0]

theorem unlock_above_fixed (pg : mem_page) (p c : Nat) :
    (unlock_above pg p c).units = pg.units ∧ (unlock_above pg p c).addr = pg.addr ∧
      (unlock_above pg p c).page_index = pg.page_index := by
  unfold unlock_above
  dsimp only
  split_ifs <;> simp

theorem unlock_go_fixed (max_level level : Nat) (fuel : Nat) : ∀ (pg : mem_page) (a cur : Nat),
    (unlock_go max_level fuel pg a cur level).units = pg.units ∧
    (unlock_go max_level fuel pg a cur level).addr = pg.addr ∧
    (unlock_go max_level fuel pg a cur level).page_index = pg.page_index := by
  induction fuel with
  | zero => intro pg a cur; simp [unlock_go]
  | succ f ih =>
    intro pg a cur
    unfold unlock_go
    split_ifs with h1 h2
    · obtain ⟨e1, e2, e3⟩ := ih (unlock_here pg a cur) (a / 2) (cur + 1)
      exact ⟨e1, e2, e3⟩
    · obtain ⟨e1, e2, e3⟩ := ih (unlock_above pg a cur) (a / 2) (cur + 1)
      obtain ⟨f1, f2, f3⟩ := unlock_above_fixed pg a cur
      exact ⟨e1.trans f1, e2.trans f2, e3.trans f3⟩
    · exact ⟨rfl, rfl, rfl⟩

/-- `unlock` only clears bits of `bitmap_and`, and those off the path from
the node to the root are left as they were. -/
theorem unlock_go_and_keep (max_level level : Nat) (fuel : Nat) :
    ∀ (pg : mem_page) (a cur x : Nat), (∀ j, a / 2 ^ j ≠ x) →
    get_bit (unlock_go max_level fuel pg a cur level).bitmap_and x = get_bit pg.bitmap_and x := by
  induction fuel with
  | zero => intro pg a cur x _; simp [unlock_go]
  | succ f ih =>
    intro pg a cur x hx
    have hxa : x ≠ a := by
      intro h
      exact hx 0 (by simp [h])
    have hx2 : ∀ j, a / 2 / 2 ^ j ≠ x := by
      intro j
      have := hx (j + 1)
      rwa [pow_succ, Nat.mul_comm, ← Nat.div_div_eq_div_mul] at this
    unfold unlock_go
    split_ifs with h1 h2
    · rw [ih _ _ _ _ hx2, unlock_here_and]; simp [hxa]
    · rw [ih _ _ _ _ hx2, unlock_above_and]; simp [hxa]
    · rfl

/-- `unlock` keeps `bitmap__or` set on every node that is an ancestor (or
self) of a node in `Q`, provided no node of `Q` lies on the path from the
unlocked node to the root, nor below the unlocked node. -/
theorem unlock_go_or_keep (max_level level : Nat) (Q : Nat → Prop) (fuel : Nat) :
    ∀ (pg : mem_page) (a cur : Nat), level ≤ cur →
    (cur = level → ∀ q, Q q → ∀ k, q / 2 ^ k ≠ a) →
    (∀ q, Q q → ∀ j, a / 2 ^ j ≠ q) →
    (∀ q, Q q → ∀ k, 1 ≤ q / 2 ^ k → get_bit pg.bitmap__or (q / 2 ^ k) = true) →
    ∀ q, Q q → ∀ k, 1 ≤ q / 2 ^ k →
      get_bit (unlock_go max_level fuel pg a cur level).bitmap__or (q / 2 ^ k) = true := by
  induction fuel with
  | zero => intro pg a cur _ _ _ h q hq k hk; simpa [unlock_go] using h q hq k hk
  | succ f ih =>
    intro pg a cur hle hhere hpath hor q hq k hk
    have hpath2 : ∀ q, Q q → ∀ j, a / 2 / 2 ^ j ≠ q := by
      intro q hq j
      have := hpath q hq (j + 1)
      rwa [pow_succ, Nat.mul_comm, ← Nat.div_div_eq_div_mul] at this
    have hne : cur + 1 = level → ∀ q, Q q → ∀ k, q / 2 ^ k ≠ a / 2 := by
      intro h; omega
    unfold unlock_go
    split_ifs with h1 h2
    · refine ih _ _ _ (by omega) hne hpath2 ?_ q hq k hk
      intro q' hq' k' hk'
      rw [unlock_here_or]
      have := hhere h1 q' hq' k'
      simp [this, hor q' hq' k' hk']
    · refine ih _ _ _ (by omega) hne hpath2 ?_ q hq k hk
      intro q' hq' k' hk'
      rw [unlock_above_or, hor q' hq' k' hk']
      by_cases hxa : q' / 2 ^ k' = a
      · -- the node is a proper ancestor of `q'`: one of its children is too
        have hk0 : k' ≠ 0 := by
          intro h0
          rw [h0] at hxa
          exact hpath q' hq' 0 (by simpa using hxa.symm)
        obtain ⟨m, rfl⟩ : ∃ m, k' = m + 1 := ⟨k' - 1, by omega⟩
        have hdiv : q' / 2 ^ (m + 1) = q' / 2 ^ m / 2 := by
          rw [pow_succ, Nat.div_div_eq_div_mul]
        rw [hdiv] at hxa hk'
        have hc1 : 1 ≤ q' / 2 ^ m := by omega
        have hc := hor q' hq' m hc1
        have hcases : q' / 2 ^ m = a * 2 ∨ q' / 2 ^ m = a * 2 + 1 := by omega
        rcases hcases with hc2 | hc2
        · rw [hc2] at hc; simp [hc]
        · rw [hc2] at hc; simp [hc]
      · simp [hxa]
    · exact hor q hq k hk

end mem_pool

namespace mem_pool

theorem U32_eq : U32 = 4294967296 := by norm_num [U32]

/-- For a node of level `level`, `node_to_index` is `node * 2^level - 2^max_level`
without wrap-around, and `index_to_node` leads back. -/
theorem node_index_arith (max_level level node : Nat) (hL : max_level ≤ 26)
    (hl : level ≤ max_level) (h1 : 2 ^ (max_level - level) ≤ node)
    (h2 : node < 2 ^ (max_level - level + 1)) :
    node_to_index max_level node level + 2 ^ max_level = node * 2 ^ level ∧
    node_to_index max_level node level < 2 ^ max_level ∧
    index_to_node max_level (node_to_index max_level node level) level = node := by
  have hsplit : 2 ^ (max_level - level) * 2 ^ level = 2 ^ max_level := by
    rw [← pow_add]; congr 1; omega
  have hB : 2 ^ max_level ≤ 2 ^ 26 := Nat.pow_le_pow_right (by norm_num) hL
  have hlo : 2 ^ max_level ≤ node * 2 ^ level := by
    rw [← hsplit]; exact Nat.mul_le_mul_right _ h1
  have hhi : node * 2 ^ level < 2 * 2 ^ max_level := by
    have : node * 2 ^ level < 2 ^ (max_level - level + 1) * 2 ^ level :=
      Nat.mul_lt_mul_of_pos_right h2 (Nat.two_pow_pos _)
    rw [pow_succ, Nat.mul_assoc, Nat.mul_comm 2, ← Nat.mul_assoc, hsplit] at this
    omega
  have hidx : node_to_index max_level node level = node * 2 ^ level - 2 ^ max_level := by
    simp only [node_to_index, sub32, Nat.shiftLeft_eq, Nat.one_mul, U32_eq]
    norm_num at hB
    omega
  refine ⟨by omega, by omega, ?_⟩
  rw [hidx]
  simp only [index_to_node, add32, Nat.shiftLeft_eq, Nat.one_mul, U32_eq, Nat.shiftRight_eq_div_pow]
  have : (node * 2 ^ level - 2 ^ max_level + 2 ^ max_level) % 4294967296 = node * 2 ^ level := by
    norm_num at hB
    omega
  rw [this]
  exact Nat.mul_div_cancel _ (Nat.two_pow_pos _)

/-- Two nodes, neither of which is the other or an ancestor of it, cover
disjoint ranges of units. -/
theorem disjoint_of_not_anc (L l1 l2 q1 q2 i1 i2 : Nat)
    (e1 : i1 + 2 ^ L = q1 * 2 ^ l1) (e2 : i2 + 2 ^ L = q2 * 2 ^ l2)
    (n12 : ∀ k, q1 / 2 ^ k ≠ q2) (n21 : ∀ k, q2 / 2 ^ k ≠ q1) :
    disjoint_units (i1, l1) (i2, l2) := by
  have key : ∀ (l1 l2 q1 q2 : Nat), l1 ≤ l2 → (∀ k, q1 / 2 ^ k ≠ q2) →
      (q1 + 1) * 2 ^ l1 ≤ q2 * 2 ^ l2 ∨ (q2 + 1) * 2 ^ l2 ≤ q1 * 2 ^ l1 := by
    intro l1 l2 q1 q2 hle hn
    obtain ⟨d, rfl⟩ : ∃ d, l2 = l1 + d := ⟨l2 - l1, by omega⟩
    have hne := hn d
    have hpos : 0 < 2 ^ d := Nat.two_pow_pos _
    have hmod := Nat.div_add_mod q1 (2 ^ d)
    have hlt := Nat.mod_lt q1 hpos
    rw [pow_add, Nat.mul_comm (2 ^ l1) (2 ^ d), ← Nat.mul_assoc, ← Nat.mul_assoc]
    rcases Nat.lt_or_gt_of_ne hne with h | h
    · left
      apply Nat.mul_le_mul_right
      calc q1 + 1 ≤ 2 ^ d * (q1 / 2 ^ d) + 2 ^ d := by omega
        _ = (q1 / 2 ^ d + 1) * 2 ^ d := by ring
        _ ≤ q2 * 2 ^ d := Nat.mul_le_mul_right _ h
    · right
      apply Nat.mul_le_mul_right
      calc (q2 + 1) * 2 ^ d ≤ (q1 / 2 ^ d) * 2 ^ d := Nat.mul_le_mul_right _ h
        _ ≤ q1 := Nat.div_mul_le_self _ _
  unfold disjoint_units
  simp only
  rcases Nat.le_total l1 l2 with h | h
  · rcases key l1 l2 q1 q2 h n12 with h' | h'
    · left
      have : (q1 + 1) * 2 ^ l1 = q1 * 2 ^ l1 + 2 ^ l1 := by ring
      omega
    · right
      have : (q2 + 1) * 2 ^ l2 = q2 * 2 ^ l2 + 2 ^ l2 := by ring
      omega
  · rcases key l2 l1 q2 q1 h n21 with h' | h'
    · right
      have : (q2 + 1) * 2 ^ l2 = q2 * 2 ^ l2 + 2 ^ l2 := by ring
      omega
    · left
      have : (q1 + 1) * 2 ^ l1 = q1 * 2 ^ l1 + 2 ^ l1 := by ring
      omega

end mem_pool

namespace mem_pool

theorem div_eq_one_bounds (n d : Nat) (hd : 0 < d) (h : n / d = 1) : d ≤ n ∧ n < 2 * d := by
  have h1 := Nat.div_add_mod n d
  have h2 := Nat.mod_lt n hd
  rw [h] at h1
  omega

theorem div_pow_zero_of_gt (n d k : Nat) (h : n / 2 ^ d = 1) (hk : d < k) : n / 2 ^ k = 0 := by
  have hb := (div_eq_one_bounds n (2 ^ d) (Nat.two_pow_pos _) h).2
  apply Nat.div_eq_of_lt
  have : 2 ^ (d + 1) ≤ 2 ^ k := Nat.pow_le_pow_right (by norm_num) hk
  rw [pow_succ] at this
  omega

theorem alloc_from_page_none (max_level : Nat) (pg pg1 : mem_page) (level : Nat)
    (h : lock pg 1 max_level level = (none, pg1)) :
    alloc_from_page max_level pg level = (none, pg1) := by
  unfold alloc_from_page
  rw [h]

theorem alloc_from_page_some (max_level : Nat) (pg pg1 : mem_page) (level node : Nat)
    (h : lock pg 1 max_level level = (some node, pg1)) :
    alloc_from_page max_level pg level =
      (some (node_to_index max_level node level),
        { pg1 with units := (Function.update pg1.units (node_to_index max_level node level)
            ⟨node_to_index max_level node level % 2 ^ 26, level % 2 ^ 5, 0⟩) }) := by
  unfold alloc_from_page
  rw [h]

theorem page_inv_fresh (max_level addr : Nat) : page_inv max_level (mem_page_new max_level addr) [] :=
  { nodup := List.nodup_nil
    valid := by intro s hs; cases hs
    hdr := by intro s hs; cases hs
    and_set := by intro s hs; cases hs
    or_set := by intro s hs; cases hs
    anti := by intro s hs; cases hs }

theorem page_inv_alloc (max_level : Nat) (hL : max_level ≤ 26) (pg : mem_page)
    (live : List (Nat × Nat)) (level index : Nat) (inv : page_inv max_level pg live)
    (h : (alloc_from_page max_level pg level).1 = some index) :
    page_inv max_level (alloc_from_page max_level pg level).2 ((index, level) :: live) := by
  rcases hlk : lock pg 1 max_level level with ⟨n, pg1⟩
  cases n with
  | none => rw [alloc_from_page_none _ _ _ _ hlk] at h; simp at h
  | some node =>
    rw [alloc_from_page_some _ _ _ _ _ hlk] at h ⊢
    simp only [Option.some.injEq] at h ⊢
    rw [h]
    obtain ⟨h1, h2, h3, h4, h5, h6, h7, h8, h9, h10, h11⟩ :=
      lock_some max_level pg 1 level node pg1 hlk
    obtain ⟨b1, b2⟩ := div_eq_one_bounds node _ (Nat.two_pow_pos _) h2
    have b2' : node < 2 ^ (max_level - level + 1) := by rw [pow_succ]; omega
    obtain ⟨a1, a2, a3⟩ := node_index_arith max_level level node hL h1 b1 b2'
    rw [h] at a1 a2 a3
    have hnode : seg_node max_level (index, level) = node := a3
    have hpath : ∀ k, 1 ≤ node / 2 ^ k → k ≤ max_level - level := by
      intro k hk
      by_contra hc
      have := div_pow_zero_of_gt node _ k h2 (by omega)
      omega
    -- the new node is unrelated to every live node
    have new_old : ∀ t ∈ live, ∀ k, node / 2 ^ k ≠ seg_node max_level t := by
      intro t ht k hk
      have hq := (inv.valid t ht).2.1
      have hq1 : 1 ≤ seg_node max_level t := le_trans (Nat.two_pow_pos _) hq
      have := h3 k (hpath k (by omega))
      rw [hk, inv.and_set t ht] at this
      exact absurd this (by simp)
    have old_new : ∀ s ∈ live, ∀ k, seg_node max_level s / 2 ^ k ≠ node := by
      intro s hs k hk
      have hn1 : 1 ≤ node := le_trans (Nat.two_pow_pos _) b1
      have := inv.or_set s hs k (by omega)
      rw [hk, h4] at this
      exact absurd this (by simp)
    have hfresh : (index, level) ∉ live := by
      intro hm
      exact new_old _ hm 0 (by simp [hnode])
    have hidx : ∀ s ∈ live, s.1 ≠ index := by
      intro s hs he
      obtain ⟨_, _, _, v4⟩ := inv.valid s hs
      have hd := disjoint_of_not_anc max_level s.2 level (seg_node max_level s) node s.1 index
        v4 a1 (old_new s hs) (new_old s hs)
      unfold disjoint_units at hd
      have p1 : 0 < 2 ^ s.2 := Nat.two_pow_pos _
      have p2 : 0 < 2 ^ level := Nat.two_pow_pos _
      simp only at hd
      omega
    have hB : 2 ^ max_level ≤ 2 ^ 26 := Nat.pow_le_pow_right (by norm_num) hL
    refine
      { nodup := List.nodup_cons.mpr ⟨hfresh, inv.nodup⟩
        valid := ?_, hdr := ?_, and_set := ?_, or_set := ?_, anti := ?_ }
    · intro s hs
      rcases List.mem_cons.mp hs with rfl | hs
      · exact ⟨h1, by rw [hnode]; exact b1, by rw [hnode]; exact b2', by rw [hnode]; exact a1⟩
      · exact inv.valid s hs
    · intro s hs
      rcases List.mem_cons.mp hs with rfl | hs
      · simp only [Function.update_same]
        have e1 : index % 2 ^ 26 = index := Nat.mod_eq_of_lt (by omega)
        have e2 : level % 2 ^ 5 = level := Nat.mod_eq_of_lt (by norm_num; omega)
        rw [e1, e2]
      · simp only
        rw [Function.update_noteq (hidx s hs), h9]
        exact inv.hdr s hs
    · intro s hs
      rcases List.mem_cons.mp hs with rfl | hs
      · simp only [hnode]; exact h8
      · exact h6 _ (inv.and_set s hs)
    · intro s hs k hk
      rcases List.mem_cons.mp hs with rfl | hs
      · rw [hnode] at hk ⊢
        exact (h5 _).mpr (Or.inl ⟨k, hpath k hk, rfl⟩)
      · exact (h5 _).mpr (Or.inr (inv.or_set s hs k hk))
    · intro s hs t ht hne k
      rcases List.mem_cons.mp hs with rfl | hs
      · rcases List.mem_cons.mp ht with rfl | ht
        · exact absurd rfl hne
        · rw [hnode]; exact new_old t ht k
      · rcases List.mem_cons.mp ht with rfl | ht
        · rw [hnode]; exact old_new s hs k
        · exact inv.anti s hs t ht hne k

theorem page_inv_free (max_level : Nat) (pg : mem_page) (live : List (Nat × Nat))
    (index level : Nat) (inv : page_inv max_level pg live) (hm : (index, level) ∈ live) :
    page_inv max_level (free_in_page max_level pg index) (live.erase (index, level)) := by
  have hmem : ∀ t, t ∈ live.erase (index, level) ↔ t ≠ (index, level) ∧ t ∈ live :=
    fun t => inv.nodup.mem_erase_iff
  have hfree : free_in_page max_level pg index =
      unlock_go max_level (max_level + 2 - level + 1) pg (seg_node max_level (index, level))
        level level := by
    unfold free_in_page unlock seg_node
    simp only [inv.hdr _ hm]
  rw [hfree]
  obtain ⟨f1, _, _⟩ := unlock_go_fixed max_level level (max_level + 2 - level + 1) pg
    (seg_node max_level (index, level)) level
  refine
    { nodup := inv.nodup.erase _
      valid := fun s hs => inv.valid s ((hmem s).mp hs).2
      hdr := ?_, and_set := ?_, or_set := ?_
      anti := fun s hs t ht => inv.anti s ((hmem s).mp hs).2 t ((hmem t).mp ht).2 }
  · intro s hs
    rw [f1]
    exact inv.hdr s ((hmem s).mp hs).2
  · intro s hs
    obtain ⟨hne, hs⟩ := (hmem s).mp hs
    rw [unlock_go_and_keep]
    · exact inv.and_set s hs
    · intro j
      exact inv.anti _ hm s hs (Ne.symm hne) j
  · intro s hs k hk
    obtain ⟨hne, hs⟩ := (hmem s).mp hs
    refine unlock_go_or_keep max_level level
      (fun q => ∃ t ∈ live, t ≠ (index, level) ∧ seg_node max_level t = q)
      _ pg _ level (le_refl _) ?_ ?_ ?_ _ ⟨s, hs, hne, rfl⟩ k hk
    · rintro _ q ⟨t, ht, htne, rfl⟩ k'
      exact inv.anti t ht _ hm htne k'
    · rintro q ⟨t, ht, htne, rfl⟩ j
      exact inv.anti _ hm t ht (Ne.symm htne) j
    · rintro q ⟨t, ht, _, rfl⟩ k' hk'
      exact inv.or_set t ht k' hk'

/-- Every state of a page under `alloc_from_page` and `free_to_page`
satisfies `page_inv`. -/
theorem page_reach_inv (max_level : Nat) (hL : max_level ≤ 26) (pg : mem_page)
    (live : List (Nat × Nat)) (h : page_reach max_level pg live) : page_inv max_level pg live := by
  induction h with
  | fresh addr => exact page_inv_fresh max_level addr
  | alloc level index _ hidx ih => exact page_inv_alloc max_level hL _ _ level index ih hidx
  | free index level _ hm ih => exact page_inv_free max_level _ _ index level ih hm

end mem_pool

namespace mem_pool

/-- C1 (fails on the code): in the run `gc_run` the root page 100 is the only
empty page, pages 200 and 300 each hold a live whole-page segment, and
`garbage_collection` releases page 300, a page that is not empty and was
never at the root, instead of page 100. -/
theorem gc_releases_live_page :
    (alloc_memory 9 8 init 6140 100).map (fun r => r.1) = some (Ptr.unit 100 0) ∧
    ((alloc_memory 9 8 init 6140 100).bind fun s1 =>
      alloc_memory 9 8 s1.2 6140 200).map (fun r => r.1) = some (Ptr.unit 200 0) ∧
    ((alloc_memory 9 8 init 6140 100).bind fun s1 =>
      (alloc_memory 9 8 s1.2 6140 200).bind fun s2 =>
      alloc_memory 9 8 s2.2 6140 300).map (fun r => r.1) = some (Ptr.unit 300 0) ∧
    gc_run.map (fun st => st.page_heap.map (page_view 9)) =
      some [(100, 0, true), (200, 0, false), (300, 0, false)] ∧
    gc_run.map (fun st => (read_header st (Ptr.unit 300 0))) = some (some ⟨0, 9, 0⟩) ∧
    gc_run.map (fun st => (garbage_collection 9 st).2.map (page_view 9)) =
      some [(300, 0, false)] ∧
    gc_run.map (fun st => (garbage_collection 9 st).1.page_heap.map (fun pg => pg.addr)) =
      some [200, 100] := by
  decide

/-- C2 (fails on the code): after `garbage_collection` in the run `gc_run`
the heap still holds page 100, which is `empty()`. -/
theorem gc_retains_empty_page :
    gc_run.map (fun st => (garbage_collection 9 st).1.page_heap.map (page_view 9)) =
      some [(200, 1, false), (100, 2, true)] ∧
    gc_run.map (fun st => get_page_count (garbage_collection 9 st).1) = some 2 := by
  decide

/-- C3: in every state of a page reached by `alloc_from_page` and
`free_to_page` (frees of live segments only), any two live segments occupy
disjoint unit ranges, and a node returned by `lock(1, max_level, level)` is
neither a live node, nor an ancestor of one, nor a descendant of one. -/
theorem live_segments_disjoint (max_level : Nat) (hL : max_level ≤ 26) (pg : mem_page)
    (live : List (Nat × Nat)) (h : page_reach max_level pg live) :
    live.Pairwise disjoint_units ∧
    ∀ (level node : Nat) (pg' : mem_page), lock pg 1 max_level level = (some node, pg') →
      ∀ s ∈ live, ¬ anc_or_self (seg_node max_level s) node ∧
        ¬ anc_or_self node (seg_node max_level s) := by
  have inv := page_reach_inv max_level hL pg live h
  constructor
  · apply inv.nodup.pairwise_of_forall_ne
    intro s hs t ht hne
    obtain ⟨_, _, _, v4⟩ := inv.valid s hs
    obtain ⟨_, _, _, w4⟩ := inv.valid t ht
    exact disjoint_of_not_anc max_level s.2 t.2 _ _ s.1 t.1 v4 w4
      (inv.anti s hs t ht hne) (inv.anti t ht s hs (Ne.symm hne))
  · intro level node pg' hlk s hs
    obtain ⟨h1, h2, h3, h4, -⟩ := lock_some max_level pg 1 level node pg' hlk
    obtain ⟨b1, _⟩ := div_eq_one_bounds node _ (Nat.two_pow_pos _) h2
    have hn1 : 1 ≤ node := le_trans (Nat.two_pow_pos _) b1
    have hq1 : 1 ≤ seg_node max_level s := le_trans (Nat.two_pow_pos _) (inv.valid s hs).2.1
    constructor
    · rintro ⟨k, hk⟩
      have hk' : k ≤ max_level - level := by
        by_contra hc
        have := div_pow_zero_of_gt node _ k h2 (by omega)
        omega
      have := h3 k hk'
      rw [hk, inv.and_set s hs] at this
      exact absurd this (by simp)
    · rintro ⟨k, hk⟩
      have := inv.or_set s hs k (by omega)
      rw [hk, h4] at this
      exact absurd this (by simp)

/-- C3 at a concrete page: after a 1-unit and a 2-unit allocation on a fresh
page with `max_level = 9`. -/
theorem live_segments_disjoint_witness :
    9 ≤ 26 ∧ page_reach 9 two_segment_page [(2, 1), (0, 0)] ∧
    ([(2, 1), (0, 0)] : List (Nat × Nat)).Pairwise disjoint_units ∧
    ∀ (level node : Nat) (pg' : mem_page), lock two_segment_page 1 9 level = (some node, pg') →
      ∀ s ∈ [(2, 1), (0, 0)], ¬ anc_or_self (seg_node 9 s) node ∧
        ¬ anc_or_self node (seg_node 9 s) :=
  have hr : page_reach 9 two_segment_page [(2, 1), (0, 0)] :=
    page_reach.alloc 1 2 (page_reach.alloc 0 0 (page_reach.fresh 100) (by decide)) (by decide)
  ⟨by decide, hr, live_segments_disjoint 9 (by decide) _ _ hr⟩

end mem_pool

namespace mem_pool

/-- The bound on the calls of `unlock_go` is never reached: from level
`cur` on, `max_level + 2 - cur` calls are made, and more fuel changes
nothing. -/
theorem unlock_go_fuel (max_level level : Nat) (hl : level ≤ max_level) (fuel : Nat) :
    ∀ (pg : mem_page) (p cur : Nat), level ≤ cur → max_level + 2 - cur ≤ fuel →
    unlock_go max_level fuel pg p cur level =
      unlock_go max_level (max_level + 2 - cur) pg p cur level := by
  induction fuel with
  | zero =>
    intro pg p cur _ hf
    have : max_level + 2 - cur = 0 := by omega
    rw [this]
  | succ f ih =>
    intro pg p cur hc hf
    by_cases hmax : cur ≤ max_level
    · obtain ⟨n, hn⟩ : ∃ n, max_level + 2 - cur = n + 1 := ⟨max_level + 1 - cur, by omega⟩
      have hn' : max_level + 2 - (cur + 1) = n := by omega
      rw [hn]
      unfold unlock_go
      split_ifs with h1
      · rw [ih _ _ _ (by omega) (by omega), hn']
      · rw [ih _ _ _ (by omega) (by omega), hn']
    · have hne : cur ≠ level := by omega
      have e1 : unlock_go max_level (f + 1) pg p cur level = pg := by
        unfold unlock_go
        simp [hne, hmax]
      rw [e1]
      rcases Nat.eq_zero_or_pos (max_level + 2 - cur) with h0 | hpos
      · rw [h0]; rfl
      · obtain ⟨n, hn⟩ : ∃ n, max_level + 2 - cur = n + 1 := ⟨max_level + 1 - cur, by omega⟩
        rw [hn]
        unfold unlock_go
        simp [hne, hmax]

end mem_pool

namespace mem_pool

/-! ### Size-to-level arithmetic (Variant B) -/

theorem ceil_div_le_iff (a m x : Nat) (hm : 0 < m) : (a + m - 1) / m ≤ x ↔ a ≤ m * x := by
  rw [← Nat.lt_succ_iff, Nat.div_lt_iff_lt_mul hm, Nat.succ_mul, Nat.mul_comm x m]
  omega

theorem level_loop_spec (uc : Nat) : ∀ (fuel level : Nat), level + fuel ≤ 32 → 1 ≤ fuel →
    uc ≤ 2 ^ (level + fuel - 1) → (∀ j, j < level → 2 ^ j < uc) →
    uc ≤ 2 ^ level_loop uc fuel level ∧ level_loop uc fuel level ≤ level + fuel - 1 ∧
      ∀ j, j < level_loop uc fuel level → 2 ^ j < uc := by
  intro fuel
  induction fuel with
  | zero => intro level _ h; omega
  | succ f ih =>
    intro level hb _ hub hlow
    have hlt : (2 : Nat) ^ level < 2 ^ 32 := Nat.pow_lt_pow_right (by norm_num) (by omega)
    have hsh : (1 <<< level) % U32 = 2 ^ level := by
      rw [Nat.one_shiftLeft, U32]
      exact Nat.mod_eq_of_lt hlt
    unfold level_loop
    rw [hsh]
    split_ifs with hc
    · have hf : 1 ≤ f := by
        by_contra h0
        have : f = 0 := by omega
        subst this
        simp at hub
        omega
      have := ih (level + 1) (by omega) hf (by
        have : level + 1 + f - 1 = level + (f + 1) - 1 := by omega
        rw [this]; exact hub) (by
        intro j hj
        rcases Nat.lt_or_ge j level with h | h
        · exact hlow j h
        · have : j = level := by omega
          rw [this]; exact hc)
      refine ⟨this.1, by omega, this.2.2⟩
    · exact ⟨by omega, by omega, hlow⟩

theorem calc_unit_alloc_count_le (ptr size : Nat) (hp : ptr = 4 ∨ ptr = 8) :
    calc_unit_alloc_count ptr size ≤ 2 ^ 31 := by
  rcases hp with rfl | rfl <;>
    simp only [calc_unit_alloc_count, add32, M, K, U32_eq] <;> omega

/-- The level computed by the `while` loop is the least `l` with
`unit_count ≤ 2^l`. -/
theorem calc_level_least (ptr size : Nat) (hp : ptr = 4 ∨ ptr = 8) :
    calc_unit_alloc_count ptr size ≤ 2 ^ calc_level ptr size ∧ calc_level ptr size ≤ 31 ∧
      ∀ j, j < calc_level ptr size → 2 ^ j < calc_unit_alloc_count ptr size := by
  have := level_loop_spec (calc_unit_alloc_count ptr size) 32 0 (by norm_num) (by norm_num)
    (by simpa using calc_unit_alloc_count_le ptr size hp) (by intro j hj; omega)
  simpa [calc_level] using this

theorem calc_level_le_of_le (ptr size l : Nat) (hp : ptr = 4 ∨ ptr = 8)
    (h : calc_unit_alloc_count ptr size ≤ 2 ^ l) : calc_level ptr size ≤ l := by
  by_contra hc
  have := (calc_level_least ptr size hp).2.2 l (by omega)
  omega

theorem two_pow_le_26 (l : Nat) (h : l ≤ 26) : 2 ^ l ≤ 67108864 := by
  have : 2 ^ l ≤ 2 ^ 26 := Nat.pow_le_pow_right (by norm_num) h
  simpa using this

/-- Without wrap-around, `calc_unit_alloc_count(size)` is at most `2^l` exactly
when `size + K` fits `2^l` units. -/
theorem unit_count_le_iff (ptr size l : Nat) (hs : size + K + M ptr ≤ U32) :
    calc_unit_alloc_count ptr size ≤ 2 ^ l ↔ size + K ≤ M ptr * 2 ^ l := by
  have hM : 0 < M ptr := by unfold M; omega
  have e : calc_unit_alloc_count ptr size = (size + K + M ptr - 1) / M ptr := by
    unfold calc_unit_alloc_count add32
    have h1 : (size + K) % U32 = size + K := Nat.mod_eq_of_lt (by omega)
    rw [h1, Nat.mod_eq_of_lt (by omega)]
  rw [e, ceil_div_le_iff _ _ _ hM]

theorem calc_page_max_alloc_eq (max_level ptr : Nat) (hL : max_level ≤ 26)
    (hp : ptr = 4 ∨ ptr = 8) :
    calc_page_max_alloc max_level ptr + K = M ptr * 2 ^ max_level := by
  have h26 := two_pow_le_26 max_level hL
  have hpos : 0 < 2 ^ max_level := Nat.two_pow_pos _
  rcases hp with rfl | rfl <;>
    simp only [calc_page_max_alloc, sub32, N, Nat.one_shiftLeft, M, K, U32_eq] <;> omega

theorem calc_level_max_alloc_eq (ptr level : Nat) (hl : level ≤ 26) (hp : ptr = 4 ∨ ptr = 8) :
    calc_level_max_alloc ptr level + K = M ptr * 2 ^ level := by
  have h26 := two_pow_le_26 level hl
  have hpos : 0 < 2 ^ level := Nat.two_pow_pos _
  rcases hp with rfl | rfl <;>
    simp only [calc_level_max_alloc, sub32, Nat.one_shiftLeft, M, K, U32_eq] <;> omega

/-- The class chosen for an in-page request (Variant B). -/
theorem calc_level_in_page (max_level ptr size : Nat) (hL : max_level ≤ 26)
    (hp : ptr = 4 ∨ ptr = 8) (hs : size + K ≤ M ptr * 2 ^ max_level) :
    calc_level ptr size ≤ max_level ∧ size + K ≤ M ptr * 2 ^ calc_level ptr size ∧
      ∀ l, size + K ≤ M ptr * 2 ^ l → calc_level ptr size ≤ l := by
  have h26 := two_pow_le_26 max_level hL
  have hnw : size + K + M ptr ≤ U32 := by
    rcases hp with rfl | rfl <;> simp only [M, K, U32_eq] at hs ⊢ <;> omega
  have hleast : ∀ l, size + K ≤ M ptr * 2 ^ l → calc_level ptr size ≤ l := fun l hl =>
    calc_level_le_of_le ptr size l hp ((unit_count_le_iff ptr size l hnw).mpr hl)
  exact ⟨hleast _ hs,
    (unit_count_le_iff ptr size _ hnw).mp (calc_level_least ptr size hp).1, hleast⟩

end mem_pool

namespace mem_pool_v3

/-! ### Size-to-layer arithmetic (Variant S) -/

theorem get_segment_size_eq (ptr l : Nat) (hp : ptr = 4 ∨ ptr = 8) (hl : l ≤ 26) :
    get_segment_size ptr l = MEM_BASE_SIZE ptr * 2 ^ l := by
  have h26 := mem_pool.two_pow_le_26 l hl
  unfold get_segment_size
  rw [Nat.shiftLeft_eq]
  apply Nat.mod_eq_of_lt
  rcases hp with rfl | rfl <;> simp only [MEM_BASE_SIZE, mem_pool.U32_eq] <;> omega

/-- `std::lower_bound` returns the partition point of `comp` on
`[first, first + len)` when `comp` is downward closed below `hi`. -/
theorem lower_bound_spec (comp : Nat → Bool) (hi : Nat)
    (mono : ∀ i j, i ≤ j → j < hi → comp j = true → comp i = true) :
    ∀ (fuel first len : Nat), len ≤ fuel → first + len ≤ hi →
      first ≤ lower_bound comp fuel first len ∧ lower_bound comp fuel first len ≤ first + len ∧
      (∀ i, first ≤ i → i < lower_bound comp fuel first len → comp i = true) ∧
      (lower_bound comp fuel first len < first + len →
        comp (lower_bound comp fuel first len) = false) := by
  intro fuel
  induction fuel with
  | zero =>
    intro first len h _
    have : len = 0 := by omega
    subst this
    refine ⟨by simp [lower_bound], by simp [lower_bound], ?_, by simp [lower_bound]⟩
    intro i h1 h2
    simp only [lower_bound] at h2
    omega
  | succ f ih =>
    intro first len hlen hhi
    by_cases hpos : len > 0
    · have hhalf : len / 2 < len := Nat.div_lt_self hpos (by norm_num)
      by_cases hc : comp (first + len / 2) = true
      · have e : lower_bound comp (f + 1) first len =
            lower_bound comp f (first + len / 2 + 1) (len - len / 2 - 1) := by
          rw [lower_bound]; simp [hpos, hc]
        rw [e]
        obtain ⟨a1, a2, a3, a4⟩ :=
          ih (first + len / 2 + 1) (len - len / 2 - 1) (by omega) (by omega)
        refine ⟨by omega, by omega, ?_, ?_⟩
        · intro i hi1 hi2
          rcases Nat.lt_or_ge (first + len / 2) i with h | h
          · exact a3 i (by omega) hi2
          · exact mono i (first + len / 2) h (by omega) hc
        · intro hlt
          exact a4 (by omega)
      · have e : lower_bound comp (f + 1) first len = lower_bound comp f first (len / 2) := by
          rw [lower_bound]; simp [hpos, hc]
        rw [e]
        obtain ⟨a1, a2, a3, a4⟩ := ih first (len / 2) (by omega) (by omega)
        refine ⟨a1, by omega, a3, ?_⟩
        intro hlt
        rcases Nat.lt_or_ge (lower_bound comp f first (len / 2)) (first + len / 2) with h | h
        · exact a4 h
        · have : lower_bound comp f first (len / 2) = first + len / 2 := by omega
          rw [this]
          simpa using hc
    · have : len = 0 := by omega
      subst this
      have e : lower_bound comp (f + 1) first 0 = first := by
        rw [lower_bound]; simp
      rw [e]
      refine ⟨le_refl _, by omega, ?_, by omega⟩
      intro i h1 h2
      omega

/-- The layer chosen by `alloc_memory` (Variant S): the least layer whose
segment size reaches `size2`, for a `size2` that the largest layer can hold. -/
theorem select_layer_spec (layer_count ptr size2 : Nat) (hp : ptr = 4 ∨ ptr = 8)
    (h1 : 1 ≤ layer_count) (h26 : layer_count ≤ 26)
    (hmax : size2 ≤ get_max_segment layer_count ptr) :
    select_layer layer_count ptr size2 ≤ layer_count - 1 ∧
    size2 ≤ MEM_BASE_SIZE ptr * 2 ^ select_layer layer_count ptr size2 ∧
    ∀ l, size2 ≤ MEM_BASE_SIZE ptr * 2 ^ l → select_layer layer_count ptr size2 ≤ l := by
  have hmono : ∀ i j, i ≤ j → j < layer_count →
      (fun l => decide (get_segment_size ptr l < size2)) j = true →
      (fun l => decide (get_segment_size ptr l < size2)) i = true := by
    intro i j hij hj hc
    simp only [decide_eq_true_eq] at hc ⊢
    rw [get_segment_size_eq ptr i hp (by omega)]
    rw [get_segment_size_eq ptr j hp (by omega)] at hc
    have : 2 ^ i ≤ 2 ^ j := Nat.pow_le_pow_right (by norm_num) hij
    have := Nat.mul_le_mul_left (MEM_BASE_SIZE ptr) this
    omega
  obtain ⟨_, a2, a3, a4⟩ :=
    lower_bound_spec _ layer_count hmono layer_count 0 layer_count (le_refl _) (by omega)
  have hsel : select_layer layer_count ptr size2 =
      lower_bound (fun l => decide (get_segment_size ptr l < size2)) layer_count 0 layer_count :=
    rfl
  rw [← hsel] at a2 a3 a4
  have hle : select_layer layer_count ptr size2 ≤ layer_count - 1 := by
    by_contra hc
    have := a3 (layer_count - 1) (by omega) (by omega)
    simp only [decide_eq_true_eq] at this
    unfold get_max_segment MEM_MAX_LAYER at hmax
    omega
  have hfit : size2 ≤ MEM_BASE_SIZE ptr * 2 ^ select_layer layer_count ptr size2 := by
    have := a4 (by omega)
    simp only [decide_eq_false_iff_not, not_lt] at this
    rwa [get_segment_size_eq ptr _ hp (by omega)] at this
  refine ⟨hle, hfit, ?_⟩
  intro l hl
  by_contra hc
  have hlt : l < select_layer layer_count ptr size2 := by omega
  have := a3 l (by omega) hlt
  simp only [decide_eq_true_eq] at this
  rw [get_segment_size_eq ptr l hp (by omega)] at this
  omega

end mem_pool_v3

/-- C4 (fails on the code): a request of `2^32 - 1` bytes is answered with a
non-null address in both variants, but `size + K` wraps around: Variant B
asks the platform for 3 bytes, fewer than the header itself, and Variant S
hands out a segment of layer 0, which has 16 data bytes. -/
theorem alloc_wraps_to_short_block :
    (mem_pool.alloc_memory 9 8 mem_pool.init 4294967295 100).map (fun r => r.1) =
      some (Ptr.block 100) ∧
    (mem_pool.alloc_memory 9 8 mem_pool.init 4294967295 100).map
      (fun r => (r.2.blocks 100).map (fun b => b.2)) = some (some 3) ∧
    (mem_pool_v3.alloc_memory 8 8 mem_pool_v3.init 4294967295 100).map
      (fun r => (r.1, mem_pool_v3.read_header r.2 r.1)) =
      some (Ptr.unit 100 0, some ⟨0, 1, 0⟩) ∧
    mem_pool_v3.get_segment_data_size 8 0 = 16 := by
  decide

/-- The class computed for a request that fits a page: the level of
Variant B (`calc_level`) and the layer of Variant S (`select_layer`) are the
least class whose segment holds `size` plus the header, they lie in the
valid range, the direct-path test fails, and `std::lower_bound` never yields
`layers + layer_count` once that test has failed. -/
theorem class_index_least (max_level layer_count ptr size : Nat) (hp : ptr = 4 ∨ ptr = 8)
    (hL : max_level ≤ 26) (hc1 : 1 ≤ layer_count) (hc : layer_count ≤ 26) :
    (size + mem_pool.K ≤ mem_pool.M ptr * 2 ^ max_level →
      ¬ (size > mem_pool.calc_page_max_alloc max_level ptr) ∧
      mem_pool.calc_level ptr size ≤ max_level ∧
      size + mem_pool.K ≤ mem_pool.M ptr * 2 ^ mem_pool.calc_level ptr size ∧
      ∀ l, size + mem_pool.K ≤ mem_pool.M ptr * 2 ^ l → mem_pool.calc_level ptr size ≤ l) ∧
    (size + mem_pool_v3.HDR ptr ≤ mem_pool_v3.MEM_BASE_SIZE ptr * 2 ^ (layer_count - 1) →
      ¬ (mem_pool_v3.calc_segment_require_size ptr size >
          mem_pool_v3.get_max_segment layer_count ptr) ∧
      mem_pool_v3.select_layer layer_count ptr (mem_pool_v3.calc_segment_require_size ptr size)
        ≤ layer_count - 1 ∧
      size + mem_pool_v3.HDR ptr ≤ mem_pool_v3.MEM_BASE_SIZE ptr *
        2 ^ mem_pool_v3.select_layer layer_count ptr
          (mem_pool_v3.calc_segment_require_size ptr size) ∧
      ∀ l, size + mem_pool_v3.HDR ptr ≤ mem_pool_v3.MEM_BASE_SIZE ptr * 2 ^ l →
        mem_pool_v3.select_layer layer_count ptr
          (mem_pool_v3.calc_segment_require_size ptr size) ≤ l) ∧
    (∀ size2, ¬ (size2 > mem_pool_v3.get_max_segment layer_count ptr) →
      mem_pool_v3.select_layer layer_count ptr size2 ≠ layer_count) := by
  refine ⟨?_, ?_, ?_⟩
  · intro hs
    have hmax := mem_pool.calc_page_max_alloc_eq max_level ptr hL hp
    exact ⟨by omega, mem_pool.calc_level_in_page max_level ptr size hL hp hs⟩
  · intro hs
    have h26 := mem_pool.two_pow_le_26 (layer_count - 1) (by omega)
    have hmaxeq : mem_pool_v3.get_max_segment layer_count ptr =
        mem_pool_v3.MEM_BASE_SIZE ptr * 2 ^ (layer_count - 1) :=
      mem_pool_v3.get_segment_size_eq ptr _ hp (by unfold mem_pool_v3.MEM_MAX_LAYER; omega)
    have hreq : mem_pool_v3.calc_segment_require_size ptr size = size + mem_pool_v3.HDR ptr := by
      unfold mem_pool_v3.calc_segment_require_size add32
      apply Nat.mod_eq_of_lt
      rcases hp with rfl | rfl <;>
        simp only [mem_pool_v3.MEM_BASE_SIZE, mem_pool_v3.HDR, mem_pool.U32_eq] at hs ⊢ <;> omega
    rw [hreq]
    have := mem_pool_v3.select_layer_spec layer_count ptr (size + mem_pool_v3.HDR ptr) hp hc1 hc
      (by rw [hmaxeq]; exact hs)
    exact ⟨by rw [hmaxeq]; omega, this⟩
  · intro size2 h2
    have := (mem_pool_v3.select_layer_spec layer_count ptr size2 hp hc1 hc (by omega)).1
    omega

namespace mem_pool

/-! ### The facade of Variant B -/

theorem lock_clear_some (cur : Nat) : ∀ (pg : mem_page) (p level : Nat), level ≤ cur →
    (∀ x, get_bit pg.bitmap_and x = false) → (∀ x, get_bit pg.bitmap__or x = false) →
    ∃ node, (lock pg p cur level).1 = some node := by
  induction cur with
  | zero =>
    intro pg p level hl ha ho
    have : level = 0 := by omega
    subst this
    rw [lock_of_eq _ _ _ (ha p)]
    simp [ho p]
  | succ c ih =>
    intro pg p level hl ha ho
    rcases Nat.eq_or_lt_of_le hl with heq | hlt
    · subst heq
      rw [lock_of_eq _ _ _ (ha p)]
      simp [ho p]
    · rw [lock_of_gt _ _ _ _ (ha p) hlt]
      obtain ⟨node, hn⟩ := ih pg (p * 2) level (by omega) ha ho
      rcases hL : lock pg (p * 2) c level with ⟨nl, pl⟩
      rw [hL] at hn
      simp only at hn
      subst hn
      exact ⟨node, rfl⟩

/-- On a page just constructed, `alloc_from_page` succeeds at every level
up to `max_level`. -/
theorem alloc_from_page_fresh (max_level addr level : Nat) (hl : level ≤ max_level) :
    ∃ index, (alloc_from_page max_level (mem_page_new max_level addr) level).1 = some index := by
  obtain ⟨node, hn⟩ := lock_clear_some max_level (mem_page_new max_level addr) 1 level hl
    (by intro x; simp [mem_page_new, get_bit]) (by intro x; simp [mem_page_new, get_bit])
  rcases hL : lock (mem_page_new max_level addr) 1 max_level level with ⟨nl, pl⟩
  rw [hL] at hn
  simp only at hn
  subst hn
  rw [alloc_from_page_some _ _ _ _ _ hL]
  exact ⟨_, rfl⟩

theorem alloc_from_page_fail (max_level : Nat) (pg : mem_page) (level : Nat)
    (h : (alloc_from_page max_level pg level).1 = none) :
    (alloc_from_page max_level pg level).2 = pg := by
  rcases hL : lock pg 1 max_level level with ⟨nl, pl⟩
  cases nl with
  | none =>
    rw [alloc_from_page_none _ _ _ _ hL]
    have := lock_none max_level pg 1 level
    rw [hL] at this
    exact this rfl
  | some node =>
    rw [alloc_from_page_some _ _ _ _ _ hL] at h
    simp at h

/-- What a call of `alloc_new_page` that returns has done: the platform
gave a page, and payload bytes and blocks are as before. -/
theorem alloc_new_page_fixed (max_level : Nat) (st st1 : state) (level plat : Nat) (p : Ptr)
    (h : alloc_new_page max_level st level plat = some (p, st1)) :
    plat ≠ 0 ∧ st1.data = st.data ∧ st1.blocks = st.blocks ∧
    (p = Ptr.null ∨ ∃ index, p = Ptr.unit plat index) := by
  unfold alloc_new_page at h
  split_ifs at h with h0
  dsimp only at h
  split at h
  · simp only [Option.some.injEq, Prod.mk.injEq] at h
    obtain ⟨rfl, rfl⟩ := h
    exact ⟨h0, rfl, rfl, Or.inr ⟨_, rfl⟩⟩
  · simp only [Option.some.injEq, Prod.mk.injEq] at h
    obtain ⟨rfl, rfl⟩ := h
    exact ⟨h0, rfl, rfl, Or.inl rfl⟩

/-- For a level of the page, `alloc_new_page` does not return null. -/
theorem alloc_new_page_null (max_level : Nat) (st st1 : state) (level plat : Nat)
    (hl : level ≤ max_level) :
    alloc_new_page max_level st level plat ≠ some (Ptr.null, st1) := by
  intro h
  unfold alloc_new_page at h
  split_ifs at h with h0
  obtain ⟨index, hi⟩ := alloc_from_page_fresh max_level plat level hl
  dsimp only at h
  rw [hi] at h
  simp at h

/-- With a page from the platform, `alloc_new_page` returns. -/
theorem alloc_new_page_returns (max_level : Nat) (st : state) (level plat : Nat)
    (h0 : plat ≠ 0) : ∃ r, alloc_new_page max_level st level plat = some r := by
  unfold alloc_new_page
  rw [if_neg h0]
  dsimp only
  split
  · exact ⟨_, rfl⟩
  · exact ⟨_, rfl⟩

theorem alloc_direct_fixed (st : state) (size plat : Nat) :
    (alloc_direct st size plat).2.data = st.data ∧ (alloc_direct st size plat).1 = plat ∧
    (plat = 0 → (alloc_direct st size plat).2 = st) ∧
    (plat ≠ 0 →
      (alloc_direct st size plat).2.blocks plat = some (⟨0, 0, 1⟩, add32 size K)) := by
  unfold alloc_direct
  split_ifs with h
  · exact ⟨rfl, h.symm, fun _ => rfl, fun h' => absurd h h'⟩
  · exact ⟨rfl, rfl, fun h' => absurd h' h, fun _ => by simp⟩

/-- What `alloc_memory` returns, by cases: null; or a block of `size + K`
bytes (modulo `2^32`) from the platform; or a unit of a page, the request
being within `calc_page_max_alloc()`. -/
theorem alloc_memory_cases (max_level ptr : Nat) (st st1 : state) (size plat : Nat) (p : Ptr)
    (h : alloc_memory max_level ptr st size plat = some (p, st1)) :
    st1.data = st.data ∧
    (p = Ptr.null ∨
     (size > calc_page_max_alloc max_level ptr ∧ p = Ptr.block plat ∧
       st1.blocks plat = some (⟨0, 0, 1⟩, add32 size K)) ∨
     (¬ size > calc_page_max_alloc max_level ptr ∧ st1.blocks = st.blocks ∧
       ∃ page index, p = Ptr.unit page index)) := by
  unfold alloc_memory at h
  dsimp only at h
  split_ifs at h with h0 hbig hnull
  · simp only [Option.some.injEq, Prod.mk.injEq] at h
    obtain ⟨rfl, rfl⟩ := h
    exact ⟨rfl, Or.inl rfl⟩
  · simp only [Option.some.injEq, Prod.mk.injEq] at h
    obtain ⟨rfl, rfl⟩ := h
    exact ⟨(alloc_direct_fixed st size plat).1, Or.inl rfl⟩
  · simp only [Option.some.injEq, Prod.mk.injEq] at h
    obtain ⟨rfl, rfl⟩ := h
    obtain ⟨e1, e2, _, e4⟩ := alloc_direct_fixed st size plat
    rw [e2] at hnull ⊢
    exact ⟨e1, Or.inr (Or.inl ⟨hbig, rfl, e4 hnull⟩)⟩
  · cases hh : st.page_heap with
    | nil =>
      rw [hh] at h
      simp only [] at h
      obtain ⟨_, e1, e2, e3⟩ := alloc_new_page_fixed max_level st st1 _ plat p h
      refine ⟨e1, ?_⟩
      rcases e3 with e3 | ⟨index, e3⟩
      · exact Or.inl e3
      · exact Or.inr (Or.inr ⟨hbig, e2, plat, index, e3⟩)
    | cons ppage rest =>
      rw [hh] at h
      simp only [] at h
      cases hr : (alloc_from_page max_level ppage (calc_level ptr size)).1 with
      | some index =>
        rw [hr] at h
        simp only [Option.some.injEq, Prod.mk.injEq] at h
        obtain ⟨rfl, rfl⟩ := h
        exact ⟨rfl, Or.inr (Or.inr ⟨hbig, rfl, _, _, rfl⟩)⟩
      | none =>
        rw [hr] at h
        simp only [] at h
        obtain ⟨_, e1, e2, e3⟩ := alloc_new_page_fixed max_level _ st1 _ plat p h
        refine ⟨e1, ?_⟩
        rcases e3 with e3 | ⟨index, e3⟩
        · exact Or.inl e3
        · exact Or.inr (Or.inr ⟨hbig, e2, plat, index, e3⟩)

/-- A null result of `alloc_memory` leaves the state as it was, and for a
non-zero size it means that `malloc` refused a block of its own. -/
theorem alloc_memory_null (max_level ptr : Nat) (st st1 : state) (size plat : Nat)
    (hL : max_level ≤ 26) (hp : ptr = 4 ∨ ptr = 8)
    (h : alloc_memory max_level ptr st size plat = some (Ptr.null, st1)) :
    st1 = st ∧ (size = 0 ∨ (plat = 0 ∧ size > calc_page_max_alloc max_level ptr)) := by
  unfold alloc_memory at h
  dsimp only at h
  split_ifs at h with h0 hbig hnull
  · simp only [Option.some.injEq, Prod.mk.injEq, true_and] at h
    exact ⟨h.symm, Or.inl h0⟩
  · simp only [Option.some.injEq, Prod.mk.injEq, true_and] at h
    obtain ⟨_, e2, e3, _⟩ := alloc_direct_fixed st size plat
    rw [e2] at hnull
    rw [e3 hnull] at h
    exact ⟨h.symm, Or.inr ⟨hnull, hbig⟩⟩
  · simp at h
  · exfalso
    have hlev : calc_level ptr size ≤ max_level := by
      have hmax := calc_page_max_alloc_eq max_level ptr hL hp
      exact (calc_level_in_page max_level ptr size hL hp (by omega)).1
    cases hh : st.page_heap with
    | nil =>
      rw [hh] at h
      simp only [] at h
      exact alloc_new_page_null max_level st st1 _ plat hlev h
    | cons ppage rest =>
      rw [hh] at h
      simp only [] at h
      cases hr : (alloc_from_page max_level ppage (calc_level ptr size)).1 with
      | some index =>
        rw [hr] at h
        simp at h
      | none =>
        rw [hr] at h
        simp only [] at h
        exact alloc_new_page_null max_level _ st1 _ plat hlev h

theorem free_memory_unit_fixed (max_level : Nat) (st st' : state) (page index : Nat)
    (h : free_memory max_level st (Ptr.unit page index) = some st') :
    st'.data = st.data ∧ st'.blocks = st.blocks := by
  unfold free_memory at h
  simp only at h
  split at h
  · simp at h
  · split_ifs at h
    unfold free_to_page at h
    split at h
    · simp at h
    · dsimp only at h
      split_ifs at h
      simp only [Option.some.injEq] at h
      subst h
      exact ⟨rfl, rfl⟩

end mem_pool

namespace mem_pool_v3

/-! ### The facade of Variant S -/

theorem alloc_segment_some (ptr l : Nat) (st st' : state) (p : Ptr)
    (h : alloc_segment ptr l st = some (p, st')) :
    (∃ page j, p = Ptr.unit page j) ∧ st'.data = st.data ∧ st'.blocks = st.blocks := by
  unfold alloc_segment at h
  split at h
  · simp at h
  · split at h
    · simp at h
    · split at h
      · simp at h
      · simp only [Option.some.injEq, Prod.mk.injEq] at h
        obtain ⟨rfl, rfl⟩ := h
        exact ⟨⟨_, _, rfl⟩, rfl, rfl⟩

theorem alloc_page_fixed (st st1 : state) (plat : Nat) (p_page : mem_page)
    (h : alloc_page st plat = some (p_page, st1)) :
    st1.data = st.data ∧ st1.blocks = st.blocks := by
  unfold alloc_page at h
  split at h
  · split_ifs at h
    simp only [Option.some.injEq, Prod.mk.injEq] at h
    obtain ⟨_, rfl⟩ := h
    exact ⟨rfl, rfl⟩
  · simp only [Option.some.injEq, Prod.mk.injEq] at h
    obtain ⟨_, rfl⟩ := h
    exact ⟨rfl, rfl⟩

theorem alloc_in_layer_some (layer_count ptr : Nat) (st st' : state) (l plat : Nat) (p : Ptr)
    (h : alloc_in_layer layer_count ptr st l plat = some (p, st')) :
    st'.data = st.data ∧ st'.blocks = st.blocks ∧ ∃ page j, p = Ptr.unit page j := by
  unfold alloc_in_layer at h
  split_ifs at h with he
  · cases hp : alloc_page st plat with
    | none => rw [hp] at h; simp at h
    | some r =>
      obtain ⟨p_page, st1⟩ := r
      rw [hp] at h
      simp only at h
      obtain ⟨e1, e2⟩ := alloc_page_fixed st st1 plat p_page hp
      obtain ⟨a1, a2, a3⟩ := alloc_segment_some _ _ _ _ _ h
      exact ⟨a2.trans e1, a3.trans e2, a1⟩
  · obtain ⟨a1, a2, a3⟩ := alloc_segment_some _ _ _ _ _ h
    exact ⟨a2, a3, a1⟩

/-- What `alloc_memory` returns, by cases: null, the state being left as it
was; a block of `size2` bytes from the platform; or a segment of a page,
`size2` being within `get_max_segment()`. -/
theorem alloc_memory_cases_v3 (layer_count ptr : Nat) (st st' : state) (size plat : Nat) (p : Ptr)
    (h : alloc_memory layer_count ptr st size plat = some (p, st')) :
    st'.data = st.data ∧
    ((p = Ptr.null ∧ st' = st) ∨
     (calc_segment_require_size ptr size > get_max_segment layer_count ptr ∧
       p = Ptr.block plat ∧
       st'.blocks plat =
         some (⟨MEM_DIRECT_LAYER, 1, 0⟩, calc_segment_require_size ptr size)) ∨
     (¬ calc_segment_require_size ptr size > get_max_segment layer_count ptr ∧
       st'.blocks = st.blocks ∧ ∃ page j, p = Ptr.unit page j)) := by
  unfold alloc_memory at h
  dsimp only at h
  split_ifs at h with hbig hend
  · unfold alloc_direct at h
    dsimp only at h
    split_ifs at h with h0
    · simp only [Option.some.injEq, Prod.mk.injEq] at h
      obtain ⟨rfl, rfl⟩ := h
      exact ⟨rfl, Or.inl ⟨rfl, rfl⟩⟩
    · simp only [Option.some.injEq, Prod.mk.injEq] at h
      obtain ⟨rfl, rfl⟩ := h
      exact ⟨rfl, Or.inr (Or.inl ⟨hbig, rfl, by simp⟩)⟩
  · simp only [Option.some.injEq, Prod.mk.injEq] at h
    obtain ⟨rfl, rfl⟩ := h
    exact ⟨rfl, Or.inl ⟨rfl, rfl⟩⟩
  · obtain ⟨a1, a2, a3⟩ := alloc_in_layer_some _ _ _ _ _ _ _ h
    exact ⟨a1, Or.inr (Or.inr ⟨hbig, a2, a3⟩)⟩

theorem free_memory_unit_fixed_v3 (ptr : Nat) (st st' : state) (page j : Nat)
    (h : free_memory ptr st (Ptr.unit page j) = some st') :
    st'.data = st.data ∧ st'.blocks = st.blocks := by
  unfold free_memory at h
  cases hr : read_header st (Ptr.unit page j) with
  | none => rw [hr] at h; simp at h
  | some seg =>
    rw [hr] at h
    dsimp only at h
    by_cases hd : seg.layer = MEM_DIRECT_LAYER
    · simp [hd] at h
    · simp only [hd, if_false] at h
      unfold free_segment at h
      split at h
      · simp at h
      · split at h
        · simp at h
        · simp only [Option.some.injEq] at h
          subst h
          exact ⟨rfl, rfl⟩

end mem_pool_v3

/-- C6 (fails on the code for Variant S): on a fresh `mem_pool`,
`alloc_memory(0)` returns null and leaves the state as it was; on a fresh
`mem_pool_v3`, which has no test for a zero size, `alloc_memory(0)` returns
the segment at offset 0 of a newly installed page, not null, and the page
count goes from 0 to 1. -/
theorem alloc_zero_v3_not_null :
    mem_pool.alloc_memory 9 8 mem_pool.init 0 100 = some (Ptr.null, mem_pool.init) ∧
    (mem_pool_v3.alloc_memory 8 8 mem_pool_v3.init 0 100).map
      (fun r => (r.1, mem_pool_v3.get_page_count r.2)) = some (Ptr.unit 100 0, 1) ∧
    mem_pool_v3.get_page_count mem_pool_v3.init = 0 ∧
    ¬ (mem_pool_v3.alloc_memory 8 8 mem_pool_v3.init 0 100 =
        some (Ptr.null, mem_pool_v3.init)) := by
  refine ⟨rfl, by decide, by decide, ?_⟩
  intro h
  have h2 := congrArg (fun o => o.map (fun r => r.1)) h
  revert h2
  decide

/-- C7 (fails on the code for Variant S): `free_memory(nullptr)` of Variant B
returns at once with the state untouched; that of Variant S has no null test
and goes on to read the header in front of the null address, where there is
no segment. -/
theorem free_null (max_level ptr : Nat) (stb : mem_pool.state) (sts : mem_pool_v3.state) :
    mem_pool.free_memory max_level stb Ptr.null = some stb ∧
    mem_pool_v3.read_header sts Ptr.null = none ∧
    mem_pool_v3.free_memory ptr sts Ptr.null = none :=
  ⟨rfl, rfl, rfl⟩

/-- C8: `realloc_memory` of a live in-page segment of class `c` with a new
size whose required class is at most `c` returns the same address and leaves
the state (so also the class stamped in the header) as it was; both
variants. -/
theorem realloc_within_class (ptr : Nat) (hp : ptr = 4 ∨ ptr = 8) :
    (∀ (max_level : Nat) (st : mem_pool.state) (page index size plat l : Nat)
        (punit : mem_pool.mem_unit),
      max_level ≤ 26 →
      mem_pool.read_header st (Ptr.unit page index) = some punit →
      punit.direct = 0 → punit.level ≤ max_level →
      (size + mem_pool.K ≤ mem_pool.M ptr * 2 ^ l ∧
        ∀ j, size + mem_pool.K ≤ mem_pool.M ptr * 2 ^ j → l ≤ j) →
      l ≤ punit.level →
      mem_pool.realloc_memory max_level ptr st (Ptr.unit page index) size plat =
        some (Ptr.unit page index, st)) ∧
    (∀ (layer_count : Nat) (st : mem_pool_v3.state) (page j size plat l : Nat)
        (seg : mem_pool_v3.mem_segment),
      layer_count ≤ 26 →
      mem_pool_v3.read_header st (Ptr.unit page j) = some seg →
      seg.layer < layer_count →
      (size + mem_pool_v3.HDR ptr ≤ mem_pool_v3.MEM_BASE_SIZE ptr * 2 ^ l ∧
        ∀ i, size + mem_pool_v3.HDR ptr ≤ mem_pool_v3.MEM_BASE_SIZE ptr * 2 ^ i → l ≤ i) →
      l ≤ seg.layer →
      mem_pool_v3.realloc_memory layer_count ptr st (Ptr.unit page j) size plat =
        some (Ptr.unit page j, st)) := by
  constructor
  · intro max_level st page index size plat l punit hL hread hd hlv hl hle
    have hmono : 2 ^ l ≤ 2 ^ punit.level := Nat.pow_le_pow_right (by norm_num) hle
    have hfit : size + mem_pool.K ≤ mem_pool.M ptr * 2 ^ punit.level :=
      le_trans hl.1 (Nat.mul_le_mul_left _ hmono)
    have hlev := (mem_pool.calc_level_in_page punit.level ptr size (by omega) hp hfit).1
    unfold mem_pool.realloc_memory
    rw [hread]
    simp [hd, hlev]
  · intro layer_count st page j size plat l seg hL hread hlt hl hle
    have hmono : 2 ^ l ≤ 2 ^ seg.layer := Nat.pow_le_pow_right (by norm_num) hle
    have hfit : size + mem_pool_v3.HDR ptr ≤ mem_pool_v3.MEM_BASE_SIZE ptr * 2 ^ seg.layer :=
      le_trans hl.1 (Nat.mul_le_mul_left _ hmono)
    have hseg := mem_pool_v3.get_segment_size_eq ptr seg.layer hp (by omega)
    have hreq : mem_pool_v3.calc_segment_require_size ptr size ≤ size + mem_pool_v3.HDR ptr := by
      unfold mem_pool_v3.calc_segment_require_size add32
      exact Nat.mod_le _ _
    have hnd : seg.layer ≠ mem_pool_v3.MEM_DIRECT_LAYER := by
      unfold mem_pool_v3.MEM_DIRECT_LAYER; omega
    have hge : mem_pool_v3.get_segment_size ptr seg.layer ≥
        mem_pool_v3.calc_segment_require_size ptr size := by omega
    unfold mem_pool_v3.realloc_memory
    rw [hread]
    simp [hnd, hge]

/-- C8 on the scenario `a = alloc(100); b = realloc(a, 50)`: `b == a` and
the state is the one before the call, in both variants. -/
theorem realloc_within_class_witness :
    mem_pool.realloc_memory 9 8 mem_pool.small_state (Ptr.unit 100 0) 50 0 =
      some (Ptr.unit 100 0, mem_pool.small_state) ∧
    mem_pool_v3.realloc_memory 8 8 mem_pool_v3.small_state (Ptr.unit 100 0) 50 0 =
      some (Ptr.unit 100 0, mem_pool_v3.small_state) :=
  ⟨(realloc_within_class 8 (by decide)).1 9 mem_pool.small_state 100 0 50 0 3 ⟨0, 4, 0⟩
      (by decide) (by decide) (by decide) (by decide)
      ⟨by decide, fun j hj => by
        by_contra hc
        have : j ≤ 2 := by omega
        interval_cases j <;> simp [mem_pool.K, mem_pool.M] at hj⟩
      (by decide),
    (realloc_within_class 8 (by decide)).2 8 mem_pool_v3.small_state 100 0 50 0 2 ⟨3, 1, 0⟩
      (by decide) (by decide) (by decide)
      ⟨by decide, fun i hi => by
        by_contra hc
        have : i ≤ 1 := by omega
        interval_cases i <;> simp [mem_pool_v3.HDR, mem_pool_v3.MEM_BASE_SIZE] at hi⟩
      (by decide)⟩

namespace mem_pool

/-- The grow path of `realloc_memory`, Variant B. -/
theorem realloc_memory_grow (max_level ptr : Nat) (st : state) (page index size plat : Nat)
    (punit : mem_unit) (hread : read_header st (Ptr.unit page index) = some punit)
    (hd : punit.direct = 0) (hgrow : punit.level < calc_level ptr size) :
    realloc_memory max_level ptr st (Ptr.unit page index) size plat =
      match alloc_memory max_level ptr st size plat with
      | none => none
      | some r =>
        if r.1 = Ptr.null then some (Ptr.null, r.2)
        else
          (free_memory max_level
            { r.2 with data := (memcpy r.2.data r.1 (Ptr.unit page index)
                (realloc_copy_len ptr punit.level)) }
            (Ptr.unit page index)).map (fun st3 => (r.1, st3)) := by
  unfold realloc_memory
  rw [hread]
  have h1 : ¬ calc_level ptr size ≤ punit.level := by omega
  simp only [hd, h1, if_false]
  simp

theorem calc_level_zero (ptr : Nat) (hp : ptr = 4 ∨ ptr = 8) : calc_level ptr 0 = 0 := by
  rcases hp with rfl | rfl <;> decide

theorem realloc_copy_len_eq (ptr level : Nat) (hl : level ≤ 26) (hp : ptr = 4 ∨ ptr = 8) :
    realloc_copy_len ptr level = calc_level_max_alloc ptr level ∧
    realloc_copy_len ptr level + K = M ptr * 2 ^ level := by
  have e : realloc_copy_len ptr level = calc_level_max_alloc ptr level := by
    unfold realloc_copy_len calc_level_max_alloc
    rw [Nat.mul_comm]
  exact ⟨e, by rw [e]; exact calc_level_max_alloc_eq ptr level hl hp⟩

/-- On the grow path `size + K` does not wrap around: a wrapped request
would need a single unit. -/
theorem grow_no_wrap (ptr size : Nat) (hp : ptr = 4 ∨ ptr = 8) (hs : size < U32)
    (hgrow : 0 < calc_level ptr size) : size + K < U32 := by
  have h2 := (calc_level_least ptr size hp).2.2 0 hgrow
  by_contra hc
  have : calc_unit_alloc_count ptr size ≤ 1 := by
    rcases hp with rfl | rfl <;>
      simp only [calc_unit_alloc_count, add32, M, K, U32_eq] at hc hs ⊢ <;> omega
  simp at h2
  omega

end mem_pool

namespace mem_pool_v3

/-- The grow path of `realloc_memory`, Variant S. -/
theorem realloc_memory_grow_v3 (layer_count ptr : Nat) (st : state) (page j size plat : Nat)
    (seg : mem_segment) (hread : read_header st (Ptr.unit page j) = some seg)
    (hd : seg.layer ≠ MEM_DIRECT_LAYER)
    (hgrow : get_segment_size ptr seg.layer < calc_segment_require_size ptr size) :
    realloc_memory layer_count ptr st (Ptr.unit page j) size plat =
      match alloc_memory layer_count ptr st size plat with
      | none => none
      | some r =>
        if r.1 = Ptr.null then some (Ptr.null, r.2)
        else
          (free_memory ptr
            { r.2 with data := (memcpy r.2.data r.1 (Ptr.unit page j)
                (get_segment_data_size ptr seg.layer)) }
            (Ptr.unit page j)).map (fun st3 => (r.1, st3)) := by
  unfold realloc_memory
  rw [hread]
  have h1 : ¬ get_segment_size ptr seg.layer ≥ calc_segment_require_size ptr size := by omega
  simp only [hd, h1, if_false]
  simp

end mem_pool_v3


/-- C11 (fails on the code for Variant S): a direct segment is reallocated
and the platform `realloc` answers null.  Variant B returns null; Variant S
returns `p_segment2->header.data` of the null answer, the address one header
past null, which is not the null address. -/
theorem realloc_direct_null :
    mem_pool.read_header mem_pool.direct_state (Ptr.block 100) = some ⟨0, 0, 1⟩ ∧
    (mem_pool.realloc_memory 9 8 mem_pool.direct_state (Ptr.block 100) 40000 0).map
      (fun r => r.1) = some Ptr.null ∧
    mem_pool_v3.read_header mem_pool_v3.direct_state (Ptr.block 100) = some ⟨31, 1, 0⟩ ∧
    (mem_pool_v3.realloc_memory 8 8 mem_pool_v3.direct_state (Ptr.block 100) 8192 0).map
      (fun r => r.1) = some (Ptr.block 0) ∧
    Ptr.block 0 ≠ Ptr.null := by
  decide

namespace mem_pool

/-- C12 (fails on the code): in the state of `stale_run` the root page 100 is
full and page 200 in slot 2 is empty, so `lock(1, 9, 9)` succeeds on page
200; yet `alloc_memory(6140)` tries the root only and creates a third page. -/
theorem new_page_despite_free_page :
    stale_run.map (fun st => st.page_heap.map (page_view 9)) =
      some [(100, 0, false), (200, 0, true)] ∧
    stale_run.map (fun st => (heap_get st.page_heap 1).map
      (fun pg => (lock pg 1 9 9).1)) = some (some none) ∧
    stale_run.map (fun st => (heap_get st.page_heap 2).map
      (fun pg => (lock pg 1 9 9).1)) = some (some (some 1)) ∧
    (stale_run.bind fun st => alloc_memory 9 8 st 6140 300).map (fun r => r.1) =
      some (Ptr.unit 300 0) ∧
    stale_run.map (fun st => get_page_count st) = some 2 ∧
    (stale_run.bind fun st => alloc_memory 9 8 st 6140 300).map
      (fun r => get_page_count r.2) = some 3 := by
  decide

/-- C15 (fails on the code): after the `free_memory` call that ends
`stale_run`, the page in slot 2 is greater than its parent in slot 1. -/
theorem heap_order_broken_after_free :
    stale_run.map (fun st => st.page_heap.map (page_view 9)) =
      some [(100, 0, false), (200, 0, true)] ∧
    stale_run.map (fun st => slot_gt 9 st.page_heap 2 (2 / 2)) = some true := by
  decide

/-- C16 (fails on the code): after the first `alloc_memory` of a fresh
allocator the page in slot 1 has `page_index == 0`, and after a second one
the page in slot 2 has `page_index == 0` too; `free_memory` of the second
address then sifts up from slot 0, which does nothing. -/
theorem page_index_not_slot :
    (alloc_memory 9 8 init 6140 100).map
      (fun r => r.2.page_heap.map (fun pg => (pg.addr, pg.page_index))) = some [(100, 0)] ∧
    ((alloc_memory 9 8 init 6140 100).bind fun s1 => alloc_memory 9 8 s1.2 6140 200).map
      (fun r => r.2.page_heap.map (fun pg => (pg.addr, pg.page_index))) =
      some [(100, 0), (200, 0)] ∧
    stale_run.map (fun st => st.page_heap.map (fun pg => (pg.addr, pg.page_index))) =
      some [(100, 0), (200, 0)] := by
  decide

end mem_pool

namespace mem_pool

/-- C20: for a node `p` of level `l ≤ max_level ≤ 26`, `node_to_index(p, l)`
lies below `2^max_level`, is a multiple of `2^l`, fits 26 bits, and
`index_to_node` leads back to `p`; so when `lock` returns `p`, the header
stamped by `alloc_from_page` is `(index, l)` unchanged by the bit-field
widths, and the page part of `free_to_page` is `unlock(p, l, l)`. -/
theorem index_node_round_trip (max_level l p : Nat) (hL : max_level ≤ 26) (hl : l ≤ max_level)
    (h1 : 2 ^ (max_level - l) ≤ p) (h2 : p < 2 ^ (max_level - l + 1)) :
    node_to_index max_level p l < 2 ^ max_level ∧
    2 ^ l ∣ node_to_index max_level p l ∧
    node_to_index max_level p l < 2 ^ 26 ∧
    index_to_node max_level (node_to_index max_level p l) l = p ∧
    ∀ (pg pg1 : mem_page), lock pg 1 max_level l = (some p, pg1) →
      (alloc_from_page max_level pg l).1 = some (node_to_index max_level p l) ∧
      (alloc_from_page max_level pg l).2.units (node_to_index max_level p l) =
        ⟨node_to_index max_level p l, l, 0⟩ ∧
      free_in_page max_level (alloc_from_page max_level pg l).2 (node_to_index max_level p l) =
        unlock max_level (alloc_from_page max_level pg l).2 p l l := by
  obtain ⟨a1, a2, a3⟩ := node_index_arith max_level l p hL hl h1 h2
  have hB : 2 ^ max_level ≤ 2 ^ 26 := Nat.pow_le_pow_right (by norm_num) hL
  have hsplit : 2 ^ (max_level - l) * 2 ^ l = 2 ^ max_level := by
    rw [← pow_add]; congr 1; omega
  have hdvd : 2 ^ l ∣ node_to_index max_level p l := by
    refine ⟨p - 2 ^ (max_level - l), ?_⟩
    rw [Nat.mul_sub, Nat.mul_comm (2 ^ l) p, Nat.mul_comm (2 ^ l), hsplit]
    omega
  have e1 : node_to_index max_level p l % 2 ^ 26 = node_to_index max_level p l :=
    Nat.mod_eq_of_lt (by omega)
  have e2 : l % 2 ^ 5 = l := Nat.mod_eq_of_lt (by norm_num; omega)
  refine ⟨a2, hdvd, by omega, a3, ?_⟩
  intro pg pg1 hlk
  rw [alloc_from_page_some _ _ _ _ _ hlk]
  refine ⟨rfl, ?_, ?_⟩
  · simp only [Function.update_same, e1, e2]
  · unfold free_in_page
    simp only [Function.update_same, e1, e2, a3]

/-- C20 at `max_level = 9`, level 1, node 257 (units 2 and 3). -/
theorem index_node_round_trip_witness :
    9 ≤ 26 ∧ 1 ≤ 9 ∧ 2 ^ (9 - 1) ≤ 257 ∧ 257 < 2 ^ (9 - 1 + 1) ∧
    node_to_index 9 257 1 = 2 ∧
    node_to_index 9 257 1 < 2 ^ 9 ∧
    2 ^ 1 ∣ node_to_index 9 257 1 ∧
    index_to_node 9 (node_to_index 9 257 1) 1 = 257 :=
  have h := index_node_round_trip 9 1 257 (by decide) (by decide) (by decide) (by decide)
  ⟨by decide, by decide, by decide, by decide, by decide, h.1, h.2.1, h.2.2.2.1⟩

end mem_pool

namespace mem_pool

/-! ### More on `lock`: the counters and `bitmap_and` along the path -/

theorem div_two_pow_succ (n k : Nat) : n / 2 ^ (k + 1) = n / 2 ^ k / 2 := by
  rw [pow_succ, Nat.div_div_eq_div_mul]

/-- Where nothing is marked as allocated below `p`, `lock` finds a node. -/
theorem lock_free_subtree (cur : Nat) : ∀ (pg : mem_page) (p level : Nat), 1 ≤ p → level ≤ cur →
    (∀ x, get_bit pg.bitmap_and x = true → get_bit pg.bitmap__or x = true) →
    (∀ x, 1 ≤ x → get_bit pg.bitmap__or x = false →
      get_bit pg.bitmap__or (x * 2) = false ∧ get_bit pg.bitmap__or (x * 2 + 1) = false) →
    get_bit pg.bitmap__or p = false →
    ∃ node, (lock pg p cur level).1 = some node := by
  induction cur with
  | zero =>
    intro pg p level _ hl hao _ ho
    have : level = 0 := by omega
    subst this
    have ha : get_bit pg.bitmap_and p = false := by
      cases h : get_bit pg.bitmap_and p
      · rfl
      · rw [hao p h] at ho; exact absurd ho (by simp)
    rw [lock_of_eq _ _ _ ha]
    simp [ho]
  | succ c ih =>
    intro pg p level hp hl hao hdown ho
    have ha : get_bit pg.bitmap_and p = false := by
      cases h : get_bit pg.bitmap_and p
      · rfl
      · rw [hao p h] at ho; exact absurd ho (by simp)
    rcases Nat.eq_or_lt_of_le hl with heq | hlt
    · subst heq
      rw [lock_of_eq _ _ _ ha]
      simp [ho]
    · rw [lock_of_gt _ _ _ _ ha hlt]
      obtain ⟨node, hn⟩ := ih pg (p * 2) level (by omega) (by omega) hao hdown (hdown p hp ho).1
      rcases hL : lock pg (p * 2) c level with ⟨nl, pl⟩
      rw [hL] at hn
      simp only at hn
      subst hn
      exact ⟨node, rfl⟩

theorem lock_left_done_count (pg : mem_page) (p c i : Nat) :
    (lock_left_done pg p c).level_count i =
      if i = c ∧ get_bit pg.bitmap__or p = false then sub32 (pg.level_count c) 1
      else pg.level_count i := by
  unfold lock_left_done
  dsimp only
  cases ho : get_bit pg.bitmap__or p
  · by_cases hic : i = c
    · subst hic
      split_ifs <;> simp_all
    · split_ifs <;> simp_all [Function.update_noteq hic]
  · split_ifs <;> simp_all

theorem lock_right_done_count (pg : mem_page) (p : Nat) :
    (lock_right_done pg p).level_count = pg.level_count := by
  unfold lock_right_done
  dsimp only
  split_ifs <;> rfl

/-- The path from `p` down to a node found by `lock` stays at or above
`p * 2^depth`; in particular only its top is `p`. -/
theorem path_ge (node d p k : Nat) (h : node / 2 ^ d = p) (hk : k < d) (hp : 1 ≤ p) :
    p < node / 2 ^ k := by
  obtain ⟨e, rfl⟩ : ∃ e, d = k + (e + 1) := ⟨d - k - 1, by omega⟩
  have h1 : node / 2 ^ k / 2 ^ (e + 1) = p := by
    rw [Nat.div_div_eq_div_mul, ← pow_add]; exact h
  have h2 : p * 2 ^ (e + 1) ≤ node / 2 ^ k := by
    rw [← h1]; exact Nat.div_mul_le_self _ _
  have h3 : 2 ≤ 2 ^ (e + 1) := by
    have : 2 ^ 1 ≤ 2 ^ (e + 1) := Nat.pow_le_pow_right (by norm_num) (by omega)
    simpa using this
  have h4 : p * 2 ≤ p * 2 ^ (e + 1) := Nat.mul_le_mul_left _ h3
  omega

/-- The effect of a successful `lock` on `level_count`, in a page whose
bitmaps are consistent: the levels up to the requested one lose the nodes
below the node found, and each level above loses one node if the ancestor
there had nothing allocated below it. -/
theorem lock_level_count (cur : Nat) : ∀ (pg : mem_page) (p level node : Nat) (pg' : mem_page),
    1 ≤ p →
    (∀ x, get_bit pg.bitmap_and x = true → get_bit pg.bitmap__or x = true) →
    (∀ x, 1 ≤ x → get_bit pg.bitmap__or x = false →
      get_bit pg.bitmap__or (x * 2) = false ∧ get_bit pg.bitmap__or (x * 2 + 1) = false) →
    lock pg p cur level = (some node, pg') →
    ∀ i, pg'.level_count i =
      if i ≤ level then sub32 (pg.level_count i) (1 <<< (level - i))
      else if i ≤ cur ∧ get_bit pg.bitmap__or (node / 2 ^ (i - level)) = false then
        sub32 (pg.level_count i) 1
      else pg.level_count i := by
  induction cur with
  | zero =>
    intro pg p level node pg' _ _ _ h i
    obtain ⟨h1, -⟩ := lock_some 0 pg p level node pg' h
    have hl : level = 0 := by omega
    subst hl
    by_cases ha : get_bit pg.bitmap_and p = true
    · rw [lock_of_and _ _ _ _ ha] at h; simp at h
    · have ha : get_bit pg.bitmap_and p = false := by simpa using ha
      rw [lock_of_eq _ _ _ ha] at h
      split_ifs at h with ho
      · simp at h
      · simp only [Prod.mk.injEq, Option.some.injEq] at h
        obtain ⟨rfl, rfl⟩ := h
        simp only [lock_here, lock_counts]
        by_cases hi : i ≤ 0
        · simp [hi]
        · have : ¬ i ≤ 0 := hi
          simp [this]
  | succ c ih =>
    intro pg p level node pg' hp hao hdown h i
    by_cases ha : get_bit pg.bitmap_and p = true
    · rw [lock_of_and _ _ _ _ ha] at h; simp at h
    have ha : get_bit pg.bitmap_and p = false := by simpa using ha
    rcases Nat.lt_trichotomy (c + 1) level with hlt | heq | hgt
    · rw [lock_of_lt _ _ _ _ hlt] at h; simp at h
    · subst heq
      rw [lock_of_eq _ _ _ ha] at h
      split_ifs at h with ho
      · simp at h
      · simp only [Prod.mk.injEq, Option.some.injEq] at h
        obtain ⟨rfl, rfl⟩ := h
        simp only [lock_here, lock_counts]
        by_cases hi : i ≤ c + 1
        · simp [hi]
        · simp [hi]
    · rw [lock_of_gt _ _ _ _ ha hgt] at h
      rcases hL : lock pg (p * 2) c level with ⟨nl, pl⟩
      rw [hL] at h
      cases nl with
      | some nd =>
        simp only [Prod.mk.injEq, Option.some.injEq] at h
        obtain ⟨rfl, rfl⟩ := h
        obtain ⟨_, h2, _, _, h5, -⟩ := lock_some c pg (p * 2) level nd pl hL
        have hrec := ih pg (p * 2) level nd pl (by omega) hao hdown hL
        have hpd : nd / 2 ^ (c + 1 - level) = p := by
          have : c + 1 - level = (c - level) + 1 := by omega
          rw [this, div_two_pow_succ, h2]; omega
        have horp : get_bit pl.bitmap__or p = get_bit pg.bitmap__or p := by
          have hnot : ¬ ∃ k, k ≤ c - level ∧ p = nd / 2 ^ k := by
            rintro ⟨k, hk, hx⟩
            rcases Nat.lt_or_ge k (c - level) with hk1 | hk1
            · have := path_ge nd (c - level) (p * 2) k h2 hk1 (by omega)
              omega
            · have : k = c - level := by omega
              rw [this, h2] at hx
              omega
          cases hb : get_bit pg.bitmap__or p
          · cases hb1 : get_bit pl.bitmap__or p
            · rfl
            · rcases (h5 p).mp hb1 with hh | hh
              · exact absurd hh hnot
              · rw [hb] at hh; exact absurd hh (by simp)
          · exact (h5 p).mpr (Or.inr hb)
        rw [lock_left_done_count, horp, hrec (c + 1), hrec i]
        by_cases hic : i = c + 1
        · subst hic
          have h1 : ¬ c + 1 ≤ level := by omega
          have h2' : ¬ c + 1 ≤ c := by omega
          simp only [h1, h2', if_false, false_and, true_and, le_refl, hpd]
        · have hne : ¬ (i = c + 1 ∧ get_bit pg.bitmap__or p = false) := fun hh => hic hh.1
          simp only [hne, if_false]
          by_cases hil : i ≤ level
          · simp [hil]
          · have e : (i ≤ c ↔ i ≤ c + 1) := by omega
            simp only [hil, if_false, e]
      | none =>
        have hpl : pl = pg := by
          have := lock_none c pg (p * 2) level
          rw [hL] at this
          exact this rfl
        subst hpl
        simp only at h
        have horp : get_bit pl.bitmap__or p = true := by
          by_contra hc
          have hc : get_bit pl.bitmap__or p = false := by simpa using hc
          obtain ⟨nd, hnd⟩ := lock_free_subtree c pl (p * 2) level (by omega) (by omega) hao hdown
            (hdown p hp hc).1
          rw [hL] at hnd
          simp at hnd
        rcases hR : lock pl (p * 2 + 1) c level with ⟨nr, pr⟩
        rw [hR] at h
        cases nr with
        | none => simp at h
        | some nd =>
          simp only [Prod.mk.injEq, Option.some.injEq] at h
          obtain ⟨rfl, rfl⟩ := h
          obtain ⟨_, h2, -⟩ := lock_some c pl (p * 2 + 1) level nd pr hR
          have hrec := ih pl (p * 2 + 1) level nd pr (by omega) hao hdown hR
          have hpd : nd / 2 ^ (c + 1 - level) = p := by
            have : c + 1 - level = (c - level) + 1 := by omega
            rw [this, div_two_pow_succ, h2]; omega
          rw [lock_right_done_count, hrec i]
          by_cases hic : i = c + 1
          · subst hic
            have h1 : ¬ c + 1 ≤ level := by omega
            have h2' : ¬ c + 1 ≤ c := by omega
            simp [h1, h2', hpd, horp]
          · by_cases hil : i ≤ level
            · simp [hil]
            · have e : (i ≤ c ↔ i ≤ c + 1) := by omega
              simp only [hil, if_false, e]

/-- After a successful `lock`, `bitmap_and` of every proper ancestor on the
path is the conjunction of its children's. -/
theorem lock_and_path (cur : Nat) : ∀ (pg : mem_page) (p level node : Nat) (pg' : mem_page),
    1 ≤ p → lock pg p cur level = (some node, pg') →
    ∀ k, 1 ≤ k → k ≤ cur - level →
      get_bit pg'.bitmap_and (node / 2 ^ k) =
        (get_bit pg'.bitmap_and (node / 2 ^ k * 2) &&
          get_bit pg'.bitmap_and (node / 2 ^ k * 2 + 1)) := by
  induction cur with
  | zero => intro pg p level node pg' _ _ k hk1 hk2; omega
  | succ c ih =>
    intro pg p level node pg' hp h k hk1 hk2
    by_cases ha : get_bit pg.bitmap_and p = true
    · rw [lock_of_and _ _ _ _ ha] at h; simp at h
    have ha : get_bit pg.bitmap_and p = false := by simpa using ha
    have hgt : level < c + 1 := by omega
    rw [lock_of_gt _ _ _ _ ha hgt] at h
    have key : ∀ (q : Nat) (pq pfin : mem_page), (q = p * 2 ∨ q = p * 2 + 1) →
        lock pg q c level = (some node, pq) →
        (∀ x, get_bit pfin.bitmap_and x =
          ((decide (x = p) && (get_bit pq.bitmap_and (p * 2) && get_bit pq.bitmap_and (p * 2 + 1)))
            || get_bit pq.bitmap_and x)) →
        get_bit pfin.bitmap_and (node / 2 ^ k) =
          (get_bit pfin.bitmap_and (node / 2 ^ k * 2) &&
            get_bit pfin.bitmap_and (node / 2 ^ k * 2 + 1)) := by
      intro q pq pfin hq hlk hfin
      obtain ⟨_, h2, _, _, _, _, h7, -⟩ := lock_some c pg q level node pq hlk
      have hq1 : 1 ≤ q := by omega
      have hpd : node / 2 ^ (c + 1 - level) = p := by
        have : c + 1 - level = (c - level) + 1 := by omega
        rw [this, div_two_pow_succ, h2]; omega
      have hc2 : p * 2 ≠ p := by omega
      have hc3 : p * 2 + 1 ≠ p := by omega
      rcases Nat.lt_or_ge k (c + 1 - level) with hk3 | hk3
      · -- a node of the path below `p`
        have hx : p < node / 2 ^ k := by
          rcases Nat.lt_or_ge k (c - level) with hk4 | hk4
          · have := path_ge node (c - level) q k h2 hk4 hq1
            omega
          · have : k = c - level := by omega
            rw [this, h2]; omega
        have n1 : node / 2 ^ k ≠ p := by omega
        have n2 : node / 2 ^ k * 2 ≠ p := by omega
        have n3 : node / 2 ^ k * 2 + 1 ≠ p := by omega
        rw [hfin, hfin (node / 2 ^ k * 2), hfin (node / 2 ^ k * 2 + 1)]
        simp only [n1, n2, n3, decide_False, Bool.false_and, Bool.false_or]
        exact ih pg q level node pq hq1 hlk k hk1 (by omega)
      · have hkeq : k = c + 1 - level := by omega
        rw [hkeq, hpd, hfin, hfin (p * 2), hfin (p * 2 + 1)]
        have hoff : get_bit pq.bitmap_and p = false := by
          rw [h7 p ?_]
          · exact ha
          · intro j hj hx
            rcases Nat.lt_or_ge j (c - level) with hj1 | hj1
            · have := path_ge node (c - level) q j h2 hj1 hq1
              omega
            · have : j = c - level := by omega
              rw [this, h2] at hx
              omega
        simp [hc2, hc3, hoff]
    rcases hL : lock pg (p * 2) c level with ⟨nl, pl⟩
    rw [hL] at h
    cases nl with
    | some nd =>
      simp only [Prod.mk.injEq, Option.some.injEq] at h
      obtain ⟨rfl, rfl⟩ := h
      exact key (p * 2) pl _ (Or.inl rfl) hL (fun x => lock_left_done_and pl p (c + 1) x)
    | none =>
      have hpl : pl = pg := by
        have := lock_none c pg (p * 2) level
        rw [hL] at this
        exact this rfl
      subst hpl
      simp only at h
      rcases hR : lock pl (p * 2 + 1) c level with ⟨nr, pr⟩
      rw [hR] at h
      cases nr with
      | none => simp at h
      | some nd =>
        simp only [Prod.mk.injEq, Option.some.injEq] at h
        obtain ⟨rfl, rfl⟩ := h
        exact key (p * 2 + 1) pr _ (Or.inr rfl) hR (fun x => lock_right_done_and pr p x)

end mem_pool

namespace mem_pool

/-! ### More on `unlock`: the exact effect of the walk towards the root -/

theorem unlock_above_count (pg : mem_page) (p c i : Nat) :
    (unlock_above pg p c).level_count i =
      if i = c ∧ get_bit pg.bitmap__or p = true ∧ get_bit pg.bitmap__or (p * 2) = false ∧
          get_bit pg.bitmap__or (p * 2 + 1) = false then add32 (pg.level_count c) 1
      else pg.level_count i := by
  unfold unlock_above
  dsimp only
  cases h1 : get_bit pg.bitmap__or (p * 2) <;> cases h2 : get_bit pg.bitmap__or (p * 2 + 1) <;>
    cases h3 : get_bit pg.bitmap__or p
  all_goals
    by_cases hic : i = c
    · subst hic
      simp
    · simp [Function.update_noteq hic, hic]

theorem div_lt_of_pos (a j : Nat) (ha : 1 ≤ a) (hj : 1 ≤ j) : a / 2 ^ j < a := by
  apply Nat.div_lt_self ha
  have : 2 ^ 1 ≤ 2 ^ j := Nat.pow_le_pow_right (by norm_num) hj
  omega

/-- The walk of `unlock` above the freed node, from node `a` of level `cur`
up to the root: bits off the path are kept; on the path `bitmap_and` is
cleared and `bitmap__or` is kept exactly where a child still has its own
set; `level_count` of a level is raised by one exactly where `bitmap__or`
went from set to clear. -/
theorem unlock_tail (max_level level : Nat) (fuel : Nat) :
    ∀ (pg : mem_page) (a cur : Nat), level < cur →
    (cur ≤ max_level → 2 ^ (max_level - cur) ≤ a) →
    max_level + 1 - cur ≤ fuel →
    (∀ x, (∀ j, cur + j ≤ max_level → x ≠ a / 2 ^ j) →
      get_bit (unlock_go max_level fuel pg a cur level).bitmap__or x = get_bit pg.bitmap__or x ∧
      get_bit (unlock_go max_level fuel pg a cur level).bitmap_and x =
        get_bit pg.bitmap_and x) ∧
    (∀ j, cur + j ≤ max_level →
      get_bit (unlock_go max_level fuel pg a cur level).bitmap__or (a / 2 ^ j) =
        (get_bit pg.bitmap__or (a / 2 ^ j) &&
          (get_bit (unlock_go max_level fuel pg a cur level).bitmap__or (a / 2 ^ j * 2) ||
           get_bit (unlock_go max_level fuel pg a cur level).bitmap__or (a / 2 ^ j * 2 + 1))) ∧
      get_bit (unlock_go max_level fuel pg a cur level).bitmap_and (a / 2 ^ j) = false) ∧
    (∀ i, (unlock_go max_level fuel pg a cur level).level_count i =
      if cur ≤ i ∧ i ≤ max_level ∧ get_bit pg.bitmap__or (a / 2 ^ (i - cur)) = true ∧
          get_bit (unlock_go max_level fuel pg a cur level).bitmap__or (a / 2 ^ (i - cur)) = false
      then add32 (pg.level_count i) 1 else pg.level_count i) := by
  induction fuel with
  | zero =>
    intro pg a cur hlt ha hf
    have hcur : max_level < cur := by omega
    refine ⟨fun x _ => ⟨rfl, rfl⟩, fun j hj => by omega, fun i => ?_⟩
    have : ¬ (cur ≤ i ∧ i ≤ max_level ∧ get_bit pg.bitmap__or (a / 2 ^ (i - cur)) = true ∧
        get_bit (unlock_go max_level 0 pg a cur level).bitmap__or (a / 2 ^ (i - cur)) = false) := by
      intro h; omega
    rw [if_neg this]
    rfl
  | succ f ih =>
    intro pg a cur hlt ha hf
    have hne : cur ≠ level := by omega
    by_cases hcur : cur ≤ max_level
    · have hpow := ha hcur
      have ha1 : 1 ≤ a := le_trans (Nat.two_pow_pos _) hpow
      have e : unlock_go max_level (f + 1) pg a cur level =
          unlock_go max_level f (unlock_above pg a cur) (a / 2) (cur + 1) level := by
        rw [unlock_go]; simp [hne, hcur]
      rw [e]
      have ha2 : cur + 1 ≤ max_level → 2 ^ (max_level - (cur + 1)) ≤ a / 2 := by
        intro h
        have : max_level - cur = (max_level - (cur + 1)) + 1 := by omega
        rw [this, pow_succ] at hpow
        omega
      obtain ⟨F, P, C⟩ := ih (unlock_above pg a cur) (a / 2) (cur + 1) (by omega) ha2 (by omega)
      have hdiv : ∀ j, a / 2 / 2 ^ j = a / 2 ^ (j + 1) := by
        intro j
        rw [Nat.div_div_eq_div_mul, pow_succ, Nat.mul_comm]
      have hlt : ∀ j, a / 2 ^ (j + 1) < a := fun j => div_lt_of_pos a (j + 1) ha1 (by omega)
      -- bits of nodes that are not on the rest of the path are those after the step at `a`
      have Foff : ∀ x, a ≤ x →
          get_bit (unlock_go max_level f (unlock_above pg a cur) (a / 2) (cur + 1)
            level).bitmap__or x = get_bit (unlock_above pg a cur).bitmap__or x ∧
          get_bit (unlock_go max_level f (unlock_above pg a cur) (a / 2) (cur + 1)
            level).bitmap_and x = get_bit (unlock_above pg a cur).bitmap_and x := by
        intro x hx
        apply F
        intro j _
        rw [hdiv]
        have := hlt j
        omega
      have hor_a : get_bit (unlock_go max_level f (unlock_above pg a cur) (a / 2) (cur + 1)
          level).bitmap__or a =
          ((get_bit pg.bitmap__or (a * 2) || get_bit pg.bitmap__or (a * 2 + 1)) &&
            get_bit pg.bitmap__or a) := by
        rw [(Foff a (le_refl _)).1, unlock_above_or]
        simp
      have hor_c1 : get_bit (unlock_go max_level f (unlock_above pg a cur) (a / 2) (cur + 1)
          level).bitmap__or (a * 2) = get_bit pg.bitmap__or (a * 2) := by
        rw [(Foff (a * 2) (by omega)).1, unlock_above_or]
        have : a * 2 ≠ a := by omega
        simp [this]
      have hor_c2 : get_bit (unlock_go max_level f (unlock_above pg a cur) (a / 2) (cur + 1)
          level).bitmap__or (a * 2 + 1) = get_bit pg.bitmap__or (a * 2 + 1) := by
        rw [(Foff (a * 2 + 1) (by omega)).1, unlock_above_or]
        have : a * 2 + 1 ≠ a := by omega
        simp [this]
      refine ⟨?_, ?_, ?_⟩
      · intro x hx
        have hxa : x ≠ a := by
          have := hx 0 (by omega)
          simpa using this
        have hx2 : ∀ j, cur + 1 + j ≤ max_level → x ≠ a / 2 / 2 ^ j := by
          intro j hj
          rw [hdiv]
          exact hx (j + 1) (by omega)
        obtain ⟨f1, f2⟩ := F x hx2
        rw [f1, f2, unlock_above_or, unlock_above_and]
        simp [hxa]
      · intro j hj
        cases j with
        | zero =>
          simp only [pow_zero, Nat.div_one]
          refine ⟨?_, ?_⟩
          · rw [hor_a, hor_c1, hor_c2, Bool.and_comm]
          · rw [(Foff a (le_refl _)).2, unlock_above_and]
            simp
        | succ j' =>
          obtain ⟨p1, p2⟩ := P j' (by omega)
          rw [hdiv] at p1 p2
          refine ⟨?_, p2⟩
          rw [p1, unlock_above_or]
          have : a / 2 ^ (j' + 1) ≠ a := by
            have := hlt j'
            omega
          simp [this]
      · intro i
        rw [C i, unlock_above_count]
        rcases Nat.lt_trichotomy i cur with hi | hi | hi
        · have c1 : ¬ (cur + 1 ≤ i ∧ i ≤ max_level ∧
              get_bit (unlock_above pg a cur).bitmap__or (a / 2 / 2 ^ (i - (cur + 1))) = true ∧
              get_bit (unlock_go max_level f (unlock_above pg a cur) (a / 2) (cur + 1)
                level).bitmap__or (a / 2 / 2 ^ (i - (cur + 1))) = false) := by
            intro h; omega
          have c2 : ¬ (i = cur ∧ get_bit pg.bitmap__or a = true ∧
              get_bit pg.bitmap__or (a * 2) = false ∧
              get_bit pg.bitmap__or (a * 2 + 1) = false) := by
            intro h; omega
          have c3 : ¬ (cur ≤ i ∧ i ≤ max_level ∧
              get_bit pg.bitmap__or (a / 2 ^ (i - cur)) = true ∧
              get_bit (unlock_go max_level f (unlock_above pg a cur) (a / 2) (cur + 1)
                level).bitmap__or (a / 2 ^ (i - cur)) = false) := by
            intro h; omega
          rw [if_neg c1, if_neg c2, if_neg c3]
        · subst hi
          have c1 : ¬ (i + 1 ≤ i ∧ i ≤ max_level ∧
              get_bit (unlock_above pg a i).bitmap__or (a / 2 / 2 ^ (i - (i + 1))) = true ∧
              get_bit (unlock_go max_level f (unlock_above pg a i) (a / 2) (i + 1)
                level).bitmap__or (a / 2 / 2 ^ (i - (i + 1))) = false) := by
            intro h; omega
          rw [if_neg c1]
          simp only [Nat.sub_self, pow_zero, Nat.div_one, hor_a, true_and, le_refl, hcur]
          cases get_bit pg.bitmap__or a <;> cases get_bit pg.bitmap__or (a * 2) <;>
            cases get_bit pg.bitmap__or (a * 2 + 1) <;> simp
        · have c2 : ¬ (i = cur ∧ get_bit pg.bitmap__or a = true ∧
              get_bit pg.bitmap__or (a * 2) = false ∧
              get_bit pg.bitmap__or (a * 2 + 1) = false) := by
            intro h; omega
          rw [if_neg c2]
          have hnode : a / 2 / 2 ^ (i - (cur + 1)) = a / 2 ^ (i - cur) := by
            rw [hdiv]; congr 2; omega
          have hne2 : a / 2 ^ (i - cur) ≠ a := by
            have := div_lt_of_pos a (i - cur) ha1 (by omega)
            omega
          have hor2 : get_bit (unlock_above pg a cur).bitmap__or (a / 2 ^ (i - cur)) =
              get_bit pg.bitmap__or (a / 2 ^ (i - cur)) := by
            rw [unlock_above_or]; simp [hne2]
          rw [hnode, hor2]
          have e1 : (cur + 1 ≤ i) ↔ (cur ≤ i) := by omega
          simp only [e1]
    · have e : unlock_go max_level (f + 1) pg a cur level = pg := by
        rw [unlock_go]; simp [hne, hcur]
      rw [e]
      refine ⟨fun x _ => ⟨rfl, rfl⟩, fun j hj => by omega, fun i => ?_⟩
      have : ¬ (cur ≤ i ∧ i ≤ max_level ∧ get_bit pg.bitmap__or (a / 2 ^ (i - cur)) = true ∧
          get_bit pg.bitmap__or (a / 2 ^ (i - cur)) = false) := by
        intro h; omega
      rw [if_neg this]

end mem_pool

namespace mem_pool

/-- The effect of `unlock(n, l, l)` for a node `n` of level `l`. -/
theorem unlock_spec (max_level l n : Nat) (pg : mem_page) (hl : l ≤ max_level)
    (h1 : 2 ^ (max_level - l) ≤ n) :
    (∀ x, (∀ j, l + j ≤ max_level → x ≠ n / 2 ^ j) →
      get_bit (unlock max_level pg n l l).bitmap__or x = get_bit pg.bitmap__or x ∧
      get_bit (unlock max_level pg n l l).bitmap_and x = get_bit pg.bitmap_and x) ∧
    (get_bit (unlock max_level pg n l l).bitmap__or n = false ∧
      get_bit (unlock max_level pg n l l).bitmap_and n = false) ∧
    (∀ j, 1 ≤ j → l + j ≤ max_level →
      get_bit (unlock max_level pg n l l).bitmap__or (n / 2 ^ j) =
        (get_bit pg.bitmap__or (n / 2 ^ j) &&
          (get_bit (unlock max_level pg n l l).bitmap__or (n / 2 ^ j * 2) ||
           get_bit (unlock max_level pg n l l).bitmap__or (n / 2 ^ j * 2 + 1))) ∧
      get_bit (unlock max_level pg n l l).bitmap_and (n / 2 ^ j) = false) ∧
    (∀ i, (unlock max_level pg n l l).level_count i =
      if i ≤ l then add32 (pg.level_count i) (1 <<< (l - i))
      else if i ≤ max_level ∧ get_bit pg.bitmap__or (n / 2 ^ (i - l)) = true ∧
          get_bit (unlock max_level pg n l l).bitmap__or (n / 2 ^ (i - l)) = false
      then add32 (pg.level_count i) 1 else pg.level_count i) := by
  have hn1 : 1 ≤ n := le_trans (Nat.two_pow_pos _) h1
  have e : unlock max_level pg n l l =
      unlock_go max_level (max_level + 2 - l) (unlock_here pg n l) (n / 2) (l + 1) l := by
    unfold unlock
    rw [unlock_go]
    simp
  rw [e]
  have ha2 : l + 1 ≤ max_level → 2 ^ (max_level - (l + 1)) ≤ n / 2 := by
    intro h
    have : max_level - l = (max_level - (l + 1)) + 1 := by omega
    rw [this, pow_succ] at h1
    omega
  obtain ⟨F, P, C⟩ := unlock_tail max_level l (max_level + 2 - l) (unlock_here pg n l) (n / 2)
    (l + 1) (by omega) ha2 (by omega)
  have hdiv : ∀ j, n / 2 / 2 ^ j = n / 2 ^ (j + 1) := by
    intro j
    rw [Nat.div_div_eq_div_mul, pow_succ, Nat.mul_comm]
  have hlt : ∀ j, n / 2 ^ (j + 1) < n := fun j => div_lt_of_pos n (j + 1) hn1 (by omega)
  refine ⟨?_, ?_, ?_, ?_⟩
  · intro x hx
    have hxn : x ≠ n := by
      have := hx 0 (by omega)
      simpa using this
    obtain ⟨f1, f2⟩ := F x (by
      intro j hj
      rw [hdiv]
      exact hx (j + 1) (by omega))
    rw [f1, f2, unlock_here_or, unlock_here_and]
    simp [hxn]
  · obtain ⟨f1, f2⟩ := F n (by
      intro j _
      rw [hdiv]
      have := hlt j
      omega)
    rw [f1, f2, unlock_here_or, unlock_here_and]
    simp
  · intro j hj1 hj2
    obtain ⟨j', rfl⟩ : ∃ j', j = j' + 1 := ⟨j - 1, by omega⟩
    obtain ⟨p1, p2⟩ := P j' (by omega)
    rw [hdiv] at p1 p2
    refine ⟨?_, p2⟩
    rw [p1, unlock_here_or]
    have : n / 2 ^ (j' + 1) ≠ n := by
      have := hlt j'
      omega
    simp [this]
  · intro i
    rw [C i]
    by_cases hi : i ≤ l
    · have c1 : ¬ (l + 1 ≤ i ∧ i ≤ max_level ∧
          get_bit (unlock_here pg n l).bitmap__or (n / 2 / 2 ^ (i - (l + 1))) = true ∧
          get_bit (unlock_go max_level (max_level + 2 - l) (unlock_here pg n l) (n / 2) (l + 1)
            l).bitmap__or (n / 2 / 2 ^ (i - (l + 1))) = false) := by
        intro h; omega
      rw [if_neg c1, if_pos hi]
      simp [unlock_here, unlock_counts, hi]
    · rw [if_neg hi]
      have hnode : n / 2 / 2 ^ (i - (l + 1)) = n / 2 ^ (i - l) := by
        rw [hdiv]; congr 2; omega
      have hne2 : n / 2 ^ (i - l) ≠ n := by
        have := div_lt_of_pos n (i - l) hn1 (by omega)
        omega
      have hor1 : get_bit (unlock_here pg n l).bitmap__or (n / 2 ^ (i - l)) =
          get_bit pg.bitmap__or (n / 2 ^ (i - l)) := by
        rw [unlock_here_or]; simp [hne2]
      have hlc : (unlock_here pg n l).level_count i = pg.level_count i := by
        simp [unlock_here, unlock_counts, hi]
      rw [hnode, hor1, hlc]
      have e1 : (l + 1 ≤ i) ↔ True := by simp; omega
      simp only [e1, true_and]

end mem_pool

namespace mem_pool

/-! ### Counting allocatable nodes -/

theorem is_anc_iff (a p : Nat) : is_anc a p = true ↔ anc_or_self a p := by
  unfold is_anc anc_or_self
  rw [List.any_eq_true]
  constructor
  · rintro ⟨k, _, hk⟩
    exact ⟨k, by simpa using hk⟩
  · rintro ⟨k, hk⟩
    rcases Nat.lt_or_ge p k with h | h
    · have h0 : p / 2 ^ k = 0 := Nat.div_eq_of_lt (lt_trans h (Nat.lt_two_pow k))
      have h1 : p / 2 ^ p = 0 := Nat.div_eq_of_lt (Nat.lt_two_pow p)
      refine ⟨p, List.mem_range.mpr (by omega), ?_⟩
      rw [h0] at hk
      simp [h1, hk]
    · exact ⟨k, List.mem_range.mpr (by omega), by simp [hk]⟩

theorem allocatable_iff (max_level : Nat) (live : List (Nat × Nat)) (q : Nat) :
    allocatable max_level live q = true ↔
      ∀ s ∈ live, ¬ anc_or_self q (seg_node max_level s) ∧
        ¬ anc_or_self (seg_node max_level s) q := by
  unfold allocatable
  rw [List.all_eq_true]
  constructor
  · intro h s hs
    have := h s hs
    simp only [Bool.and_eq_true, Bool.not_eq_true', ← Bool.not_eq_true, is_anc_iff] at this
    exact this
  · intro h s hs
    have := h s hs
    simp only [Bool.and_eq_true, Bool.not_eq_true', ← Bool.not_eq_true, is_anc_iff]
    exact this

theorem allocatable_congr (max_level : Nat) (l1 l2 : List (Nat × Nat)) (q : Nat)
    (h : ∀ t, t ∈ l1 ↔ t ∈ l2) : allocatable max_level l1 q = allocatable max_level l2 q := by
  rw [Bool.eq_iff_iff, allocatable_iff, allocatable_iff]
  constructor
  · intro h1 s hs; exact h1 s ((h s).mpr hs)
  · intro h1 s hs; exact h1 s ((h s).mp hs)

theorem free_count_congr (max_level : Nat) (l1 l2 : List (Nat × Nat)) (i : Nat)
    (h : ∀ t, t ∈ l1 ↔ t ∈ l2) : free_count max_level l1 i = free_count max_level l2 i := by
  unfold free_count
  congr 1
  apply Finset.filter_congr
  intro q _
  rw [allocatable_congr max_level l1 l2 q h]

theorem free_count_le (max_level : Nat) (live : List (Nat × Nat)) (i : Nat) :
    free_count max_level live i ≤ 2 ^ (max_level - i) := by
  unfold free_count
  refine le_trans (Finset.card_filter_le _ _) ?_
  rw [Nat.card_Ico, pow_succ]
  omega

/-- The level of `q / 2^k`. -/
theorem lvl_div (L i q k : Nat) (hik : i + k ≤ L) (h1 : 2 ^ (L - i) ≤ q)
    (h2 : q < 2 ^ (L - i + 1)) :
    2 ^ (L - (i + k)) ≤ q / 2 ^ k ∧ q / 2 ^ k < 2 ^ (L - (i + k) + 1) := by
  have e1 : 2 ^ (L - i) = 2 ^ (L - (i + k)) * 2 ^ k := by
    rw [← pow_add]; congr 1; omega
  have e2 : 2 ^ (L - i + 1) = 2 ^ (L - (i + k) + 1) * 2 ^ k := by
    rw [← pow_add]; congr 1; omega
  constructor
  · rw [Nat.le_div_iff_mul_le (Nat.two_pow_pos _), ← e1]
    exact h1
  · rw [Nat.div_lt_iff_lt_mul (Nat.two_pow_pos _), ← e2]
    exact h2

theorem lvl_div_zero (L i q k : Nat) (hi : i ≤ L) (hik : L < i + k)
    (h2 : q < 2 ^ (L - i + 1)) :
    q / 2 ^ k = 0 := by
  apply Nat.div_eq_of_lt
  have : 2 ^ (L - i + 1) ≤ 2 ^ k := Nat.pow_le_pow_right (by norm_num) (by omega)
  omega

theorem lvl_unique (L i j q : Nat) (hi : i ≤ L) (hj : j ≤ L) (a1 : 2 ^ (L - i) ≤ q)
    (a2 : q < 2 ^ (L - i + 1)) (b1 : 2 ^ (L - j) ≤ q) (b2 : q < 2 ^ (L - j + 1)) : i = j := by
  by_contra hne
  rcases Nat.lt_or_gt_of_ne hne with h | h
  · have : 2 ^ (L - j + 1) ≤ 2 ^ (L - i) := Nat.pow_le_pow_right (by norm_num) (by omega)
    omega
  · have : 2 ^ (L - i + 1) ≤ 2 ^ (L - j) := Nat.pow_le_pow_right (by norm_num) (by omega)
    omega

/-- For `q` of level `i` and `n` of level `l ≥ i`: `n` is `q` or an ancestor
of `q` exactly when `n` is the ancestor of `q` at level `l`, and `q` can only
be above `n` by being `n`. -/
theorem related_low (L i l q n : Nat) (hil : i ≤ l) (hl : l ≤ L) (a1 : 2 ^ (L - i) ≤ q)
    (a2 : q < 2 ^ (L - i + 1)) (b1 : 2 ^ (L - l) ≤ n) (b2 : n < 2 ^ (L - l + 1)) :
    (anc_or_self q n ∨ anc_or_self n q) ↔ q / 2 ^ (l - i) = n := by
  have hn1 : 1 ≤ n := le_trans (Nat.two_pow_pos _) b1
  have hq1 : 1 ≤ q := le_trans (Nat.two_pow_pos _) a1
  constructor
  · rintro (⟨k, hk⟩ | ⟨k, hk⟩)
    · -- `q` above `n`: the levels force `k = 0` and `i = l`
      have hlk : l + k ≤ L := by
        by_contra hc
        have := lvl_div_zero L l n k hl (by omega) b2
        omega
      obtain ⟨c1, c2⟩ := lvl_div L l n k hlk b1 b2
      rw [hk] at c1 c2
      have := lvl_unique L (l + k) i q (by omega) (by omega) c1 c2 a1 a2
      have hk0 : k = 0 := by omega
      have hli : l = i := by omega
      subst hk0
      subst hli
      simpa using hk.symm
    · have hik : i + k ≤ L := by
        by_contra hc
        have := lvl_div_zero L i q k (by omega) (by omega) a2
        omega
      obtain ⟨c1, c2⟩ := lvl_div L i q k hik a1 a2
      rw [hk] at c1 c2
      have := lvl_unique L (i + k) l n (by omega) hl c1 c2 b1 b2
      have : k = l - i := by omega
      rw [← this]; exact hk
  · intro h
    exact Or.inr ⟨l - i, h⟩

theorem related_high (L i l q n : Nat) (hli : l ≤ i) (hi : i ≤ L) (a1 : 2 ^ (L - i) ≤ q)
    (a2 : q < 2 ^ (L - i + 1)) (b1 : 2 ^ (L - l) ≤ n) (b2 : n < 2 ^ (L - l + 1)) :
    (anc_or_self q n ∨ anc_or_self n q) ↔ n / 2 ^ (i - l) = q := by
  rw [Or.comm]
  exact related_low L l i n q hli hi b1 b2 a1 a2

/-- Splitting the allocatable nodes of a level by their relation to one more
live segment `s`. -/
theorem free_count_cons (max_level : Nat) (live : List (Nat × Nat)) (s : Nat × Nat) (i : Nat) :
    free_count max_level (s :: live) i +
      ((Finset.Ico (2 ^ (max_level - i)) (2 ^ (max_level - i + 1))).filter
        (fun q => allocatable max_level live q = true ∧
          (is_anc q (seg_node max_level s) || is_anc (seg_node max_level s) q) = true)).card =
    free_count max_level live i := by
  unfold free_count
  have hsplit := Finset.filter_card_add_filter_neg_card_eq_card
    (s := (Finset.Ico (2 ^ (max_level - i)) (2 ^ (max_level - i + 1))).filter
      (fun q => allocatable max_level live q = true))
    (fun q => (is_anc q (seg_node max_level s) || is_anc (seg_node max_level s) q) = true)
  rw [Finset.filter_filter, Finset.filter_filter] at hsplit
  rw [← hsplit, Nat.add_comm]
  congr 2
  apply Finset.filter_congr
  intro q _
  simp only [allocatable, List.all_cons, Bool.and_eq_true, Bool.not_eq_true', Bool.or_eq_true,
    not_or, Bool.not_eq_true]
  tauto

end mem_pool

namespace mem_pool

theorem div_div_pow (q a b : Nat) : q / 2 ^ a / 2 ^ b = q / 2 ^ (a + b) := by
  rw [Nat.div_div_eq_div_mul, ← pow_add]

/-- The nodes below a node that is unrelated to every live node are
allocatable. -/
theorem desc_allocatable (max_level : Nat) (live : List (Nat × Nat)) (n q d : Nat)
    (hn : ∀ t ∈ live, ¬ anc_or_self n (seg_node max_level t) ∧
      ¬ anc_or_self (seg_node max_level t) n)
    (hq : q / 2 ^ d = n) : allocatable max_level live q = true := by
  rw [allocatable_iff]
  intro t ht
  obtain ⟨n1, n2⟩ := hn t ht
  constructor
  · rintro ⟨k, hk⟩
    apply n1
    refine ⟨k + d, ?_⟩
    rw [← div_div_pow, hk, hq]
  · rintro ⟨k, hk⟩
    rcases Nat.le_total k d with h | h
    · apply n1
      refine ⟨d - k, ?_⟩
      rw [← hk, div_div_pow]
      have : k + (d - k) = d := by omega
      rw [this, hq]
    · apply n2
      refine ⟨k - d, ?_⟩
      rw [← hq, div_div_pow]
      have : d + (k - d) = k := by omega
      rw [this, hk]

theorem div_eq_iff_bounds (q m n : Nat) (hm : 0 < m) : q / m = n ↔ n * m ≤ q ∧ q < (n + 1) * m := by
  constructor
  · intro h
    have h1 := Nat.div_add_mod q m
    have h2 := Nat.mod_lt q hm
    rw [h] at h1
    rw [Nat.add_mul, Nat.mul_comm n m]
    omega
  · rintro ⟨h1, h2⟩
    apply Nat.div_eq_of_lt_le
    · exact h1
    · exact h2

/-- Of the allocatable nodes of a level `i` at or below the level of a new
node `n`, those related to `n` are the `2^(l - i)` nodes below it. -/
theorem count_related_low (max_level : Nat) (live : List (Nat × Nat)) (s : Nat × Nat) (i : Nat)
    (hil : i ≤ s.2) (hl : s.2 ≤ max_level) (b1 : 2 ^ (max_level - s.2) ≤ seg_node max_level s)
    (b2 : seg_node max_level s < 2 ^ (max_level - s.2 + 1))
    (hn : ∀ t ∈ live, ¬ anc_or_self (seg_node max_level s) (seg_node max_level t) ∧
      ¬ anc_or_self (seg_node max_level t) (seg_node max_level s)) :
    ((Finset.Ico (2 ^ (max_level - i)) (2 ^ (max_level - i + 1))).filter
      (fun q => allocatable max_level live q = true ∧
        (is_anc q (seg_node max_level s) || is_anc (seg_node max_level s) q) = true)).card =
      2 ^ (s.2 - i) := by
  have hpos : 0 < 2 ^ (s.2 - i) := Nat.two_pow_pos _
  have e1 : 2 ^ (max_level - i) = 2 ^ (max_level - s.2) * 2 ^ (s.2 - i) := by
    rw [← pow_add]; congr 1; omega
  have e2 : 2 ^ (max_level - i + 1) = 2 ^ (max_level - s.2 + 1) * 2 ^ (s.2 - i) := by
    rw [← pow_add]; congr 1; omega
  have hset : (Finset.Ico (2 ^ (max_level - i)) (2 ^ (max_level - i + 1))).filter
      (fun q => allocatable max_level live q = true ∧
        (is_anc q (seg_node max_level s) || is_anc (seg_node max_level s) q) = true) =
      Finset.Ico (seg_node max_level s * 2 ^ (s.2 - i))
        ((seg_node max_level s + 1) * 2 ^ (s.2 - i)) := by
    ext q
    simp only [Finset.mem_filter, Finset.mem_Ico, Bool.or_eq_true, is_anc_iff]
    constructor
    · rintro ⟨⟨a1, a2⟩, _, hrel⟩
      have := (related_low max_level i s.2 q _ hil hl a1 a2 b1 b2).mp hrel
      exact (div_eq_iff_bounds q _ _ hpos).mp this
    · intro hb
      have hdiv := (div_eq_iff_bounds q _ _ hpos).mpr hb
      have a1 : 2 ^ (max_level - i) ≤ q := by
        rw [e1]
        exact le_trans (Nat.mul_le_mul_right _ b1) hb.1
      have a2 : q < 2 ^ (max_level - i + 1) := by
        rw [e2]
        exact lt_of_lt_of_le hb.2 (Nat.mul_le_mul_right _ b2)
      exact ⟨⟨a1, a2⟩, desc_allocatable max_level live _ q _ hn hdiv,
        (related_low max_level i s.2 q _ hil hl a1 a2 b1 b2).mpr hdiv⟩
  rw [hset, Nat.card_Ico, Nat.add_mul]
  omega

/-- Of the allocatable nodes of a level `i` above the level of a new node
`n`, only the ancestor of `n` at that level is related to `n`. -/
theorem count_related_high (max_level : Nat) (live : List (Nat × Nat)) (s : Nat × Nat) (i : Nat)
    (hli : s.2 < i) (hi : i ≤ max_level) (b1 : 2 ^ (max_level - s.2) ≤ seg_node max_level s)
    (b2 : seg_node max_level s < 2 ^ (max_level - s.2 + 1)) :
    ((Finset.Ico (2 ^ (max_level - i)) (2 ^ (max_level - i + 1))).filter
      (fun q => allocatable max_level live q = true ∧
        (is_anc q (seg_node max_level s) || is_anc (seg_node max_level s) q) = true)).card =
      if allocatable max_level live (seg_node max_level s / 2 ^ (i - s.2)) = true then 1 else 0 := by
  obtain ⟨c1, c2⟩ := lvl_div max_level s.2 (seg_node max_level s) (i - s.2) (by omega) b1 b2
  have hlev : s.2 + (i - s.2) = i := by omega
  rw [hlev] at c1 c2
  have hset : (Finset.Ico (2 ^ (max_level - i)) (2 ^ (max_level - i + 1))).filter
      (fun q => allocatable max_level live q = true ∧
        (is_anc q (seg_node max_level s) || is_anc (seg_node max_level s) q) = true) =
      if allocatable max_level live (seg_node max_level s / 2 ^ (i - s.2)) = true then
        {seg_node max_level s / 2 ^ (i - s.2)} else ∅ := by
    ext q
    simp only [Finset.mem_filter, Finset.mem_Ico, Bool.or_eq_true, is_anc_iff]
    constructor
    · rintro ⟨⟨a1, a2⟩, hal, hrel⟩
      have := (related_high max_level i s.2 q _ (by omega) hi a1 a2 b1 b2).mp hrel
      subst this
      rw [if_pos hal]
      exact Finset.mem_singleton_self _
    · intro hq
      split_ifs at hq with hal
      · rw [Finset.mem_singleton] at hq
        subst hq
        exact ⟨⟨c1, c2⟩, hal,
          (related_high max_level i s.2 _ _ (by omega) hi c1 c2 b1 b2).mpr rfl⟩
      · exact absurd hq (Finset.not_mem_empty _)
  rw [hset]
  split_ifs <;> simp

end mem_pool

namespace mem_pool

theorem get_bit_zero (x : Nat) : get_bit (fun _ => 0) x = false := by
  simp [get_bit]

theorem free_count_nil (max_level i : Nat) : free_count max_level [] i = 2 ^ (max_level - i) := by
  unfold free_count allocatable
  simp only [List.all_nil, Finset.filter_True, Nat.card_Ico]
  rw [pow_succ]
  omega

/-- A new page satisfies `page_full` with no live segment. -/
theorem page_full_fresh (max_level addr : Nat) :
    page_full max_level (mem_page_new max_level addr) [] :=
  { base := page_inv_fresh max_level addr
    or_exact := by
      intro x _ h
      simp [mem_page_new, get_bit_zero] at h
    and_or := by
      intro x h
      simp [mem_page_new, get_bit_zero] at h
    and_exact := by
      intro x _
      simp [mem_page_new, get_bit_zero]
    counts := by
      intro i hi
      rw [free_count_nil]
      simp [mem_page_new, hi, Nat.shiftLeft_eq] }

/-- For an ancestor `a` of a node that no live node is above, `a` is
allocatable exactly when `bitmap__or` is clear on it. -/
theorem allocatable_iff_or (max_level : Nat) (pg : mem_page) (live : List (Nat × Nat))
    (hset : ∀ s ∈ live, ∀ k, 1 ≤ seg_node max_level s / 2 ^ k →
      get_bit pg.bitmap__or (seg_node max_level s / 2 ^ k) = true)
    (hex : ∀ x, 1 ≤ x → get_bit pg.bitmap__or x = true →
      ∃ s ∈ live, anc_or_self x (seg_node max_level s))
    (node j : Nat) (ha : 1 ≤ node / 2 ^ j)
    (hnew : ∀ t ∈ live, ∀ k, node / 2 ^ k ≠ seg_node max_level t) :
    allocatable max_level live (node / 2 ^ j) = true ↔
      get_bit pg.bitmap__or (node / 2 ^ j) = false := by
  rw [allocatable_iff]
  constructor
  · intro h
    cases ho : get_bit pg.bitmap__or (node / 2 ^ j) with
    | false => rfl
    | true =>
      obtain ⟨s, hs, hanc⟩ := hex _ ha ho
      exact absurd hanc (h s hs).1
  · intro h t ht
    constructor
    · rintro ⟨k, hk⟩
      have := hset t ht k (by omega)
      rw [hk, h] at this
      exact absurd this (by simp)
    · rintro ⟨k, hk⟩
      apply hnew t ht (j + k)
      rw [← div_div_pow, hk]

/-- Subtraction of a count from a `level_count` entry does not wrap. -/
theorem sub32_exact (a b c : Nat) (h : c + b = a) (ha : a < U32) : sub32 a b = c := by
  unfold sub32
  rw [U32_eq] at *
  omega

theorem add32_exact (a b : Nat) (h : a + b < U32) : add32 a b = a + b := by
  unfold add32
  exact Nat.mod_eq_of_lt h

end mem_pool

namespace mem_pool

/-- The invariant `page_full` is kept by `alloc_from_page`. -/
theorem page_full_alloc (max_level : Nat) (hL : max_level ≤ 26) (pg : mem_page)
    (live : List (Nat × Nat)) (level index : Nat) (full : page_full max_level pg live)
    (h : (alloc_from_page max_level pg level).1 = some index) :
    page_full max_level (alloc_from_page max_level pg level).2 ((index, level) :: live) := by
  have hbase := page_inv_alloc max_level hL pg live level index full.base h
  have inv := full.base
  rcases hlk : lock pg 1 max_level level with ⟨n, pg1⟩
  cases n with
  | none => rw [alloc_from_page_none _ _ _ _ hlk] at h; simp at h
  | some node =>
    rw [alloc_from_page_some _ _ _ _ _ hlk] at h hbase ⊢
    simp only [Option.some.injEq] at h hbase ⊢
    rw [h] at hbase ⊢
    obtain ⟨h1, h2, h3, h4, h5, h6, h7, h8, h9, h10, h11⟩ :=
      lock_some max_level pg 1 level node pg1 hlk
    obtain ⟨b1, b2⟩ := div_eq_one_bounds node _ (Nat.two_pow_pos _) h2
    have b2' : node < 2 ^ (max_level - level + 1) := by rw [pow_succ]; omega
    obtain ⟨a1, a2, a3⟩ := node_index_arith max_level level node hL h1 b1 b2'
    rw [h] at a1 a2 a3
    have hnode : seg_node max_level (index, level) = node := a3
    have hn1 : 1 ≤ node := le_trans (Nat.two_pow_pos _) b1
    have hpath : ∀ k, 1 ≤ node / 2 ^ k → k ≤ max_level - level := by
      intro k hk
      by_contra hc
      have := div_pow_zero_of_gt node _ k h2 (by omega)
      omega
    have hpath1 : ∀ k, k ≤ max_level - level → 1 ≤ node / 2 ^ k := by
      intro k hk
      have := (lvl_div max_level level node k (by omega) b1 b2').1
      exact le_trans (Nat.two_pow_pos _) this
    have new_old : ∀ t ∈ live, ∀ k, node / 2 ^ k ≠ seg_node max_level t := by
      intro t ht k hk
      have hq := (inv.valid t ht).2.1
      have hq1 : 1 ≤ seg_node max_level t := le_trans (Nat.two_pow_pos _) hq
      have := h3 k (hpath k (by omega))
      rw [hk, inv.and_set t ht] at this
      exact absurd this (by simp)
    have old_new : ∀ s ∈ live, ∀ k, seg_node max_level s / 2 ^ k ≠ node := by
      intro s hs k hk
      have := inv.or_set s hs k (by omega)
      rw [hk, h4] at this
      exact absurd this (by simp)
    have hdown : ∀ x, 1 ≤ x → get_bit pg.bitmap__or x = false →
        get_bit pg.bitmap__or (x * 2) = false ∧ get_bit pg.bitmap__or (x * 2 + 1) = false := by
      intro x hx hf
      constructor
      · cases ho : get_bit pg.bitmap__or (x * 2) with
        | false => rfl
        | true =>
          obtain ⟨s, hs, k, hk⟩ := full.or_exact _ (by omega) ho
          have := inv.or_set s hs (k + 1) (by
            rw [div_two_pow_succ, hk]; omega)
          rw [div_two_pow_succ, hk] at this
          have e : x * 2 / 2 = x := by omega
          rw [e, hf] at this
          exact absurd this (by simp)
      · cases ho : get_bit pg.bitmap__or (x * 2 + 1) with
        | false => rfl
        | true =>
          obtain ⟨s, hs, k, hk⟩ := full.or_exact _ (by omega) ho
          have := inv.or_set s hs (k + 1) (by
            rw [div_two_pow_succ, hk]; omega)
          rw [div_two_pow_succ, hk] at this
          have e : (x * 2 + 1) / 2 = x := by omega
          rw [e, hf] at this
          exact absurd this (by simp)
    have hcnt := lock_level_count max_level pg 1 level node pg1 (le_refl _) full.and_or hdown hlk
    have hchild : ∀ x, 1 ≤ x → (∀ k, k ≤ max_level - level → x ≠ node / 2 ^ k) →
        ∀ c, (c = x * 2 ∨ c = x * 2 + 1) → ∀ k, k ≤ max_level - level → c ≠ node / 2 ^ k := by
      intro x hx hoff c hc k hk he
      have hx2 : c / 2 = x := by omega
      rcases Nat.lt_or_ge k (max_level - level) with hlt | hge
      · apply hoff (k + 1) (by omega)
        rw [div_two_pow_succ, ← he, hx2]
      · have : k = max_level - level := by omega
        rw [this, h2] at he
        omega
    refine { base := hbase, or_exact := ?_, and_or := ?_, and_exact := ?_, counts := ?_ }
    · intro x hx ho
      simp only at ho
      rcases (h5 x).mp ho with ⟨k, _, hk⟩ | hold
      · exact ⟨(index, level), List.mem_cons_self _ _, k, by rw [hnode, hk]⟩
      · obtain ⟨s, hs, hanc⟩ := full.or_exact x hx hold
        exact ⟨s, List.mem_cons_of_mem _ hs, hanc⟩
    · intro x ha
      simp only at ha ⊢
      by_cases hon : ∃ k, k ≤ max_level - level ∧ x = node / 2 ^ k
      · exact (h5 x).mpr (Or.inl hon)
      · have hoff : ∀ k, k ≤ max_level - level → x ≠ node / 2 ^ k :=
          fun k hk he => hon ⟨k, hk, he⟩
        rw [h7 x hoff] at ha
        exact (h5 x).mpr (Or.inr (full.and_or x ha))
    · intro x hx
      simp only
      by_cases hon : ∃ k, k ≤ max_level - level ∧ x = node / 2 ^ k
      · obtain ⟨k, hk, rfl⟩ := hon
        rcases Nat.eq_zero_or_pos k with rfl | hk0
        · simp only [pow_zero, Nat.div_one]
          constructor
          · intro _
            exact Or.inl ⟨(index, level), List.mem_cons_self _ _, hnode⟩
          · intro _
            exact h8
        · rw [lock_and_path max_level pg 1 level node pg1 (le_refl _) hlk k hk0 hk]
          rw [Bool.and_eq_true]
          constructor
          · intro hb
            exact Or.inr hb
          · rintro (⟨s, hs, hse⟩ | hb)
            · rcases List.mem_cons.mp hs with rfl | hs
              · rw [hnode] at hse
                have := div_lt_of_pos node k hn1 hk0
                omega
              · exact absurd hse.symm (new_old s hs k)
            · exact hb
      · have hoff : ∀ k, k ≤ max_level - level → x ≠ node / 2 ^ k :=
          fun k hk he => hon ⟨k, hk, he⟩
        rw [h7 x hoff, h7 _ (hchild x hx hoff _ (Or.inl rfl)),
          h7 _ (hchild x hx hoff _ (Or.inr rfl)), full.and_exact x hx]
        constructor
        · rintro (⟨s, hs, hse⟩ | hb)
          · exact Or.inl ⟨s, List.mem_cons_of_mem _ hs, hse⟩
          · exact Or.inr hb
        · rintro (⟨s, hs, hse⟩ | hb)
          · rcases List.mem_cons.mp hs with rfl | hs
            · rw [hnode] at hse
              exact absurd hse.symm (by simpa using hoff 0 (Nat.zero_le _))
            · exact Or.inl ⟨s, hs, hse⟩
          · exact Or.inr hb
    · intro i hi
      simp only
      have hfc := free_count_cons max_level live (index, level) i
      have hle := free_count_le max_level live i
      have hB : 2 ^ (max_level - i) ≤ 67108864 := two_pow_le_26 _ (by omega)
      have hlc := full.counts i hi
      have hunrel : ∀ t ∈ live,
          ¬ anc_or_self (seg_node max_level (index, level)) (seg_node max_level t) ∧
          ¬ anc_or_self (seg_node max_level t) (seg_node max_level (index, level)) := by
        intro t ht
        rw [hnode]
        exact ⟨fun ⟨k, hk⟩ => old_new t ht k hk, fun ⟨k, hk⟩ => new_old t ht k hk⟩
      rw [hcnt i]
      by_cases hil : i ≤ level
      · rw [if_pos hil]
        have hc := count_related_low max_level live (index, level) i hil h1
          (by rw [hnode]; exact b1) (by rw [hnode]; exact b2') hunrel
        rw [hc] at hfc
        apply sub32_exact
        · rw [Nat.shiftLeft_eq, one_mul, hlc]
          exact hfc
        · rw [hlc, U32_eq]; omega
      · rw [if_neg hil]
        have hc := count_related_high max_level live (index, level) i (by simpa using hil) hi
          (by rw [hnode]; exact b1) (by rw [hnode]; exact b2')
        rw [hnode] at hc hfc
        simp only at hc
        have hiff := allocatable_iff_or max_level pg live inv.or_set full.or_exact node (i - level)
          (hpath1 _ (by omega)) new_old
        by_cases ho : get_bit pg.bitmap__or (node / 2 ^ (i - level)) = false
        · rw [if_pos ⟨hi, ho⟩]
          rw [if_pos (hiff.mpr ho)] at hc
          rw [hc] at hfc
          apply sub32_exact
          · rw [hlc]; exact hfc
          · rw [hlc, U32_eq]; omega
        · rw [if_neg (fun hh => ho hh.2)]
          rw [if_neg (fun hh => ho (hiff.mp hh))] at hc
          rw [hc] at hfc
          rw [hlc]
          omega

end mem_pool

namespace mem_pool

/-- The invariant `page_full` is kept when a live segment is freed. -/
theorem page_full_free (max_level : Nat) (hL : max_level ≤ 26) (pg : mem_page)
    (live : List (Nat × Nat)) (index level : Nat) (full : page_full max_level pg live)
    (hm : (index, level) ∈ live) :
    page_full max_level (free_in_page max_level pg index) (live.erase (index, level)) := by
  have hbase := page_inv_free max_level pg live index level full.base hm
  have inv := full.base
  have hmem : ∀ t, t ∈ live.erase (index, level) ↔ t ≠ (index, level) ∧ t ∈ live :=
    fun t => inv.nodup.mem_erase_iff
  have hfree : free_in_page max_level pg index =
      unlock max_level pg (seg_node max_level (index, level)) level level := by
    unfold free_in_page seg_node
    simp only [inv.hdr _ hm]
  rw [hfree] at hbase ⊢
  obtain ⟨hl, b1, b2, _⟩ := inv.valid _ hm
  simp only at hl b1 b2
  generalize hn : seg_node max_level (index, level) = n at *
  have hn1 : 1 ≤ n := le_trans (Nat.two_pow_pos _) b1
  obtain ⟨u1, ⟨u2o, u2a⟩, u3, u4⟩ := unlock_spec max_level level n pg hl b1
  generalize hpg : unlock max_level pg n level level = pg1 at *
  -- path nodes
  have hpos : ∀ j, level + j ≤ max_level → 1 ≤ n / 2 ^ j := by
    intro j hj
    exact le_trans (Nat.two_pow_pos _) (lvl_div max_level level n j hj b1 b2).1
  have hlen : ∀ j, 1 ≤ n / 2 ^ j → level + j ≤ max_level := by
    intro j hj
    by_contra hc
    have := lvl_div_zero max_level level n j hl (by omega) b2
    omega
  have hroot : n / 2 ^ (max_level - level) = 1 := by
    have := lvl_div max_level level n (max_level - level) (by omega) b1 b2
    have e : max_level - (level + (max_level - level)) = 0 := by omega
    rw [e] at this
    simp only [pow_zero, zero_add, pow_one] at this
    omega
  have anti1 : ∀ t ∈ live.erase (index, level), ∀ k, n / 2 ^ k ≠ seg_node max_level t := by
    intro t ht k
    obtain ⟨hne, ht⟩ := (hmem t).mp ht
    have := inv.anti _ hm t ht (Ne.symm hne) k
    rwa [hn] at this
  have anti2 : ∀ t ∈ live.erase (index, level), ∀ k, seg_node max_level t / 2 ^ k ≠ n := by
    intro t ht k
    obtain ⟨hne, ht⟩ := (hmem t).mp ht
    have := inv.anti t ht _ hm hne k
    rwa [hn] at this
  have hchild : ∀ x, 1 ≤ x → (∀ j, level + j ≤ max_level → x ≠ n / 2 ^ j) →
      ∀ c, (c = x * 2 ∨ c = x * 2 + 1) → ∀ j, level + j ≤ max_level → c ≠ n / 2 ^ j := by
    intro x hx hoff c hc j hj he
    have hx2 : c / 2 = x := by omega
    rcases Nat.lt_or_ge (level + j) max_level with hlt | hge
    · apply hoff (j + 1) (by omega)
      rw [div_two_pow_succ, ← he, hx2]
    · have : j = max_level - level := by omega
      rw [this, hroot] at he
      have := hoff (max_level - level) (by omega)
      rw [hroot] at this
      omega
  have hoffex : ∀ c, 1 ≤ c → (∀ j, level + j ≤ max_level → c ≠ n / 2 ^ j) →
      get_bit pg.bitmap__or c = true →
      ∃ s ∈ live.erase (index, level), anc_or_self c (seg_node max_level s) := by
    intro c hc hoff ho
    obtain ⟨s, hs, k, hk⟩ := full.or_exact c hc ho
    refine ⟨s, (hmem s).mpr ⟨?_, hs⟩, k, hk⟩
    rintro rfl
    rw [hn] at hk
    exact hoff k (hlen k (by omega)) hk.symm
  have horex : ∀ x, 1 ≤ x → get_bit pg1.bitmap__or x = true →
      ∃ s ∈ live.erase (index, level), anc_or_self x (seg_node max_level s) := by
    have hon : ∀ j, level + j ≤ max_level → get_bit pg1.bitmap__or (n / 2 ^ j) = true →
        ∃ s ∈ live.erase (index, level), anc_or_self (n / 2 ^ j) (seg_node max_level s) := by
      intro j
      induction j using Nat.strong_induction_on with
      | _ j ih =>
        intro hj ho
        rcases Nat.eq_zero_or_pos j with rfl | hj0
        · simp only [pow_zero, Nat.div_one] at ho
          rw [u2o] at ho
          exact absurd ho (by simp)
        · have h3 := (u3 j hj0 hj).1
          rw [ho] at h3
          have hsome : ∃ c, (c = n / 2 ^ j * 2 ∨ c = n / 2 ^ j * 2 + 1) ∧
              get_bit pg1.bitmap__or c = true := by
            cases hc1 : get_bit pg1.bitmap__or (n / 2 ^ j * 2) with
            | true => exact ⟨_, Or.inl rfl, hc1⟩
            | false =>
              cases hc2 : get_bit pg1.bitmap__or (n / 2 ^ j * 2 + 1) with
              | true => exact ⟨_, Or.inr rfl, hc2⟩
              | false => rw [hc1, hc2] at h3; simp at h3
          obtain ⟨c, hc, hco⟩ := hsome
          have hc2 : c / 2 = n / 2 ^ j := by omega
          have hx1 := hpos j hj
          have hlift : (∃ s ∈ live.erase (index, level), anc_or_self c (seg_node max_level s)) →
              ∃ s ∈ live.erase (index, level),
                anc_or_self (n / 2 ^ j) (seg_node max_level s) := by
            rintro ⟨s, hs, k, hk⟩
            exact ⟨s, hs, k + 1, by rw [div_two_pow_succ, hk, hc2]⟩
          apply hlift
          by_cases hcon : ∃ j2, level + j2 ≤ max_level ∧ c = n / 2 ^ j2
          · obtain ⟨j2, hj2, hce⟩ := hcon
            have hlt : j2 < j := by
              by_contra hge
              have : n / 2 ^ j2 ≤ n / 2 ^ j :=
                Nat.div_le_div_left (Nat.pow_le_pow_right (by norm_num) (by omega))
                  (Nat.two_pow_pos _)
              omega
            rw [hce] at hco ⊢
            exact ih j2 hlt hj2 hco
          · have hoff : ∀ j2, level + j2 ≤ max_level → c ≠ n / 2 ^ j2 :=
              fun j2 h2 he => hcon ⟨j2, h2, he⟩
            rw [(u1 c hoff).1] at hco
            exact hoffex c (by omega) hoff hco
    intro x hx ho
    by_cases hcon : ∃ j, level + j ≤ max_level ∧ x = n / 2 ^ j
    · obtain ⟨j, hj, rfl⟩ := hcon
      exact hon j hj ho
    · have hoff : ∀ j, level + j ≤ max_level → x ≠ n / 2 ^ j :=
        fun j h2 he => hcon ⟨j, h2, he⟩
      rw [(u1 x hoff).1] at ho
      exact hoffex x hx hoff ho
  have hand_path : ∀ j, level + j ≤ max_level → get_bit pg1.bitmap_and (n / 2 ^ j) = false := by
    intro j hj
    rcases Nat.eq_zero_or_pos j with rfl | hj0
    · simpa using u2a
    · exact (u3 j hj0 hj).2
  refine { base := hbase, or_exact := horex, and_or := ?_, and_exact := ?_, counts := ?_ }
  · intro x ha
    by_cases hcon : ∃ j, level + j ≤ max_level ∧ x = n / 2 ^ j
    · obtain ⟨j, hj, rfl⟩ := hcon
      rw [hand_path j hj] at ha
      exact absurd ha (by simp)
    · have hoff : ∀ j, level + j ≤ max_level → x ≠ n / 2 ^ j :=
        fun j h2 he => hcon ⟨j, h2, he⟩
      rw [(u1 x hoff).2] at ha
      rw [(u1 x hoff).1]
      exact full.and_or x ha
  · intro x hx
    by_cases hcon : ∃ j, level + j ≤ max_level ∧ x = n / 2 ^ j
    · obtain ⟨j, hj, rfl⟩ := hcon
      rw [hand_path j hj]
      constructor
      · intro hf
        exact absurd hf (by simp)
      · rintro (⟨s, hs, hse⟩ | ⟨hc1, hc2⟩)
        · exact absurd hse.symm (anti1 s hs j)
        · rcases Nat.eq_zero_or_pos j with rfl | hj0
          · simp only [pow_zero, Nat.div_one] at hc1
            have hoff : ∀ j2, level + j2 ≤ max_level → n * 2 ≠ n / 2 ^ j2 := by
              intro j2 _ he
              have := Nat.div_le_self n (2 ^ j2)
              omega
            rw [(u1 _ hoff).2] at hc1
            obtain ⟨s, hs, k, hk⟩ := full.or_exact _ (by omega) (full.and_or _ hc1)
            have hk2 : seg_node max_level s / 2 ^ (k + 1) = n := by
              rw [div_two_pow_succ, hk]; omega
            by_cases hse : s = (index, level)
            · rw [hse, hn] at hk2
              have := div_lt_of_pos n (k + 1) hn1 (by omega)
              omega
            · have := inv.anti s hs _ hm hse (k + 1)
              rw [hn] at this
              exact absurd hk2 this
          · obtain ⟨e, rfl⟩ : ∃ e, j = e + 1 := ⟨j - 1, by omega⟩
            have hprev := hand_path e (by omega)
            have hdiv : n / 2 ^ e / 2 = n / 2 ^ (e + 1) := (div_two_pow_succ n e).symm
            have hcase : n / 2 ^ e = n / 2 ^ (e + 1) * 2 ∨
                n / 2 ^ e = n / 2 ^ (e + 1) * 2 + 1 := by omega
            rcases hcase with hcase | hcase
            · rw [← hcase, hprev] at hc1
              exact absurd hc1 (by simp)
            · rw [← hcase, hprev] at hc2
              exact absurd hc2 (by simp)
    · have hoff : ∀ j, level + j ≤ max_level → x ≠ n / 2 ^ j :=
        fun j h2 he => hcon ⟨j, h2, he⟩
      rw [(u1 x hoff).2, (u1 _ (hchild x hx hoff _ (Or.inl rfl))).2,
        (u1 _ (hchild x hx hoff _ (Or.inr rfl))).2, full.and_exact x hx]
      constructor
      · rintro (⟨s, hs, hse⟩ | hb)
        · refine Or.inl ⟨s, (hmem s).mpr ⟨?_, hs⟩, hse⟩
          rintro rfl
          rw [hn] at hse
          exact hoff 0 (by omega) (by simpa using hse.symm)
        · exact Or.inr hb
      · rintro (⟨s, hs, hse⟩ | hb)
        · exact Or.inl ⟨s, ((hmem s).mp hs).2, hse⟩
        · exact Or.inr hb
  · intro i hi
    have hcongr : free_count max_level live i =
        free_count max_level ((index, level) :: live.erase (index, level)) i := by
      apply free_count_congr
      intro t
      rw [List.mem_cons, hmem]
      constructor
      · intro ht
        by_cases he : t = (index, level)
        · exact Or.inl he
        · exact Or.inr ⟨he, ht⟩
      · rintro (rfl | ⟨_, ht⟩)
        · exact hm
        · exact ht
    have hfc := free_count_cons max_level (live.erase (index, level)) (index, level) i
    rw [← hcongr, ← full.counts i hi] at hfc
    have hle := free_count_le max_level (live.erase (index, level)) i
    have hB : 2 ^ (max_level - i) ≤ 67108864 := two_pow_le_26 _ (by omega)
    have hunrel : ∀ t ∈ live.erase (index, level),
        ¬ anc_or_self (seg_node max_level (index, level)) (seg_node max_level t) ∧
        ¬ anc_or_self (seg_node max_level t) (seg_node max_level (index, level)) := by
      intro t ht
      rw [hn]
      exact ⟨fun ⟨k, hk⟩ => anti2 t ht k hk, fun ⟨k, hk⟩ => anti1 t ht k hk⟩
    rw [u4 i]
    by_cases hil : i ≤ level
    · rw [if_pos hil]
      have hc := count_related_low max_level (live.erase (index, level)) (index, level) i hil hl
        (by rw [hn]; exact b1) (by rw [hn]; exact b2) hunrel
      rw [hc] at hfc
      simp only at hfc
      rw [add32_exact, Nat.shiftLeft_eq, one_mul]
      · omega
      · rw [Nat.shiftLeft_eq, one_mul, U32_eq]
        have : 2 ^ (level - i) ≤ 67108864 := two_pow_le_26 _ (by omega)
        omega
    · rw [if_neg hil]
      have hc := count_related_high max_level (live.erase (index, level)) (index, level) i
        (by simpa using hil) hi (by rw [hn]; exact b1) (by rw [hn]; exact b2)
      rw [hn] at hc hfc
      simp only at hc
      have hiff := allocatable_iff_or max_level pg1 (live.erase (index, level)) hbase.or_set
        horex n (i - level) (hpos _ (by omega)) anti1
      have hor : get_bit pg.bitmap__or (n / 2 ^ (i - level)) = true := by
        have := inv.or_set _ hm (i - level) (by rw [hn]; exact hpos _ (by omega))
        rwa [hn] at this
      by_cases ho : get_bit pg1.bitmap__or (n / 2 ^ (i - level)) = false
      · rw [if_pos ⟨hi, hor, ho⟩]
        rw [if_pos (hiff.mpr ho)] at hc
        rw [hc] at hfc
        rw [add32_exact]
        · omega
        · rw [U32_eq]; omega
      · rw [if_neg (fun hh => ho hh.2.2)]
        rw [if_neg (fun hh => ho (hiff.mp hh))] at hc
        rw [hc] at hfc
        omega

end mem_pool

namespace mem_pool

/-- Every state of a page under `alloc_from_page` and `free_to_page`
satisfies `page_full`. -/
theorem page_reach_full (max_level : Nat) (hL : max_level ≤ 26) (pg : mem_page)
    (live : List (Nat × Nat)) (h : page_reach max_level pg live) :
    page_full max_level pg live := by
  induction h with
  | fresh addr => exact page_full_fresh max_level addr
  | alloc level index _ hal ih => exact page_full_alloc max_level hL _ _ level index ih hal
  | free index level _ hm ih => exact page_full_free max_level hL _ _ index level ih hm

/-- C17: in every state of a page reached from a fresh page by successful
`lock(1, max_level, level)` calls (through `alloc_from_page`) and `unlock`
calls on live nodes at their own level (through `free_to_page`), and for
every level `i ≤ max_level`, `level_count[i]` is the number of nodes of
level `i` that are neither live, nor an ancestor of a live node, nor a
descendant of one. -/
theorem level_count_allocatable (max_level : Nat) (hL : max_level ≤ 26) (pg : mem_page)
    (live : List (Nat × Nat)) (h : page_reach max_level pg live) (i : Nat) (hi : i ≤ max_level) :
    pg.level_count i =
      ((Finset.Ico (2 ^ (max_level - i)) (2 ^ (max_level - i + 1))).filter
        (fun q => allocatable max_level live q = true)).card ∧
    ∀ q, (allocatable max_level live q = true ↔
      ∀ s ∈ live, ¬ anc_or_self q (seg_node max_level s) ∧
        ¬ anc_or_self (seg_node max_level s) q) :=
  ⟨(page_reach_full max_level hL pg live h).counts i hi, allocatable_iff max_level live⟩

/-- C17 at a concrete page: after a 1-unit and a 2-unit allocation on a
fresh page with `max_level = 9`, at level 1. -/
theorem level_count_allocatable_witness :
    9 ≤ 26 ∧ page_reach 9 two_segment_page [(2, 1), (0, 0)] ∧ 1 ≤ 9 ∧
    (two_segment_page.level_count 1 =
      ((Finset.Ico (2 ^ (9 - 1)) (2 ^ (9 - 1 + 1))).filter
        (fun q => allocatable 9 [(2, 1), (0, 0)] q = true)).card ∧
    ∀ q, (allocatable 9 [(2, 1), (0, 0)] q = true ↔
      ∀ s ∈ [(2, 1), (0, 0)], ¬ anc_or_self q (seg_node 9 s) ∧
        ¬ anc_or_self (seg_node 9 s) q)) :=
  have hr : page_reach 9 two_segment_page [(2, 1), (0, 0)] :=
    page_reach.alloc 1 2 (page_reach.alloc 0 0 (page_reach.fresh 100) (by decide)) (by decide)
  ⟨by decide, hr, by decide, level_count_allocatable 9 (by decide) _ _ hr 1 (by decide)⟩

/-- C18: in every state of a page reached from a fresh page by successful
`lock` calls and `unlock` calls on live nodes, and for every node `p ≥ 1`
(the nodes of the tree are `1 .. 2 * 2^max_level - 1`), `bitmap__or[p]` is
set exactly when `p` or a descendant of `p` is a live node, and
`bitmap_and[p]` is set exactly when `p` is a live node or `p` has children
and both have `bitmap_and` set. -/
theorem bitmaps_exact (max_level : Nat) (hL : max_level ≤ 26) (pg : mem_page)
    (live : List (Nat × Nat)) (h : page_reach max_level pg live) (p : Nat) (hp1 : 1 ≤ p) :
    (get_bit pg.bitmap__or p = true ↔ ∃ s ∈ live, anc_or_self p (seg_node max_level s)) ∧
    (get_bit pg.bitmap_and p = true ↔
      (∃ s ∈ live, seg_node max_level s = p) ∨
        (p < 2 ^ max_level ∧ get_bit pg.bitmap_and (p * 2) = true ∧
          get_bit pg.bitmap_and (p * 2 + 1) = true)) := by
  have full := page_reach_full max_level hL pg live h
  constructor
  · constructor
    · exact full.or_exact p hp1
    · rintro ⟨s, hs, k, hk⟩
      rw [← hk]
      exact full.base.or_set s hs k (by omega)
  · rw [full.and_exact p hp1]
    constructor
    · rintro (hl | ⟨hc1, hc2⟩)
      · exact Or.inl hl
      · refine Or.inr ⟨?_, hc1, hc2⟩
        by_contra hge
        obtain ⟨s, hs, k, hk⟩ := full.or_exact _ (by omega) (full.and_or _ hc1)
        obtain ⟨v1, _, v3, _⟩ := full.base.valid s hs
        have hle : seg_node max_level s / 2 ^ k ≤ seg_node max_level s := Nat.div_le_self _ _
        have hpow : 2 ^ (max_level - s.2 + 1) ≤ 2 ^ (max_level + 1) :=
          Nat.pow_le_pow_right (by norm_num) (by omega)
        rw [pow_succ] at hpow
        omega
    · rintro (hl | ⟨_, hc1, hc2⟩)
      · exact Or.inl hl
      · exact Or.inr ⟨hc1, hc2⟩

/-- C18 at a concrete page: a 1-unit and a 2-unit segment were allocated on
a fresh page with `max_level = 9` and the 1-unit segment freed; node 256 is
the parent of the freed node. -/
theorem bitmaps_exact_witness :
    9 ≤ 26 ∧ page_reach 9 (free_in_page 9 two_segment_page 0) [(2, 1)] ∧ 1 ≤ 256 ∧
    ((get_bit (free_in_page 9 two_segment_page 0).bitmap__or 256 = true ↔
      ∃ s ∈ [(2, 1)], anc_or_self 256 (seg_node 9 s)) ∧
    (get_bit (free_in_page 9 two_segment_page 0).bitmap_and 256 = true ↔
      (∃ s ∈ [(2, 1)], seg_node 9 s = 256) ∨
        (256 < 2 ^ 9 ∧ get_bit (free_in_page 9 two_segment_page 0).bitmap_and (256 * 2) = true ∧
          get_bit (free_in_page 9 two_segment_page 0).bitmap_and (256 * 2 + 1) = true))) :=
  have hr : page_reach 9 (free_in_page 9 two_segment_page 0) [(2, 1)] :=
    page_reach.free 0 0
      (page_reach.alloc 1 2 (page_reach.alloc 0 0 (page_reach.fresh 100) (by decide)) (by decide))
      (by decide)
  ⟨by decide, hr, by decide, bitmaps_exact 9 (by decide) _ _ hr 256 (by decide)⟩

/-- Under `page_full`, `empty()` holds exactly when there is no live
segment: `level_count[max_level]` counts the root, which is above every live
node. -/
theorem page_full_empty_iff (max_level : Nat) (pg : mem_page) (live : List (Nat × Nat))
    (full : page_full max_level pg live) : empty max_level pg = true ↔ live = [] := by
  have hc := full.counts max_level (le_refl _)
  unfold empty
  rw [beq_iff_eq, hc]
  constructor
  · intro h1
    cases live with
    | nil => rfl
    | cons s rest =>
      exfalso
      obtain ⟨v1, v2, v3, _⟩ := full.base.valid s (List.mem_cons_self _ _)
      have hroot := lvl_div max_level s.2 (seg_node max_level s) (max_level - s.2) (by omega) v2 v3
      have e : max_level - (s.2 + (max_level - s.2)) = 0 := by omega
      rw [e] at hroot
      simp only [pow_zero, zero_add, pow_one] at hroot
      have hr1 : seg_node max_level s / 2 ^ (max_level - s.2) = 1 := by omega
      have hnot : allocatable max_level (s :: rest) 1 = false := by
        cases ha : allocatable max_level (s :: rest) 1 with
        | false => rfl
        | true =>
          have := ((allocatable_iff max_level (s :: rest) 1).mp ha s (List.mem_cons_self _ _)).1
          exact absurd ⟨max_level - s.2, hr1⟩ this
      have hzero : free_count max_level (s :: rest) max_level = 0 := by
        unfold free_count
        rw [Finset.card_eq_zero, Finset.filter_eq_empty_iff]
        intro q hq
        simp only [Nat.sub_self, pow_zero, zero_add, pow_one, Finset.mem_Ico] at hq
        have : q = 1 := by omega
        rw [this, hnot]
        simp
      omega
  · rintro rfl
    rw [free_count_nil]
    simp

/-- C19: in every state of a page reached from a fresh page by in-page
allocations and frees of live segments, `empty()` holds exactly when the
page has no live segment. -/
theorem empty_iff_no_live (max_level : Nat) (hL : max_level ≤ 26) (pg : mem_page)
    (live : List (Nat × Nat)) (h : page_reach max_level pg live) :
    empty max_level pg = true ↔ live = [] :=
  page_full_empty_iff max_level pg live (page_reach_full max_level hL pg live h)

/-- C19 at a concrete page: after a 1-unit allocation on a fresh page with
`max_level = 9` and the free of that segment. -/
theorem empty_iff_no_live_witness :
    9 ≤ 26 ∧ page_reach 9 (free_in_page 9 (alloc_from_page 9 (mem_page_new 9 100) 0).2 0) [] ∧
    (empty 9 (free_in_page 9 (alloc_from_page 9 (mem_page_new 9 100) 0).2 0) = true ↔
      ([] : List (Nat × Nat)) = []) :=
  have hr : page_reach 9 (free_in_page 9 (alloc_from_page 9 (mem_page_new 9 100) 0).2 0) [] :=
    page_reach.free 0 0 (page_reach.alloc 0 0 (page_reach.fresh 100) (by decide)) (by decide)
  ⟨by decide, hr, empty_iff_no_live 9 (by decide) _ _ hr⟩

end mem_pool

namespace mem_pool

/-! ## Variant B: the heap is a rearrangement of its pages -/

theorem set_get_perm {α : Type} : ∀ (l : List α) (j : Nat) (a b : α), l.get? j = some b →
    (b :: l.set j a).Perm (a :: l)
  | [], _, _, _, h => by simp at h
  | c :: t, 0, a, b, h => by
    simp only [List.get?_cons_zero, Option.some.injEq] at h
    subst h
    simp only [List.set_cons_zero]
    exact List.Perm.swap _ _ _
  | c :: t, j + 1, a, b, h => by
    simp only [List.get?_cons_succ] at h
    simp only [List.set_cons_succ]
    have ih := set_get_perm t j a b h
    exact ((List.Perm.swap c b _).trans (ih.cons c)).trans (List.Perm.swap a c _)

theorem set_set_perm {α : Type} : ∀ (l : List α) (i j : Nat) (a b : α), l.get? i = some a →
    l.get? j = some b → ((l.set i b).set j a).Perm l
  | [], _, _, _, _, h, _ => by simp at h
  | c :: t, 0, 0, a, b, h1, h2 => by
    simp only [List.get?_cons_zero, Option.some.injEq] at h1 h2
    subst h1
    simp
  | c :: t, 0, j + 1, a, b, h1, h2 => by
    simp only [List.get?_cons_zero, Option.some.injEq, List.get?_cons_succ] at h1 h2
    subst h1
    simp only [List.set_cons_zero, List.set_cons_succ]
    exact set_get_perm t j c b h2
  | c :: t, i + 1, 0, a, b, h1, h2 => by
    simp only [List.get?_cons_zero, Option.some.injEq, List.get?_cons_succ] at h1 h2
    subst h2
    simp only [List.set_cons_zero, List.set_cons_succ]
    exact set_get_perm t i c a h1
  | c :: t, i + 1, j + 1, a, b, h1, h2 => by
    simp only [List.get?_cons_succ] at h1 h2
    simp only [List.set_cons_succ]
    exact (set_set_perm t i j a b h1 h2).cons c

/-- The function `swap_page` rearranges the pages and rewrites `page_index` only. -/
theorem swap_page_perm (h : List mem_page) (x y : Nat) :
    ((swap_page h x y).map strip).Perm (h.map strip) := by
  unfold swap_page
  cases hx : heap_get h x with
  | none => exact List.Perm.refl _
  | some px =>
    cases hy : heap_get h y with
    | none => exact List.Perm.refl _
    | some py =>
      simp only [List.map_set]
      unfold heap_get at hx hy
      split_ifs at hx hy
      apply set_set_perm (h.map strip) (x - 1) (y - 1) (strip px) (strip py)
      · rw [List.get?_eq_getElem?] at hx ⊢
        rw [List.getElem?_map, hx]
        rfl
      · rw [List.get?_eq_getElem?] at hy ⊢
        rw [List.getElem?_map, hy]
        rfl

theorem adjust_heap_from_top_perm (max_level : Nat) : ∀ (fuel : Nat) (h : List mem_page) (p : Nat),
    ((adjust_heap_from_top max_level fuel h p).map strip).Perm (h.map strip) := by
  intro fuel
  induction fuel with
  | zero => intro h p; exact List.Perm.refl _
  | succ f ih =>
    intro h p
    unfold adjust_heap_from_top
    dsimp only
    split_ifs
    · exact (ih _ _).trans (swap_page_perm _ _ _)
    · exact (ih _ _).trans (swap_page_perm _ _ _)
    · exact List.Perm.refl _

theorem adjust_heap_from_bottom_perm (max_level : Nat) :
    ∀ (fuel : Nat) (h : List mem_page) (c : Nat),
    ((adjust_heap_from_bottom max_level fuel h c).map strip).Perm (h.map strip) := by
  intro fuel
  induction fuel with
  | zero => intro h c; exact List.Perm.refl _
  | succ f ih =>
    intro h c
    unfold adjust_heap_from_bottom
    dsimp only
    split_ifs
    · exact List.Perm.refl _
    · exact (ih _ _).trans (swap_page_perm _ _ _)
    · exact List.Perm.refl _

theorem adjust_heap_for_pop_perm (max_level : Nat) : ∀ (fuel : Nat) (h : List mem_page) (p : Nat),
    ((adjust_heap_for_pop max_level fuel h p).map strip).Perm (h.map strip) := by
  intro fuel
  induction fuel with
  | zero => intro h p; exact List.Perm.refl _
  | succ f ih =>
    intro h p
    unfold adjust_heap_for_pop
    dsimp only
    split_ifs
    · exact (ih _ _).trans (swap_page_perm _ _ _)
    · exact (ih _ _).trans (swap_page_perm _ _ _)
    · exact List.Perm.refl _

end mem_pool

namespace mem_pool

/-! ## Variant B: the allocator keeps `pool_inv` -/

theorem page_full_strip (max_level : Nat) (pg pg2 : mem_page) (live : List (Nat × Nat))
    (he : strip pg = strip pg2) (full : page_full max_level pg live) :
    page_full max_level pg2 live := by
  have e1 : pg2.bitmap_and = pg.bitmap_and := (congrArg mem_page.bitmap_and he).symm
  have e2 : pg2.bitmap__or = pg.bitmap__or := (congrArg mem_page.bitmap__or he).symm
  have e3 : pg2.level_count = pg.level_count := (congrArg mem_page.level_count he).symm
  have e4 : pg2.units = pg.units := (congrArg mem_page.units he).symm
  exact
    { base :=
        { nodup := full.base.nodup
          valid := full.base.valid
          hdr := by rw [e4]; exact full.base.hdr
          and_set := by rw [e1]; exact full.base.and_set
          or_set := by rw [e2]; exact full.base.or_set
          anti := full.base.anti }
      or_exact := by rw [e2]; exact full.or_exact
      and_or := by rw [e1, e2]; exact full.and_or
      and_exact := by rw [e1]; exact full.and_exact
      counts := by rw [e3]; exact full.counts }

theorem strip_addr (pg pg2 : mem_page) (he : strip pg = strip pg2) : pg.addr = pg2.addr := by
  have h := congrArg mem_page.addr he
  exact h

theorem map_addr_strip (h : List mem_page) :
    (h.map strip).map (fun pg => pg.addr) = h.map (fun pg => pg.addr) := by
  rw [List.map_map]
  rfl

theorem mem_of_strip_perm (h1 h2 : List mem_page) (hp : (h2.map strip).Perm (h1.map strip))
    (pg : mem_page) (hm : pg ∈ h2) : ∃ pg0 ∈ h1, strip pg0 = strip pg := by
  have : strip pg ∈ h1.map strip := hp.subset (List.mem_map_of_mem strip hm)
  obtain ⟨pg0, h0, he⟩ := List.mem_map.mp this
  exact ⟨pg0, h0, he⟩

/-- The invariant `pool_inv` does not depend on the order of the pages nor on
their `page_index`. -/
theorem pool_inv_of_perm (max_level : Nat) (h1 h2 : List mem_page)
    (lives : Nat → List (Nat × Nat)) (ptrs : List Ptr)
    (hp : (h2.map strip).Perm (h1.map strip)) (inv : pool_inv max_level h1 lives ptrs) :
    pool_inv max_level h2 lives ptrs := by
  refine { nodup := ?_, full := ?_, ptrs_nodup := inv.ptrs_nodup, live_ptr := ?_, ptr_live := ?_ }
  · rw [← map_addr_strip]
    have := inv.nodup
    rw [← map_addr_strip] at this
    exact (hp.map _).nodup_iff.mpr this
  · intro pg hm
    obtain ⟨pg0, h0, he⟩ := mem_of_strip_perm h1 h2 hp pg hm
    rw [← strip_addr pg0 pg he]
    exact page_full_strip max_level pg0 pg _ he (inv.full pg0 h0)
  · intro pg hm s hs
    obtain ⟨pg0, h0, he⟩ := mem_of_strip_perm h1 h2 hp pg hm
    rw [← strip_addr pg0 pg he] at hs ⊢
    exact inv.live_ptr pg0 h0 s hs
  · intro p hpm
    obtain ⟨pg, hm, s, hs, he⟩ := inv.ptr_live p hpm
    obtain ⟨pg0, h0, he0⟩ := mem_of_strip_perm h2 h1 hp.symm pg hm
    refine ⟨pg0, h0, s, ?_, ?_⟩
    · rw [strip_addr pg0 pg he0]; exact hs
    · rw [strip_addr pg0 pg he0]; exact he

/-- The invariant `pool_inv` does not depend on the order of the addresses. -/
theorem pool_inv_ptrs_perm (max_level : Nat) (h : List mem_page)
    (lives : Nat → List (Nat × Nat)) (p1 p2 : List Ptr) (hp : p2.Perm p1)
    (inv : pool_inv max_level h lives p1) : pool_inv max_level h lives p2 :=
  { nodup := inv.nodup
    full := inv.full
    ptrs_nodup := hp.nodup_iff.mpr inv.ptrs_nodup
    live_ptr := fun pg hm s hs => hp.symm.subset (inv.live_ptr pg hm s hs)
    ptr_live := fun p hpm => inv.ptr_live p (hp.subset hpm) }

theorem pool_inv_init (max_level : Nat) : pool_inv max_level [] (fun _ => []) [] :=
  { nodup := List.nodup_nil
    full := by intro pg hm; cases hm
    ptrs_nodup := List.nodup_nil
    live_ptr := by intro pg hm; cases hm
    ptr_live := by intro p hm; cases hm }

end mem_pool

namespace mem_pool

theorem alloc_from_page_addr (max_level : Nat) (pg : mem_page) (level : Nat) :
    (alloc_from_page max_level pg level).2.addr = pg.addr := by
  rcases hlk : lock pg 1 max_level level with ⟨n, pg1⟩
  cases n with
  | none =>
    rw [alloc_from_page_none _ _ _ _ hlk]
    have := lock_none max_level pg 1 level (by rw [hlk])
    rw [hlk] at this
    simp only at this ⊢
    rw [this]
  | some node =>
    rw [alloc_from_page_some _ _ _ _ _ hlk]
    obtain ⟨_, _, _, _, _, _, _, _, _, h10, _⟩ := lock_some max_level pg 1 level node pg1 hlk
    exact h10

theorem free_in_page_addr (max_level : Nat) (pg : mem_page) (index : Nat) :
    (free_in_page max_level pg index).addr = pg.addr := by
  unfold free_in_page unlock
  exact (unlock_go_fixed max_level _ _ pg _ _).2.1

/-- A new page joins the heap. -/
theorem pool_inv_new_page (max_level : Nat) (h : List mem_page)
    (lives : Nat → List (Nat × Nat)) (ptrs : List Ptr) (plat : Nat)
    (inv : pool_inv max_level h lives ptrs) (hf : ∀ q ∈ h, q.addr ≠ plat) :
    pool_inv max_level (mem_page_new max_level plat :: h) (Function.update lives plat []) ptrs := by
  have hl : ∀ q ∈ h, Function.update lives plat [] q.addr = lives q.addr :=
    fun q hq => Function.update_noteq (hf q hq) _ _
  have hn : (mem_page_new max_level plat).addr = plat := rfl
  refine { nodup := ?_, full := ?_, ptrs_nodup := inv.ptrs_nodup, live_ptr := ?_, ptr_live := ?_ }
  · rw [List.map_cons, List.nodup_cons]
    refine ⟨?_, inv.nodup⟩
    intro hm
    obtain ⟨q, hq, he⟩ := List.mem_map.mp hm
    exact hf q hq he
  · intro pg hm
    rcases List.mem_cons.mp hm with rfl | hm
    · rw [hn, Function.update_same]
      exact page_full_fresh max_level plat
    · rw [hl pg hm]
      exact inv.full pg hm
  · intro pg hm s hs
    rcases List.mem_cons.mp hm with rfl | hm
    · rw [hn, Function.update_same] at hs
      cases hs
    · rw [hl pg hm] at hs
      exact inv.live_ptr pg hm s hs
  · intro p hp
    obtain ⟨pg, hm, s, hs, he⟩ := inv.ptr_live p hp
    exact ⟨pg, List.mem_cons_of_mem _ hm, s, by rw [hl pg hm]; exact hs, he⟩

/-- An allocation from the first page of a list of pages. -/
theorem pool_inv_alloc_head (max_level : Nat) (hL : max_level ≤ 26) (pg : mem_page)
    (rest : List mem_page) (lives : Nat → List (Nat × Nat)) (ptrs : List Ptr)
    (level index : Nat) (inv : pool_inv max_level (pg :: rest) lives ptrs)
    (h : (alloc_from_page max_level pg level).1 = some index) :
    pool_inv max_level ((alloc_from_page max_level pg level).2 :: rest)
      (Function.update lives pg.addr ((index, level) :: lives pg.addr))
      (Ptr.unit pg.addr index :: ptrs) := by
  have haddr := alloc_from_page_addr max_level pg level
  have hnd := inv.nodup
  rw [List.map_cons, List.nodup_cons] at hnd
  have hne : ∀ q ∈ rest, q.addr ≠ pg.addr := by
    intro q hq he
    exact hnd.1 (List.mem_map.mpr ⟨q, hq, he⟩)
  have hl : ∀ q ∈ rest,
      Function.update lives pg.addr ((index, level) :: lives pg.addr) q.addr = lives q.addr :=
    fun q hq => Function.update_noteq (hne q hq) _ _
  have hfull := page_full_alloc max_level hL pg (lives pg.addr) level index
    (inv.full pg (List.mem_cons_self _ _)) h
  have hfreshidx : ∀ s ∈ lives pg.addr, s.1 ≠ index := by
    intro s hs he
    have h1 := hfull.base.hdr s (List.mem_cons_of_mem _ hs)
    have h2 := hfull.base.hdr (index, level) (List.mem_cons_self _ _)
    simp only at h2
    rw [he, h2] at h1
    have h3 : level = s.2 := congrArg mem_unit.level h1
    have : s = (index, level) := Prod.ext he h3.symm
    rw [this] at hs
    exact (List.nodup_cons.mp hfull.base.nodup).1 hs
  refine { nodup := ?_, full := ?_, ptrs_nodup := ?_, live_ptr := ?_, ptr_live := ?_ }
  · rw [List.map_cons, haddr, List.nodup_cons]
    exact hnd
  · intro q hm
    rcases List.mem_cons.mp hm with rfl | hm
    · rw [haddr, Function.update_same]
      exact hfull
    · rw [hl q hm]
      exact inv.full q (List.mem_cons_of_mem _ hm)
  · rw [List.nodup_cons]
    refine ⟨?_, inv.ptrs_nodup⟩
    intro hm
    obtain ⟨q, hq, s, hs, he⟩ := inv.ptr_live _ hm
    simp only [Ptr.unit.injEq] at he
    rw [← he.1] at hs
    exact hfreshidx s hs he.2.symm
  · intro q hm s hs
    rcases List.mem_cons.mp hm with rfl | hm
    · rw [haddr, Function.update_same] at hs
      rw [haddr]
      rcases List.mem_cons.mp hs with rfl | hs
      · exact List.mem_cons_self _ _
      · exact List.mem_cons_of_mem _ (inv.live_ptr pg (List.mem_cons_self _ _) s hs)
    · rw [hl q hm] at hs
      exact List.mem_cons_of_mem _ (inv.live_ptr q (List.mem_cons_of_mem _ hm) s hs)
  · intro p hp
    rcases List.mem_cons.mp hp with rfl | hp
    · refine ⟨_, List.mem_cons_self _ _, (index, level), ?_, ?_⟩
      · rw [haddr, Function.update_same]
        exact List.mem_cons_self _ _
      · rw [haddr]
    · obtain ⟨q, hq, s, hs, he⟩ := inv.ptr_live p hp
      rcases List.mem_cons.mp hq with rfl | hq
      · refine ⟨_, List.mem_cons_self _ _, s, ?_, ?_⟩
        · rw [haddr, Function.update_same]
          exact List.mem_cons_of_mem _ hs
        · rw [haddr]; exact he
      · exact ⟨q, List.mem_cons_of_mem _ hq, s, by rw [hl q hq]; exact hs, he⟩

end mem_pool

namespace mem_pool

/-- The free of a live segment of the first page of a list of pages. -/
theorem pool_inv_free_head (max_level : Nat) (hL : max_level ≤ 26) (pg : mem_page)
    (rest : List mem_page) (lives : Nat → List (Nat × Nat)) (ptrs : List Ptr)
    (index level : Nat) (inv : pool_inv max_level (pg :: rest) lives ptrs)
    (hm : (index, level) ∈ lives pg.addr) :
    pool_inv max_level (free_in_page max_level pg index :: rest)
      (Function.update lives pg.addr ((lives pg.addr).erase (index, level)))
      (ptrs.erase (Ptr.unit pg.addr index)) := by
  have haddr := free_in_page_addr max_level pg index
  have hnd := inv.nodup
  rw [List.map_cons, List.nodup_cons] at hnd
  have hne : ∀ q ∈ rest, q.addr ≠ pg.addr := by
    intro q hq he
    exact hnd.1 (List.mem_map.mpr ⟨q, hq, he⟩)
  have hl : ∀ q ∈ rest,
      Function.update lives pg.addr ((lives pg.addr).erase (index, level)) q.addr =
        lives q.addr :=
    fun q hq => Function.update_noteq (hne q hq) _ _
  have hfull0 := inv.full pg (List.mem_cons_self _ _)
  have hfull := page_full_free max_level hL pg (lives pg.addr) index level hfull0 hm
  have hmem : ∀ t, t ∈ (lives pg.addr).erase (index, level) ↔
      t ≠ (index, level) ∧ t ∈ lives pg.addr :=
    fun t => hfull0.base.nodup.mem_erase_iff
  have hpmem : ∀ p, p ∈ ptrs.erase (Ptr.unit pg.addr index) ↔
      p ≠ Ptr.unit pg.addr index ∧ p ∈ ptrs :=
    fun p => inv.ptrs_nodup.mem_erase_iff
  have hidx : ∀ s ∈ lives pg.addr, s.1 = index → s = (index, level) := by
    intro s hs he
    have h1 := hfull0.base.hdr s hs
    have h2 := hfull0.base.hdr (index, level) hm
    simp only at h2
    rw [he, h2] at h1
    have h3 : level = s.2 := congrArg mem_unit.level h1
    exact Prod.ext he h3.symm
  refine { nodup := ?_, full := ?_, ptrs_nodup := inv.ptrs_nodup.erase _, live_ptr := ?_,
           ptr_live := ?_ }
  · rw [List.map_cons, haddr, List.nodup_cons]
    exact hnd
  · intro q hq
    rcases List.mem_cons.mp hq with rfl | hq
    · rw [haddr, Function.update_same]
      exact hfull
    · rw [hl q hq]
      exact inv.full q (List.mem_cons_of_mem _ hq)
  · intro q hq s hs
    rcases List.mem_cons.mp hq with rfl | hq
    · rw [haddr, Function.update_same] at hs
      rw [haddr]
      obtain ⟨hsne, hs⟩ := (hmem s).mp hs
      refine (hpmem _).mpr ⟨?_, inv.live_ptr pg (List.mem_cons_self _ _) s hs⟩
      intro he
      simp only [Ptr.unit.injEq, true_and] at he
      exact hsne (hidx s hs he)
    · rw [hl q hq] at hs
      refine (hpmem _).mpr ⟨?_, inv.live_ptr q (List.mem_cons_of_mem _ hq) s hs⟩
      intro he
      simp only [Ptr.unit.injEq] at he
      exact hne q hq he.1
  · intro p hp
    obtain ⟨hpne, hp⟩ := (hpmem p).mp hp
    obtain ⟨q, hq, s, hs, he⟩ := inv.ptr_live p hp
    rcases List.mem_cons.mp hq with rfl | hq
    · refine ⟨_, List.mem_cons_self _ _, s, ?_, ?_⟩
      · rw [haddr, Function.update_same]
        refine (hmem s).mpr ⟨?_, hs⟩
        intro hse
        apply hpne
        rw [he, hse]
      · rw [haddr]; exact he
    · exact ⟨q, List.mem_cons_of_mem _ hq, s, by rw [hl q hq]; exact hs, he⟩

theorem set_perm_cons {α : Type} : ∀ (l : List α) (j : Nat) (a b : α), l.get? j = some a →
    ∃ r, l.Perm (a :: r) ∧ (l.set j b).Perm (b :: r)
  | [], _, _, _, h => by simp at h
  | c :: t, 0, a, b, h => by
    simp only [List.get?_cons_zero, Option.some.injEq] at h
    subst h
    exact ⟨t, List.Perm.refl _, by simp⟩
  | c :: t, j + 1, a, b, h => by
    simp only [List.get?_cons_succ] at h
    obtain ⟨r, h1, h2⟩ := set_perm_cons t j a b h
    refine ⟨c :: r, ?_, ?_⟩
    · exact (h1.cons c).trans (List.Perm.swap a c r)
    · simp only [List.set_cons_succ]
      exact (h2.cons c).trans (List.Perm.swap b c r)

theorem find_page_some (h : List mem_page) (a : Nat) (pg0 : mem_page) (hm : pg0 ∈ h)
    (ha : pg0.addr = a) :
    ∃ j pg, find_page h a = some (j, pg) ∧ h.get? j = some pg ∧ pg.addr = a := by
  unfold find_page
  cases hf : h.findIdx? (fun pg => pg.addr == a) with
  | none =>
    rw [List.findIdx?_eq_none_iff] at hf
    have := hf pg0 hm
    simp [ha] at this
  | some j =>
    rw [List.findIdx?_eq_some_iff_getElem] at hf
    obtain ⟨hj, hp, _⟩ := hf
    refine ⟨j, h[j], ?_, ?_, ?_⟩
    · simp [List.getElem?_eq_getElem hj]
    · simp [List.getElem?_eq_getElem hj]
    · simpa using hp

end mem_pool

namespace mem_pool

theorem alloc_new_page_inv (max_level : Nat) (hL : max_level ≤ 26) (st : state)
    (lives : Nat → List (Nat × Nat)) (ptrs : List Ptr) (level plat page index : Nat)
    (st1 : state) (inv : pool_inv max_level st.page_heap lives ptrs)
    (hf : ∀ q ∈ st.page_heap, q.addr ≠ plat)
    (h : alloc_new_page max_level st level plat = some (Ptr.unit page index, st1)) :
    ∃ lives2, pool_inv max_level st1.page_heap lives2 (Ptr.unit page index :: ptrs) := by
  unfold alloc_new_page at h
  by_cases h0 : plat = 0
  · rw [if_pos h0] at h
    simp at h
  · rw [if_neg h0] at h
    dsimp only at h
    cases hr : (alloc_from_page max_level (mem_page_new max_level plat) level).1 with
    | none =>
      rw [hr] at h
      simp at h
    | some idx =>
      rw [hr] at h
      simp only [Option.some.injEq, Prod.mk.injEq, Ptr.unit.injEq] at h
      obtain ⟨⟨rfl, rfl⟩, rfl⟩ := h
      have i1 := pool_inv_new_page max_level st.page_heap lives ptrs plat inv hf
      have i2 := pool_inv_alloc_head max_level hL _ _ _ _ level idx i1 hr
      refine ⟨_, pool_inv_of_perm max_level _ _ _ _ ?_ i2⟩
      simp only
      refine (adjust_heap_from_bottom_perm max_level _ _ _).trans ?_
      exact List.Perm.map _ (List.perm_append_singleton _ _)

/-- A call of `alloc_memory` that is served from a page keeps `pool_inv`,
the address returned being new. -/
theorem alloc_memory_inv (max_level ptr : Nat) (hL : max_level ≤ 26) (st : state)
    (lives : Nat → List (Nat × Nat)) (ptrs : List Ptr) (size plat page index : Nat)
    (st1 : state) (inv : pool_inv max_level st.page_heap lives ptrs)
    (hf : ∀ q ∈ st.page_heap, q.addr ≠ plat)
    (h : alloc_memory max_level ptr st size plat = some (Ptr.unit page index, st1)) :
    ∃ lives2, pool_inv max_level st1.page_heap lives2 (Ptr.unit page index :: ptrs) := by
  unfold alloc_memory at h
  split_ifs at h with h0 hd
  · simp at h
  · dsimp only at h
    split_ifs at h <;> simp at h
  · dsimp only at h
    rcases hh : st.page_heap with _ | ⟨ppage, rest⟩
    · rw [hh] at h
      simp only at h
      exact alloc_new_page_inv max_level hL st lives ptrs _ plat page index st1 inv hf h
    · rw [hh] at h
      simp only at h
      rw [hh] at inv hf
      cases hr : (alloc_from_page max_level ppage (calc_level ptr size)).1 with
      | some idx =>
        rw [hr] at h
        simp only [Option.some.injEq, Prod.mk.injEq, Ptr.unit.injEq] at h
        obtain ⟨⟨rfl, rfl⟩, rfl⟩ := h
        have i2 := pool_inv_alloc_head max_level hL _ _ _ _ _ idx inv hr
        refine ⟨_, pool_inv_of_perm max_level _ _ _ _ ?_ i2⟩
        exact adjust_heap_from_top_perm max_level _ _ _
      | none =>
        rw [hr] at h
        simp only at h
        have hfail := alloc_from_page_fail max_level ppage _ hr
        rw [hfail] at h
        exact alloc_new_page_inv max_level hL
          { st with page_heap := ppage :: rest } lives ptrs _ plat page index st1 inv hf h

end mem_pool

namespace mem_pool

/-- The free of an address that was handed out and not yet freed is defined
and keeps `pool_inv`. -/
theorem free_memory_inv (max_level : Nat) (hL : max_level ≤ 26) (st : state)
    (lives : Nat → List (Nat × Nat)) (ptrs : List Ptr) (p : Ptr)
    (inv : pool_inv max_level st.page_heap lives (p :: ptrs)) :
    ∃ st1 lives2, free_memory max_level st p = some st1 ∧
      pool_inv max_level st1.page_heap lives2 ptrs := by
  obtain ⟨pg0, hm0, s, hs, rfl⟩ := inv.ptr_live p (List.mem_cons_self _ _)
  obtain ⟨j, pg, hfind, hget, haddr⟩ := find_page_some st.page_heap pg0.addr pg0 hm0 rfl
  rw [← haddr] at hs hfind inv ⊢
  have hmem : pg ∈ st.page_heap := List.get?_mem hget
  have hhdr := (inv.full pg hmem).base.hdr s hs
  obtain ⟨r, hp1, hp2⟩ := set_perm_cons st.page_heap j pg (free_in_page max_level pg s.1) hget
  have i1 : pool_inv max_level (pg :: r) lives (Ptr.unit pg.addr s.1 :: ptrs) :=
    pool_inv_of_perm max_level _ _ _ _ (hp1.symm.map strip) inv
  have i2 := pool_inv_free_head max_level hL pg r lives _ s.1 s.2 i1 hs
  rw [List.erase_cons_head] at i2
  refine ⟨{ st with page_heap :=
      (adjust_heap_from_bottom max_level
        (heap_size (st.page_heap.set j (free_in_page max_level pg s.1)))
        (st.page_heap.set j (free_in_page max_level pg s.1))
        (free_in_page max_level pg s.1).page_index) },
    Function.update lives pg.addr ((lives pg.addr).erase (s.1, s.2)), ?_, ?_⟩
  · unfold free_memory read_header
    simp only [hfind, Option.map_some', hhdr]
    unfold free_to_page
    simp only [hfind, hhdr]
    simp
  · simp only
    refine pool_inv_of_perm max_level _ _ _ _ ?_ i2
    exact (adjust_heap_from_bottom_perm max_level _ _ _).trans (hp2.map strip)

/-- Every address of `order` being live, `free_seq` is defined and leaves no
live segment. -/
theorem free_seq_inv (max_level : Nat) (hL : max_level ≤ 26) : ∀ (order : List Ptr) (st : state)
    (lives : Nat → List (Nat × Nat)), pool_inv max_level st.page_heap lives order →
    ∃ st2 lives2, free_seq max_level st order = some st2 ∧
      pool_inv max_level st2.page_heap lives2 [] := by
  intro order
  induction order with
  | nil =>
    intro st lives inv
    exact ⟨st, lives, rfl, inv⟩
  | cons p ps ih =>
    intro st lives inv
    obtain ⟨st1, lives1, hfree, inv1⟩ := free_memory_inv max_level hL st lives ps p inv
    obtain ⟨st2, lives2, hseq, inv2⟩ := ih st1 lives1 inv1
    refine ⟨st2, lives2, ?_, inv2⟩
    unfold free_seq
    rw [hfree]
    exact hseq

/-- The calls of `alloc_seq` keep `pool_inv`, the addresses returned joining
those handed out before. -/
theorem alloc_seq_inv (max_level ptr : Nat) (hL : max_level ≤ 26) :
    ∀ (reqs : List (Nat × Nat)) (st : state) (lives : Nat → List (Nat × Nat))
      (acc : List Ptr) (r : List Ptr × state),
    pool_inv max_level st.page_heap lives acc →
    alloc_seq max_level ptr st reqs = some r →
    ∃ lives2, pool_inv max_level r.2.page_heap lives2 (r.1 ++ acc) := by
  intro reqs
  induction reqs with
  | nil =>
    intro st lives acc r inv h
    unfold alloc_seq at h
    simp only [Option.some.injEq] at h
    subst h
    exact ⟨lives, inv⟩
  | cons q qs ih =>
    intro st lives acc r inv h
    obtain ⟨size, plat⟩ := q
    unfold alloc_seq at h
    split_ifs at h with hany
    rcases hal : alloc_memory max_level ptr st size plat with _ | ⟨pt, st1⟩
    · rw [hal] at h
      simp at h
    rw [hal] at h
    cases pt with
    | null => simp at h
    | block a => simp at h
    | unit page index =>
      simp only [Option.map_eq_some'] at h
      obtain ⟨r1, hr1, rfl⟩ := h
      have hf : ∀ q ∈ st.page_heap, q.addr ≠ plat := by
        intro q hq he
        apply hany
        rw [List.any_eq_true]
        exact ⟨q, hq, by simp [he]⟩
      obtain ⟨lives1, inv1⟩ :=
        alloc_memory_inv max_level ptr hL st lives acc size plat page index st1 inv hf hal
      obtain ⟨lives2, inv2⟩ := ih st1 lives1 _ r1 inv1 hr1
      refine ⟨lives2, pool_inv_ptrs_perm max_level _ _ _ _ ?_ inv2⟩
      simp only [List.cons_append]
      exact List.perm_middle.symm

end mem_pool

namespace mem_pool

theorem all_empty_of_perm (max_level : Nat) (h1 h2 : List mem_page)
    (hp : (h2.map strip).Perm (h1.map strip)) (he : ∀ pg ∈ h1, empty max_level pg = true) :
    ∀ pg ∈ h2, empty max_level pg = true := by
  intro pg hm
  obtain ⟨pg0, h0, hs⟩ := mem_of_strip_perm h1 h2 hp pg hm
  have e : pg.level_count = pg0.level_count := (congrArg mem_page.level_count hs).symm
  have := he pg0 h0
  unfold empty at this ⊢
  rw [e]
  exact this

/-- On a heap of empty pages `garbage_collection` removes every page. -/
theorem gc_loop_all_empty (max_level : Nat) : ∀ (fuel : Nat) (h del : List mem_page),
    (∀ pg ∈ h, empty max_level pg = true) → h.length ≤ fuel →
    (gc_loop max_level fuel h del).1 = [] := by
  intro fuel
  induction fuel with
  | zero =>
    intro h del _ hlen
    have : h = [] := List.length_eq_zero.mp (by omega)
    subst this
    rfl
  | succ f ih =>
    intro h del he hlen
    cases h with
    | nil => rfl
    | cons root t =>
      unfold gc_loop
      have hg : heap_get (root :: t) 1 = some root := rfl
      have hsz : decide (heap_size (root :: t) > 1) = true := by
        simp [heap_size]
      rw [hg]
      simp only [hsz, he root (List.mem_cons_self _ _), Bool.and_self, if_true]
      have hperm := adjust_heap_for_pop_perm max_level (heap_size (root :: t)) (root :: t) 1
      have hlen1 : (adjust_heap_for_pop max_level (heap_size (root :: t)) (root :: t) 1).length =
          t.length + 1 := by
        have := hperm.length_eq
        simpa using this
      have he1 := all_empty_of_perm max_level _ _ hperm he
      cases hl : (adjust_heap_for_pop max_level (heap_size (root :: t)) (root :: t) 1).getLast? with
      | none =>
        rw [List.getLast?_eq_none_iff] at hl
        rw [hl] at hlen1
        simp at hlen1
      | some back =>
        simp only
        apply ih
        · intro pg hm
          exact he1 pg (List.mem_of_mem_dropLast hm)
        · rw [List.length_dropLast, hlen1]
          simp only [List.length_cons] at hlen
          omega

/-- C13: from a new allocator, after any sequence of `alloc_memory` calls
that are all served from pages, `free_memory` of every address returned, in
any order, is defined, and `garbage_collection` then leaves
`get_page_count() == 0`. -/
theorem alloc_free_gc_page_count (max_level ptr : Nat) (hL : max_level ≤ 26)
    (reqs : List (Nat × Nat)) (r : List Ptr × state) (order : List Ptr)
    (h1 : alloc_seq max_level ptr init reqs = some r) (hp : order.Perm r.1) :
    ∃ st2, free_seq max_level r.2 order = some st2 ∧
      get_page_count (garbage_collection max_level st2).1 = 0 := by
  obtain ⟨lives1, inv1⟩ := alloc_seq_inv max_level ptr hL reqs init (fun _ => []) [] r
    (pool_inv_init max_level) h1
  rw [List.append_nil] at inv1
  have inv1 := pool_inv_ptrs_perm max_level _ _ _ _ hp inv1
  obtain ⟨st2, lives2, hfree, inv2⟩ := free_seq_inv max_level hL order r.2 lives1 inv1
  refine ⟨st2, hfree, ?_⟩
  have hempty : ∀ pg ∈ st2.page_heap, empty max_level pg = true := by
    intro pg hm
    rw [page_full_empty_iff max_level pg _ (inv2.full pg hm)]
    rw [List.eq_nil_iff_forall_not_mem]
    intro s hs
    have := inv2.live_ptr pg hm s hs
    cases this
  unfold get_page_count garbage_collection
  simp only
  rw [gc_loop_all_empty max_level _ _ _ hempty (by unfold heap_size; omega)]
  rfl

/-- C13 at a concrete run: the three requests of `mixed_allocs`, two pages
being created, and the frees in the order third, first, second. -/
theorem alloc_free_gc_page_count_witness :
    9 ≤ 26 ∧ alloc_seq 9 8 init [(100, 1000), (6140, 2000), (50, 3000)] = some mixed_allocs ∧
    [Ptr.unit 1000 16, Ptr.unit 1000 0, Ptr.unit 2000 0].Perm mixed_allocs.1 ∧
    ∃ st2, free_seq 9 mixed_allocs.2 [Ptr.unit 1000 16, Ptr.unit 1000 0, Ptr.unit 2000 0] =
        some st2 ∧
      get_page_count (garbage_collection 9 st2).1 = 0 :=
  ⟨by decide, by rfl, by decide,
    alloc_free_gc_page_count 9 8 (by decide) [(100, 1000), (6140, 2000), (50, 3000)]
      mixed_allocs [Ptr.unit 1000 16, Ptr.unit 1000 0, Ptr.unit 2000 0] (by rfl) (by decide)⟩

end mem_pool

namespace mem_pool_v3

/-! ## Variant S: `garbage_collection` and the reachable states -/

theorem gc_loop_kept (layer_count ptr : Nat) : ∀ (rest kept : List mem_page)
    (layers : Nat → List (Nat × Nat)) (free_pages : List mem_page),
    (gc_loop layer_count ptr rest kept layers free_pages).1 =
      kept ++ rest.filter (fun pg => decide (0 < pg.alloc_count)) := by
  intro rest
  induction rest with
  | nil => intro kept layers free_pages; simp [gc_loop]
  | cons pg rest ih =>
    intro kept layers free_pages
    unfold gc_loop
    split_ifs with h0
    · rw [ih, List.filter_cons_of_neg (by simp [h0])]
    · rw [ih, List.filter_cons_of_pos (by simp; omega)]
      simp

theorem gc_loop_free (layer_count ptr : Nat) : ∀ (rest kept : List mem_page)
    (layers : Nat → List (Nat × Nat)) (free_pages : List mem_page),
    (gc_loop layer_count ptr rest kept layers free_pages).2.2 =
      free_pages ++ rest.filter (fun pg => decide (pg.alloc_count = 0)) := by
  intro rest
  induction rest with
  | nil => intro kept layers free_pages; simp [gc_loop]
  | cons pg rest ih =>
    intro kept layers free_pages
    unfold gc_loop
    split_ifs with h0
    · rw [ih, List.filter_cons_of_pos (by simp [h0])]
      simp
    · rw [ih, List.filter_cons_of_neg (by simp [h0])]

theorem foldl_erase_spec {α β : Type} [BEq α] [LawfulBEq α] (f : β → α) : ∀ (xs : List β) (fl : List α),
    fl.Nodup →
    (xs.foldl (fun fl y => fl.erase (f y)) fl).Nodup ∧
    ∀ x, x ∈ xs.foldl (fun fl y => fl.erase (f y)) fl ↔ x ∈ fl ∧ ∀ y ∈ xs, x ≠ f y := by
  intro xs
  induction xs with
  | nil => intro fl h; simp [h]
  | cons y ys ih =>
    intro fl h
    obtain ⟨n1, m1⟩ := ih (fl.erase (f y)) (h.erase _)
    refine ⟨n1, ?_⟩
    intro x
    rw [List.foldl_cons, m1 x, h.mem_erase_iff]
    simp only [List.mem_cons, forall_eq_or_imp]
    tauto

theorem remove_page_spec (layer_count ptr l : Nat) (fl : List (Nat × Nat)) (pg : mem_page)
    (h : fl.Nodup) :
    (remove_page layer_count ptr l fl pg).Nodup ∧
    ∀ a j, (a, j) ∈ remove_page layer_count ptr l fl pg ↔
      (a, j) ∈ fl ∧ ¬ (a = pg.addr ∧ is_slot layer_count ptr l j) := by
  unfold remove_page
  dsimp only
  obtain ⟨n1, m1⟩ := foldl_erase_spec (fun i => (pg.addr, i * get_segment_size ptr l))
    (List.range (MEM_PAGE_SIZE layer_count ptr / get_segment_size ptr l)) fl h
  refine ⟨n1, ?_⟩
  intro a j
  rw [m1]
  unfold is_slot
  simp only [List.mem_range, ne_eq, Prod.mk.injEq, not_and, not_exists]
  constructor
  · rintro ⟨h1, h2⟩
    exact ⟨h1, fun ha i hi => h2 i hi ha⟩
  · rintro ⟨h1, h2⟩
    exact ⟨h1, fun i hi ha => h2 ha i hi⟩

theorem perm_cons_erase_mem {α : Type} [BEq α] [LawfulBEq α] (x : α) : ∀ (l : List α), x ∈ l →
    l.Perm (x :: l.erase x)
  | [], h => by cases h
  | y :: t, h => by
    by_cases he : y = x
    · subst he
      rw [List.erase_cons_head]
    · have hm : x ∈ t := by
        rcases List.mem_cons.mp h with h1 | h1
        · exact absurd h1.symm he
        · exact h1
      rw [List.erase_cons_tail (by simpa using he)]
      exact ((perm_cons_erase_mem x t hm).cons y).trans (List.Perm.swap x y _)

theorem nodup_bounded_length (l : List Nat) (n : Nat) (hn : l.Nodup) (hb : ∀ x ∈ l, x < n) :
    l.length ≤ n := by
  have h1 : l.toFinset ⊆ Finset.range n := by
    intro x hx
    rw [List.mem_toFinset] at hx
    exact Finset.mem_range.mpr (hb x hx)
  have h2 := Finset.card_le_card h1
  rw [List.toFinset_card_of_nodup hn, Finset.card_range] at h2
  exact h2

/-- The live segments of one page are at most the segments of a page. -/
theorem live_count_le (layer_count ptr l a : Nat) (live : List (Nat × Nat)) (hn : live.Nodup)
    (hs : ∀ j, (a, j) ∈ live → is_slot layer_count ptr l j) :
    live.countP (fun s => s.1 == a) ≤ MEM_PAGE_SIZE layer_count ptr / get_segment_size ptr l := by
  rw [List.countP_eq_length_filter]
  have hmem : ∀ s, s ∈ live.filter (fun s => s.1 == a) → s.1 = a ∧ (a, s.2) ∈ live := by
    intro s hsm
    rw [List.mem_filter] at hsm
    have e : s.1 = a := by simpa using hsm.2
    refine ⟨e, ?_⟩
    rw [← e]
    exact hsm.1
  have hnd : ((live.filter (fun s => s.1 == a)).map
      (fun s => s.2 / get_segment_size ptr l)).Nodup := by
    apply List.Nodup.map_on _ (hn.filter _)
    intro s hsm t htm he
    obtain ⟨s1, s2⟩ := hmem s hsm
    obtain ⟨t1, t2⟩ := hmem t htm
    obtain ⟨i, hi, hsi⟩ := hs _ s2
    obtain ⟨k, hk, htk⟩ := hs _ t2
    have hpos : 0 < get_segment_size ptr l := by
      rcases Nat.eq_zero_or_pos (get_segment_size ptr l) with h0 | h0
      · rw [h0] at hi; simp at hi
      · exact h0
    simp only at he
    rw [hsi, htk, Nat.mul_div_cancel _ hpos, Nat.mul_div_cancel _ hpos] at he
    apply Prod.ext
    · rw [s1, t1]
    · rw [hsi, htk, he]
  have hb := nodup_bounded_length _ (MEM_PAGE_SIZE layer_count ptr / get_segment_size ptr l) hnd
    (by
      intro x hx
      obtain ⟨s, hsm, rfl⟩ := List.mem_map.mp hx
      obtain ⟨_, s2⟩ := hmem s hsm
      obtain ⟨i, hi, hsi⟩ := hs _ s2
      have hpos : 0 < get_segment_size ptr l := by
        rcases Nat.eq_zero_or_pos (get_segment_size ptr l) with h0 | h0
        · rw [h0] at hi; simp at hi
        · exact h0
      rw [hsi, Nat.mul_div_cancel _ hpos]
      exact hi)
  rw [List.length_map] at hb
  exact hb

theorem page_size_lt (layer_count ptr : Nat) (hp : ptr = 4 ∨ ptr = 8) (h26 : layer_count ≤ 26) :
    MEM_PAGE_SIZE layer_count ptr < U32 := by
  have hb := mem_pool.two_pow_le_26 layer_count h26
  unfold MEM_PAGE_SIZE
  rw [Nat.shiftLeft_eq]
  rcases hp with rfl | rfl <;> simp only [MEM_BASE_SIZE, mem_pool.U32_eq] <;> omega

end mem_pool_v3

namespace mem_pool_v3

theorem state_inv_init (layer_count ptr : Nat) :
    state_inv layer_count ptr (fun _ => []) [] [] [] :=
  { pages_nodup := List.nodup_nil
    free_nodup := fun _ => List.nodup_nil
    free_node := by intro l a j h; cases h
    live_nodup := List.nodup_nil
    live_node := by intro a j h; cases h
    count := by intro pg h; cases h
    slots := by intro pg h; cases h }

/-- The invariant does not depend on the order of the page lists. -/
theorem state_inv_perm (layer_count ptr : Nat) (layers : Nat → List (Nat × Nat))
    (u1 u2 f1 f2 : List mem_page) (live : List (Nat × Nat)) (hu : u2.Perm u1)
    (hf : (u2 ++ f2).Perm (u1 ++ f1))
    (inv : state_inv layer_count ptr layers u1 f1 live) :
    state_inv layer_count ptr layers u2 f2 live :=
  { pages_nodup := (hf.map _).nodup_iff.mpr inv.pages_nodup
    free_nodup := inv.free_nodup
    free_node := by
      intro l a j h
      obtain ⟨pg, hm, rest⟩ := inv.free_node l a j h
      exact ⟨pg, hu.symm.subset hm, rest⟩
    live_nodup := inv.live_nodup
    live_node := by
      intro a j h
      obtain ⟨pg, hm, rest⟩ := inv.live_node a j h
      exact ⟨pg, hu.symm.subset hm, rest⟩
    count := fun pg hm => inv.count pg (hu.subset hm)
    slots := fun pg hm => inv.slots pg (hu.subset hm) }

theorem using_unique (layer_count ptr : Nat) (layers : Nat → List (Nat × Nat))
    (u f : List mem_page) (live : List (Nat × Nat))
    (inv : state_inv layer_count ptr layers u f live) (p1 p2 : mem_page) (h1 : p1 ∈ u)
    (h2 : p2 ∈ u) (he : p1.addr = p2.addr) : p1 = p2 :=
  List.inj_on_of_nodup_map inv.pages_nodup (List.mem_append_left _ h1)
    (List.mem_append_left _ h2) he

theorem head_addr_ne (layer_count ptr : Nat) (layers : Nat → List (Nat × Nat))
    (pg : mem_page) (r f : List mem_page) (live : List (Nat × Nat))
    (inv : state_inv layer_count ptr layers (pg :: r) f live) (q : mem_page) (hq : q ∈ r) :
    q.addr ≠ pg.addr := by
  have h := inv.pages_nodup
  rw [List.cons_append, List.map_cons, List.nodup_cons] at h
  intro he
  exact h.1 (List.mem_map.mpr ⟨q, List.mem_append_left _ hq, he⟩)

/-- The step of `alloc_segment`: the first node of the free list of layer `l`
is a segment of the page `pg`. -/
theorem state_inv_alloc_head (layer_count ptr : Nat) (hp : ptr = 4 ∨ ptr = 8)
    (h26 : layer_count ≤ 26) (layers : Nat → List (Nat × Nat)) (pg : mem_page)
    (r f : List mem_page) (live : List (Nat × Nat)) (l j : Nat) (rest : List (Nat × Nat))
    (inv : state_inv layer_count ptr layers (pg :: r) f live)
    (hl : layers l = (pg.addr, j) :: rest) :
    state_inv layer_count ptr (Function.update layers l rest)
      ({ pg with
          segs := Function.update pg.segs j { pg.segs j with used := 1 }
          alloc_count := add32 pg.alloc_count 1 } :: r) f ((pg.addr, j) :: live) := by
  have hin : (pg.addr, j) ∈ layers l := by rw [hl]; exact List.mem_cons_self _ _
  obtain ⟨pgx, hx, hxa, hxl, hlc, hxh, hslot⟩ := inv.free_node l pg.addr j hin
  have hpgx : pgx = pg :=
    using_unique _ _ _ _ _ _ inv pgx pg hx (List.mem_cons_self _ _) hxa
  subst hpgx
  have hnd := inv.free_nodup l
  rw [hl, List.nodup_cons] at hnd
  have hsub : ∀ l2 x, x ∈ Function.update layers l rest l2 → x ∈ layers l2 := by
    intro l2 x hx2
    by_cases he : l2 = l
    · subst he
      rw [Function.update_same] at hx2
      rw [hl]
      exact List.mem_cons_of_mem _ hx2
    · rwa [Function.update_noteq he] at hx2
  have hhdr : ∀ j2, ((Function.update pgx.segs j { pgx.segs j with used := 1 }) j2).layer =
      (pgx.segs j2).layer := by
    intro j2
    by_cases he : j2 = j
    · subst he
      rw [Function.update_same]
    · rw [Function.update_noteq he]
  have hfresh : (pgx.addr, j) ∉ live := by
    intro hm
    obtain ⟨pgy, hy, hya, _, _, _, hnot⟩ := inv.live_node _ _ hm
    have : pgy = pgx := using_unique _ _ _ _ _ _ inv pgy pgx hy (List.mem_cons_self _ _) hya
    subst this
    rw [hxl] at hnot
    exact hnot hin
  have hslots : ∀ j2, (pgx.addr, j2) ∈ (pgx.addr, j) :: live → is_slot layer_count ptr l j2 := by
    intro j2 hm
    rcases List.mem_cons.mp hm with he | hm
    · simp only [Prod.mk.injEq, true_and] at he
      rw [he]; exact hslot
    · obtain ⟨pgy, hy, hya, _, _, hs, _⟩ := inv.live_node _ _ hm
      have : pgy = pgx := using_unique _ _ _ _ _ _ inv pgy pgx hy (List.mem_cons_self _ _) hya
      subst this
      rw [hxl] at hs
      exact hs
  have hbound := live_count_le layer_count ptr l pgx.addr ((pgx.addr, j) :: live)
    (List.nodup_cons.mpr ⟨hfresh, inv.live_nodup⟩) hslots
  have hpage := page_size_lt layer_count ptr hp h26
  have hdiv : MEM_PAGE_SIZE layer_count ptr / get_segment_size ptr l ≤
      MEM_PAGE_SIZE layer_count ptr := Nat.div_le_self _ _
  refine
    { pages_nodup := by
        have h := inv.pages_nodup
        rw [List.cons_append, List.map_cons] at h ⊢
        exact h
      free_nodup := ?_, free_node := ?_
      live_nodup := List.nodup_cons.mpr ⟨hfresh, inv.live_nodup⟩
      live_node := ?_, count := ?_, slots := ?_ }
  · intro l2
    by_cases he : l2 = l
    · subst he
      rw [Function.update_same]
      exact hnd.2
    · rw [Function.update_noteq he]
      exact inv.free_nodup l2
  · intro l2 a j2 hm
    obtain ⟨pgy, hy, hya, hyl, hylc, hyh, hys⟩ := inv.free_node l2 a j2 (hsub l2 _ hm)
    rcases List.mem_cons.mp hy with rfl | hy
    · exact ⟨_, List.mem_cons_self _ _, hya, hyl, hylc, by rw [hhdr]; exact hyh, hys⟩
    · exact ⟨pgy, List.mem_cons_of_mem _ hy, hya, hyl, hylc, hyh, hys⟩
  · intro a j2 hm
    rcases List.mem_cons.mp hm with he | hm
    · simp only [Prod.mk.injEq] at he
      obtain ⟨rfl, rfl⟩ := he
      refine ⟨_, List.mem_cons_self _ _, rfl, ?_, ?_, ?_, ?_⟩
      · simp only; rw [hxl]; exact hlc
      · simp only; rw [hhdr, hxh, hxl]
      · simp only; rw [hxl]; exact hslot
      · simp only
        rw [hxl, Function.update_same]
        exact hnd.1
    · obtain ⟨pgy, hy, hya, hylc, hyh, hys, hnot⟩ := inv.live_node a j2 hm
      rcases List.mem_cons.mp hy with rfl | hy
      · refine ⟨_, List.mem_cons_self _ _, hya, hylc, ?_, hys, ?_⟩
        · simp only; rw [hhdr]; exact hyh
        · exact fun hc => hnot (hsub _ _ hc)
      · exact ⟨pgy, List.mem_cons_of_mem _ hy, hya, hylc, hyh, hys,
          fun hc => hnot (hsub _ _ hc)⟩
  · intro pgy hy
    rcases List.mem_cons.mp hy with rfl | hy
    · simp only
      rw [List.countP_cons_of_pos _ _ (by simp)] at hbound ⊢
      rw [inv.count pgx (List.mem_cons_self _ _)]
      unfold add32
      apply Nat.mod_eq_of_lt
      omega
    · have hne := head_addr_ne _ _ _ _ _ _ _ inv pgy hy
      rw [List.countP_cons_of_neg _ _ (by simpa using fun h => hne h.symm)]
      exact inv.count pgy (List.mem_cons_of_mem _ hy)
  · intro pgy hy j2 hs
    have hkeep : ∀ a l2, (a, j2) ∈ layers l2 → (a, j2) ≠ (pgx.addr, j) →
        (a, j2) ∈ Function.update layers l rest l2 := by
      intro a l2 hm hne
      by_cases he : l2 = l
      · subst he
        rw [Function.update_same]
        rw [hl] at hm
        rcases List.mem_cons.mp hm with h | h
        · exact absurd h hne
        · exact h
      · rwa [Function.update_noteq he]
    rcases List.mem_cons.mp hy with rfl | hy
    · rcases inv.slots pgx (List.mem_cons_self _ _) j2 hs with h | h
      · exact Or.inl (List.mem_cons_of_mem _ h)
      · by_cases he : j2 = j
        · subst he
          exact Or.inl (List.mem_cons_self _ _)
        · exact Or.inr (hkeep _ _ h (by simpa using he))
    · rcases inv.slots pgy (List.mem_cons_of_mem _ hy) j2 hs with h | h
      · exact Or.inl (List.mem_cons_of_mem _ h)
      · have hne := head_addr_ne _ _ _ _ _ _ _ inv pgy hy
        exact Or.inr (hkeep _ _ h (by simpa using fun h1 _ => hne h1))

end mem_pool_v3

namespace mem_pool_v3

/-- The step of `free_segment` on a live segment of the page `pg`. -/
theorem state_inv_free_head (layer_count ptr : Nat) (hp : ptr = 4 ∨ ptr = 8)
    (h26 : layer_count ≤ 26) (layers : Nat → List (Nat × Nat)) (pg : mem_page)
    (r f : List mem_page) (live : List (Nat × Nat)) (j : Nat)
    (inv : state_inv layer_count ptr layers (pg :: r) f live)
    (hm : (pg.addr, j) ∈ live) :
    state_inv layer_count ptr
      (Function.update layers pg.layer (layers pg.layer ++ [(pg.addr, j)]))
      ({ pg with
          segs := Function.update pg.segs j { pg.segs j with used := 0 }
          alloc_count := sub32 pg.alloc_count 1 } :: r) f (live.erase (pg.addr, j)) := by
  obtain ⟨pgx, hx, hxa, hlc, hxh, hslot, hnot⟩ := inv.live_node pg.addr j hm
  have hpgx : pgx = pg :=
    using_unique _ _ _ _ _ _ inv pgx pg hx (List.mem_cons_self _ _) hxa
  subst hpgx
  have hmem : ∀ t, t ∈ live.erase (pgx.addr, j) ↔ t ≠ (pgx.addr, j) ∧ t ∈ live :=
    fun t => inv.live_nodup.mem_erase_iff
  have hnew : ∀ l2 x, x ∈ Function.update layers pgx.layer (layers pgx.layer ++ [(pgx.addr, j)]) l2 →
      x ∈ layers l2 ∨ (l2 = pgx.layer ∧ x = (pgx.addr, j)) := by
    intro l2 x hx2
    by_cases he : l2 = pgx.layer
    · subst he
      rw [Function.update_same, List.mem_append, List.mem_singleton] at hx2
      rcases hx2 with h | h
      · exact Or.inl h
      · exact Or.inr ⟨rfl, h⟩
    · rw [Function.update_noteq he] at hx2
      exact Or.inl hx2
  have hhdr : ∀ j2, ((Function.update pgx.segs j { pgx.segs j with used := 0 }) j2).layer =
      (pgx.segs j2).layer := by
    intro j2
    by_cases he : j2 = j
    · subst he
      rw [Function.update_same]
    · rw [Function.update_noteq he]
  have hslots : ∀ j2, (pgx.addr, j2) ∈ live → is_slot layer_count ptr pgx.layer j2 := by
    intro j2 hm2
    obtain ⟨pgy, hy, hya, _, _, hs, _⟩ := inv.live_node _ _ hm2
    have : pgy = pgx := using_unique _ _ _ _ _ _ inv pgy pgx hy (List.mem_cons_self _ _) hya
    subst this
    exact hs
  have hbound := live_count_le layer_count ptr pgx.layer pgx.addr live inv.live_nodup hslots
  have hpage := page_size_lt layer_count ptr hp h26
  have hdiv : MEM_PAGE_SIZE layer_count ptr / get_segment_size ptr pgx.layer ≤
      MEM_PAGE_SIZE layer_count ptr := Nat.div_le_self _ _
  have hperm : live.Perm ((pgx.addr, j) :: live.erase (pgx.addr, j)) := perm_cons_erase_mem _ live hm
  refine
    { pages_nodup := by
        have h := inv.pages_nodup
        rw [List.cons_append, List.map_cons] at h ⊢
        exact h
      free_nodup := ?_, free_node := ?_
      live_nodup := inv.live_nodup.sublist (List.erase_sublist _ _)
      live_node := ?_, count := ?_, slots := ?_ }
  · intro l2
    by_cases he : l2 = pgx.layer
    · subst he
      rw [Function.update_same]
      apply (List.perm_append_singleton _ _).nodup_iff.mpr
      exact List.nodup_cons.mpr ⟨hnot, inv.free_nodup _⟩
    · rw [Function.update_noteq he]
      exact inv.free_nodup l2
  · intro l2 a j2 hm2
    rcases hnew l2 _ hm2 with hold | ⟨rfl, he⟩
    · obtain ⟨pgy, hy, hya, hyl, hylc, hyh, hys⟩ := inv.free_node l2 a j2 hold
      rcases List.mem_cons.mp hy with rfl | hy
      · exact ⟨_, List.mem_cons_self _ _, hya, hyl, hylc, by rw [hhdr]; exact hyh, hys⟩
      · exact ⟨pgy, List.mem_cons_of_mem _ hy, hya, hyl, hylc, hyh, hys⟩
    · simp only [Prod.mk.injEq] at he
      obtain ⟨rfl, rfl⟩ := he
      exact ⟨_, List.mem_cons_self _ _, rfl, rfl, hlc, by rw [hhdr]; exact hxh, hslot⟩
  · intro a j2 hm2
    obtain ⟨hne, hm2⟩ := (hmem _).mp hm2
    obtain ⟨pgy, hy, hya, hylc, hyh, hys, hnot2⟩ := inv.live_node a j2 hm2
    have hfin : ∀ l2, l2 = pgy.layer →
        (a, j2) ∉ Function.update layers pgx.layer (layers pgx.layer ++ [(pgx.addr, j)]) l2 := by
      intro l2 hl2 hc
      rcases hnew l2 _ hc with hold | ⟨_, he⟩
      · rw [hl2] at hold
        exact hnot2 hold
      · exact hne he
    rcases List.mem_cons.mp hy with rfl | hy
    · exact ⟨_, List.mem_cons_self _ _, hya, hylc, by rw [hhdr]; exact hyh, hys, hfin _ rfl⟩
    · exact ⟨pgy, List.mem_cons_of_mem _ hy, hya, hylc, hyh, hys, hfin _ rfl⟩
  · intro pgy hy
    rcases List.mem_cons.mp hy with rfl | hy
    · simp only
      have hc := hperm.countP_eq (fun s => s.1 == pgx.addr)
      rw [List.countP_cons_of_pos _ _ (by simp)] at hc
      rw [inv.count pgx (List.mem_cons_self _ _)]
      apply mem_pool.sub32_exact
      · exact hc.symm
      · omega
    · have hne := head_addr_ne _ _ _ _ _ _ _ inv pgy hy
      have hc := hperm.countP_eq (fun s => s.1 == pgy.addr)
      rw [List.countP_cons_of_neg _ _ (by simpa using fun h => hne h.symm)] at hc
      rw [← hc]
      exact inv.count pgy (List.mem_cons_of_mem _ hy)
  · intro pgy hy j2 hs
    have hkeep : ∀ a l2, (a, j2) ∈ layers l2 →
        (a, j2) ∈ Function.update layers pgx.layer (layers pgx.layer ++ [(pgx.addr, j)]) l2 := by
      intro a l2 hm2
      by_cases he : l2 = pgx.layer
      · subst he
        rw [Function.update_same]
        exact List.mem_append_left _ hm2
      · rwa [Function.update_noteq he]
    have hlive : ∀ a, (a, j2) ∈ live → (a, j2) ≠ (pgx.addr, j) →
        (a, j2) ∈ live.erase (pgx.addr, j) := fun a h1 h2 => (hmem _).mpr ⟨h2, h1⟩
    rcases List.mem_cons.mp hy with rfl | hy
    · by_cases he : j2 = j
      · subst he
        refine Or.inr ?_
        simp only
        rw [Function.update_same]
        exact List.mem_append_right _ (List.mem_singleton_self _)
      · rcases inv.slots pgx (List.mem_cons_self _ _) j2 hs with h | h
        · exact Or.inl (hlive _ h (by simpa using he))
        · exact Or.inr (hkeep _ _ h)
    · rcases inv.slots pgy (List.mem_cons_of_mem _ hy) j2 hs with h | h
      · have hne := head_addr_ne _ _ _ _ _ _ _ inv pgy hy
        exact Or.inl (hlive _ h (by simpa using fun h1 _ => hne h1))
      · exact Or.inr (hkeep _ _ h)

/-- A page with `alloc_count == 0` is taken off `using_page_link`, its
segments off the free list of its layer, and pushed on `free_page_link`. -/
theorem state_inv_move (layer_count ptr : Nat) (layers : Nat → List (Nat × Nat))
    (pg : mem_page) (r f : List mem_page) (live : List (Nat × Nat))
    (inv : state_inv layer_count ptr layers (pg :: r) f live) (h0 : pg.alloc_count = 0) :
    state_inv layer_count ptr
      (Function.update layers pg.layer
        (remove_page layer_count ptr pg.layer (layers pg.layer) pg)) r (f ++ [pg]) live := by
  obtain ⟨rn, rm⟩ := remove_page_spec layer_count ptr pg.layer (layers pg.layer) pg
    (inv.free_nodup pg.layer)
  have hsub : ∀ l2 a j, (a, j) ∈ Function.update layers pg.layer
      (remove_page layer_count ptr pg.layer (layers pg.layer) pg) l2 →
      (a, j) ∈ layers l2 ∧ ¬ (l2 = pg.layer ∧ a = pg.addr ∧ is_slot layer_count ptr pg.layer j) := by
    intro l2 a j hm
    by_cases he : l2 = pg.layer
    · subst he
      rw [Function.update_same, rm] at hm
      exact ⟨hm.1, fun hc => hm.2 hc.2⟩
    · rw [Function.update_noteq he] at hm
      exact ⟨hm, fun hc => he hc.1⟩
  have hnolive : ∀ j, (pg.addr, j) ∉ live := by
    intro j hm
    have hc := inv.count pg (List.mem_cons_self _ _)
    rw [h0] at hc
    have : 0 < live.countP (fun s => s.1 == pg.addr) :=
      List.countP_pos_iff.mpr ⟨(pg.addr, j), hm, by simp⟩
    omega
  refine
    { pages_nodup := ?_
      free_nodup := ?_, free_node := ?_
      live_nodup := inv.live_nodup
      live_node := ?_, count := fun pgy hy => inv.count pgy (List.mem_cons_of_mem _ hy)
      slots := ?_ }
  · have hperm : (r ++ (f ++ [pg])).Perm (pg :: r ++ f) := by
      rw [← List.append_assoc]
      exact List.perm_append_singleton _ _
    exact (hperm.map _).nodup_iff.mpr inv.pages_nodup
  · intro l2
    by_cases he : l2 = pg.layer
    · subst he
      rw [Function.update_same]
      exact rn
    · rw [Function.update_noteq he]
      exact inv.free_nodup l2
  · intro l2 a j hm
    obtain ⟨hold, hnot⟩ := hsub l2 a j hm
    obtain ⟨pgy, hy, hya, hyl, hylc, hyh, hys⟩ := inv.free_node l2 a j hold
    rcases List.mem_cons.mp hy with rfl | hy
    · exfalso
      apply hnot
      refine ⟨hyl.symm, hya.symm, ?_⟩
      rw [hyl]; exact hys
    · exact ⟨pgy, hy, hya, hyl, hylc, hyh, hys⟩
  · intro a j hm
    obtain ⟨pgy, hy, hya, hylc, hyh, hys, hnot⟩ := inv.live_node a j hm
    rcases List.mem_cons.mp hy with rfl | hy
    · rw [← hya] at hm
      exact absurd hm (hnolive j)
    · exact ⟨pgy, hy, hya, hylc, hyh, hys, fun hc => hnot (hsub _ _ _ hc).1⟩
  · intro pgy hy j hs
    rcases inv.slots pgy (List.mem_cons_of_mem _ hy) j hs with h | h
    · exact Or.inl h
    · refine Or.inr ?_
      have hne := head_addr_ne _ _ _ _ _ _ _ inv pgy hy
      by_cases he : pgy.layer = pg.layer
      · rw [he, Function.update_same, rm]
        rw [he] at h
        exact ⟨h, fun hc => hne hc.1⟩
      · rw [Function.update_noteq he]
        exact h

/-- The pages of `free_page_link` are destroyed. -/
theorem state_inv_drop (layer_count ptr : Nat) (layers : Nat → List (Nat × Nat))
    (u f : List mem_page) (live : List (Nat × Nat))
    (inv : state_inv layer_count ptr layers u f live) :
    state_inv layer_count ptr layers u [] live :=
  { pages_nodup := by
      rw [List.append_nil]
      have := inv.pages_nodup
      rw [List.map_append] at this
      exact (List.nodup_append.mp this).1
    free_nodup := inv.free_nodup
    free_node := inv.free_node
    live_nodup := inv.live_nodup
    live_node := inv.live_node
    count := inv.count
    slots := inv.slots }

end mem_pool_v3

namespace mem_pool_v3

theorem segment_size_pos (ptr l : Nat) (hp : ptr = 4 ∨ ptr = 8) (hl : l ≤ 26) :
    0 < get_segment_size ptr l := by
  rw [get_segment_size_eq ptr l hp hl]
  have : 0 < 2 ^ l := Nat.two_pow_pos _
  rcases hp with rfl | rfl <;> simp only [MEM_BASE_SIZE] <;> omega

/-- The step of `insert_page`: a page that is on no list joins
`using_page_link` and its segments the empty free list of layer `l`. -/
theorem state_inv_insert (layer_count ptr : Nat) (hp : ptr = 4 ∨ ptr = 8)
    (h26 : layer_count ≤ 26) (layers : Nat → List (Nat × Nat)) (u f f2 : List mem_page)
    (live : List (Nat × Nat)) (p : mem_page) (l : Nat)
    (inv : state_inv layer_count ptr layers u f live)
    (hnd : ((u ++ [p] ++ f2).map (fun pg => pg.addr)).Nodup)
    (hempty : layers l = []) (hlc : l < layer_count) :
    state_inv layer_count ptr
      (Function.update layers l (layers l ++ (insert_page layer_count ptr l p).2))
      (u ++ [(insert_page layer_count ptr l p).1]) f2 live := by
  have hpos := segment_size_pos ptr l hp (by omega)
  have hfresh : ∀ q ∈ u, q.addr ≠ p.addr := by
    intro q hq he
    rw [List.append_assoc, List.map_append, List.nodup_append] at hnd
    apply hnd.2.2 (List.mem_map.mpr ⟨q, hq, rfl⟩)
    rw [he]
    exact List.mem_map.mpr ⟨p, by simp, rfl⟩
  have hins : ∀ a j, (a, j) ∈ (insert_page layer_count ptr l p).2 ↔
      a = p.addr ∧ is_slot layer_count ptr l j := by
    intro a j
    unfold insert_page is_slot
    simp only [List.mem_map, List.mem_range, Prod.mk.injEq]
    constructor
    · rintro ⟨i, hi, rfl, rfl⟩
      exact ⟨rfl, i, hi, rfl⟩
    · rintro ⟨rfl, i, hi, rfl⟩
      exact ⟨i, hi, rfl, rfl⟩
  have hnew : ∀ l2 a j, (a, j) ∈ Function.update layers l
        (layers l ++ (insert_page layer_count ptr l p).2) l2 →
      (l2 ≠ l ∧ (a, j) ∈ layers l2) ∨ (l2 = l ∧ a = p.addr ∧ is_slot layer_count ptr l j) := by
    intro l2 a j hm
    by_cases he : l2 = l
    · subst he
      rw [Function.update_same, hempty, List.nil_append, hins] at hm
      exact Or.inr ⟨rfl, hm⟩
    · rw [Function.update_noteq he] at hm
      exact Or.inl ⟨he, hm⟩
  refine
    { pages_nodup := ?_
      free_nodup := ?_, free_node := ?_
      live_nodup := inv.live_nodup
      live_node := ?_, count := ?_, slots := ?_ }
  · have e : ((u ++ [(insert_page layer_count ptr l p).1] ++ f2).map (fun pg => pg.addr)) =
        ((u ++ [p] ++ f2).map (fun pg => pg.addr)) := by
      simp [insert_page]
    rw [e]
    exact hnd
  · intro l2
    by_cases he : l2 = l
    · subst he
      rw [Function.update_same, hempty, List.nil_append]
      unfold insert_page
      dsimp only
      apply List.Nodup.map _ (List.nodup_range _)
      intro i k hik
      simp only [Prod.mk.injEq, true_and] at hik
      exact Nat.eq_of_mul_eq_mul_right hpos hik
    · rw [Function.update_noteq he]
      exact inv.free_nodup l2
  · intro l2 a j hm
    rcases hnew l2 a j hm with ⟨_, hold⟩ | ⟨rfl, rfl, hs⟩
    · obtain ⟨pgy, hy, rest⟩ := inv.free_node l2 a j hold
      exact ⟨pgy, List.mem_append_left _ hy, rest⟩
    · refine ⟨_, List.mem_append_right _ (List.mem_singleton_self _), rfl, rfl, hlc, ?_, hs⟩
      obtain ⟨i, hi, rfl⟩ := hs
      unfold insert_page
      simp only
      rw [if_pos ⟨Nat.mul_mod_left _ _, by rw [Nat.mul_div_cancel _ hpos]; exact hi⟩]
      simp only
      apply Nat.mod_eq_of_lt
      omega
  · intro a j hm
    obtain ⟨pgy, hy, hya, hylc, hyh, hys, hnot⟩ := inv.live_node a j hm
    refine ⟨pgy, List.mem_append_left _ hy, hya, hylc, hyh, hys, ?_⟩
    intro hc
    rcases hnew _ a j hc with ⟨_, hold⟩ | ⟨_, he, _⟩
    · exact hnot hold
    · exact hfresh pgy hy (hya.trans he)
  · intro pgy hy
    rcases List.mem_append.mp hy with hy | hy
    · exact inv.count pgy hy
    · rw [List.mem_singleton] at hy
      subst hy
      have : live.countP (fun s => s.1 == p.addr) = 0 := by
        rw [List.countP_eq_zero]
        intro s hs
        obtain ⟨pgz, hz, hza, _⟩ := inv.live_node s.1 s.2 hs
        have := hfresh pgz hz
        rw [hza] at this
        simpa using this
      simp only [insert_page]
      exact this.symm
  · intro pgy hy j hs
    rcases List.mem_append.mp hy with hy | hy
    · rcases inv.slots pgy hy j hs with h | h
      · exact Or.inl h
      · refine Or.inr ?_
        by_cases he : pgy.layer = l
        · rw [he, Function.update_same]
          rw [he] at h
          exact List.mem_append_left _ h
        · rw [Function.update_noteq he]
          exact h
    · rw [List.mem_singleton] at hy
      subst hy
      refine Or.inr ?_
      have e1 : (insert_page layer_count ptr l p).1.layer = l := rfl
      have e2 : (insert_page layer_count ptr l p).1.addr = p.addr := rfl
      rw [e1] at hs ⊢
      rw [e2, Function.update_same]
      exact List.mem_append_right _ ((hins _ _).mpr ⟨rfl, hs⟩)

end mem_pool_v3

namespace mem_pool_v3

theorem find_page_get (h : List mem_page) (a pos : Nat) (pg : mem_page)
    (hf : find_page h a = some (pos, pg)) : h.get? pos = some pg ∧ pg.addr = a := by
  unfold find_page at hf
  cases hi : h.findIdx? (fun pg => pg.addr == a) with
  | none => rw [hi] at hf; simp at hf
  | some k =>
    rw [hi] at hf
    simp only [Option.map_eq_some', Prod.mk.injEq] at hf
    obtain ⟨q, hq, rfl, rfl⟩ := hf
    refine ⟨hq, ?_⟩
    rw [List.findIdx?_eq_some_iff_getElem] at hi
    obtain ⟨hk, hpk, _⟩ := hi
    rw [List.get?_eq_getElem?, List.getElem?_eq_getElem hk, Option.some.injEq] at hq
    rw [← hq]
    simpa using hpk

/-- What a successful `alloc_segment` does. -/
theorem alloc_segment_eq (ptr l : Nat) (st st1 : state) (p : Ptr)
    (h : alloc_segment ptr l st = some (p, st1)) :
    ∃ page j rest pos p_page, st.layers l = (page, j) :: rest ∧
      find_page st.using_page_link page = some (pos, p_page) ∧ p = Ptr.unit page j ∧
      st1 = { st with
        layers := Function.update st.layers l rest
        using_page_link := st.using_page_link.set pos
          { p_page with
            segs := Function.update p_page.segs j { p_page.segs j with used := 1 }
            alloc_count := add32 p_page.alloc_count 1 } } := by
  unfold alloc_segment at h
  split at h
  · simp at h
  · rename_i page j rest hl
    split at h
    · simp at h
    · rename_i x pg0 hf0
      split at h
      · simp at h
      · rename_i pos p_page hs
        simp only [Option.some.injEq, Prod.mk.injEq] at h
        obtain ⟨rfl, rfl⟩ := h
        unfold segment_to_page at hs
        split_ifs at hs
        exact ⟨page, j, rest, pos, p_page, hl, hs, rfl, rfl⟩

/-- The call `alloc_segment` keeps the invariant, the segment handed out
becoming live. -/
theorem alloc_segment_inv (layer_count ptr : Nat) (hp : ptr = 4 ∨ ptr = 8)
    (h26 : layer_count ≤ 26) (st st1 : state) (l : Nat) (p : Ptr) (live : List (Nat × Nat))
    (inv : state_inv layer_count ptr st.layers st.using_page_link st.free_page_link live)
    (h : alloc_segment ptr l st = some (p, st1)) :
    state_inv layer_count ptr st1.layers st1.using_page_link st1.free_page_link
      (live_add live p) := by
  obtain ⟨page, j, rest, pos, p_page, hl, hf, rfl, rfl⟩ := alloc_segment_eq ptr l st st1 p h
  obtain ⟨hget, haddr⟩ := find_page_get _ _ _ _ hf
  subst haddr
  obtain ⟨r, hp1, hp2⟩ := mem_pool.set_perm_cons st.using_page_link pos p_page
    { p_page with
      segs := Function.update p_page.segs j { p_page.segs j with used := 1 }
      alloc_count := add32 p_page.alloc_count 1 } hget
  have i1 := state_inv_perm layer_count ptr _ _ (p_page :: r) _ st.free_page_link live
    hp1.symm (hp1.symm.append_right _) inv
  have i2 := state_inv_alloc_head layer_count ptr hp h26 _ p_page r _ live l j rest i1 hl
  exact state_inv_perm layer_count ptr _ _ _ _ _ _ hp2 (hp2.append_right _) i2

end mem_pool_v3

namespace mem_pool_v3

/-- The rest of `alloc_memory` after the choice of the layer keeps the
invariant. -/
theorem alloc_in_layer_inv (layer_count ptr : Nat) (hp : ptr = 4 ∨ ptr = 8)
    (h26 : layer_count ≤ 26) (st st1 : state) (l plat : Nat) (p : Ptr)
    (live : List (Nat × Nat)) (hl : l < layer_count) (hfr : fresh st plat)
    (inv : state_inv layer_count ptr st.layers st.using_page_link st.free_page_link live)
    (h : alloc_in_layer layer_count ptr st l plat = some (p, st1)) :
    state_inv layer_count ptr st1.layers st1.using_page_link st1.free_page_link
      (live_add live p) := by
  unfold alloc_in_layer at h
  split_ifs at h with he
  · have hempty : st.layers l = [] := List.isEmpty_iff.mp he
    unfold alloc_page at h
    cases hf : st.free_page_link with
    | nil =>
      rw [hf] at h
      simp only at h
      by_cases h0 : plat = 0
      · rw [if_pos h0] at h
        simp at h
      · rw [if_neg h0] at h
        simp only at h
        refine alloc_segment_inv layer_count ptr hp h26 _ st1 l p live ?_ h
        simp only
        rw [hf]
        rw [hf] at inv
        apply state_inv_insert layer_count ptr hp h26 _ _ [] [] live _ l inv _ hempty hl
        rw [List.append_nil, List.map_append, List.nodup_append]
        have hn := inv.pages_nodup
        rw [List.append_nil] at hn
        refine ⟨hn, by simp, ?_⟩
        intro a ha hb
        simp only [List.map_cons, List.map_nil, List.mem_singleton] at hb
        obtain ⟨q, hq, rfl⟩ := List.mem_map.mp ha
        exact hfr q (List.mem_append_left _ hq) hb
    | cons pc rest =>
      rw [hf] at h
      simp only at h
      refine alloc_segment_inv layer_count ptr hp h26 _ st1 l p live ?_ h
      simp only
      rw [hf] at inv
      apply state_inv_insert layer_count ptr hp h26 _ _ (pc :: rest) rest live _ l inv _
        hempty hl
      have hn := inv.pages_nodup
      simpa using hn
  · exact alloc_segment_inv layer_count ptr hp h26 st st1 l p live inv h

/-- The call `alloc_memory` keeps the invariant, a segment handed out
becoming live. -/
theorem alloc_memory_inv_v3 (layer_count ptr : Nat) (hp : ptr = 4 ∨ ptr = 8)
    (h1 : 1 ≤ layer_count) (h26 : layer_count ≤ 26) (st st1 : state) (size plat : Nat)
    (p : Ptr) (live : List (Nat × Nat)) (hfr : fresh st plat)
    (inv : state_inv layer_count ptr st.layers st.using_page_link st.free_page_link live)
    (h : alloc_memory layer_count ptr st size plat = some (p, st1)) :
    state_inv layer_count ptr st1.layers st1.using_page_link st1.free_page_link
      (live_add live p) := by
  unfold alloc_memory at h
  dsimp only at h
  split_ifs at h with hbig hend
  · unfold alloc_direct at h
    dsimp only at h
    split_ifs at h
    · simp only [Option.some.injEq, Prod.mk.injEq] at h
      obtain ⟨rfl, rfl⟩ := h
      exact inv
    · simp only [Option.some.injEq, Prod.mk.injEq] at h
      obtain ⟨rfl, rfl⟩ := h
      exact inv
  · simp only [Option.some.injEq, Prod.mk.injEq] at h
    obtain ⟨rfl, rfl⟩ := h
    exact inv
  · have hsel := (select_layer_spec layer_count ptr _ hp h1 h26 (Nat.le_of_not_gt hbig)).1
    exact alloc_in_layer_inv layer_count ptr hp h26 st st1 _ plat p live (by omega) hfr inv h

end mem_pool_v3

namespace mem_pool_v3

/-- What a successful `free_segment` does. -/
theorem free_segment_eq (ptr layer : Nat) (st st1 : state) (page j : Nat)
    (h : free_segment ptr layer st page j = some st1) :
    ∃ pos p_page, find_page st.using_page_link page = some (pos, p_page) ∧
      st1 = { st with
        layers := Function.update st.layers layer (st.layers layer ++ [(page, j)])
        using_page_link := st.using_page_link.set pos
          { p_page with
            segs := Function.update p_page.segs j { p_page.segs j with used := 0 }
            alloc_count := sub32 p_page.alloc_count 1 } } := by
  unfold free_segment at h
  split at h
  · simp at h
  · rename_i x pg0 hf0
    split at h
    · simp at h
    · rename_i pos p_page hs
      simp only [Option.some.injEq] at h
      subst h
      unfold segment_to_page at hs
      split_ifs at hs
      exact ⟨pos, p_page, hs, rfl⟩

/-- The call `free_memory` on a live segment, or on a block, keeps the
invariant, the segment being live no longer. -/
theorem free_memory_inv_v3 (layer_count ptr : Nat) (hp : ptr = 4 ∨ ptr = 8)
    (h26 : layer_count ≤ 26) (st st1 : state) (p : Ptr) (live : List (Nat × Nat))
    (hown : owned live p)
    (inv : state_inv layer_count ptr st.layers st.using_page_link st.free_page_link live)
    (h : free_memory ptr st p = some st1) :
    state_inv layer_count ptr st1.layers st1.using_page_link st1.free_page_link
      (live_del live p) := by
  unfold free_memory at h
  cases hr : read_header st p with
  | none => rw [hr] at h; simp at h
  | some seg =>
    rw [hr] at h
    dsimp only at h
    cases p with
    | null => simp [read_header] at hr
    | block a =>
      split_ifs at h
      simp only [Option.some.injEq] at h
      subst h
      exact inv
    | unit page j =>
      split_ifs at h with hd
      simp only at h
      obtain ⟨pos, p_page, hf, rfl⟩ := free_segment_eq ptr _ st st1 page j h
      obtain ⟨hget, haddr⟩ := find_page_get _ _ _ _ hf
      subst haddr
      have hseg : seg = p_page.segs j := by
        have hr2 : Option.map (fun jp => jp.2.segs j)
            (find_page st.using_page_link p_page.addr) = some seg := hr
        rw [hf] at hr2
        simpa using hr2.symm
      have hm : (p_page.addr, j) ∈ live := hown
      obtain ⟨pgx, hx, hxa, _, hxh, _, _⟩ := inv.live_node _ _ hm
      have hpgx : pgx = p_page :=
        using_unique _ _ _ _ _ _ inv pgx p_page hx (List.get?_mem hget) hxa
      subst hpgx
      have hlay : seg.layer = pgx.layer := by rw [hseg]; exact hxh
      rw [hlay]
      obtain ⟨r, hp1, hp2⟩ := mem_pool.set_perm_cons st.using_page_link pos pgx
        { pgx with
          segs := Function.update pgx.segs j { pgx.segs j with used := 0 }
          alloc_count := sub32 pgx.alloc_count 1 } hget
      have i1 := state_inv_perm layer_count ptr _ _ (pgx :: r) _ st.free_page_link live
        hp1.symm (hp1.symm.append_right _) inv
      have i2 := state_inv_free_head layer_count ptr hp h26 _ pgx r _ live j i1 hm
      exact state_inv_perm layer_count ptr _ _ _ _ _ _ hp2 (hp2.append_right _) i2

/-- The loop of `garbage_collection` keeps the invariant. -/
theorem gc_loop_inv (layer_count ptr : Nat) (live : List (Nat × Nat)) :
    ∀ (rest kept : List mem_page) (layers : Nat → List (Nat × Nat)) (free_pages : List mem_page),
    state_inv layer_count ptr layers (kept ++ rest) free_pages live →
    state_inv layer_count ptr
      (gc_loop layer_count ptr rest kept layers free_pages).2.1
      (gc_loop layer_count ptr rest kept layers free_pages).1
      (gc_loop layer_count ptr rest kept layers free_pages).2.2 live := by
  intro rest
  induction rest with
  | nil =>
    intro kept layers free_pages inv
    simpa [gc_loop] using inv
  | cons pg rest ih =>
    intro kept layers free_pages inv
    unfold gc_loop
    split_ifs with h0
    · apply ih
      have hperm : (pg :: (kept ++ rest)).Perm (kept ++ pg :: rest) := List.perm_middle.symm
      have i1 := state_inv_perm layer_count ptr _ _ (pg :: (kept ++ rest)) _ free_pages live
        hperm (hperm.append_right _) inv
      exact state_inv_move layer_count ptr layers pg (kept ++ rest) free_pages live i1 h0
    · apply ih
      rw [List.append_assoc]
      exact inv

/-- The call `garbage_collection` keeps the invariant. -/
theorem garbage_collection_inv (layer_count ptr : Nat) (st : state) (completely : Bool)
    (live : List (Nat × Nat))
    (inv : state_inv layer_count ptr st.layers st.using_page_link st.free_page_link live) :
    state_inv layer_count ptr (garbage_collection layer_count ptr st completely).1.layers
      (garbage_collection layer_count ptr st completely).1.using_page_link
      (garbage_collection layer_count ptr st completely).1.free_page_link live := by
  have i1 := gc_loop_inv layer_count ptr live st.using_page_link [] st.layers st.free_page_link
    (by simpa using inv)
  unfold garbage_collection
  dsimp only
  cases completely with
  | false => simpa using i1
  | true =>
    simp only [if_true]
    exact state_inv_drop layer_count ptr _ _ _ live i1

end mem_pool_v3

namespace mem_pool_v3

theorem live_swap (live : List (Nat × Nat)) (p q : Ptr) (hne : q ≠ p) :
    live_del (live_add live q) p = live_add (live_del live p) q := by
  cases q with
  | null => rfl
  | block b => rfl
  | unit a2 j2 =>
    cases p with
    | null => rfl
    | block b => rfl
    | unit a j =>
      simp only [live_add, live_del]
      rw [List.erase_cons_tail]
      simp only [beq_iff_eq, Prod.mk.injEq, not_and]
      intro h1 h2
      exact hne (by rw [h1, h2])

theorem owned_live_add (live : List (Nat × Nat)) (p q : Ptr) (h : owned live p) :
    owned (live_add live q) p := by
  cases p with
  | null => trivial
  | block b => trivial
  | unit a j =>
    cases q with
    | null => exact h
    | block b => exact h
    | unit a2 j2 => exact List.mem_cons_of_mem _ h

theorem realloc_direct_fields (ptr : Nat) (st : state) (a size plat : Nat) :
    (realloc_direct ptr st a size plat).2.layers = st.layers ∧
    (realloc_direct ptr st a size plat).2.using_page_link = st.using_page_link ∧
    (realloc_direct ptr st a size plat).2.free_page_link = st.free_page_link ∧
    ∃ b, (realloc_direct ptr st a size plat).1 = Ptr.block b := by
  unfold realloc_direct
  dsimp only
  split_ifs
  · exact ⟨rfl, rfl, rfl, 0, rfl⟩
  · split
    · exact ⟨rfl, rfl, rfl, plat, rfl⟩
    · exact ⟨rfl, rfl, rfl, plat, rfl⟩

/-- The call `realloc_memory` on a live segment, a block or `nullptr` keeps
the invariant. -/
theorem realloc_memory_inv_v3 (layer_count ptr : Nat) (hp : ptr = 4 ∨ ptr = 8)
    (h1 : 1 ≤ layer_count) (h26 : layer_count ≤ 26) (st st1 : state) (size plat : Nat)
    (p p1 : Ptr) (live : List (Nat × Nat)) (hown : owned live p) (hfr : fresh st plat)
    (inv : state_inv layer_count ptr st.layers st.using_page_link st.free_page_link live)
    (h : realloc_memory layer_count ptr st p size plat = some (p1, st1)) :
    state_inv layer_count ptr st1.layers st1.using_page_link st1.free_page_link
      (if p1 = p ∨ p1 = Ptr.null then live else live_add (live_del live p) p1) := by
  unfold realloc_memory at h
  split_ifs at h with hnull
  · subst hnull
    have i1 := alloc_memory_inv_v3 layer_count ptr hp h1 h26 st st1 size plat p1 live hfr inv h
    by_cases hp1 : p1 = Ptr.null
    · subst hp1
      simpa using i1
    · rw [if_neg (by simp [hp1])]
      exact i1
  · cases hr : read_header st p with
    | none => rw [hr] at h; simp at h
    | some seg =>
      rw [hr] at h
      dsimp only at h
      split_ifs at h with hd hfit
      · cases p with
        | null => simp at h
        | unit a j => simp at h
        | block a =>
          simp only [Option.some.injEq] at h
          obtain ⟨e1, e2, e3, b, e4⟩ := realloc_direct_fields ptr st a size plat
          rw [h] at e1 e2 e3 e4
          simp only at e1 e2 e3 e4
          rw [e1, e2, e3, e4]
          have hl : (if Ptr.block b = Ptr.block a ∨ Ptr.block b = Ptr.null then live
              else live_add (live_del live (Ptr.block a)) (Ptr.block b)) = live := by
            by_cases hc : Ptr.block b = Ptr.block a ∨ Ptr.block b = Ptr.null
            · rw [if_pos hc]
            · rw [if_neg hc]
              rfl
          rw [hl]
          exact inv
      · simp only [Option.some.injEq, Prod.mk.injEq] at h
        obtain ⟨rfl, rfl⟩ := h
        rw [if_pos (Or.inl rfl)]
        exact inv
      · cases ha : alloc_memory layer_count ptr st size plat with
        | none => rw [ha] at h; simp at h
        | some r =>
          rw [ha] at h
          dsimp only at h
          obtain ⟨q, st2⟩ := r
          have i1 := alloc_memory_inv_v3 layer_count ptr hp h1 h26 st st2 size plat q live
            hfr inv ha
          split_ifs at h with hq
          · simp only at hq
            subst hq
            simp only [Option.some.injEq, Prod.mk.injEq] at h
            obtain ⟨rfl, rfl⟩ := h
            rw [if_pos (Or.inr rfl)]
            exact i1
          · simp only at hq
            simp only [Option.map_eq_some', Prod.mk.injEq] at h
            obtain ⟨st3, hfree, rfl, rfl⟩ := h
            have i2 := free_memory_inv_v3 layer_count ptr hp h26
              { st2 with data := memcpy st2.data q p (get_segment_data_size ptr seg.layer) }
              st3 p (live_add live q) (owned_live_add live p q hown) i1 hfree
            by_cases hqp : q = p
            · subst hqp
              rw [if_pos (Or.inl rfl)]
              cases q with
              | null => exact absurd rfl hq
              | block b => exact i2
              | unit a j =>
                exfalso
                have hnd := i1.live_nodup
                simp only [live_add] at hnd
                exact (List.nodup_cons.mp hnd).1 hown
            · rw [if_neg (by simp [hqp, hq])]
              rw [live_swap live p q hqp] at i2
              exact i2

/-- Every reachable state satisfies the invariant. -/
theorem reach_inv (layer_count ptr : Nat) (hp : ptr = 4 ∨ ptr = 8) (h1 : 1 ≤ layer_count)
    (h26 : layer_count ≤ 26) (st : state) (live : List (Nat × Nat))
    (h : reach layer_count ptr st live) :
    state_inv layer_count ptr st.layers st.using_page_link st.free_page_link live := by
  induction h with
  | init => exact state_inv_init layer_count ptr
  | alloc size plat p st1 _ hfr hal ih =>
    exact alloc_memory_inv_v3 layer_count ptr hp h1 h26 _ st1 size plat p _ hfr ih hal
  | free p st1 _ hown hfree ih =>
    exact free_memory_inv_v3 layer_count ptr hp h26 _ st1 p _ hown ih hfree
  | realloc size plat p p1 st1 _ hown hfr hre ih =>
    exact realloc_memory_inv_v3 layer_count ptr hp h1 h26 _ st1 size plat p p1 _ hown hfr ih hre
  | gc completely _ ih =>
    exact garbage_collection_inv layer_count ptr _ completely _ ih
  | write data _ ih => exact ih

end mem_pool_v3

namespace mem_pool_v3

theorem fresh_of_all (st : state) (plat : Nat)
    (h : (st.using_page_link ++ st.free_page_link).all (fun pg => pg.addr != plat) = true) :
    fresh st plat := by
  intro pg hm
  have := List.all_eq_true.mp h pg hm
  simpa using this

/-- C14: in every reachable state, `garbage_collection(false)` leaves on
`using_page_link` exactly the pages that had `alloc_count > 0`, in their
order; every page that had `alloc_count == 0` is on `free_page_link`; no
segment of such a page is left on a free list; and `get_page_count()` is the
number of pages that had `alloc_count > 0`.  Every segment of a page that is
moved was on the free list of the page's layer, so `remove_page` pops nodes
of that list only. -/
theorem garbage_collection_moves_unused (layer_count ptr : Nat) (hp : ptr = 4 ∨ ptr = 8)
    (h1 : 1 ≤ layer_count) (h26 : layer_count ≤ 26) (st : state) (live : List (Nat × Nat))
    (h : reach layer_count ptr st live) :
    (garbage_collection layer_count ptr st false).1.using_page_link =
      st.using_page_link.filter (fun pg => decide (0 < pg.alloc_count)) ∧
    (∀ pg ∈ st.using_page_link, pg.alloc_count = 0 →
      pg ∈ (garbage_collection layer_count ptr st false).1.free_page_link) ∧
    (∀ pg ∈ st.using_page_link, pg.alloc_count = 0 →
      ∀ l j, (pg.addr, j) ∉ (garbage_collection layer_count ptr st false).1.layers l) ∧
    get_page_count (garbage_collection layer_count ptr st false).1 =
      st.using_page_link.countP (fun pg => decide (0 < pg.alloc_count)) ∧
    (∀ pg ∈ st.using_page_link, pg.alloc_count = 0 →
      ∀ j, is_slot layer_count ptr pg.layer j → (pg.addr, j) ∈ st.layers pg.layer) := by
  have inv := reach_inv layer_count ptr hp h1 h26 st live h
  have inv2 := garbage_collection_inv layer_count ptr st false live inv
  have hkept : (garbage_collection layer_count ptr st false).1.using_page_link =
      st.using_page_link.filter (fun pg => decide (0 < pg.alloc_count)) := by
    unfold garbage_collection
    dsimp only
    rw [gc_loop_kept]
    rfl
  have hfree : (garbage_collection layer_count ptr st false).1.free_page_link =
      st.free_page_link ++ st.using_page_link.filter (fun pg => decide (pg.alloc_count = 0)) := by
    unfold garbage_collection
    dsimp only
    rw [gc_loop_free]
    rfl
  refine ⟨hkept, ?_, ?_, ?_, ?_⟩
  · intro pg hm h0
    rw [hfree]
    apply List.mem_append_right
    rw [List.mem_filter]
    exact ⟨hm, by simp [h0]⟩
  · intro pg hm h0 l j hc
    obtain ⟨pgy, hy, hya, _⟩ := inv2.free_node l pg.addr j hc
    rw [hkept, List.mem_filter] at hy
    have : pgy = pg := using_unique _ _ _ _ _ _ inv pgy pg hy.1 hm hya
    subst this
    have := hy.2
    simp only [decide_eq_true_eq] at this
    omega
  · unfold get_page_count
    rw [hkept, List.countP_eq_length_filter]
  · intro pg hm h0 j hs
    rcases inv.slots pg hm j hs with hl | hl
    · exfalso
      have hc := inv.count pg hm
      rw [h0] at hc
      have : 0 < live.countP (fun s => s.1 == pg.addr) :=
        List.countP_pos_iff.mpr ⟨(pg.addr, j), hl, by simp⟩
      omega
    · exact hl

/-- C14 at a concrete state: a page of layer 3 at 100 whose only segment was
freed, and a page of layer 6 at 200 with one live segment. -/
theorem garbage_collection_moves_unused_witness :
    (8 = 4 ∨ 8 = 8) ∧ 1 ≤ 8 ∧ 8 ≤ 26 ∧ reach 8 8 mixed_state [(200, 0)] ∧
    ((garbage_collection 8 8 mixed_state false).1.using_page_link =
      mixed_state.using_page_link.filter (fun pg => decide (0 < pg.alloc_count)) ∧
    (∀ pg ∈ mixed_state.using_page_link, pg.alloc_count = 0 →
      pg ∈ (garbage_collection 8 8 mixed_state false).1.free_page_link) ∧
    (∀ pg ∈ mixed_state.using_page_link, pg.alloc_count = 0 →
      ∀ l j, (pg.addr, j) ∉ (garbage_collection 8 8 mixed_state false).1.layers l) ∧
    get_page_count (garbage_collection 8 8 mixed_state false).1 =
      mixed_state.using_page_link.countP (fun pg => decide (0 < pg.alloc_count)) ∧
    (∀ pg ∈ mixed_state.using_page_link, pg.alloc_count = 0 →
      ∀ j, is_slot 8 8 pg.layer j → (pg.addr, j) ∈ mixed_state.layers pg.layer)) :=
  have r1 : reach 8 8 small_state [(100, 0)] :=
    reach.alloc 100 100 (Ptr.unit 100 0) small_state reach.init
      (fun _ hm => by cases hm) (by rfl)
  have r2 : reach 8 8 two_page_state [(200, 0), (100, 0)] :=
    reach.alloc 1000 200 (Ptr.unit 200 0) two_page_state r1
      (fresh_of_all small_state 200 (by decide)) (by rfl)
  have r3 : reach 8 8 mixed_state [(200, 0)] :=
    reach.free (Ptr.unit 100 0) mixed_state r2 (by simp [owned]) (by rfl)
  ⟨by decide, by decide, by decide, r3,
    garbage_collection_moves_unused 8 8 (by decide) (by decide) (by decide) mixed_state _ r3⟩

end mem_pool_v3

namespace mem_pool

/-! ## Variant B: `lock` succeeds exactly when a node is allocatable -/

/-- A node `q` of level `level` below `p`, with `bitmap_and` clear from `q`
up to `p` and `bitmap__or` clear on `q`, makes `lock` at `p` return a node. -/
theorem lock_finds (cur : Nat) : ∀ (pg : mem_page) (p level q : Nat), level ≤ cur →
    q / 2 ^ (cur - level) = p →
    (∀ k, k ≤ cur - level → get_bit pg.bitmap_and (q / 2 ^ k) = false) →
    get_bit pg.bitmap__or q = false →
    ∃ node, (lock pg p cur level).1 = some node := by
  induction cur with
  | zero =>
    intro pg p level q hl hq hand hor
    have : level = 0 := by omega
    subst this
    simp only [Nat.sub_self, pow_zero, Nat.div_one] at hq
    subst hq
    have ha := hand 0 (Nat.zero_le _)
    simp only [pow_zero, Nat.div_one] at ha
    rw [lock_of_eq _ _ _ ha]
    simp [hor]
  | succ c ih =>
    intro pg p level q hl hq hand hor
    have ha : get_bit pg.bitmap_and p = false := by
      rw [← hq]
      exact hand _ (le_refl _)
    rcases Nat.eq_or_lt_of_le hl with heq | hlt
    · subst heq
      simp only [Nat.sub_self, pow_zero, Nat.div_one] at hq
      subst hq
      rw [lock_of_eq _ _ _ ha]
      simp [hor]
    · have hd : c + 1 - level = (c - level) + 1 := by omega
      rw [hd, div_two_pow_succ] at hq
      have hih := ih pg (q / 2 ^ (c - level)) level q (by omega) rfl
        (fun k hk => hand k (by omega)) hor
      rw [lock_of_gt _ _ _ _ ha hlt]
      have hcase : q / 2 ^ (c - level) = p * 2 ∨ q / 2 ^ (c - level) = p * 2 + 1 := by omega
      rcases hLl : lock pg (p * 2) c level with ⟨nl, pl⟩
      cases nl with
      | some node => exact ⟨node, rfl⟩
      | none =>
        rcases hcase with hc | hc
        · rw [hc, hLl] at hih
          obtain ⟨node, hn⟩ := hih
          simp at hn
        · have hsame := lock_none c pg (p * 2) level (by rw [hLl])
          rw [hLl] at hsame
          simp only at hsame
          subst hsame
          rw [hc] at hih
          obtain ⟨node, hn⟩ := hih
          dsimp only
          rcases hLr : lock pl (p * 2 + 1) c level with ⟨nr, pr⟩
          rw [hLr] at hn
          simp only at hn
          subst hn
          exact ⟨node, rfl⟩

/-- Below a node with `bitmap_and` set every node is a live node, above one
or below one. -/
theorem and_covers (max_level : Nat) (pg : mem_page) (live : List (Nat × Nat))
    (full : page_full max_level pg live) : ∀ (k x q : Nat), 1 ≤ x →
    get_bit pg.bitmap_and x = true → q / 2 ^ k = x →
    ∃ s ∈ live, anc_or_self q (seg_node max_level s) ∨ anc_or_self (seg_node max_level s) q := by
  intro k
  induction k with
  | zero =>
    intro x q hx ha hq
    simp only [pow_zero, Nat.div_one] at hq
    subst hq
    obtain ⟨s, hs, hanc⟩ := full.or_exact q hx (full.and_or q ha)
    exact ⟨s, hs, Or.inl hanc⟩
  | succ k ih =>
    intro x q hx ha hq
    rcases (full.and_exact x hx).mp ha with ⟨s, hs, hse⟩ | ⟨hc1, hc2⟩
    · exact ⟨s, hs, Or.inr ⟨k + 1, by rw [hq, hse]⟩⟩
    · rw [div_two_pow_succ] at hq
      have hcase : q / 2 ^ k = x * 2 ∨ q / 2 ^ k = x * 2 + 1 := by omega
      rcases hcase with hc | hc
      · exact ih (x * 2) q (by omega) hc1 hc
      · exact ih (x * 2 + 1) q (by omega) hc2 hc

/-- An allocatable node has `bitmap__or` clear, and `bitmap_and` clear on it
and on every node above it. -/
theorem allocatable_bits (max_level : Nat) (pg : mem_page) (live : List (Nat × Nat))
    (full : page_full max_level pg live) (q : Nat) (hq : 1 ≤ q)
    (hal : allocatable max_level live q = true) :
    get_bit pg.bitmap__or q = false ∧
    ∀ k, 1 ≤ q / 2 ^ k → get_bit pg.bitmap_and (q / 2 ^ k) = false := by
  rw [allocatable_iff] at hal
  constructor
  · cases ho : get_bit pg.bitmap__or q with
    | false => rfl
    | true =>
      obtain ⟨s, hs, hanc⟩ := full.or_exact q hq ho
      exact absurd hanc (hal s hs).1
  · intro k hk
    cases ha : get_bit pg.bitmap_and (q / 2 ^ k) with
    | false => rfl
    | true =>
      obtain ⟨s, hs, hrel⟩ := and_covers max_level pg live full k _ q hk ha rfl
      rcases hrel with h | h
      · exact absurd h (hal s hs).1
      · exact absurd h (hal s hs).2

/-- A node returned by `lock(1, max_level, level)` is an allocatable node of
level `level`. -/
theorem lock_some_allocatable (max_level : Nat) (pg pg1 : mem_page) (live : List (Nat × Nat))
    (inv : page_inv max_level pg live) (level node : Nat)
    (hlk : lock pg 1 max_level level = (some node, pg1)) :
    2 ^ (max_level - level) ≤ node ∧ node < 2 ^ (max_level - level + 1) ∧
    allocatable max_level live node = true := by
  obtain ⟨h1, h2, h3, h4, -⟩ := lock_some max_level pg 1 level node pg1 hlk
  obtain ⟨b1, b2⟩ := div_eq_one_bounds node _ (Nat.two_pow_pos _) h2
  have b2' : node < 2 ^ (max_level - level + 1) := by rw [pow_succ]; omega
  have hn1 : 1 ≤ node := le_trans (Nat.two_pow_pos _) b1
  refine ⟨b1, b2', ?_⟩
  rw [allocatable_iff]
  intro s hs
  have hq1 : 1 ≤ seg_node max_level s := le_trans (Nat.two_pow_pos _) (inv.valid s hs).2.1
  constructor
  · rintro ⟨k, hk⟩
    have := inv.or_set s hs k (by omega)
    rw [hk, h4] at this
    exact absurd this (by simp)
  · rintro ⟨k, hk⟩
    have hk2 : k ≤ max_level - level := by
      by_contra hc
      have := div_pow_zero_of_gt node _ k h2 (by omega)
      omega
    have := h3 k hk2
    rw [hk, inv.and_set s hs] at this
    exact absurd this (by simp)

/-- C21: in every state of a page reached from a fresh page by successful
`lock` calls and `unlock` calls on live nodes, and for every level
`l ≤ max_level`, `lock(1, max_level, l)` returns a node exactly when
`level_count[l] > 0` before the call; and when it returns `BITMAP_NIL_NODE`
the page (bitmaps and `level_count` included) is left as it was. -/
theorem lock_iff_level_count (max_level : Nat) (hL : max_level ≤ 26) (pg : mem_page)
    (live : List (Nat × Nat)) (h : page_reach max_level pg live) (l : Nat)
    (hl : l ≤ max_level) :
    ((∃ node, (lock pg 1 max_level l).1 = some node) ↔ 0 < pg.level_count l) ∧
    ((lock pg 1 max_level l).1 = none → (lock pg 1 max_level l).2 = pg) := by
  have full := page_reach_full max_level hL pg live h
  refine ⟨?_, lock_none max_level pg 1 l⟩
  rw [full.counts l hl]
  unfold free_count
  rw [Finset.card_pos]
  constructor
  · rintro ⟨node, hn⟩
    rcases hlk : lock pg 1 max_level l with ⟨n, pg1⟩
    rw [hlk] at hn
    simp only at hn
    subst hn
    obtain ⟨b1, b2, hal⟩ := lock_some_allocatable max_level pg pg1 live full.base l node hlk
    exact ⟨node, Finset.mem_filter.mpr ⟨Finset.mem_Ico.mpr ⟨b1, b2⟩, hal⟩⟩
  · rintro ⟨q, hq⟩
    rw [Finset.mem_filter, Finset.mem_Ico] at hq
    obtain ⟨⟨b1, b2⟩, hal⟩ := hq
    have hq1 : 1 ≤ q := le_trans (Nat.two_pow_pos _) b1
    obtain ⟨hor, hand⟩ := allocatable_bits max_level pg live full q hq1 hal
    have hroot : q / 2 ^ (max_level - l) = 1 := by
      have := lvl_div max_level l q (max_level - l) (by omega) b1 b2
      have e : max_level - (l + (max_level - l)) = 0 := by omega
      rw [e] at this
      simp only [pow_zero, zero_add, pow_one] at this
      omega
    apply lock_finds max_level pg 1 l q hl hroot _ hor
    intro k hk
    apply hand k
    exact le_trans (Nat.two_pow_pos _) (lvl_div max_level l q k (by omega) b1 b2).1

/-- C21 at a concrete page: after a 1-unit and a 2-unit allocation on a
fresh page with `max_level = 9`, for the level of the whole page. -/
theorem lock_iff_level_count_witness :
    9 ≤ 26 ∧ page_reach 9 two_segment_page [(2, 1), (0, 0)] ∧ 9 ≤ 9 ∧
    (((∃ node, (lock two_segment_page 1 9 9).1 = some node) ↔
        0 < two_segment_page.level_count 9) ∧
      ((lock two_segment_page 1 9 9).1 = none →
        (lock two_segment_page 1 9 9).2 = two_segment_page)) :=
  have hr : page_reach 9 two_segment_page [(2, 1), (0, 0)] :=
    page_reach.alloc 1 2 (page_reach.alloc 0 0 (page_reach.fresh 100) (by decide)) (by decide)
  ⟨by decide, hr, by decide, lock_iff_level_count 9 (by decide) _ _ hr 9 (by decide)⟩

end mem_pool

namespace mem_pool

/-! ## Variant B: the header stamped by `alloc_memory` -/

/-- A successful `alloc_from_page` used a level of the page and stamped the
header of the unit it returns with the unit's index and that level. -/
theorem alloc_from_page_stamp (max_level : Nat) (hL : max_level ≤ 26) (pg : mem_page)
    (level index : Nat) (h : (alloc_from_page max_level pg level).1 = some index) :
    level ≤ max_level ∧ index < 2 ^ max_level ∧
    (alloc_from_page max_level pg level).2.units index = ⟨index, level, 0⟩ := by
  rcases hlk : lock pg 1 max_level level with ⟨n, pg1⟩
  cases n with
  | none => rw [alloc_from_page_none _ _ _ _ hlk] at h; simp at h
  | some node =>
    rw [alloc_from_page_some _ _ _ _ _ hlk] at h ⊢
    simp only [Option.some.injEq] at h
    obtain ⟨hl, hdiv, _⟩ := lock_some max_level pg 1 level node pg1 hlk
    obtain ⟨b1, b2⟩ := div_eq_one_bounds node (2 ^ (max_level - level)) (Nat.two_pow_pos _) hdiv
    obtain ⟨_, a2, _⟩ := node_index_arith max_level level node hL hl b1
      (by rw [pow_succ]; omega)
    subst h
    refine ⟨hl, a2, ?_⟩
    have h26 := two_pow_le_26 max_level hL
    simp only [Function.update_same]
    rw [Nat.mod_eq_of_lt (by omega), Nat.mod_eq_of_lt (by norm_num; omega)]

/-- A page of a heap is found by its address in every rearrangement of the
heap, with its units, the addresses being distinct. -/
theorem find_page_of_strip_perm (h1 h2 : List mem_page)
    (hp : (h2.map strip).Perm (h1.map strip))
    (hn : (h1.map (fun pg => pg.addr)).Nodup) (pg : mem_page) (hm : pg ∈ h1) :
    ∃ j pg2, find_page h2 pg.addr = some (j, pg2) ∧ pg2.units = pg.units := by
  have hs : strip pg ∈ h2.map strip := hp.symm.subset (List.mem_map_of_mem strip hm)
  obtain ⟨pg3, hm3, he3⟩ := List.mem_map.mp hs
  obtain ⟨j, pg2, hf, hg, ha⟩ := find_page_some h2 pg.addr pg3 hm3 (strip_addr _ _ he3)
  obtain ⟨pg0, hm0, he0⟩ := mem_of_strip_perm h1 h2 hp pg2 (List.get?_mem hg)
  have e0 : pg0 = pg :=
    List.inj_on_of_nodup_map hn hm0 hm ((strip_addr _ _ he0).trans ha)
  subst e0
  exact ⟨j, pg2, hf, (congrArg mem_page.units he0).symm⟩

/-- The header read at the address that `alloc_new_page` returns. -/
theorem alloc_new_page_stamp (max_level : Nat) (hL : max_level ≤ 26) (st : state)
    (level plat : Nat) (hl : level ≤ max_level) (h0 : plat ≠ 0)
    (hn : (st.page_heap.map (fun pg => pg.addr)).Nodup)
    (hf : ∀ q ∈ st.page_heap, q.addr ≠ plat) :
    ∃ index st1, alloc_new_page max_level st level plat = some (Ptr.unit plat index, st1) ∧
      read_header st1 (Ptr.unit plat index) = some ⟨index, level, 0⟩ := by
  obtain ⟨index, hi⟩ := alloc_from_page_fresh max_level plat level hl
  obtain ⟨_, _, hu⟩ := alloc_from_page_stamp max_level hL _ level index hi
  have haddr := alloc_from_page_addr max_level (mem_page_new max_level plat) level
  unfold alloc_new_page
  rw [if_neg h0]
  dsimp only
  rw [hi]
  refine ⟨index, _, rfl, ?_⟩
  have hn2 : ((st.page_heap ++
      [(alloc_from_page max_level (mem_page_new max_level plat) level).2]).map
        (fun pg => pg.addr)).Nodup := by
    rw [List.map_append, List.nodup_append]
    refine ⟨hn, by simp, ?_⟩
    intro a ha hb
    simp only [List.map_cons, List.map_nil, List.mem_singleton] at hb
    obtain ⟨q, hq, rfl⟩ := List.mem_map.mp ha
    rw [haddr] at hb
    exact hf q hq hb
  obtain ⟨j, pg2, hfind, hunits⟩ := find_page_of_strip_perm _ _
    (adjust_heap_from_bottom_perm max_level _ _ _) hn2
    (alloc_from_page max_level (mem_page_new max_level plat) level).2 (by simp)
  rw [haddr] at hfind
  have hplat : (mem_page_new max_level plat).addr = plat := rfl
  rw [hplat] at hfind
  unfold read_header
  simp only
  rw [hfind]
  simp only [Option.map_some', hunits, hu]

/-- The header read at the address that `alloc_memory` returns for a request
that fits a page: the call returns a unit of a page whose header carries the
unit's index and the level computed for the size, unless it is left by
`std::bad_alloc`. -/
theorem alloc_memory_stamp (max_level ptr : Nat) (hL : max_level ≤ 26) (hp : ptr = 4 ∨ ptr = 8)
    (st : state) (size plat : Nat) (hpos : 0 < size) (hs : size + K ≤ M ptr * 2 ^ max_level)
    (hn : (st.page_heap.map (fun pg => pg.addr)).Nodup)
    (hf : ∀ q ∈ st.page_heap, q.addr ≠ plat) :
    (alloc_memory max_level ptr st size plat = none ∧ plat = 0) ∨
    ∃ page index st1,
      alloc_memory max_level ptr st size plat = some (Ptr.unit page index, st1) ∧
      read_header st1 (Ptr.unit page index) = some ⟨index, calc_level ptr size, 0⟩ := by
  have hmax := calc_page_max_alloc_eq max_level ptr hL hp
  have hlev := (calc_level_in_page max_level ptr size hL hp hs).1
  have hsz : ¬ size = 0 := by omega
  have hbig : ¬ size > calc_page_max_alloc max_level ptr := by omega
  unfold alloc_memory
  rw [if_neg hsz, if_neg hbig]
  dsimp only
  cases hh : st.page_heap with
  | nil =>
    simp only
    by_cases h0 : plat = 0
    · left
      refine ⟨?_, h0⟩
      unfold alloc_new_page
      rw [if_pos h0]
    · right
      obtain ⟨index, st1, e1, e2⟩ :=
        alloc_new_page_stamp max_level hL st (calc_level ptr size) plat hlev h0 hn hf
      exact ⟨plat, index, st1, e1, e2⟩
  | cons ppage rest =>
    simp only
    rw [hh] at hn hf
    cases hr : (alloc_from_page max_level ppage (calc_level ptr size)).1 with
    | some index =>
      right
      simp only
      refine ⟨ppage.addr, index, _, rfl, ?_⟩
      obtain ⟨_, _, hu⟩ := alloc_from_page_stamp max_level hL ppage _ index hr
      have haddr := alloc_from_page_addr max_level ppage (calc_level ptr size)
      have hn2 : (((alloc_from_page max_level ppage (calc_level ptr size)).2 :: rest).map
          (fun pg => pg.addr)).Nodup := by
        rw [List.map_cons, haddr]
        exact hn
      obtain ⟨j, pg2, hfind, hunits⟩ := find_page_of_strip_perm _ _
        (adjust_heap_from_top_perm max_level
          (heap_size ((alloc_from_page max_level ppage (calc_level ptr size)).2 :: rest))
          ((alloc_from_page max_level ppage (calc_level ptr size)).2 :: rest) 1) hn2
        (alloc_from_page max_level ppage (calc_level ptr size)).2 (List.mem_cons_self _ _)
      rw [haddr] at hfind
      unfold read_header
      simp only
      rw [hfind]
      simp only [Option.map_some', hunits, hu]
    | none =>
      simp only
      have hfail := alloc_from_page_fail max_level ppage _ hr
      rw [hfail]
      by_cases h0 : plat = 0
      · left
        refine ⟨?_, h0⟩
        unfold alloc_new_page
        rw [if_pos h0]
      · right
        obtain ⟨index, st1, e1, e2⟩ :=
          alloc_new_page_stamp max_level hL { st with page_heap := ppage :: rest }
            (calc_level ptr size) plat hlev h0 hn hf
        exact ⟨plat, index, st1, e1, e2⟩

end mem_pool

namespace mem_pool

/-! ## Variant B: headers across `free_memory` -/

theorem find_page_found (h : List mem_page) (a pos : Nat) (pg : mem_page)
    (hf : find_page h a = some (pos, pg)) : h.get? pos = some pg ∧ pg.addr = a := by
  unfold find_page at hf
  cases hi : h.findIdx? (fun pg => pg.addr == a) with
  | none => rw [hi] at hf; simp at hf
  | some k =>
    rw [hi] at hf
    simp only [Option.map_eq_some', Prod.mk.injEq] at hf
    obtain ⟨q, hq, rfl, rfl⟩ := hf
    refine ⟨hq, ?_⟩
    rw [List.findIdx?_eq_some_iff_getElem] at hi
    obtain ⟨hk, hpk, _⟩ := hi
    rw [List.get?_eq_getElem?, List.getElem?_eq_getElem hk, Option.some.injEq] at hq
    rw [← hq]
    simpa using hpk

theorem free_in_page_units (max_level : Nat) (pg : mem_page) (index : Nat) :
    (free_in_page max_level pg index).units = pg.units := by
  unfold free_in_page unlock
  exact (unlock_go_fixed max_level _ _ pg _ _).1

/-- What a successful `free_memory` of a unit does to the heap. -/
theorem free_memory_unit_heap (max_level : Nat) (st st1 : state) (page index : Nat)
    (h : free_memory max_level st (Ptr.unit page index) = some st1) :
    ∃ j ppage, find_page st.page_heap page = some (j, ppage) ∧
      (st1.page_heap.map strip).Perm
        ((st.page_heap.set j (free_in_page max_level ppage index)).map strip) := by
  unfold free_memory at h
  simp only at h
  split at h
  · simp at h
  · split_ifs at h
    unfold free_to_page at h
    split at h
    · simp at h
    · rename_i j ppage hf
      dsimp only at h
      split_ifs at h
      simp only [Option.some.injEq] at h
      subst h
      exact ⟨j, ppage, hf, adjust_heap_from_bottom_perm max_level _ _ _⟩

/-- A call of `free_memory` on a unit leaves every header of a page as it
was, the pages having distinct addresses. -/
theorem read_header_after_free_unit (max_level : Nat) (st st1 : state) (page index : Nat)
    (hn : (st.page_heap.map (fun pg => pg.addr)).Nodup)
    (h : free_memory max_level st (Ptr.unit page index) = some st1) (a i : Nat)
    (hdr : mem_unit) (hr : read_header st (Ptr.unit a i) = some hdr) :
    read_header st1 (Ptr.unit a i) = some hdr := by
  obtain ⟨j, ppage, hf, hperm⟩ := free_memory_unit_heap max_level st st1 page index h
  obtain ⟨hget, _⟩ := find_page_found _ _ _ _ hf
  have hr2 : (find_page st.page_heap a).map (fun jp => jp.2.units i) = some hdr := hr
  cases hfa : find_page st.page_heap a with
  | none => rw [hfa] at hr2; simp at hr2
  | some r =>
    obtain ⟨j0, q⟩ := r
    rw [hfa] at hr2
    simp only [Option.map_some', Option.some.injEq] at hr2
    obtain ⟨hgq, hqa⟩ := find_page_found _ _ _ _ hfa
    obtain ⟨rs, hp1, hp2⟩ := set_perm_cons st.page_heap j ppage
      (free_in_page max_level ppage index) hget
    have hn2 : ((st.page_heap.set j (free_in_page max_level ppage index)).map
        (fun pg => pg.addr)).Nodup := by
      have e1 := hp2.map (fun pg => pg.addr)
      have e2 := hp1.map (fun pg => pg.addr)
      rw [List.map_cons, free_in_page_addr] at e1
      rw [List.map_cons] at e2
      exact (e1.trans e2.symm).nodup_iff.mpr hn
    have hq2 : ∃ q2 ∈ st.page_heap.set j (free_in_page max_level ppage index),
        q2.addr = a ∧ q2.units = q.units := by
      by_cases hqp : q = ppage
      · subst hqp
        exact ⟨_, hp2.symm.subset (List.mem_cons_self _ _),
          (free_in_page_addr max_level q index).trans hqa, free_in_page_units max_level q index⟩
      · have hq := hp1.subset (List.get?_mem hgq)
        rcases List.mem_cons.mp hq with hq | hq
        · exact absurd hq hqp
        · exact ⟨q, hp2.symm.subset (List.mem_cons_of_mem _ hq), hqa, rfl⟩
    obtain ⟨q2, hm2, ha2, hu2⟩ := hq2
    obtain ⟨j2, pg2, hfind, hunits⟩ := find_page_of_strip_perm _ _ hperm hn2 q2 hm2
    rw [ha2] at hfind
    unfold read_header
    simp only
    rw [hfind]
    simp only [Option.map_some', hunits, hu2, hr2]

/-- A call of `alloc_memory` that returns a block of its own leaves the heap
as it was. -/
theorem alloc_memory_block_heap (max_level ptr : Nat) (st st1 : state) (size plat a : Nat)
    (h : alloc_memory max_level ptr st size plat = some (Ptr.block a, st1)) :
    st1.page_heap = st.page_heap := by
  unfold alloc_memory at h
  dsimp only at h
  split_ifs at h with h0 hbig hnull
  · simp at h
  · simp at h
  · simp only [Option.some.injEq, Prod.mk.injEq] at h
    obtain ⟨_, rfl⟩ := h
    unfold alloc_direct
    split_ifs <;> rfl
  · exfalso
    obtain ⟨_, hc⟩ := alloc_memory_cases max_level ptr st st1 size plat (Ptr.block a) (by
      unfold alloc_memory
      dsimp only
      rw [if_neg h0, if_neg hbig]
      exact h)
    rcases hc with hc | ⟨hc, _⟩ | ⟨_, _, pg, idx, hc⟩
    · simp at hc
    · exact hbig hc
    · simp at hc

/-- The header of a segment that was handed out and not yet freed. -/
theorem read_header_live (max_level : Nat) (st : state) (lives : Nat → List (Nat × Nat))
    (ptrs : List Ptr) (inv : pool_inv max_level st.page_heap lives ptrs) (page index : Nat)
    (hm : Ptr.unit page index ∈ ptrs) :
    ∃ level, read_header st (Ptr.unit page index) = some ⟨index, level, 0⟩ ∧
      level ≤ max_level := by
  obtain ⟨pg, hpm, s, hs, he⟩ := inv.ptr_live _ hm
  simp only [Ptr.unit.injEq] at he
  obtain ⟨rfl, rfl⟩ := he
  obtain ⟨j, pg2, hf, hg, ha⟩ := find_page_some st.page_heap pg.addr pg hpm rfl
  have e : pg2 = pg := List.inj_on_of_nodup_map inv.nodup (List.get?_mem hg) hpm ha
  subst e
  refine ⟨s.2, ?_, ((inv.full pg2 hpm).base.valid s hs).1⟩
  unfold read_header
  simp only
  rw [hf]
  simp only [Option.map_some', (inv.full pg2 hpm).base.hdr s hs]

end mem_pool

namespace mem_pool

/-! ## Variant B: the grow path of `realloc_memory` -/

/-- The grow path of `realloc_memory` on a live segment, the inner
`alloc_memory` having returned `p2`: the call returns `p2`; the data left is
the data before the call with `len` bytes copied from the old address to
`p2`, `len` being the data capacity of the old segment; and the block or
segment found at `p2` afterwards has room for `len` bytes. -/
theorem realloc_grow_unit (max_level ptr : Nat) (hL : max_level ≤ 26) (hp : ptr = 4 ∨ ptr = 8)
    (st st1 : state) (lives : Nat → List (Nat × Nat)) (ptrs : List Ptr)
    (page index size plat : Nat) (punit : mem_unit) (p2 : Ptr)
    (inv : pool_inv max_level st.page_heap lives ptrs)
    (hm : Ptr.unit page index ∈ ptrs)
    (hf : ∀ q ∈ st.page_heap, q.addr ≠ plat)
    (hs : size < U32)
    (hread : read_header st (Ptr.unit page index) = some punit)
    (hgrow : punit.level < calc_level ptr size)
    (hal : alloc_memory max_level ptr st size plat = some (p2, st1))
    (hne : p2 ≠ Ptr.null) :
    ∃ st2, realloc_memory max_level ptr st (Ptr.unit page index) size plat = some (p2, st2) ∧
      (∀ q ∈ ptrs, p2 ≠ q) ∧
      st2.data = memcpy st.data p2 (Ptr.unit page index) (realloc_copy_len ptr punit.level) ∧
      realloc_copy_len ptr punit.level + K = M ptr * 2 ^ punit.level ∧
      punit.level ≤ max_level ∧
      (∀ a, p2 = Ptr.block a → ∃ hdr sz, st2.blocks a = some (hdr, sz) ∧ hdr.direct = 1 ∧
        realloc_copy_len ptr punit.level + K ≤ sz) ∧
      (∀ pg idx, p2 = Ptr.unit pg idx → ∃ hdr, read_header st2 p2 = some hdr ∧
        hdr.direct = 0 ∧ hdr.level ≤ max_level ∧
        realloc_copy_len ptr punit.level ≤ calc_level_max_alloc ptr hdr.level) := by
  obtain ⟨lv, hr0, hlv⟩ := read_header_live max_level st lives ptrs inv page index hm
  rw [hread] at hr0
  simp only [Option.some.injEq] at hr0
  subst hr0
  simp only at hgrow hlv ⊢
  have hgrowth := realloc_memory_grow max_level ptr st page index size plat ⟨index, lv, 0⟩
    hread rfl hgrow
  rw [hal] at hgrowth
  simp only [hne, if_false] at hgrowth
  obtain ⟨hdata, hcases⟩ := alloc_memory_cases max_level ptr st st1 size plat p2 hal
  obtain ⟨c1, c2⟩ := realloc_copy_len_eq ptr lv (by omega) hp
  have hmax := calc_page_max_alloc_eq max_level ptr hL hp
  have hmono : 2 ^ lv ≤ 2 ^ max_level := Nat.pow_le_pow_right (by norm_num) hlv
  have hmonoM := Nat.mul_le_mul_left (M ptr) hmono
  have hsz : 0 < size := by
    rcases Nat.eq_zero_or_pos size with h0 | h0
    · rw [h0, calc_level_zero ptr hp] at hgrow
      omega
    · exact h0
  -- the state after the inner allocation satisfies the invariant, the old
  -- address being live in it
  have key : ∃ lives1 ptrs1, pool_inv max_level st1.page_heap lives1 ptrs1 ∧
      Ptr.unit page index ∈ ptrs1 ∧ ∀ q ∈ ptrs, p2 ≠ q := by
    rcases hcases with h | ⟨_, h1, _⟩ | ⟨_, _, pg, idx, h⟩
    · exact absurd h hne
    · subst h1
      rw [alloc_memory_block_heap max_level ptr st st1 size plat plat hal]
      refine ⟨lives, ptrs, inv, hm, ?_⟩
      intro q hq hc
      obtain ⟨pg, _, s, _, he⟩ := inv.ptr_live q hq
      rw [← hc] at he
      simp at he
    · subst h
      obtain ⟨lives2, inv2⟩ :=
        alloc_memory_inv max_level ptr hL st lives ptrs size plat pg idx st1 inv hf hal
      refine ⟨lives2, _, inv2, List.mem_cons_of_mem _ hm, ?_⟩
      intro q hq hc
      have hnd := inv2.ptrs_nodup
      rw [hc] at hnd
      exact (List.nodup_cons.mp hnd).1 hq
  obtain ⟨lives1, ptrs1, inv1, hm1, hp2⟩ := key
  have inv1b : pool_inv max_level st1.page_heap lives1
      (Ptr.unit page index :: ptrs1.erase (Ptr.unit page index)) :=
    pool_inv_ptrs_perm max_level _ _ _ _ (List.perm_cons_erase hm1).symm inv1
  obtain ⟨st3, lives3, hfree, _⟩ := free_memory_inv max_level hL
    { st1 with data := memcpy st1.data p2 (Ptr.unit page index) (realloc_copy_len ptr lv) }
    lives1 _ (Ptr.unit page index) inv1b
  rw [hfree] at hgrowth
  obtain ⟨f1, f2⟩ := free_memory_unit_fixed _ _ _ _ _ hfree
  simp only at f1 f2
  refine ⟨st3, hgrowth, hp2, by rw [f1, hdata], c2, hlv, ?_, ?_⟩
  · intro a ha
    rcases hcases with h | ⟨hbig, h1, h2⟩ | ⟨_, _, pg, idx, h⟩
    · exact absurd h hne
    · rw [ha] at h1
      simp only [Ptr.block.injEq] at h1
      subst h1
      refine ⟨_, _, by rw [f2]; exact h2, rfl, ?_⟩
      have hnw := grow_no_wrap ptr size hp hs (by omega)
      have : add32 size K = size + K := Nat.mod_eq_of_lt hnw
      rw [this]
      omega
    · rw [ha] at h
      simp at h
  · intro pg idx hu
    rcases hcases with h | ⟨_, h1, _⟩ | ⟨hsmall, _, _⟩
    · exact absurd h hne
    · rw [hu] at h1
      simp at h1
    · have hfit : size + K ≤ M ptr * 2 ^ max_level := by omega
      obtain ⟨d1, d2, _⟩ := calc_level_in_page max_level ptr size hL hp hfit
      rcases alloc_memory_stamp max_level ptr hL hp st size plat hsz hfit inv.nodup hf with
        ⟨hnone, _⟩ | ⟨page2, index2, st1b, e1, e2⟩
      · rw [hal] at hnone
        simp at hnone
      · rw [hal] at e1
        simp only [Option.some.injEq, Prod.mk.injEq] at e1
        obtain ⟨rfl, rfl⟩ := e1
        have hr3 := read_header_after_free_unit max_level
          { st1 with data := (memcpy st1.data (Ptr.unit page2 index2) (Ptr.unit page index)
              (realloc_copy_len ptr lv)) }
          st3 page index inv1.nodup hfree page2 index2 _ e2
        refine ⟨_, hr3, rfl, d1, ?_⟩
        have d3 := calc_level_max_alloc_eq ptr (calc_level ptr size) (by omega) hp
        have hm2 : 2 ^ lv ≤ 2 ^ calc_level ptr size :=
          Nat.pow_le_pow_right (by norm_num) (by omega)
        have := Nat.mul_le_mul_left (M ptr) hm2
        simp only
        omega

end mem_pool

namespace mem_pool_v3

/-! ## Variant S: the headers keep the index of their segment -/

theorem segment_count_le (layer_count ptr l : Nat) (hp : ptr = 4 ∨ ptr = 8)
    (h26 : layer_count ≤ 26) (hl : l ≤ 26) :
    MEM_PAGE_SIZE layer_count ptr / get_segment_size ptr l ≤ 2 ^ 26 := by
  rw [get_segment_size_eq ptr l hp hl]
  unfold MEM_PAGE_SIZE
  rw [Nat.shiftLeft_eq]
  have hB : 0 < MEM_BASE_SIZE ptr := by
    rcases hp with rfl | rfl <;> simp [MEM_BASE_SIZE]
  have h1 : MEM_BASE_SIZE ptr ≤ MEM_BASE_SIZE ptr * 2 ^ l :=
    Nat.le_mul_of_pos_right _ (Nat.two_pow_pos _)
  calc MEM_BASE_SIZE ptr * 2 ^ layer_count / (MEM_BASE_SIZE ptr * 2 ^ l)
      ≤ MEM_BASE_SIZE ptr * 2 ^ layer_count / MEM_BASE_SIZE ptr :=
        Nat.div_le_div_left h1 hB
    _ = 2 ^ layer_count := Nat.mul_div_cancel_left _ hB
    _ ≤ 2 ^ 26 := Nat.pow_le_pow_right (by norm_num) h26

theorem index_inv_set (layer_count ptr : Nat) (u : List mem_page) (pos : Nat)
    (pg pg1 : mem_page) (inv : index_inv layer_count ptr u) (hg : u.get? pos = some pg)
    (hl : pg1.layer = pg.layer) (hi : ∀ j, (pg1.segs j).index = (pg.segs j).index) :
    index_inv layer_count ptr (u.set pos pg1) := by
  intro q hq j hs
  rcases List.mem_or_eq_of_mem_set hq with hq | rfl
  · exact inv q hq j hs
  · rw [hl] at hs ⊢
    rw [hi]
    exact inv pg (List.get?_mem hg) j hs

theorem update_used_index (segs : Nat → mem_segment) (j u k : Nat) :
    (Function.update segs j { segs j with used := u } k).index = (segs k).index := by
  by_cases hk : k = j
  · subst hk
    rw [Function.update_same]
  · rw [Function.update_noteq hk]

theorem alloc_segment_index (layer_count ptr l : Nat) (st st1 : state) (p : Ptr)
    (inv : index_inv layer_count ptr st.using_page_link)
    (h : alloc_segment ptr l st = some (p, st1)) :
    index_inv layer_count ptr st1.using_page_link := by
  obtain ⟨page, j, rest, pos, p_page, _, hf, _, rfl⟩ := alloc_segment_eq ptr l st st1 p h
  obtain ⟨hget, _⟩ := find_page_get _ _ _ _ hf
  exact index_inv_set layer_count ptr _ pos p_page _ inv hget rfl
    (fun k => update_used_index p_page.segs j 1 k)

theorem index_inv_insert (layer_count ptr : Nat) (hp : ptr = 4 ∨ ptr = 8)
    (h26 : layer_count ≤ 26) (u : List mem_page) (p : mem_page) (l : Nat)
    (hlc : l < layer_count) (inv : index_inv layer_count ptr u) :
    index_inv layer_count ptr (u ++ [(insert_page layer_count ptr l p).1]) := by
  have hpos := segment_size_pos ptr l hp (by omega)
  have hcnt := segment_count_le layer_count ptr l hp h26 (by omega)
  intro q hq j hs
  rcases List.mem_append.mp hq with hq | hq
  · exact inv q hq j hs
  · rw [List.mem_singleton] at hq
    subst hq
    have e1 : (insert_page layer_count ptr l p).1.layer = l := rfl
    rw [e1] at hs ⊢
    obtain ⟨i, hi, rfl⟩ := hs
    unfold insert_page
    simp only
    rw [if_pos ⟨Nat.mul_mod_left _ _, by rw [Nat.mul_div_cancel _ hpos]; exact hi⟩]
    simp only
    rw [Nat.mul_div_cancel _ hpos, Nat.mod_eq_of_lt (by omega), Nat.mul_comm]

theorem alloc_in_layer_index (layer_count ptr : Nat) (hp : ptr = 4 ∨ ptr = 8)
    (h26 : layer_count ≤ 26) (st st1 : state) (l plat : Nat) (p : Ptr) (hl : l < layer_count)
    (inv : index_inv layer_count ptr st.using_page_link)
    (h : alloc_in_layer layer_count ptr st l plat = some (p, st1)) :
    index_inv layer_count ptr st1.using_page_link := by
  unfold alloc_in_layer at h
  split_ifs at h with he
  · cases ha : alloc_page st plat with
    | none => rw [ha] at h; simp at h
    | some r =>
      obtain ⟨p_page, st2⟩ := r
      rw [ha] at h
      simp only at h
      have hu : st2.using_page_link = st.using_page_link := by
        unfold alloc_page at ha
        split at ha
        · split_ifs at ha
          simp only [Option.some.injEq, Prod.mk.injEq] at ha
          rw [← ha.2]
        · simp only [Option.some.injEq, Prod.mk.injEq] at ha
          rw [← ha.2]
      refine alloc_segment_index layer_count ptr l _ st1 p ?_ h
      simp only
      rw [hu]
      exact index_inv_insert layer_count ptr hp h26 _ p_page l hl inv
  · exact alloc_segment_index layer_count ptr l st st1 p inv h

theorem alloc_memory_index (layer_count ptr : Nat) (hp : ptr = 4 ∨ ptr = 8)
    (h1 : 1 ≤ layer_count) (h26 : layer_count ≤ 26) (st st1 : state) (size plat : Nat)
    (p : Ptr) (inv : index_inv layer_count ptr st.using_page_link)
    (h : alloc_memory layer_count ptr st size plat = some (p, st1)) :
    index_inv layer_count ptr st1.using_page_link := by
  unfold alloc_memory at h
  dsimp only at h
  split_ifs at h with hbig hend
  · unfold alloc_direct at h
    dsimp only at h
    split_ifs at h
    · simp only [Option.some.injEq, Prod.mk.injEq] at h
      obtain ⟨_, rfl⟩ := h
      exact inv
    · simp only [Option.some.injEq, Prod.mk.injEq] at h
      obtain ⟨_, rfl⟩ := h
      exact inv
  · simp only [Option.some.injEq, Prod.mk.injEq] at h
    obtain ⟨_, rfl⟩ := h
    exact inv
  · have hsel := (select_layer_spec layer_count ptr _ hp h1 h26 (Nat.le_of_not_gt hbig)).1
    exact alloc_in_layer_index layer_count ptr hp h26 st st1 _ plat p (by omega) inv h

theorem free_memory_index (layer_count ptr : Nat) (st st1 : state) (p : Ptr)
    (inv : index_inv layer_count ptr st.using_page_link)
    (h : free_memory ptr st p = some st1) :
    index_inv layer_count ptr st1.using_page_link := by
  unfold free_memory at h
  cases hr : read_header st p with
  | none => rw [hr] at h; simp at h
  | some seg =>
    rw [hr] at h
    dsimp only at h
    cases p with
    | null => simp [read_header] at hr
    | block a =>
      split_ifs at h
      simp only [Option.some.injEq] at h
      subst h
      exact inv
    | unit page j =>
      split_ifs at h with hd
      simp only at h
      obtain ⟨pos, p_page, hf, rfl⟩ := free_segment_eq ptr _ st st1 page j h
      obtain ⟨hget, _⟩ := find_page_get _ _ _ _ hf
      exact index_inv_set layer_count ptr _ pos p_page _ inv hget rfl
        (fun k => update_used_index p_page.segs j 0 k)

theorem realloc_memory_index (layer_count ptr : Nat) (hp : ptr = 4 ∨ ptr = 8)
    (h1 : 1 ≤ layer_count) (h26 : layer_count ≤ 26) (st st1 : state) (size plat : Nat)
    (p p1 : Ptr) (inv : index_inv layer_count ptr st.using_page_link)
    (h : realloc_memory layer_count ptr st p size plat = some (p1, st1)) :
    index_inv layer_count ptr st1.using_page_link := by
  unfold realloc_memory at h
  split_ifs at h with hnull
  · exact alloc_memory_index layer_count ptr hp h1 h26 st st1 size plat p1 inv h
  · cases hr : read_header st p with
    | none => rw [hr] at h; simp at h
    | some seg =>
      rw [hr] at h
      dsimp only at h
      split_ifs at h with hd hfit
      · cases p with
        | null => simp at h
        | unit a j => simp at h
        | block a =>
          simp only [Option.some.injEq] at h
          obtain ⟨_, e2, _, _⟩ := realloc_direct_fields ptr st a size plat
          rw [h] at e2
          simp only at e2
          rw [e2]
          exact inv
      · simp only [Option.some.injEq, Prod.mk.injEq] at h
        obtain ⟨_, rfl⟩ := h
        exact inv
      · cases ha : alloc_memory layer_count ptr st size plat with
        | none => rw [ha] at h; simp at h
        | some r =>
          rw [ha] at h
          dsimp only at h
          obtain ⟨q, st2⟩ := r
          have i1 := alloc_memory_index layer_count ptr hp h1 h26 st st2 size plat q inv ha
          split_ifs at h with hq
          · simp only [Option.some.injEq, Prod.mk.injEq] at h
            obtain ⟨_, rfl⟩ := h
            exact i1
          · simp only [Option.map_eq_some', Prod.mk.injEq] at h
            obtain ⟨st3, hfree, _, rfl⟩ := h
            exact free_memory_index layer_count ptr
              { st2 with data := memcpy st2.data q p (get_segment_data_size ptr seg.layer) }
              st3 p i1 hfree

theorem garbage_collection_index (layer_count ptr : Nat) (st : state) (completely : Bool)
    (inv : index_inv layer_count ptr st.using_page_link) :
    index_inv layer_count ptr
      (garbage_collection layer_count ptr st completely).1.using_page_link := by
  intro q hq j hs
  have e : (garbage_collection layer_count ptr st completely).1.using_page_link =
      st.using_page_link.filter (fun pg => decide (0 < pg.alloc_count)) := by
    unfold garbage_collection
    simp only [gc_loop_kept, List.nil_append]
  rw [e] at hq
  exact inv q (List.mem_filter.mp hq).1 j hs

/-- Every reachable state satisfies `index_inv`. -/
theorem reach_index (layer_count ptr : Nat) (hp : ptr = 4 ∨ ptr = 8) (h1 : 1 ≤ layer_count)
    (h26 : layer_count ≤ 26) (st : state) (live : List (Nat × Nat))
    (h : reach layer_count ptr st live) : index_inv layer_count ptr st.using_page_link := by
  induction h with
  | init =>
    intro q hq
    cases hq
  | alloc size plat p st1 _ _ hal ih =>
    exact alloc_memory_index layer_count ptr hp h1 h26 _ st1 size plat p ih hal
  | free p st1 _ _ hfree ih =>
    exact free_memory_index layer_count ptr _ st1 p ih hfree
  | realloc size plat p p1 st1 _ _ _ hre ih =>
    exact realloc_memory_index layer_count ptr hp h1 h26 _ st1 size plat p p1 ih hre
  | gc completely _ ih =>
    exact garbage_collection_index layer_count ptr _ completely ih
  | write data _ ih => exact ih

end mem_pool_v3

namespace mem_pool_v3

/-! ## Variant S: the calls return on reachable states -/

theorem find_page_some_v3 (h : List mem_page) (a : Nat) (pg0 : mem_page) (hm : pg0 ∈ h)
    (ha : pg0.addr = a) :
    ∃ j pg, find_page h a = some (j, pg) ∧ h.get? j = some pg ∧ pg.addr = a := by
  unfold find_page
  cases hf : h.findIdx? (fun pg => pg.addr == a) with
  | none =>
    rw [List.findIdx?_eq_none_iff] at hf
    have := hf pg0 hm
    simp [ha] at this
  | some j =>
    rw [List.findIdx?_eq_some_iff_getElem] at hf
    obtain ⟨hj, hp, _⟩ := hf
    refine ⟨j, h[j], ?_, ?_, ?_⟩
    · simp [List.getElem?_eq_getElem hj]
    · simp [List.getElem?_eq_getElem hj]
    · simpa using hp

/-- A page on `using_page_link` is the page found at its address. -/
theorem find_page_using (layer_count ptr : Nat) (layers : Nat → List (Nat × Nat))
    (u f : List mem_page) (live : List (Nat × Nat))
    (inv : state_inv layer_count ptr layers u f live) (pg : mem_page) (hm : pg ∈ u) :
    ∃ pos, find_page u pg.addr = some (pos, pg) ∧ u.get? pos = some pg := by
  obtain ⟨j, pg2, hf, hg, ha⟩ := find_page_some_v3 u pg.addr pg hm rfl
  have e : pg2 = pg := using_unique _ _ _ _ _ _ inv pg2 pg (List.get?_mem hg) hm ha
  subst e
  exact ⟨j, hf, hg⟩

/-- The header read at a segment of a page on `using_page_link`. -/
theorem read_header_using (layer_count ptr : Nat) (st : state) (live : List (Nat × Nat))
    (inv : state_inv layer_count ptr st.layers st.using_page_link st.free_page_link live)
    (pg : mem_page) (hm : pg ∈ st.using_page_link) (j : Nat) :
    read_header st (Ptr.unit pg.addr j) = some (pg.segs j) := by
  obtain ⟨pos, hf, _⟩ := find_page_using _ _ _ _ _ _ inv pg hm
  unfold read_header
  simp only
  rw [hf]
  rfl

theorem mem_set_self_of_get {α : Type} (l : List α) (pos : Nat) (a b : α)
    (hg : l.get? pos = some a) : b ∈ l.set pos b := by
  obtain ⟨r, _, h2⟩ := mem_pool.set_perm_cons l pos a b hg
  exact h2.symm.subset (List.mem_cons_self _ _)

theorem mem_set_of_ne {α : Type} (l : List α) (pos : Nat) (a b q : α)
    (hg : l.get? pos = some a) (hq : q ∈ l) (hne : q ≠ a) : q ∈ l.set pos b := by
  obtain ⟨r, h1, h2⟩ := mem_pool.set_perm_cons l pos a b hg
  have := h1.subset hq
  rcases List.mem_cons.mp this with h | h
  · exact absurd h hne
  · exact h2.symm.subset (List.mem_cons_of_mem _ h)

/-- On a state that satisfies the invariants, `alloc_segment` of a layer
whose free list is not empty returns the first segment of the list, and the
header then read at it carries the layer and `used == 1`. -/
theorem alloc_segment_total (layer_count ptr : Nat) (hp : ptr = 4 ∨ ptr = 8)
    (h26 : layer_count ≤ 26) (st : state) (l : Nat) (live : List (Nat × Nat))
    (inv : state_inv layer_count ptr st.layers st.using_page_link st.free_page_link live)
    (idx : index_inv layer_count ptr st.using_page_link)
    (a j : Nat) (rest : List (Nat × Nat)) (hl : st.layers l = (a, j) :: rest) :
    ∃ st1 seg, alloc_segment ptr l st = some (Ptr.unit a j, st1) ∧
      read_header st1 (Ptr.unit a j) = some seg ∧ seg.layer = l ∧ seg.used = 1 := by
  obtain ⟨pg, hm, hpa, hpl, _, hsl, hslot⟩ :=
    inv.free_node l a j (by rw [hl]; exact List.mem_cons_self _ _)
  subst hpa
  obtain ⟨pos, hf, hg⟩ := find_page_using _ _ _ _ _ _ inv pg hm
  have hidx := idx pg hm j (by rw [hpl]; exact hslot)
  rw [hpl] at hidx
  have hal : alloc_segment ptr l st = some (Ptr.unit pg.addr j,
      { st with
        layers := Function.update st.layers l rest
        using_page_link := st.using_page_link.set pos
          { pg with
            segs := Function.update pg.segs j { pg.segs j with used := 1 }
            alloc_count := add32 pg.alloc_count 1 } }) := by
    unfold alloc_segment
    rw [hl]
    simp only
    rw [hf]
    simp only
    unfold segment_to_page
    rw [if_pos hidx, hf]
  have inv1 := alloc_segment_inv layer_count ptr hp h26 st _ l _ live inv hal
  have hm1 := mem_set_self_of_get st.using_page_link pos pg
    { pg with
      segs := Function.update pg.segs j { pg.segs j with used := 1 }
      alloc_count := add32 pg.alloc_count 1 } hg
  have hr := read_header_using layer_count ptr _ _ inv1 _ hm1 j
  refine ⟨_, _, hal, hr, ?_, ?_⟩
  · simp only [Function.update_same]
    exact hsl
  · simp only [Function.update_same]

/-- What `alloc_page` leaves when it returns a page. -/
theorem alloc_page_eq (st st2 : state) (plat : Nat) (p_page : mem_page)
    (h : alloc_page st plat = some (p_page, st2)) :
    st2.using_page_link = st.using_page_link ∧ st2.layers = st.layers ∧
    ((st.free_page_link = [] ∧ plat ≠ 0 ∧ p_page.addr = plat ∧ st2.free_page_link = []) ∨
      st.free_page_link = p_page :: st2.free_page_link) := by
  unfold alloc_page at h
  split at h
  · rename_i hf
    split_ifs at h with h0
    simp only [Option.some.injEq, Prod.mk.injEq] at h
    obtain ⟨rfl, rfl⟩ := h
    exact ⟨rfl, rfl, Or.inl ⟨hf, h0, rfl, hf⟩⟩
  · rename_i pc rest hf
    simp only [Option.some.injEq, Prod.mk.injEq] at h
    obtain ⟨rfl, rfl⟩ := h
    exact ⟨rfl, rfl, Or.inr hf⟩

/-- The page returned by `alloc_page` is on neither list of the state left. -/
theorem alloc_page_nodup (layer_count ptr : Nat) (st st2 : state) (plat : Nat)
    (p_page : mem_page) (live : List (Nat × Nat)) (hfr : fresh st plat)
    (inv : state_inv layer_count ptr st.layers st.using_page_link st.free_page_link live)
    (h : alloc_page st plat = some (p_page, st2)) :
    ((st.using_page_link ++ [p_page] ++ st2.free_page_link).map (fun pg => pg.addr)).Nodup := by
  obtain ⟨_, _, hc⟩ := alloc_page_eq st st2 plat p_page h
  have hn := inv.pages_nodup
  rcases hc with ⟨hf, _, ha, hf2⟩ | hf
  · rw [hf2, List.append_nil, List.map_append, List.nodup_append]
    rw [hf, List.append_nil] at hn
    refine ⟨hn, by simp, ?_⟩
    intro b hb hb2
    simp only [List.map_cons, List.map_nil, List.mem_singleton] at hb2
    obtain ⟨q, hq, rfl⟩ := List.mem_map.mp hb
    exact hfr q (List.mem_append_left _ hq) (hb2.trans ha)
  · rw [hf] at hn
    simpa using hn

/-- On a state that satisfies the invariants, the part of `alloc_memory`
that follows the choice of a layer returns a segment whose header carries
that layer, unless `new mem_page` is refused. -/
theorem alloc_in_layer_total (layer_count ptr : Nat) (hp : ptr = 4 ∨ ptr = 8)
    (h26 : layer_count ≤ 26) (st : state) (l plat : Nat) (live : List (Nat × Nat))
    (hl : l < layer_count) (hfr : fresh st plat)
    (inv : state_inv layer_count ptr st.layers st.using_page_link st.free_page_link live)
    (idx : index_inv layer_count ptr st.using_page_link) :
    (alloc_in_layer layer_count ptr st l plat = none ∧ plat = 0) ∨
    ∃ page j st1 seg, alloc_in_layer layer_count ptr st l plat = some (Ptr.unit page j, st1) ∧
      read_header st1 (Ptr.unit page j) = some seg ∧ seg.layer = l ∧ seg.used = 1 := by
  unfold alloc_in_layer
  by_cases he : (st.layers l).isEmpty = true
  · rw [if_pos he]
    have hempty : st.layers l = [] := List.isEmpty_iff.mp he
    cases ha : alloc_page st plat with
    | none =>
      left
      refine ⟨rfl, ?_⟩
      unfold alloc_page at ha
      split at ha
      · by_contra h0
        rw [if_neg h0] at ha
        simp at ha
      · simp at ha
    | some r =>
      right
      obtain ⟨p_page, st2⟩ := r
      simp only
      obtain ⟨hu, hly, _⟩ := alloc_page_eq st st2 plat p_page ha
      have hnd := alloc_page_nodup layer_count ptr st st2 plat p_page live hfr inv ha
      have inv2 := state_inv_insert layer_count ptr hp h26 st.layers st.using_page_link
        st.free_page_link st2.free_page_link live p_page l inv hnd hempty hl
      have idx2 := index_inv_insert layer_count ptr hp h26 st.using_page_link p_page l hl idx
      rw [hu, hly]
      have hpos := segment_size_pos ptr l hp (by omega)
      have hcnt : 0 < MEM_PAGE_SIZE layer_count ptr / get_segment_size ptr l := by
        apply Nat.div_pos _ hpos
        rw [get_segment_size_eq ptr l hp (by omega)]
        unfold MEM_PAGE_SIZE
        rw [Nat.shiftLeft_eq]
        exact Nat.mul_le_mul_left _ (Nat.pow_le_pow_right (by norm_num) (by omega))
      have hcons : ∃ a j rest, (insert_page layer_count ptr l p_page).2 = (a, j) :: rest := by
        cases hx : (insert_page layer_count ptr l p_page).2 with
        | nil =>
          exfalso
          have hlen := congrArg List.length hx
          simp only [insert_page, List.length_map, List.length_range, List.length_nil] at hlen
          omega
        | cons x rest => exact ⟨x.1, x.2, rest, rfl⟩
      obtain ⟨a, j, rest, hx⟩ := hcons
      obtain ⟨st1, seg, e1, e2, e3, e4⟩ := alloc_segment_total layer_count ptr hp h26
        { st2 with
          using_page_link := st.using_page_link ++ [(insert_page layer_count ptr l p_page).1]
          layers := Function.update st.layers l
            (st.layers l ++ (insert_page layer_count ptr l p_page).2) }
        l live inv2 idx2 a j rest (by simp only [Function.update_same, hempty, hx,
          List.nil_append])
      exact ⟨a, j, st1, seg, e1, e2, e3, e4⟩
  · rw [if_neg he]
    right
    cases hx : st.layers l with
    | nil => rw [hx] at he; simp at he
    | cons x rest =>
      obtain ⟨a, j⟩ := x
      obtain ⟨st1, seg, e1, e2, e3, e4⟩ :=
        alloc_segment_total layer_count ptr hp h26 st l live inv idx a j rest hx
      exact ⟨a, j, st1, seg, e1, e2, e3, e4⟩

/-- On a state that satisfies the invariants, `free_memory` of a live segment
returns. -/
theorem free_memory_total (layer_count ptr : Nat) (h26 : layer_count ≤ 26) (st : state)
    (live : List (Nat × Nat))
    (inv : state_inv layer_count ptr st.layers st.using_page_link st.free_page_link live)
    (idx : index_inv layer_count ptr st.using_page_link)
    (a j : Nat) (hm : (a, j) ∈ live) :
    ∃ st1, free_memory ptr st (Ptr.unit a j) = some st1 := by
  obtain ⟨pg, hpm, hpa, hlc, hsl, hslot, _⟩ := inv.live_node a j hm
  obtain ⟨pos, hf, hg⟩ := find_page_using _ _ _ _ _ _ inv pg hpm
  have hr := read_header_using layer_count ptr st live inv pg hpm j
  rw [hpa] at hf hr
  have hidx := idx pg hpm j hslot
  have hd : ¬ (pg.segs j).layer = MEM_DIRECT_LAYER := by
    rw [hsl]
    unfold MEM_DIRECT_LAYER
    omega
  unfold free_memory
  rw [hr]
  simp only [hd, if_false]
  unfold free_segment
  rw [hf]
  simp only
  unfold segment_to_page
  rw [hsl, if_pos hidx, hf]
  exact ⟨_, rfl⟩

/-- A call of `free_memory` on a live segment leaves the header of every
other live segment as it was. -/
theorem read_header_after_free (layer_count ptr : Nat) (hp : ptr = 4 ∨ ptr = 8)
    (h26 : layer_count ≤ 26) (st st1 : state) (live : List (Nat × Nat))
    (inv : state_inv layer_count ptr st.layers st.using_page_link st.free_page_link live)
    (a j : Nat) (hm : (a, j) ∈ live)
    (h : free_memory ptr st (Ptr.unit a j) = some st1)
    (a2 j2 : Nat) (hm2 : (a2, j2) ∈ live) (hne : (a2, j2) ≠ (a, j)) :
    read_header st1 (Ptr.unit a2 j2) = read_header st (Ptr.unit a2 j2) := by
  have inv1 := free_memory_inv_v3 layer_count ptr hp h26 st st1 (Ptr.unit a j) live hm inv h
  obtain ⟨pg2, hpm2, hpa2, _⟩ := inv.live_node a2 j2 hm2
  subst hpa2
  have hr2 := read_header_using layer_count ptr st live inv pg2 hpm2 j2
  rw [hr2]
  unfold free_memory at h
  cases hr : read_header st (Ptr.unit a j) with
  | none => rw [hr] at h; simp at h
  | some seg =>
    rw [hr] at h
    dsimp only at h
    split_ifs at h with hd
    obtain ⟨pos, pg, hf, rfl⟩ := free_segment_eq ptr _ st st1 a j h
    obtain ⟨hget, haddr⟩ := find_page_get _ _ _ _ hf
    by_cases hea : pg2.addr = a
    · have e : pg2 = pg := using_unique _ _ _ _ _ _ inv pg2 pg hpm2 (List.get?_mem hget)
        (by rw [haddr, hea])
      subst e
      have hj : j2 ≠ j := by
        intro hc
        exact hne (by rw [hea, hc])
      have hm1 := mem_set_self_of_get st.using_page_link pos pg2
        { pg2 with
          segs := Function.update pg2.segs j { pg2.segs j with used := 0 }
          alloc_count := sub32 pg2.alloc_count 1 } hget
      have hr1 := read_header_using layer_count ptr _ _ inv1 _ hm1 j2
      refine hr1.trans ?_
      simp only [Function.update_noteq hj]
    · have hpne : pg2 ≠ pg := by
        intro hc
        rw [hc] at hea
        exact hea haddr
      have hm1 := mem_set_of_ne st.using_page_link pos pg
        { pg with
          segs := Function.update pg.segs j { pg.segs j with used := 0 }
          alloc_count := sub32 pg.alloc_count 1 } pg2 hget hpm2 hpne
      exact read_header_using layer_count ptr _ _ inv1 _ hm1 j2

end mem_pool_v3

namespace mem_pool_v3

/-! ## Variant S: the grow path of `realloc_memory` -/

/-- On a state that satisfies the invariants, `alloc_memory` of a size that
the largest layer holds returns a segment whose header carries the layer
chosen for the size, unless `new mem_page` is refused. -/
theorem alloc_memory_total (layer_count ptr : Nat) (hp : ptr = 4 ∨ ptr = 8)
    (h1 : 1 ≤ layer_count) (h26 : layer_count ≤ 26) (st : state) (size plat : Nat)
    (live : List (Nat × Nat)) (hfr : fresh st plat)
    (inv : state_inv layer_count ptr st.layers st.using_page_link st.free_page_link live)
    (idx : index_inv layer_count ptr st.using_page_link)
    (hmax : ¬ calc_segment_require_size ptr size > get_max_segment layer_count ptr) :
    (alloc_memory layer_count ptr st size plat = none ∧ plat = 0) ∨
    ∃ page j st1 seg, alloc_memory layer_count ptr st size plat = some (Ptr.unit page j, st1) ∧
      read_header st1 (Ptr.unit page j) = some seg ∧
      seg.layer = select_layer layer_count ptr (calc_segment_require_size ptr size) ∧
      seg.used = 1 := by
  have hsel := (select_layer_spec layer_count ptr _ hp h1 h26 (Nat.le_of_not_gt hmax)).1
  have hne : select_layer layer_count ptr (calc_segment_require_size ptr size) ≠ layer_count := by
    omega
  have hal : alloc_memory layer_count ptr st size plat =
      alloc_in_layer layer_count ptr st
        (select_layer layer_count ptr (calc_segment_require_size ptr size)) plat := by
    unfold alloc_memory
    dsimp only
    rw [if_neg hmax, if_neg hne]
  rw [hal]
  exact alloc_in_layer_total layer_count ptr hp h26 st
    (select_layer layer_count ptr (calc_segment_require_size ptr size)) plat live (by omega)
    hfr inv idx

theorem get_segment_data_size_eq (ptr l : Nat) (hp : ptr = 4 ∨ ptr = 8) (hl : l ≤ 26) :
    get_segment_data_size ptr l + HDR ptr = get_segment_size ptr l := by
  have hseg := get_segment_size_eq ptr l hp hl
  have hpos : 0 < 2 ^ l := Nat.two_pow_pos _
  have h26 := mem_pool.two_pow_le_26 l hl
  rw [get_segment_data_size, hseg]
  rcases hp with rfl | rfl <;>
    simp only [sub32, MEM_BASE_SIZE, HDR, mem_pool.U32_eq] <;> omega

/-- The grow path of `realloc_memory` on a live segment, the inner
`alloc_memory` having returned `p2`: the call returns `p2`; the data left is
the data before the call with `len` bytes copied from the old address to
`p2`, `len` being the data capacity of the old segment; and the block or
segment found at `p2` afterwards has room for `len` bytes. -/
theorem realloc_grow_segment (layer_count ptr : Nat) (hp : ptr = 4 ∨ ptr = 8)
    (h1 : 1 ≤ layer_count) (h26 : layer_count ≤ 26) (st st1 : state)
    (live : List (Nat × Nat)) (page j size plat : Nat) (seg : mem_segment) (p2 : Ptr)
    (inv : state_inv layer_count ptr st.layers st.using_page_link st.free_page_link live)
    (idx : index_inv layer_count ptr st.using_page_link)
    (hm : (page, j) ∈ live) (hfr : fresh st plat)
    (hread : read_header st (Ptr.unit page j) = some seg)
    (hgrow : get_segment_size ptr seg.layer < calc_segment_require_size ptr size)
    (hal : alloc_memory layer_count ptr st size plat = some (p2, st1))
    (hne : p2 ≠ Ptr.null) :
    ∃ st2, realloc_memory layer_count ptr st (Ptr.unit page j) size plat = some (p2, st2) ∧
      (∀ a k, (a, k) ∈ live → p2 ≠ Ptr.unit a k) ∧
      st2.data = memcpy st.data p2 (Ptr.unit page j) (get_segment_data_size ptr seg.layer) ∧
      get_segment_data_size ptr seg.layer + HDR ptr = get_segment_size ptr seg.layer ∧
      seg.layer < layer_count ∧
      (∀ a, p2 = Ptr.block a → ∃ hdr sz, st2.blocks a = some (hdr, sz) ∧
        hdr.layer = MEM_DIRECT_LAYER ∧
        get_segment_data_size ptr seg.layer + HDR ptr ≤ sz) ∧
      (∀ pg k, p2 = Ptr.unit pg k → ∃ seg2, read_header st2 p2 = some seg2 ∧
        seg2.used = 1 ∧ seg2.layer < layer_count ∧
        get_segment_data_size ptr seg.layer ≤ get_segment_data_size ptr seg2.layer) := by
  obtain ⟨pg0, hpm, hpa, hlc, hsl, _, _⟩ := inv.live_node page j hm
  subst hpa
  have hr0 := read_header_using layer_count ptr st live inv pg0 hpm j
  rw [hread] at hr0
  simp only [Option.some.injEq] at hr0
  subst hr0
  rw [hsl] at hgrow ⊢
  have hnd : (pg0.segs j).layer ≠ MEM_DIRECT_LAYER := by
    rw [hsl]
    unfold MEM_DIRECT_LAYER
    omega
  have hgrowth := realloc_memory_grow_v3 layer_count ptr st pg0.addr j size plat (pg0.segs j)
    hread hnd (by rw [hsl]; exact hgrow)
  rw [hal, hsl] at hgrowth
  simp only [hne, if_false] at hgrowth
  have inv1 := alloc_memory_inv_v3 layer_count ptr hp h1 h26 st st1 size plat p2 live hfr inv hal
  have idx1 := alloc_memory_index layer_count ptr hp h1 h26 st st1 size plat p2 idx hal
  have hm1 : (pg0.addr, j) ∈ live_add live p2 := owned_live_add live (Ptr.unit pg0.addr j) p2 hm
  obtain ⟨st3, hfree⟩ := free_memory_total layer_count ptr h26
    { st1 with data := (memcpy st1.data p2 (Ptr.unit pg0.addr j)
        (get_segment_data_size ptr pg0.layer)) }
    (live_add live p2) inv1 idx1 pg0.addr j hm1
  rw [hfree] at hgrowth
  obtain ⟨f1, f2⟩ := free_memory_unit_fixed_v3 _ _ _ _ _ hfree
  simp only at f1 f2
  obtain ⟨hdata, hcases⟩ := alloc_memory_cases_v3 layer_count ptr st st1 size plat p2 hal
  have hcap := get_segment_data_size_eq ptr pg0.layer hp (by omega)
  have hp3 : ∀ a k, (a, k) ∈ live → p2 ≠ Ptr.unit a k := by
    intro a k hak hc
    rw [hc] at inv1
    have hnd2 := inv1.live_nodup
    simp only [live_add] at hnd2
    exact (List.nodup_cons.mp hnd2).1 hak
  have hp2 : p2 ≠ Ptr.unit pg0.addr j := hp3 pg0.addr j hm
  refine ⟨st3, hgrowth, hp3, by rw [f1, hdata], hcap, hlc, ?_, ?_⟩
  · intro a ha
    rcases hcases with ⟨h, _⟩ | ⟨hbig, h1, h2⟩ | ⟨_, _, pg, k, h⟩
    · exact absurd h hne
    · rw [ha] at h1
      simp only [Ptr.block.injEq] at h1
      subst h1
      refine ⟨_, _, by rw [f2]; exact h2, rfl, ?_⟩
      omega
    · rw [ha] at h
      simp at h
  · intro pg k hu
    rcases hcases with ⟨h, _⟩ | ⟨_, h1, _⟩ | ⟨hsmall, _, _⟩
    · exact absurd h hne
    · rw [hu] at h1
      simp at h1
    · rcases alloc_memory_total layer_count ptr hp h1 h26 st size plat live hfr inv idx hsmall
        with ⟨hnone, _⟩ | ⟨page2, j2, st1b, seg2, e1, e2, e3, e4⟩
      · rw [hal] at hnone
        simp at hnone
      · rw [hal] at e1
        simp only [Option.some.injEq, Prod.mk.injEq] at e1
        obtain ⟨rfl, rfl⟩ := e1
        have hne2 : (page2, j2) ≠ (pg0.addr, j) := by
          intro hc
          simp only [Prod.mk.injEq] at hc
          exact hp2 (by rw [hc.1, hc.2])
        have hr3 := read_header_after_free layer_count ptr hp h26
          { st1 with data := (memcpy st1.data (Ptr.unit page2 j2) (Ptr.unit pg0.addr j)
              (get_segment_data_size ptr pg0.layer)) }
          st3 (live_add live (Ptr.unit page2 j2)) inv1 pg0.addr j hm1 hfree page2 j2
          (List.mem_cons_self _ _) hne2
        have hr4 : read_header st3 (Ptr.unit page2 j2) = some seg2 := hr3.trans e2
        obtain ⟨s1, s2, _⟩ := select_layer_spec layer_count ptr
          (calc_segment_require_size ptr size) hp h1 h26 (Nat.le_of_not_gt hsmall)
        rw [← e3] at s1 s2
        refine ⟨seg2, hr4, e4, by omega, ?_⟩
        have hcap2 := get_segment_data_size_eq ptr seg2.layer hp (by omega)
        have hseg2 := get_segment_size_eq ptr seg2.layer hp (by omega)
        omega

end mem_pool_v3

/-- C5: for a request of `size` bytes that fits a page with its header
(`size > 0` in Variant B), `alloc_memory` returns a segment of a page whose
header, read at the address returned, carries the least class `l` whose
segments hold `size` plus the header, and `l` is a class of the page
(`l ≤ max_level` in Variant B, `l ≤ layer_count - 1` in Variant S); the call
never returns null, so the `return nullptr` after `std::lower_bound` is not
reached; the one other outcome is that `new mem_page` is refused
(`plat = 0`) and the call is left by `std::bad_alloc`.  Variant B: any state
whose pages have distinct addresses; Variant S: any reachable state. -/
theorem alloc_selects_least_class (ptr : Nat) (hp : ptr = 4 ∨ ptr = 8) :
    (∀ (max_level : Nat) (st : mem_pool.state) (size plat : Nat),
      max_level ≤ 26 → 0 < size → size + mem_pool.K ≤ mem_pool.M ptr * 2 ^ max_level →
      (st.page_heap.map (fun pg => pg.addr)).Nodup →
      (∀ q ∈ st.page_heap, q.addr ≠ plat) →
      (mem_pool.alloc_memory max_level ptr st size plat = none ∧ plat = 0) ∨
      ∃ page index st1 l,
        mem_pool.alloc_memory max_level ptr st size plat = some (Ptr.unit page index, st1) ∧
        mem_pool.read_header st1 (Ptr.unit page index) = some ⟨index, l, 0⟩ ∧
        l ≤ max_level ∧ size + mem_pool.K ≤ mem_pool.M ptr * 2 ^ l ∧
        ∀ l2, size + mem_pool.K ≤ mem_pool.M ptr * 2 ^ l2 → l ≤ l2) ∧
    (∀ (layer_count : Nat) (st : mem_pool_v3.state) (live : List (Nat × Nat))
        (size plat : Nat),
      1 ≤ layer_count → layer_count ≤ 26 →
      size + mem_pool_v3.HDR ptr ≤ mem_pool_v3.MEM_BASE_SIZE ptr * 2 ^ (layer_count - 1) →
      mem_pool_v3.reach layer_count ptr st live → mem_pool_v3.fresh st plat →
      (mem_pool_v3.alloc_memory layer_count ptr st size plat = none ∧ plat = 0) ∨
      ∃ page j st1 seg,
        mem_pool_v3.alloc_memory layer_count ptr st size plat = some (Ptr.unit page j, st1) ∧
        mem_pool_v3.read_header st1 (Ptr.unit page j) = some seg ∧ seg.used = 1 ∧
        seg.layer ≤ layer_count - 1 ∧
        size + mem_pool_v3.HDR ptr ≤ mem_pool_v3.MEM_BASE_SIZE ptr * 2 ^ seg.layer ∧
        ∀ l2, size + mem_pool_v3.HDR ptr ≤ mem_pool_v3.MEM_BASE_SIZE ptr * 2 ^ l2 →
          seg.layer ≤ l2) := by
  constructor
  · intro max_level st size plat hL hpos hs hn hf
    obtain ⟨c1, c2, c3⟩ := mem_pool.calc_level_in_page max_level ptr size hL hp hs
    rcases mem_pool.alloc_memory_stamp max_level ptr hL hp st size plat hpos hs hn hf with
      h | ⟨page, index, st1, e1, e2⟩
    · exact Or.inl h
    · exact Or.inr ⟨page, index, st1, _, e1, e2, c1, c2, c3⟩
  · intro layer_count st live size plat hc1 hc hs hreach hfr
    obtain ⟨hbig, s1, s2, s3⟩ := (class_index_least 0 layer_count ptr size hp (by omega)
      hc1 hc).2.1 hs
    have hne := (class_index_least 0 layer_count ptr size hp (by omega) hc1 hc).2.2 _ hbig
    have inv := mem_pool_v3.reach_inv layer_count ptr hp hc1 hc st live hreach
    have idx := mem_pool_v3.reach_index layer_count ptr hp hc1 hc st live hreach
    have hal : mem_pool_v3.alloc_memory layer_count ptr st size plat =
        mem_pool_v3.alloc_in_layer layer_count ptr st
          (mem_pool_v3.select_layer layer_count ptr
            (mem_pool_v3.calc_segment_require_size ptr size)) plat := by
      unfold mem_pool_v3.alloc_memory
      dsimp only
      rw [if_neg hbig, if_neg hne]
    rw [hal]
    rcases mem_pool_v3.alloc_in_layer_total layer_count ptr hp hc st
      (mem_pool_v3.select_layer layer_count ptr
        (mem_pool_v3.calc_segment_require_size ptr size)) plat live (by omega)
      hfr inv idx with h | ⟨page, j, st1, seg, e1, e2, e3, e4⟩
    · exact Or.inl h
    · refine Or.inr ⟨page, j, st1, seg, e1, e2, e4, ?_, ?_, ?_⟩
      · rw [e3]; exact s1
      · rw [e3]; exact s2
      · rw [e3]; exact s3

/-- C5 on the states after `alloc_memory(100)` (`max_level = 9`,
`layer_count = 8`, 64-bit pointers), for a request of 50 bytes: Variant B
serves it from the page in use, with the segment of level 3 at unit 16;
Variant S, whose page in use is cut for the 192-byte layer 3, cuts a new page
at 200 for the 96-byte layer 2 and returns its first segment. -/
theorem alloc_selects_least_class_witness :
    mem_pool.alloc_memory 9 8 mem_pool.small_state 50 200 =
      some (Ptr.unit 100 16, mem_pool.second_state) ∧
    mem_pool.read_header mem_pool.second_state (Ptr.unit 100 16) = some ⟨16, 3, 0⟩ ∧
    mem_pool_v3.alloc_memory 8 8 mem_pool_v3.small_state 50 200 =
      some (Ptr.unit 200 0, mem_pool_v3.second_state) ∧
    mem_pool_v3.read_header mem_pool_v3.second_state (Ptr.unit 200 0) = some ⟨2, 1, 0⟩ ∧
    ((mem_pool.alloc_memory 9 8 mem_pool.small_state 50 200 = none ∧ 200 = 0) ∨
      ∃ page index st1 l,
        mem_pool.alloc_memory 9 8 mem_pool.small_state 50 200 =
          some (Ptr.unit page index, st1) ∧
        mem_pool.read_header st1 (Ptr.unit page index) = some ⟨index, l, 0⟩ ∧
        l ≤ 9 ∧ 50 + mem_pool.K ≤ mem_pool.M 8 * 2 ^ l ∧
        ∀ l2, 50 + mem_pool.K ≤ mem_pool.M 8 * 2 ^ l2 → l ≤ l2) ∧
    ((mem_pool_v3.alloc_memory 8 8 mem_pool_v3.small_state 50 200 = none ∧ 200 = 0) ∨
      ∃ page j st1 seg,
        mem_pool_v3.alloc_memory 8 8 mem_pool_v3.small_state 50 200 =
          some (Ptr.unit page j, st1) ∧
        mem_pool_v3.read_header st1 (Ptr.unit page j) = some seg ∧ seg.used = 1 ∧
        seg.layer ≤ 8 - 1 ∧
        50 + mem_pool_v3.HDR 8 ≤ mem_pool_v3.MEM_BASE_SIZE 8 * 2 ^ seg.layer ∧
        ∀ l2, 50 + mem_pool_v3.HDR 8 ≤ mem_pool_v3.MEM_BASE_SIZE 8 * 2 ^ l2 →
          seg.layer ≤ l2) :=
  ⟨by rfl, by decide, by rfl, by decide,
    (alloc_selects_least_class 8 (by decide)).1 9 mem_pool.small_state 50 200
      (by decide) (by decide) (by decide) (by decide) (by decide),
    (alloc_selects_least_class 8 (by decide)).2 8 mem_pool_v3.small_state [(100, 0)] 50 200
      (by decide) (by decide) (by decide)
      (mem_pool_v3.reach.alloc 100 100 (Ptr.unit 100 0) mem_pool_v3.small_state
        mem_pool_v3.reach.init (mem_pool_v3.fresh_of_all _ _ (by decide)) (by rfl))
      (mem_pool_v3.fresh_of_all _ _ (by decide))⟩

/-- C9: `realloc_memory` takes the grow path on a live in-page segment and
the inner `alloc_memory` returns a non-null `p2`.  Then the call returns
`p2`, which is none of the live addresses, and exactly `len` bytes were
copied: the `len` bytes at `p2` are those at the old address, the bytes at
`p2` from `len` on are as before the call, and so are the bytes of the
blocks and of the other live segments (in Variant B, every other byte; in
Variant S the first bytes of a segment that is free, as the old one is after
the call, hold the node of the free list and are not spoken of).  `len` is
the data capacity of the old segment (its size minus the header), and it
does not exceed the data capacity of what is found at `p2` in the state
left: a block of `sz` bytes from the platform with `len` plus the header at
most `sz`, or an in-page segment whose header carries a class of data
capacity at least `len`.  Variant B on every state that satisfies
`pool_inv`, Variant S on every reachable state. -/
theorem realloc_grow_copy (ptr : Nat) (hp : ptr = 4 ∨ ptr = 8) :
    (∀ (max_level : Nat) (st : mem_pool.state) (lives : Nat → List (Nat × Nat))
        (ptrs : List Ptr) (page index size plat : Nat) (punit : mem_pool.mem_unit) (p2 : Ptr),
      max_level ≤ 26 → size < U32 →
      mem_pool.pool_inv max_level st.page_heap lives ptrs →
      Ptr.unit page index ∈ ptrs →
      (∀ q ∈ st.page_heap, q.addr ≠ plat) →
      mem_pool.read_header st (Ptr.unit page index) = some punit →
      punit.level < mem_pool.calc_level ptr size →
      (mem_pool.alloc_memory max_level ptr st size plat).map (fun r => r.1) = some p2 →
      p2 ≠ Ptr.null →
      ∃ st2,
        mem_pool.realloc_memory max_level ptr st (Ptr.unit page index) size plat =
          some (p2, st2) ∧
        (∀ q ∈ ptrs, p2 ≠ q) ∧
        (∀ i, i < mem_pool.realloc_copy_len ptr punit.level →
          st2.data p2 i = st.data (Ptr.unit page index) i) ∧
        (∀ q i, q ≠ p2 ∨ mem_pool.realloc_copy_len ptr punit.level ≤ i →
          st2.data q i = st.data q i) ∧
        mem_pool.realloc_copy_len ptr punit.level =
          mem_pool.calc_level_max_alloc ptr punit.level ∧
        mem_pool.realloc_copy_len ptr punit.level + mem_pool.K =
          mem_pool.M ptr * 2 ^ punit.level ∧
        (∀ a, p2 = Ptr.block a → ∃ hdr sz, st2.blocks a = some (hdr, sz) ∧ hdr.direct = 1 ∧
          mem_pool.realloc_copy_len ptr punit.level + mem_pool.K ≤ sz) ∧
        (∀ pg idx, p2 = Ptr.unit pg idx → ∃ hdr, mem_pool.read_header st2 p2 = some hdr ∧
          hdr.direct = 0 ∧ hdr.level ≤ max_level ∧
          mem_pool.realloc_copy_len ptr punit.level ≤
            mem_pool.calc_level_max_alloc ptr hdr.level)) ∧
    (∀ (layer_count : Nat) (st : mem_pool_v3.state) (live : List (Nat × Nat))
        (page j size plat : Nat) (seg : mem_pool_v3.mem_segment) (p2 : Ptr),
      1 ≤ layer_count → layer_count ≤ 26 →
      mem_pool_v3.reach layer_count ptr st live →
      (page, j) ∈ live →
      mem_pool_v3.fresh st plat →
      mem_pool_v3.read_header st (Ptr.unit page j) = some seg →
      mem_pool_v3.get_segment_size ptr seg.layer <
        mem_pool_v3.calc_segment_require_size ptr size →
      (mem_pool_v3.alloc_memory layer_count ptr st size plat).map (fun r => r.1) = some p2 →
      p2 ≠ Ptr.null →
      ∃ st2,
        mem_pool_v3.realloc_memory layer_count ptr st (Ptr.unit page j) size plat =
          some (p2, st2) ∧
        (∀ a k, (a, k) ∈ live → p2 ≠ Ptr.unit a k) ∧
        (∀ i, i < mem_pool_v3.get_segment_data_size ptr seg.layer →
          st2.data p2 i = st.data (Ptr.unit page j) i) ∧
        (∀ i, mem_pool_v3.get_segment_data_size ptr seg.layer ≤ i →
          st2.data p2 i = st.data p2 i) ∧
        (∀ a k i, (a, k) ∈ live → (a, k) ≠ (page, j) →
          st2.data (Ptr.unit a k) i = st.data (Ptr.unit a k) i) ∧
        (∀ b i, Ptr.block b ≠ p2 → st2.data (Ptr.block b) i = st.data (Ptr.block b) i) ∧
        mem_pool_v3.get_segment_data_size ptr seg.layer + mem_pool_v3.HDR ptr =
          mem_pool_v3.get_segment_size ptr seg.layer ∧
        mem_pool_v3.get_segment_size ptr seg.layer =
          mem_pool_v3.MEM_BASE_SIZE ptr * 2 ^ seg.layer ∧
        (∀ a, p2 = Ptr.block a → ∃ hdr sz, st2.blocks a = some (hdr, sz) ∧
          hdr.layer = mem_pool_v3.MEM_DIRECT_LAYER ∧
          mem_pool_v3.get_segment_data_size ptr seg.layer + mem_pool_v3.HDR ptr ≤ sz) ∧
        (∀ pg k, p2 = Ptr.unit pg k → ∃ seg2, mem_pool_v3.read_header st2 p2 = some seg2 ∧
          seg2.used = 1 ∧ seg2.layer < layer_count ∧
          mem_pool_v3.get_segment_data_size ptr seg.layer ≤
            mem_pool_v3.get_segment_data_size ptr seg2.layer)) := by
  constructor
  · intro max_level st lives ptrs page index size plat punit p2 hL hs inv hm hf hread hgrow
      hal hne
    cases hr : mem_pool.alloc_memory max_level ptr st size plat with
    | none => rw [hr] at hal; simp at hal
    | some r =>
      obtain ⟨q, st1⟩ := r
      rw [hr] at hal
      simp only [Option.map_some', Option.some.injEq] at hal
      subst hal
      obtain ⟨st2, e1, e2, e3, e4, e5, e6, e7⟩ :=
        mem_pool.realloc_grow_unit max_level ptr hL hp st st1 lives ptrs page index size plat
          punit q inv hm hf hs hread hgrow hr hne
      refine ⟨st2, e1, e2, ?_, ?_,
        (mem_pool.realloc_copy_len_eq ptr punit.level (by omega) hp).1, e4, e6, e7⟩
      · intro i hi
        rw [e3]
        simp [mem_pool.memcpy, hi]
      · intro q2 i hqi
        rw [e3]
        unfold mem_pool.memcpy
        rw [if_neg]
        rintro ⟨h1, h2⟩
        rcases hqi with h | h
        · exact h h1
        · omega
  · intro layer_count st live page j size plat seg p2 hc1 hc hreach hm hfr hread hgrow hal hne
    have inv := mem_pool_v3.reach_inv layer_count ptr hp hc1 hc st live hreach
    have idx := mem_pool_v3.reach_index layer_count ptr hp hc1 hc st live hreach
    cases hr : mem_pool_v3.alloc_memory layer_count ptr st size plat with
    | none => rw [hr] at hal; simp at hal
    | some r =>
      obtain ⟨q, st1⟩ := r
      rw [hr] at hal
      simp only [Option.map_some', Option.some.injEq] at hal
      subst hal
      obtain ⟨st2, e1, e2, e3, e4, e5, e6, e7⟩ :=
        mem_pool_v3.realloc_grow_segment layer_count ptr hp hc1 hc st st1 live page j size plat
          seg q inv idx hm hfr hread hgrow hr hne
      refine ⟨st2, e1, e2, ?_, ?_, ?_, ?_, e4,
        mem_pool_v3.get_segment_size_eq ptr seg.layer hp (by omega), e6, e7⟩
      · intro i hi
        rw [e3]
        simp [mem_pool_v3.memcpy, hi]
      · intro i hi
        rw [e3]
        unfold mem_pool_v3.memcpy
        rw [if_neg]
        rintro ⟨_, h2⟩
        omega
      · intro a k i hak _
        rw [e3]
        unfold mem_pool_v3.memcpy
        rw [if_neg]
        rintro ⟨h1, _⟩
        exact e2 a k hak h1.symm
      · intro b i hb
        rw [e3]
        unfold mem_pool_v3.memcpy
        rw [if_neg]
        rintro ⟨h1, _⟩
        exact hb h1

/-- C9 on `a = alloc_memory(100); fill(a, 100, 0x5A); b = realloc_memory(a, 4096)`
(`max_level = 9`, `layer_count = 8`, 64-bit pointers).  In Variant B the old
segment has level 4 and 188 data bytes, `b` is unit 0 of a second page at
200, of level 9; in Variant S the old segment has layer 3 and 184 data
bytes, `b` is a block of 4104 bytes from the platform at 200.  In both, the
first 100 bytes at `b` are `0x5A` and the byte after them is the `0` found
after the 100 bytes at `a`. -/
theorem realloc_grow_copy_witness :
    (mem_pool.realloc_copy_len 8 4 = 188 ∧
      mem_pool.filled_state.data (Ptr.unit 100 0) 0 = 90 ∧
      mem_pool.filled_state.data (Ptr.unit 100 0) 99 = 90 ∧
      mem_pool.filled_state.data (Ptr.unit 200 0) 0 = 0 ∧
      mem_pool.realloc_memory 9 8 mem_pool.filled_state (Ptr.unit 100 0) 4096 200 =
        some (Ptr.unit 200 0, mem_pool.grown_state) ∧
      mem_pool.grown_state.data (Ptr.unit 200 0) 0 = 90 ∧
      mem_pool.grown_state.data (Ptr.unit 200 0) 99 = 90 ∧
      mem_pool.grown_state.data (Ptr.unit 200 0) 100 = 0 ∧
      mem_pool.read_header mem_pool.grown_state (Ptr.unit 200 0) = some ⟨0, 9, 0⟩ ∧
      mem_pool.calc_level_max_alloc 8 9 = 6140 ∧
      ∃ st2,
        mem_pool.realloc_memory 9 8 mem_pool.filled_state (Ptr.unit 100 0) 4096 200 =
          some (Ptr.unit 200 0, st2) ∧
        (∀ q ∈ [Ptr.unit 100 0], Ptr.unit 200 0 ≠ q) ∧
        (∀ i, i < mem_pool.realloc_copy_len 8 4 →
          st2.data (Ptr.unit 200 0) i = mem_pool.filled_state.data (Ptr.unit 100 0) i) ∧
        (∀ q i, q ≠ Ptr.unit 200 0 ∨ mem_pool.realloc_copy_len 8 4 ≤ i →
          st2.data q i = mem_pool.filled_state.data q i) ∧
        mem_pool.realloc_copy_len 8 4 = mem_pool.calc_level_max_alloc 8 4 ∧
        mem_pool.realloc_copy_len 8 4 + mem_pool.K = mem_pool.M 8 * 2 ^ 4 ∧
        (∀ a, Ptr.unit 200 0 = Ptr.block a → ∃ hdr sz, st2.blocks a = some (hdr, sz) ∧
          hdr.direct = 1 ∧ mem_pool.realloc_copy_len 8 4 + mem_pool.K ≤ sz) ∧
        (∀ pg idx, Ptr.unit 200 0 = Ptr.unit pg idx →
          ∃ hdr, mem_pool.read_header st2 (Ptr.unit 200 0) = some hdr ∧
          hdr.direct = 0 ∧ hdr.level ≤ 9 ∧
          mem_pool.realloc_copy_len 8 4 ≤ mem_pool.calc_level_max_alloc 8 hdr.level)) ∧
    (mem_pool_v3.get_segment_data_size 8 3 = 184 ∧
      mem_pool_v3.filled_state.data (Ptr.unit 100 0) 0 = 90 ∧
      mem_pool_v3.filled_state.data (Ptr.unit 100 0) 99 = 90 ∧
      mem_pool_v3.filled_state.data (Ptr.block 200) 0 = 0 ∧
      mem_pool_v3.realloc_memory 8 8 mem_pool_v3.filled_state (Ptr.unit 100 0) 4096 200 =
        some (Ptr.block 200, mem_pool_v3.grown_state) ∧
      mem_pool_v3.grown_state.data (Ptr.block 200) 0 = 90 ∧
      mem_pool_v3.grown_state.data (Ptr.block 200) 99 = 90 ∧
      mem_pool_v3.grown_state.data (Ptr.block 200) 100 = 0 ∧
      mem_pool_v3.grown_state.blocks 200 = some (⟨31, 1, 0⟩, 4104) ∧
      ∃ st2,
        mem_pool_v3.realloc_memory 8 8 mem_pool_v3.filled_state (Ptr.unit 100 0) 4096 200 =
          some (Ptr.block 200, st2) ∧
        (∀ a k, (a, k) ∈ [(100, 0)] → Ptr.block 200 ≠ Ptr.unit a k) ∧
        (∀ i, i < mem_pool_v3.get_segment_data_size 8 3 →
          st2.data (Ptr.block 200) i = mem_pool_v3.filled_state.data (Ptr.unit 100 0) i) ∧
        (∀ i, mem_pool_v3.get_segment_data_size 8 3 ≤ i →
          st2.data (Ptr.block 200) i = mem_pool_v3.filled_state.data (Ptr.block 200) i) ∧
        (∀ a k i, (a, k) ∈ [(100, 0)] → (a, k) ≠ (100, 0) →
          st2.data (Ptr.unit a k) i = mem_pool_v3.filled_state.data (Ptr.unit a k) i) ∧
        (∀ b i, Ptr.block b ≠ Ptr.block 200 →
          st2.data (Ptr.block b) i = mem_pool_v3.filled_state.data (Ptr.block b) i) ∧
        mem_pool_v3.get_segment_data_size 8 3 + mem_pool_v3.HDR 8 =
          mem_pool_v3.get_segment_size 8 3 ∧
        mem_pool_v3.get_segment_size 8 3 = mem_pool_v3.MEM_BASE_SIZE 8 * 2 ^ 3 ∧
        (∀ a, Ptr.block 200 = Ptr.block a → ∃ hdr sz, st2.blocks a = some (hdr, sz) ∧
          hdr.layer = mem_pool_v3.MEM_DIRECT_LAYER ∧
          mem_pool_v3.get_segment_data_size 8 3 + mem_pool_v3.HDR 8 ≤ sz) ∧
        (∀ pg k, Ptr.block 200 = Ptr.unit pg k →
          ∃ seg2, mem_pool_v3.read_header st2 (Ptr.block 200) = some seg2 ∧
          seg2.used = 1 ∧ seg2.layer < 8 ∧
          mem_pool_v3.get_segment_data_size 8 3 ≤
            mem_pool_v3.get_segment_data_size 8 seg2.layer)) :=
  ⟨⟨by decide, by decide, by decide, by decide, by rfl, by decide, by decide, by decide,
      by decide, by decide,
      (mem_pool.alloc_memory_inv 9 8 (by decide) mem_pool.init (fun _ => []) [] 100 100 100 0
        mem_pool.small_state (mem_pool.pool_inv_init 9) (by intro q hq; cases hq)
        (by rfl)).elim
        (fun lives2 inv =>
          (realloc_grow_copy 8 (by decide)).1 9 mem_pool.filled_state lives2 [Ptr.unit 100 0]
            100 0 4096 200 ⟨0, 4, 0⟩ (Ptr.unit 200 0) (by decide) (by decide) inv (by simp)
            (by decide) (by decide) (by decide) (by decide) (by decide))⟩,
    ⟨by decide, by decide, by decide, by decide, by rfl, by decide, by decide, by decide,
      by decide,
      (realloc_grow_copy 8 (by decide)).2 8 mem_pool_v3.filled_state [(100, 0)] 100 0 4096 200
        ⟨3, 1, 0⟩ (Ptr.block 200) (by decide) (by decide)
        (mem_pool_v3.reach.write _
          (mem_pool_v3.reach.alloc 100 100 (Ptr.unit 100 0) mem_pool_v3.small_state
            mem_pool_v3.reach.init (mem_pool_v3.fresh_of_all _ _ (by decide)) (by rfl)))
        (by simp) (mem_pool_v3.fresh_of_all _ _ (by decide)) (by decide) (by decide)
        (by decide) (by decide)⟩⟩

/-- C10: when `realloc_memory` takes the grow path on a live in-page segment
and the inner `alloc_memory` returns null, `realloc_memory` returns null and
the state is the one before the call, in both variants; the null comes from
`malloc` refusing a block of its own (`plat = 0`), the request exceeding
what a page holds. -/
theorem realloc_grow_null (ptr : Nat) (hp : ptr = 4 ∨ ptr = 8) :
    (∀ (max_level : Nat) (st : mem_pool.state) (page index size plat : Nat)
        (punit : mem_pool.mem_unit),
      max_level ≤ 26 →
      mem_pool.read_header st (Ptr.unit page index) = some punit →
      punit.direct = 0 → punit.level < mem_pool.calc_level ptr size →
      (mem_pool.alloc_memory max_level ptr st size plat).map (fun r => r.1) =
        some Ptr.null →
      mem_pool.realloc_memory max_level ptr st (Ptr.unit page index) size plat =
        some (Ptr.null, st) ∧
      plat = 0 ∧ size > mem_pool.calc_page_max_alloc max_level ptr) ∧
    (∀ (layer_count : Nat) (st : mem_pool_v3.state) (page j size plat : Nat)
        (seg : mem_pool_v3.mem_segment),
      mem_pool_v3.read_header st (Ptr.unit page j) = some seg →
      seg.layer ≠ mem_pool_v3.MEM_DIRECT_LAYER →
      mem_pool_v3.get_segment_size ptr seg.layer <
        mem_pool_v3.calc_segment_require_size ptr size →
      (mem_pool_v3.alloc_memory layer_count ptr st size plat).map (fun r => r.1) =
        some Ptr.null →
      mem_pool_v3.realloc_memory layer_count ptr st (Ptr.unit page j) size plat =
        some (Ptr.null, st) ∧
      (1 ≤ layer_count → layer_count ≤ 26 →
        plat = 0 ∧
        mem_pool_v3.calc_segment_require_size ptr size >
          mem_pool_v3.get_max_segment layer_count ptr)) := by
  constructor
  · intro max_level st page index size plat punit hL hread hd hgrow hnull
    rw [mem_pool.realloc_memory_grow max_level ptr st page index size plat punit hread hd hgrow]
    cases hr : mem_pool.alloc_memory max_level ptr st size plat with
    | none => rw [hr] at hnull; simp at hnull
    | some r =>
      obtain ⟨p, st1⟩ := r
      rw [hr] at hnull
      simp only [Option.map_some', Option.some.injEq] at hnull
      subst hnull
      obtain ⟨e1, e2⟩ := mem_pool.alloc_memory_null max_level ptr st st1 size plat hL hp hr
      subst e1
      simp only [if_true]
      refine ⟨trivial, ?_⟩
      rcases e2 with h0 | h0
      · rw [h0, mem_pool.calc_level_zero ptr hp] at hgrow
        omega
      · exact h0
  · intro layer_count st page j size plat seg hread hd hgrow hnull
    rw [mem_pool_v3.realloc_memory_grow_v3 layer_count ptr st page j size plat seg hread hd hgrow]
    cases hr : mem_pool_v3.alloc_memory layer_count ptr st size plat with
    | none => rw [hr] at hnull; simp at hnull
    | some r =>
      obtain ⟨p, st1⟩ := r
      rw [hr] at hnull
      simp only [Option.map_some', Option.some.injEq] at hnull
      subst hnull
      simp only [if_true]
      unfold mem_pool_v3.alloc_memory at hr
      dsimp only at hr
      split_ifs at hr with hbig hend
      · unfold mem_pool_v3.alloc_direct at hr
        dsimp only at hr
        split_ifs at hr with h0
        · simp only [Option.some.injEq, Prod.mk.injEq, true_and] at hr
          subst hr
          exact ⟨rfl, fun _ _ => ⟨h0, hbig⟩⟩
        · simp at hr
      · simp only [Option.some.injEq, Prod.mk.injEq, true_and] at hr
        subst hr
        refine ⟨rfl, fun hc1 hc => ?_⟩
        have hsel := (mem_pool_v3.select_layer_spec layer_count ptr _ hp hc1 hc
          (Nat.le_of_not_gt hbig)).1
        omega
      · obtain ⟨_, _, pg, k, h2⟩ := mem_pool_v3.alloc_in_layer_some _ _ _ _ _ _ _ hr
        simp at h2

/-- C10 on `a = alloc_memory(100)` followed by a `realloc_memory` that needs
a block of its own (20000 bytes in Variant B, 4096 bytes in Variant S) which
`malloc` refuses: null is returned and the state is the one before the
call. -/
theorem realloc_grow_null_witness :
    (mem_pool.realloc_memory 9 8 mem_pool.small_state (Ptr.unit 100 0) 20000 0 =
        some (Ptr.null, mem_pool.small_state) ∧
      0 = 0 ∧ 20000 > mem_pool.calc_page_max_alloc 9 8) ∧
    (mem_pool_v3.realloc_memory 8 8 mem_pool_v3.small_state (Ptr.unit 100 0) 4096 0 =
        some (Ptr.null, mem_pool_v3.small_state) ∧
      (1 ≤ 8 → 8 ≤ 26 →
        0 = 0 ∧
        mem_pool_v3.calc_segment_require_size 8 4096 > mem_pool_v3.get_max_segment 8 8)) :=
  ⟨(realloc_grow_null 8 (by decide)).1 9 mem_pool.small_state 100 0 20000 0 ⟨0, 4, 0⟩
      (by decide) (by decide) (by decide) (by decide) (by decide),
    (realloc_grow_null 8 (by decide)).2 8 mem_pool_v3.small_state 100 0 4096 0 ⟨3, 1, 0⟩
      (by decide) (by decide) (by decide) (by decide)⟩
